import Mathlib

/-!
# TUSL: the core virtual machine of darius/tusdl (src/tusl.c)

A shallow embedding of the stack machine, the data space, the dictionary and
the threaded-code executor of `tusl.c`, followed by theorems about them.

Conventions of the embedding.

* A cell is a C `int` of 32 bits: an `Int`, reduced by `wrap32` wherever C
  converts a value to `int`.
* The data space and the value stack are total memories: the bytes of
  `vm->data` sit at addresses `0 .. ts_data_size - 1`, and addresses outside
  that range stand for the memory around the array, which unchecked C accesses
  reach.  A cell in the data space is four bytes in little-endian order, the
  byte order of the machines the program was written for.
* `ts_error` never returns in C (it runs the error hook and unwinds with
  `longjmp`).  Here every operation that can call it returns a `Result`, and
  `Result.raised message vm` carries the message and the state of the VM at the
  moment `ts_error` is called.  What the error hook prints on stderr is not
  part of the state.
* The header `tusl.h` is not among the sources.  Its size constants are the
  fields of `Config`; its stack macros and exception macros are modelled from
  the specification, and say so.
* Loops that need not terminate take a fuel argument and return
  `Result.out_of_fuel` when it runs out.
* The float words and the raw-memory words of `ts_install_unsafe_words` (which
  read and write native addresses) are outside the model.
* Of `dispatch`, the two cases a colon definition needs are embedded: the token
  of a word in compile mode (`compile_words`) and in Run mode (`run_words`).
-/

namespace Tusl

/-! ## Cells -/

/-- Conversion of an integer to a 32-bit C `int` (two's complement). -/
def wrap32 (n : Int) : Int := (n + 2147483648) % 4294967296 - 2147483648

/-- Conversion of an integer to a 32-bit C `unsigned`. -/
def to_unsigned (n : Int) : Nat := (n % 4294967296).toNat

/-- The values a cell can hold. -/
def is_cell (n : Int) : Prop := -2147483648 ≤ n ∧ n < 2147483648

instance (n : Int) : Decidable (is_cell n) := by unfold is_cell; infer_instance

/-! ## Memory -/

/-- A byte-addressed memory; the address is an offset from `vm->data`. -/
abbrev Memory := Int → Nat

/-- The `int` stored in the four bytes at address `a`: what `*(int *)(vm->data + a)` reads. -/
def read_cell (m : Memory) (a : Int) : Int :=
  wrap32 (m a % 256 + 256 * (m (a + 1) % 256) + 65536 * (m (a + 2) % 256)
    + 16777216 * (m (a + 3) % 256) : Nat)

/-- The memory after `*(int *)(vm->data + a) = c`: the four bytes at `a` change, no other. -/
def write_cell (m : Memory) (a : Int) (c : Int) : Memory := fun x =>
  if x = a then to_unsigned c % 256
  else if x = a + 1 then to_unsigned c / 256 % 256
  else if x = a + 2 then to_unsigned c / 65536 % 256
  else if x = a + 3 then to_unsigned c / 16777216 % 256
  else m x

/-- The memory after `*(unsigned char *)(vm->data + a) = c`. -/
def write_byte (m : Memory) (a : Int) (c : Int) : Memory := fun x =>
  if x = a then to_unsigned c % 256 else m x

/-- The memory after the bytes `bs` are stored from address `a` upward. -/
def write_bytes (m : Memory) (a : Int) : List Nat → Memory
  | [] => m
  | b :: bs => write_bytes (fun x => if x = a then b % 256 else m x) (a + 1) bs

/-! ## The data model -/

/-- The behaviours a word can have: the `ts_Action` functions of tusl.c. -/
inductive Action where
  | ts_do_literal | ts_do_branch | ts_do_will | do_sequence | ts_do_push
  | ts_make_literal | ts_execute | ts_comma | ts_allot | ts_align_bang | ts_here
  | ts_add | ts_sub | ts_mul | ts_umul | ts_idiv | ts_imod | ts_udiv | ts_umod
  | ts_eq | ts_lt | ts_ult | ts_and | ts_or | ts_xor
  | ts_lshift | ts_rshift | ts_urshift
  | ts_fetch | ts_cfetch | ts_store | ts_cstore | ts_plus_store
  | ts_start_tracing | ts_stop_tracing
  | ts_add2 | ts_add1 | ts_sub1 | ts_sub2 | ts_is_negative | ts_is_zero
  | ts_times2 | ts_times4 | ts_div2 | ts_div4
  | ts_emit | ts_print | ts_prim_error
  | ts_make_constant | ts_print_stack | ts_clear_stack
  | ts_run_void_0 | ts_run_void_1 | ts_run_void_2 | ts_run_void_3
  | ts_run_void_4 | ts_run_void_5
  | ts_run_int_0 | ts_run_int_1 | ts_run_int_2 | ts_run_int_3 | ts_run_int_4
  deriving DecidableEq, Repr

/-- A dictionary entry, `ts_Word`; `none` stands for a NULL action or name. -/
structure Word where
  action : Option Action
  datum : Int
  name : Option String
  deriving DecidableEq, Repr

/-- A source location, `ts_Place`. -/
structure Place where
  line : Int
  column : Int
  opt_filename : Option String
  deriving DecidableEq, Repr

/-- The tracing hook `vm->tracer`: the tracer of tusl.c, or one supplied by the
host, which is known by its verdict (stop or go on) on the stack contents and
the word about to run. -/
inductive Tracer where
  | ts_default_tracer
  | host (verdict : List Int → Nat → Bool)

/-- An input `ts_Stream`: `unread` is the text between `ptr` and `limit`,
`refills` what the following calls of the streamer will deliver, in order. -/
structure InStream where
  unread : List Char
  refills : List (List Char)
  place : Place

/-- An output `ts_Stream`: `held` is the text between `buffer` and `ptr`,
`limit` the distance from `buffer` to `limit`, `written` all the text the
streamer has passed to the sink so far. -/
structure OutStream where
  held : List Char
  limit : Nat
  written : List Char
  place : Place

/-- The state of a virtual machine, `ts_VM`.  `sp` is a byte offset into the
stack and `stack` maps a byte offset to the cell there; `pc` is the offset of
the next instruction cell in the data space, `none` for NULL; `handler_stack` is
the number of frames on the handler stack; `calls` records the calls made to
host functions (function pointer and arguments). -/
structure VM where
  stack : Int → Int
  sp : Int
  pc : Option Int
  data : Memory
  here : Int
  there : Int
  words : Nat → Word
  where_ : Nat
  mode : Char
  input : InStream
  output : OutStream
  token_place : Place
  tracer : Option Tracer
  handler_stack : Nat
  calls : List (Int × List Int)

/-- The constants the sources take from the header tusl.h, the host functions
that native words call through the function pointer in their datum, and the
libc function `strtod` as `parse_number` uses it: `float_literal text` is the bit
pattern of `(float) strtod (text, ..)` when `strtod` converts the whole text
without a range error, `none` otherwise.  The files are there as `fopen` finds
them: `fopen name` is what the successive reads of the file `name` deliver,
`none` when it cannot be opened. -/
structure Config where
  ts_data_size : Nat
  ts_dictionary_size : Nat
  ts_stack_size : Nat
  buffer_size : Nat
  host_function : Int → List Int → Int
  float_literal : List Char → Option Int
  fopen : String → Option (List (List Char))

/-- Modelled from the spec: the header constant `ts_not_found`, the result of a
lookup that finds nothing ("index or NotFound"); it is no dictionary index. -/
def ts_not_found : Int := -1

/-- How an operation of the VM ends. -/
inductive Result where
  /-- it returns, leaving this state -/
  | ok (vm : VM)
  /-- it calls `ts_error` with this message in this state, and unwinds -/
  | raised (message : String) (vm : VM)
  /-- it does something C leaves undefined and that has no memory reading here:
  a NULL dereference, a call of a NULL action, a read of an uninitialised local -/
  | undefined
  /-- the fuel ran out -/
  | out_of_fuel

/-- Run `f` on the state an operation returns with; other outcomes pass through. -/
def Result.bind (r : Result) (f : VM → Result) : Result :=
  match r with
  | .ok vm => f vm
  | .raised m vm => .raised m vm
  | .undefined => .undefined
  | .out_of_fuel => .out_of_fuel

/-- Apply `f` to the state of an outcome that has one. -/
def Result.map (f : VM → VM) (r : Result) : Result :=
  match r with
  | .ok vm => .ok (f vm)
  | .raised m vm => .raised m (f vm)
  | .undefined => .undefined
  | .out_of_fuel => .out_of_fuel

/-- The function `ts_error`: report and unwind. -/
def ts_error (vm : VM) (message : String) : Result := .raised message vm

/-! ## Stack access -/

/-- The function `stack_pointer`: the index of the top of the stack. -/
def stack_pointer (vm : VM) : Int := Int.tdiv vm.sp 4

/-- Modelled from the spec: the macros `ts_INPUT_n` of tusl.h name the top `n`
cells of the stack (`z` the top, `y` below it, and so on) without moving `sp`
and, the spec says, without a bounds check.  `ts_INPUT vm k` is the cell `k`
places below the top. -/
def ts_INPUT (vm : VM) (k : Nat) : Int := vm.stack (vm.sp - 4 * k)

/-- Modelled from the spec: `ts_OUTPUT_0 ()` after `ts_INPUT_n` drops the `n`
input cells, unchecked. -/
def ts_OUTPUT_0 (n : Nat) (vm : VM) : VM := { vm with sp := vm.sp - 4 * n }

/-- Modelled from the spec: `ts_OUTPUT_1 (v)` after `ts_INPUT_n` replaces the `n`
input cells by the one cell `v`, unchecked. -/
def ts_OUTPUT_1 (n : Nat) (vm : VM) (v : Int) : VM :=
  { vm with stack := Function.update vm.stack (vm.sp - 4 * n + 4) (wrap32 v),
            sp := vm.sp - 4 * n + 4 }

/-- The function `ts_push`. -/
def ts_push (vm : VM) (c : Int) : VM := ts_OUTPUT_1 0 vm c

/-- The function `ts_pop`: the popped cell and the state after it. -/
def ts_pop (vm : VM) : Int × VM := (ts_INPUT vm 0, ts_OUTPUT_0 1 vm)

/-- The cells `stack[0] .. stack[n-1]`, bottom first. -/
def stack_cells (vm : VM) (n : Nat) : List Int :=
  (List.range n).map (fun i => vm.stack (4 * (i : Int)))

/-- The contents of the stack, `stack[0] .. stack[stack_pointer]`, as
`print_stack` walks them. -/
def stack_list (vm : VM) : List Int := stack_cells vm (stack_pointer vm + 1).toNat

/-! ## The data space -/

/-- The function `data_byte`: the address of byte `i` of the data space, or
`none` where it raises "Data reference out of range". -/
def data_byte (K : Config) (i : Int) : Option Int :=
  if K.ts_data_size ≤ to_unsigned i then none else some i

/-- The function `data_cell`: `data_byte` with the result read as a cell pointer. -/
def data_cell (K : Config) (i : Int) : Option Int := data_byte K i

/-- The message of the error `data_byte` raises. -/
def range_message : String := "Data reference out of range: %d"

/-- The function `cell_align`: the first cell boundary at or after `n`. -/
def cell_align (n : Int) : Int := wrap32 (n + 3 - (n + 3) % 4)

/-- The function `compile`: append a cell to the data area. -/
def compile (K : Config) (vm : VM) (c : Int) : Result :=
  let vm1 := { vm with here := cell_align vm.here }
  if vm1.there ≤ vm1.here then ts_error vm1 "Out of data space"
  else match data_cell K vm1.here with
    | none => ts_error vm1 range_message
    | some a =>
      .ok { vm1 with data := write_cell vm1.data a c, here := wrap32 (vm1.here + 4) }

/-- The function `compile_string`: prepend a string to the string area; the
result is the state and the index of the string in the data space.  `text`
holds the characters before the terminating NUL. -/
def compile_string (vm : VM) (text : List Nat) : Except (String × VM) (Int × VM) :=
  let size : Int := wrap32 (text.length + 1)
  if vm.there - size < vm.here then .error ("Out of string space", vm)
  else
    let there := vm.there - size
    .ok (there, { vm with there := there, data := write_bytes vm.data there (text ++ [0]) })

/-! ## The dictionary -/

/-- The loop of `ts_lookup`, from index `n - 1` down to 0. -/
def lookup_from (words : Nat → Word) (name : String) : Nat → Int
  | 0 => ts_not_found
  | i + 1 => if (words i).name = some name then (i : Int) else lookup_from words name i

/-- The function `ts_lookup`: the index of the last-defined word named `name`. -/
def ts_lookup (vm : VM) (name : String) : Int := lookup_from vm.words name vm.where_

/-- The function `ts_install`: add a word to the dictionary.  (The warning it
prints on stderr when the name is already defined is not part of the state.) -/
def ts_install (K : Config) (vm : VM) (name : String) (action : Option Action)
    (datum : Int) : Result :=
  if K.ts_dictionary_size ≤ vm.where_ then ts_error vm "Too many words"
  else .ok { vm with words := Function.update vm.words vm.where_ ⟨action, datum, some name⟩,
                     where_ := vm.where_ + 1 }

/-! ## Output -/

/-- The function `flush_output`, with `write_to_file` as the streamer: the held
text goes to the sink and the whole buffer becomes free.  (The sink is taken
not to fail.) -/
def flush_output (K : Config) (o : OutStream) : OutStream :=
  { o with written := o.written ++ o.held, held := [], limit := K.buffer_size }

/-- The loop of `put_string`: flush when the buffer is full, then store the byte. -/
def put_loop (K : Config) : List Char → OutStream → OutStream
  | [], o => o
  | c :: cs, o =>
    let o1 := if o.held.length = o.limit then flush_output K o else o
    put_loop K cs { o1 with held := o1.held ++ [c] }

/-- The function `put_string`. -/
def put_string (K : Config) (vm : VM) (s : List Char) : VM :=
  let o := put_loop K s vm.output
  { vm with output := if '\n' ∈ s then flush_output K o else o }

/-- The function `put_char`; the argument is converted to `char`. -/
def put_char (K : Config) (vm : VM) (c : Int) : VM :=
  put_string K vm [Char.ofNat (to_unsigned c % 256)]

/-- The text `sprintf (s, "%d", n)` produces. -/
def decimal (n : Int) : List Char :=
  if n < 0 then '-' :: (Nat.repr n.natAbs).toList else (Nat.repr n.toNat).toList

/-- The function `put_decimal`. -/
def put_decimal (K : Config) (vm : VM) (n : Int) : VM := put_string K vm (decimal n)

/-! ## Primitives -/

/-- The dictionary indices of the reserved words (the enum after `ts_vm_make`). -/
def EXIT : Nat := 0
def LITERAL : Nat := 1
def BRANCH : Nat := 2
def LOCAL0 : Nat := 3
def GRAB1 : Nat := 7
def WILL : Nat := 11
def DO_WILL : Nat := 12
def LAST_SPECIAL_PRIM : Nat := DO_WILL
def max_locals : Nat := 4

/-- The function `compile_push`: compile a literal value to be pushed at runtime. -/
def compile_push (K : Config) (vm : VM) (c : Int) : Result :=
  (compile K vm LITERAL).bind (fun vm1 => compile K vm1 c)

/-- The C value of a comparison, negated: -1 for true, 0 for false. -/
def flag (b : Bool) : Int := if b then -1 else 0

/-- A primitive made with `define2` whose body is `ts_OUTPUT_1 (f y z)`. -/
def binary (f : Int → Int → Int) (vm : VM) : Result :=
  .ok (ts_OUTPUT_1 2 vm (f (ts_INPUT vm 1) (ts_INPUT vm 0)))

/-- A primitive made with `define1` whose body is `ts_OUTPUT_1 (f z)`. -/
def unary (f : Int → Int) (vm : VM) : Result :=
  .ok (ts_OUTPUT_1 1 vm (f (ts_INPUT vm 0)))

/-- A division primitive: `nonzero (vm, z)` and then `ts_OUTPUT_1 (f y z)`. -/
def division (f : Int → Int → Int) (vm : VM) : Result :=
  if ts_INPUT vm 0 = 0 then ts_error vm "Division by 0" else binary f vm

/-- The arguments `ts_INPUT_n` names, leftmost (deepest) first. -/
def arguments (vm : VM) (n : Nat) : List Int :=
  (List.range n).reverse.map (ts_INPUT vm)

/-- The adapters `ts_run_void_n`: pop `n` arguments and call the host function. -/
def run_void (n : Nat) (pw : Word) (vm : VM) : Result :=
  let args := arguments vm n
  let vm1 := ts_OUTPUT_0 n vm
  .ok { vm1 with calls := vm1.calls ++ [(pw.datum, args)] }

/-- The adapters `ts_run_int_n`: pop `n` arguments, call the host function and
push its result. -/
def run_int (K : Config) (n : Nat) (pw : Word) (vm : VM) : Result :=
  let args := arguments vm n
  let vm1 := { vm with calls := vm.calls ++ [(pw.datum, args)] }
  .ok (ts_OUTPUT_1 n vm1 (K.host_function pw.datum args))

/-- The loop of `ts_print_stack`: cells `stack[i]` for `i` from `n - k` to
`n - 1`, separated by blanks. -/
def print_cells (K : Config) (n : Nat) : Nat → VM → VM
  | 0, vm => vm
  | k + 1, vm =>
    let i := n - (k + 1)
    let vm1 := if 0 < i then put_char K vm 32 else vm
    print_cells K n k (put_decimal K vm1 (vm1.stack (4 * (i : Int))))

/-- The behaviour of every action that does not re-enter the executor.  (The
three that do, `do_sequence`, `ts_do_will` and `ts_execute`, are part of `exec`
below and have no entry of their own here.) -/
def prim (K : Config) (a : Action) (pw : Word) (vm : VM) : Result :=
  match a with
  | .ts_do_literal =>
    match vm.pc with
    | none => .undefined
    | some p => .ok { ts_OUTPUT_1 0 vm (read_cell vm.data p) with pc := some (p + 4) }
  | .ts_do_branch =>
    match vm.pc with
    | none => .undefined
    | some p =>
      let z := ts_INPUT vm 0
      let y := read_cell vm.data p
      let vm1 := { vm with pc := some (p + 4) }
      if z = 0 then
        match data_cell K y with
        | none => ts_error vm1 range_message
        | some t => .ok (ts_OUTPUT_0 1 { vm1 with pc := some t })
      else .ok (ts_OUTPUT_0 1 vm1)
  | .ts_do_push => .ok (ts_OUTPUT_1 0 vm pw.datum)
  | .ts_make_literal => compile_push K (ts_OUTPUT_0 1 vm) (ts_INPUT vm 0)
  | .ts_comma => compile K (ts_OUTPUT_0 1 vm) (ts_INPUT vm 0)
  | .ts_allot =>
    let vm1 := ts_OUTPUT_0 1 vm
    .ok { vm1 with here := wrap32 (vm1.here + ts_INPUT vm 0) }
  | .ts_align_bang =>
    let vm1 := ts_OUTPUT_0 0 vm
    .ok { vm1 with here := cell_align vm1.here }
  | .ts_here => .ok (ts_OUTPUT_1 0 vm vm.here)
  | .ts_add => binary (fun y z => y + z) vm
  | .ts_sub => binary (fun y z => y - z) vm
  | .ts_mul => binary (fun y z => y * z) vm
  | .ts_umul => binary (fun y z => (to_unsigned y * to_unsigned z : Nat)) vm
  | .ts_idiv => division (fun y z => Int.tdiv y z) vm
  | .ts_imod => division (fun y z => Int.tmod y z) vm
  | .ts_udiv => division (fun y z => (to_unsigned y / to_unsigned z : Nat)) vm
  | .ts_umod => division (fun y z => (to_unsigned y % to_unsigned z : Nat)) vm
  | .ts_eq => binary (fun y z => flag (y = z)) vm
  | .ts_lt => binary (fun y z => flag (y < z)) vm
  | .ts_ult => binary (fun y z => flag (to_unsigned y < to_unsigned z)) vm
  | .ts_and => binary (fun y z => (Nat.land (to_unsigned y) (to_unsigned z) : Nat)) vm
  | .ts_or => binary (fun y z => (Nat.lor (to_unsigned y) (to_unsigned z) : Nat)) vm
  | .ts_xor => binary (fun y z => (Nat.xor (to_unsigned y) (to_unsigned z) : Nat)) vm
  | .ts_lshift => binary (fun y z => y * 2 ^ (to_unsigned z % 32)) vm
  | .ts_rshift => binary (fun y z => y / 2 ^ (to_unsigned z % 32)) vm
  | .ts_urshift => binary (fun y z => (to_unsigned y / 2 ^ (to_unsigned z % 32) : Nat)) vm
  | .ts_fetch =>
    match data_cell K (ts_INPUT vm 0) with
    | none => ts_error vm range_message
    | some a => .ok (ts_OUTPUT_1 1 vm (read_cell vm.data a))
  | .ts_cfetch =>
    match data_byte K (ts_INPUT vm 0) with
    | none => ts_error vm range_message
    | some a => .ok (ts_OUTPUT_1 1 vm (vm.data a % 256 : Nat))
  | .ts_store =>
    let vm1 := ts_OUTPUT_0 2 vm
    match data_cell K (ts_INPUT vm 0) with
    | none => ts_error vm1 range_message
    | some a => .ok { vm1 with data := write_cell vm1.data a (ts_INPUT vm 1) }
  | .ts_cstore =>
    let vm1 := ts_OUTPUT_0 2 vm
    match data_byte K (ts_INPUT vm 0) with
    | none => ts_error vm1 range_message
    | some a => .ok { vm1 with data := write_byte vm1.data a (ts_INPUT vm 1) }
  | .ts_plus_store =>
    let vm1 := ts_OUTPUT_0 2 vm
    match data_cell K (ts_INPUT vm 0) with
    | none => ts_error vm1 range_message
    | some a =>
      .ok { vm1 with data := write_cell vm1.data a (read_cell vm1.data a + ts_INPUT vm 1) }
  | .ts_start_tracing => .ok { ts_OUTPUT_0 0 vm with tracer := some .ts_default_tracer }
  | .ts_stop_tracing => .ok { ts_OUTPUT_0 0 vm with tracer := none }
  | .ts_add2 => unary (fun z => z + 2) vm
  | .ts_add1 => unary (fun z => z + 1) vm
  | .ts_sub1 => unary (fun z => z - 1) vm
  | .ts_sub2 => unary (fun z => z - 2) vm
  | .ts_is_negative => unary (fun z => flag (z < 0)) vm
  | .ts_is_zero => unary (fun z => flag (0 = z)) vm
  | .ts_times2 => unary (fun z => z * 2) vm
  | .ts_times4 => unary (fun z => z * 4) vm
  | .ts_div2 => unary (fun z => z / 2) vm
  | .ts_div4 => unary (fun z => z / 4) vm
  | .ts_emit => .ok (put_char K (ts_OUTPUT_0 1 vm) (ts_INPUT vm 0))
  | .ts_print => .ok (put_char K (put_decimal K (ts_OUTPUT_0 1 vm) (ts_INPUT vm 0)) 32)
  | .ts_prim_error =>
    let vm1 := ts_OUTPUT_0 1 vm
    match data_byte K (ts_INPUT vm 0) with
    | none => ts_error vm1 range_message
    | some _ => ts_error vm1 "%s"
  | .ts_make_constant =>
    if vm.where_ = 0 then .undefined
    else
      let w := vm.words (vm.where_ - 1)
      let vm1 := ts_OUTPUT_0 1 vm
      .ok { vm1 with words := Function.update vm1.words (vm.where_ - 1)
                      { w with action := some .ts_do_push, datum := ts_INPUT vm 0 } }
  | .ts_print_stack =>
    let n := (stack_pointer vm + 1).toNat
    .ok (put_char K (print_cells K n n vm) 10)
  | .ts_clear_stack => .ok { vm with sp := -4 }
  | .ts_run_void_0 => .ok { vm with calls := vm.calls ++ [(pw.datum, [])] }
  | .ts_run_void_1 => run_void 1 pw vm
  | .ts_run_void_2 => run_void 2 pw vm
  | .ts_run_void_3 => run_void 3 pw vm
  | .ts_run_void_4 => run_void 4 pw vm
  | .ts_run_void_5 => run_void 5 pw vm
  | .ts_run_int_0 => run_int K 0 pw vm
  | .ts_run_int_1 => run_int K 1 pw vm
  | .ts_run_int_2 => run_int K 2 pw vm
  | .ts_run_int_3 => run_int K 3 pw vm
  | .ts_run_int_4 => run_int K 4 pw vm
  | .do_sequence => .undefined
  | .ts_do_will => .undefined
  | .ts_execute => .undefined

/-! ## The executor -/

/-- The array `locals` of one invocation of `do_sequence`; a slot is `none`
until a GRAB has written it (C leaves it uninitialised). -/
abbrev Locals := Nat → Option Int

/-- The locals of a fresh invocation. -/
def fresh_locals : Locals := fun _ => none

/-- The tracer of tusl.c, `ts_default_tracer`, prints `vm->words[word].name`
before anything has checked `word`: for a `word` that is not the index of a
word of the dictionary it reads an entry that was never written, or one outside
the array, which C leaves undefined.  (An entry of the dictionary has the name
`ts_install` gave it, a string that `ts_lookup` has compared with `strcmp`.) -/
def tracer_reads_outside (vm : VM) (word : Nat) : Bool :=
  match vm.tracer with
  | some .ts_default_tracer => decide (vm.where_ ≤ word)
  | _ => false

/-- The test `NULL != vm->tracer && vm->tracer (vm, word)`, for a tracer that
can be called with `word` (see `tracer_reads_outside`).  The tracer of tusl.c
prints on stderr and returns `no`. -/
def tracer_stops (vm : VM) (word : Nat) : Bool :=
  match vm.tracer with
  | none => false
  | some .ts_default_tracer => false
  | some (.host verdict) => verdict (stack_list vm) word

/-- Subtraction of C `unsigned` values. -/
def unsigned_sub (a b : Nat) : Nat := (a + 4294967296 - b % 4294967296) % 4294967296

/-- The loop that grabs locals: `locals[i] = ts_pop (vm)` for `i` from `i` up
to `count - 1`; `k` is the number of slots still to fill. -/
def grab : Nat → Nat → Locals → VM → Locals × VM
  | 0, _, locals, vm => (locals, vm)
  | k + 1, i, locals, vm =>
    grab k (i + 1) (Function.update locals i (some (ts_pop vm).1)) (ts_pop vm).2

/-- Modelled from the spec: the macro `ts_TRY` of tusl.h pushes a handler frame
("push a new Handler Frame recording a resumable checkpoint"). -/
def ts_TRY (vm : VM) : VM := { vm with handler_stack := vm.handler_stack + 1 }

/-- Modelled from the spec: the macro `ts_POP_TRY` of tusl.h pops the frame on
normal exit; the handler stack is again the one the frame links to, `next`.
The function `escape` pops a frame in the same way before it jumps. -/
def ts_POP_TRY (vm : VM) (next : Nat) : VM := { vm with handler_stack := next }

/-- The body of `do_sequence` around its loop, `loop` being the loop run with
fresh locals.  An error raised inside the protected region arrives at
`ts_EXCEPT` with the frame popped; the instruction pointer is restored and the
error raised again with `escape` (which ends the process when no handler is
left: a `raised` outcome whose handler stack is empty). -/
def do_sequence_frame (K : Config) (loop : VM → Result) (pw : Word) (vm : VM) : Result :=
  let old_pc := vm.pc
  match data_cell K pw.datum with
  | none => ts_error vm range_message
  | some a =>
    let next := vm.handler_stack
    match loop (ts_TRY { vm with pc := some a }) with
    | .ok vm2 => .ok (ts_POP_TRY { vm2 with pc := old_pc } next)
    | .raised m vm2 => .raised m { ts_POP_TRY vm2 next with pc := old_pc }
    | .undefined => .undefined
    | .out_of_fuel => .out_of_fuel

/-- The body of `ts_run`, `call` being the call of a word's action. -/
def ts_run_with (call : Option Action → Word → VM → Result) (vm : VM) (word : Int) :
    Result :=
  if tracer_reads_outside vm (to_unsigned word) then .undefined
  else if tracer_stops vm (to_unsigned word) then .ok vm
  else if to_unsigned word ≤ LAST_SPECIAL_PRIM then
    ts_error vm "execute of a sequential-only word: %d"
  else if to_unsigned word < vm.where_ then
    call (vm.words (to_unsigned word)).action (vm.words (to_unsigned word)) vm
  else ts_error vm "Invoked an undefined word, #%d"

/-- What the executor is asked to do: call an action on a word, `action (vm, pw)`,
or run the loop of `do_sequence` with the given locals from `vm->pc` on. -/
inductive Task where
  | call (action : Option Action) (pw : Word)
  | loop (locals : Locals)

/-- One turn of the `for (;;)` loop of `do_sequence` after the fetch
`word = *(vm->pc)++` from address `p`, and then the rest of the loop; `again` is
the executor for what is nested in it and for the rest of the loop. -/
def turn (K : Config) (again : Task → VM → Result) (locals : Locals) (p : Int) (word : Nat)
    (vm : VM) : Result :=
  if tracer_reads_outside vm word then .undefined
  else if tracer_stops vm word then .ok vm
  else if word = EXIT then .ok vm
  else if unsigned_sub word LOCAL0 < max_locals then
    match locals (word - LOCAL0) with
    | none => .undefined
    | some v => again (.loop locals) (ts_push vm v)
  else if unsigned_sub word GRAB1 < max_locals then
    again (.loop (grab (1 + (word - GRAB1)) 0 locals vm).1)
      (grab (1 + (word - GRAB1)) 0 locals vm).2
  else if word = WILL then
    if vm.where_ = 0 then .undefined
    else
      let w := vm.words (vm.where_ - 1)
      let vm1 := { vm with words := Function.update vm.words (vm.where_ - 1)
                              { w with action := some .ts_do_will } }
      match data_cell K w.datum with
      | none => ts_error vm1 range_message
      | some a => .ok { vm1 with data := write_cell vm1.data a (p + 4) }
  else if word < vm.where_ then
    if (vm.words word).action = some .do_sequence ∧ read_cell vm.data (p + 4) = EXIT then
      match data_cell K (vm.words word).datum with
      | none => ts_error vm range_message
      | some a => again (.loop locals) { vm with pc := some a }
    else
      (again (.call (vm.words word).action (vm.words word)) vm).bind (again (.loop locals))
  else ts_error vm "Invoked an undefined word, #%d"

/-- One level of the executor, `again` being the executor for what is nested in
it.  A call of an action: `do_sequence`, `ts_do_will` and `ts_execute` (with
`ts_run`) are here, any other action is a primitive.  A loop: the loop of
`do_sequence` from `vm->pc` on. -/
def step (K : Config) (again : Task → VM → Result) : Task → VM → Result
  | .call action pw, vm =>
    match action with
    | none => .undefined
    | some .do_sequence => do_sequence_frame K (again (.loop fresh_locals)) pw vm
    | some .ts_do_will =>
      match data_cell K pw.datum with
      | none => ts_error vm range_message
      | some a =>
        again (.call (some .do_sequence) ⟨none, read_cell vm.data a, none⟩)
          (ts_push vm (pw.datum + 4))
    | some .ts_execute =>
      ts_run_with (fun a w v => again (.call a w) v) (ts_OUTPUT_0 1 vm) (ts_INPUT vm 0)
    | some a => prim K a pw vm
  | .loop locals, vm =>
    match vm.pc with
    | none => .undefined
    | some p =>
      turn K again locals p (to_unsigned (read_cell vm.data p)) { vm with pc := some (p + 4) }

/-- The executor, with fuel for the nesting of calls and the length of loops:
each level of nesting and each turn of a loop takes one unit. -/
def exec (K : Config) : Nat → Task → VM → Result
  | 0 => fun _ _ => .out_of_fuel
  | fuel + 1 => step K (exec K fuel)

/-- The function `do_sequence`: execute a colon definition. -/
def do_sequence (K : Config) (fuel : Nat) (pw : Word) (vm : VM) : Result :=
  exec K fuel (.call (some .do_sequence) pw) vm

/-- The function `ts_run`: execute the word at the given dictionary index. -/
def ts_run (K : Config) (fuel : Nat) (vm : VM) (word : Int) : Result :=
  ts_run_with (fun a w v => exec K fuel (.call a w) v) vm word

/-- The function `ts_do_will`: the behaviour of a word whose action was set by `;will`. -/
def ts_do_will (K : Config) (fuel : Nat) (pw : Word) (vm : VM) : Result :=
  exec K fuel (.call (some .ts_do_will) pw) vm

/-! ## Creation of a VM and the standard words -/

/-- The function `make_origin_place`: the beginning of a file. -/
def make_origin_place (opt_filename : Option String) : Place := ⟨1, 1, opt_filename⟩

/-- The function `ts_set_input_file_stream`; `fp` is what the successive reads
of the file will deliver. -/
def ts_set_input_file_stream (vm : VM) (fp : List (List Char))
    (opt_filename : Option String) : VM :=
  { vm with input := ⟨[], fp, make_origin_place opt_filename⟩ }

/-- The function `ts_set_output_file_stream`; `fp` is what the file holds already. -/
def ts_set_output_file_stream (vm : VM) (fp : List Char) (opt_filename : Option String) : VM :=
  { vm with output := ⟨[], 0, fp, make_origin_place opt_filename⟩ }

/-- Install a list of words in order, stopping at the first error. -/
def install_all (K : Config) : List (String × Option Action × Int) → VM → Result
  | [], vm => .ok vm
  | (name, action, datum) :: rest, vm =>
    (ts_install K vm name action datum).bind (install_all K rest)

/-- The reserved entries `ts_vm_make` installs, in order. -/
def reserved_words : List (String × Option Action × Int) :=
  [(";", none, 0), ("<<literal>>", some .ts_do_literal, 0), ("<<branch>>", some .ts_do_branch, 0),
   ("z", none, 0), ("y", none, 0), ("x", none, 0), ("w", none, 0),
   ("z-", none, 0), ("yz-", none, 0), ("xyz-", none, 0), ("wxyz-", none, 0),
   (";will", none, 0), ("<<will>>", some .ts_do_will, 0)]

/-- The function `ts_vm_make`.  `raw` is the block `malloc` returns, whose
contents are arbitrary; `stdin` and `stdout` are the standard streams. -/
def ts_vm_make (K : Config) (raw : VM) (stdin : List (List Char)) (stdout : List Char) :
    Result :=
  let vm1 := { raw with sp := -4, pc := none, here := 0, there := K.ts_data_size,
                        where_ := 0, mode := '(' }
  let vm2 := ts_set_input_file_stream (ts_set_output_file_stream vm1 stdout none) stdin none
  let vm3 := { vm2 with token_place := vm2.input.place, tracer := none, handler_stack := 0,
                        calls := [] }
  install_all K reserved_words vm3

/-- The entries `ts_install_standard_words` installs, in order. -/
def standard_words : List (String × Option Action × Int) :=
  [("#", some .ts_make_literal, 0), (",", some .ts_comma, 0), ("here", some .ts_here, 0),
   ("allot", some .ts_allot, 0), ("align!", some .ts_align_bang, 0),
   ("constant", some .ts_make_constant, 0),
   ("+", some .ts_add, 0), ("-", some .ts_sub, 0), ("*", some .ts_mul, 0),
   ("/", some .ts_idiv, 0), ("mod", some .ts_imod, 0), ("u*", some .ts_umul, 0),
   ("u/", some .ts_udiv, 0), ("umod", some .ts_umod, 0), ("=", some .ts_eq, 0),
   ("<", some .ts_lt, 0), ("u<", some .ts_ult, 0), ("and", some .ts_and, 0),
   ("or", some .ts_or, 0), ("xor", some .ts_xor, 0), ("<<", some .ts_lshift, 0),
   (">>", some .ts_rshift, 0), ("u>>", some .ts_urshift, 0),
   ("@", some .ts_fetch, 0), ("!", some .ts_store, 0), ("c@", some .ts_cfetch, 0),
   ("c!", some .ts_cstore, 0), ("+!", some .ts_plus_store, 0),
   ("emit", some .ts_emit, 0), (".", some .ts_print, 0),
   ("execute", some .ts_execute, 0), ("start-tracing", some .ts_start_tracing, 0),
   ("stop-tracing", some .ts_stop_tracing, 0), ("clear-stack", some .ts_clear_stack, 0),
   (".s", some .ts_print_stack, 0), ("error", some .ts_prim_error, 0),
   ("-1", some .ts_do_push, -1), ("0", some .ts_do_push, 0), ("1", some .ts_do_push, 1),
   ("0<", some .ts_is_negative, 0), ("0=", some .ts_is_zero, 0),
   ("2+", some .ts_add2, 0), ("1+", some .ts_add1, 0), ("1-", some .ts_sub1, 0),
   ("2-", some .ts_sub2, 0), ("2*", some .ts_times2, 0), ("2/", some .ts_div2, 0),
   ("4*", some .ts_times4, 0), ("4/", some .ts_div4, 0)]

/-- The function `ts_install_standard_words`. -/
def ts_install_standard_words (K : Config) (vm : VM) : Result :=
  install_all K standard_words vm

/-! ## Input -/

/-- The function `advance`: update a place to reflect reading one character. -/
def advance (place : Place) (c : Char) : Place :=
  if c = '\n' then { place with line := place.line + 1, column := 0 }
  else { place with column := place.column + 1 }

/-- The conversion `int result = input->ptr[0]` of a character of the input
(a byte, `char` being signed) to the `int` the reading functions return: the
byte 255 becomes -1, which is `EOF` and is `none` here. -/
def as_int (c : Char) : Option Char := if c.toNat % 256 = 255 then none else some c

/-- The function `refill`: ask the streamer for more input; the first new
character, consumed if `delta`, or `none` for EOF when the streamer delivers
nothing.  (A read error of the backing file is not modelled.) -/
def refill (vm : VM) (delta : Bool) : Option Char × VM :=
  match vm.input.refills with
  | [] => (none, vm)
  | [] :: rest => (none, { vm with input := { vm.input with refills := rest } })
  | (c :: cs) :: rest =>
    if delta then
      (as_int c, { vm with input := ⟨cs, rest, advance vm.input.place c⟩ })
    else
      (as_int c, { vm with input := ⟨c :: cs, rest, vm.input.place⟩ })

/-- The function `get_char`: consume and return one character, or EOF. -/
def get_char (vm : VM) : Option Char × VM :=
  match vm.input.unread with
  | [] => refill vm true
  | c :: cs =>
    (as_int c, { vm with input := { vm.input with unread := cs,
                                                  place := advance vm.input.place c } })

/-- The function `peek_char`: return one character, or EOF, without consuming it. -/
def peek_char (vm : VM) : Option Char × VM :=
  match vm.input.unread with
  | [] => refill vm false
  | c :: _ => (as_int c, vm)

/-- The function `ts_set_input_string`: the input comes from the string; the
place is left as it is. -/
def ts_set_input_string (vm : VM) (string : List Char) : VM :=
  { vm with input := { vm.input with unread := string, refills := [] } }

/-- A bound on the number of calls of `get_char` that consume a character. -/
def input_left (vm : VM) : Nat :=
  vm.input.unread.length + (vm.input.refills.map (fun chunk => chunk.length + 1)).sum

/-- The loop of `skip_line`, at most `n` characters. -/
def skip_loop : Nat → VM → VM
  | 0, vm => vm
  | n + 1, vm =>
    match get_char vm with
    | (none, vm1) => vm1
    | (some c, vm1) => if c = '\n' then vm1 else skip_loop n vm1

/-- The function `skip_line`: skip past the end of the current line of input. -/
def skip_line (vm : VM) : VM := skip_loop (input_left vm + 1) vm

/-! ## Tokens -/

/-- The libc function `isspace` in the C locale. -/
def isspace (c : Char) : Bool :=
  c = ' ' || c = '\t' || c = '\n' || c = '\x0b' || c = '\x0c' || c = '\r'

/-- The characters `strchr` finds in the string `punctuation`, the terminating
NUL included. -/
def is_punctuation (c : Char) : Bool :=
  c = '\\' || c = '\'' || c = ':' || c = '(' || c = ')' || c = '$' || c = '\x00'

/-- The characters that end a plain token: `strchr (" \t\r\n\"`" punctuation, c)`. -/
def ends_token (c : Char) : Bool :=
  c = ' ' || c = '\t' || c = '\r' || c = '\n' || c = '"' || c = '`' || is_punctuation c

/-- How `get_token` ends: with a token, at the end of the input, or with an error. -/
inductive Scan where
  | token (text : List Char) (vm : VM)
  | eof (vm : VM)
  | raised (message : String) (vm : VM)
  | out_of_fuel

/-- The first loop of `get_token`: consume characters up to the first that is
not a space other than newline. -/
def skip_spaces : Nat → VM → Option (Option Char × VM)
  | 0, _ => none
  | n + 1, vm =>
    match get_char vm with
    | (some c, vm1) =>
      if isspace c && c != '\n' then skip_spaces n vm1 else some (some c, vm1)
    | (none, vm1) => some (none, vm1)

/-- The loop of `get_token` that scans a string literal: `buf` is the text
stored so far, `c` the character to append next. -/
def scan_string (size : Nat) (delim : Char) : Nat → List Char → Char → VM → Scan
  | 0, _, _, _ => .out_of_fuel
  | n + 1, buf, c, vm =>
    if size = buf.length + 1 then .raised "Token too long: %s..." vm
    else
      match get_char vm with
      | (none, vm1) => .raised "Unterminated string constant: %s" vm1
      | (some c1, vm1) =>
        if c1 = delim then .token (buf ++ [c]) vm1
        else scan_string size delim n (buf ++ [c]) c1 vm1

/-- The loop of `get_token` that scans any other token, up to whitespace, quote
or punctuation. -/
def scan_plain (size : Nat) : Nat → List Char → Char → VM → Scan
  | 0, _, _, _ => .out_of_fuel
  | n + 1, buf, c, vm =>
    if size = buf.length + 1 then .raised "Token too long: %s..." vm
    else
      match peek_char vm with
      | (some c1, vm1) =>
        if ends_token c1 then .token (buf ++ [c]) vm1
        else scan_plain size n (buf ++ [c]) c1 (get_char vm1).2
      | (none, vm1) => .token (buf ++ [c]) (get_char vm1).2

/-- The function `get_token`: scan the next token of input into a buffer of
`size` bytes. -/
def get_token (size : Nat) (vm : VM) : Scan :=
  match skip_spaces (input_left vm + 1) vm with
  | none => .out_of_fuel
  | some (c, vm1) =>
    let vm2 := { vm1 with token_place := vm1.input.place }
    match c with
    | none => .eof vm2
    | some c =>
      if c = '$' then
        match get_char vm2 with
        | (none, vm3) => .raised "Unterminated character constant: %s" vm3
        | (some c1, vm3) => .token [c, c1] vm3
      else if c = '\n' || is_punctuation c then .token [c] vm2
      else if c = '"' || c = '`' then scan_string size c (input_left vm2 + 1) [] c vm2
      else scan_plain size (input_left vm2 + 1) [] c vm2

/-! ## Numbers -/

/-- The value of a digit in a numeral, letters counting from ten. -/
def digit_value (c : Char) : Option Nat :=
  if '0' ≤ c ∧ c ≤ '9' then some (c.toNat - 48)
  else if 'a' ≤ c ∧ c ≤ 'z' then some (c.toNat - 87)
  else if 'A' ≤ c ∧ c ≤ 'Z' then some (c.toNat - 55)
  else none

/-- The longest run of digits of the base at the front of the text: their
value, on top of `acc`, and the rest of the text. -/
def scan_digits (base : Nat) : List Char → Nat → Nat × List Char
  | [], acc => (acc, [])
  | c :: cs, acc =>
    match digit_value c with
    | some d => if d < base then scan_digits base cs (acc * base + d) else (acc, c :: cs)
    | none => (acc, c :: cs)

/-- The first character is a digit of the base. -/
def starts_with_digit (base : Nat) (text : List Char) : Bool :=
  match text with
  | [] => false
  | c :: _ =>
    match digit_value c with
    | some d => d < base
    | none => false

/-- An optional sign at the front of the text: whether it is a minus, and the
text after it. -/
def split_sign (s : List Char) : Bool × List Char :=
  match s with
  | '-' :: r => (true, r)
  | '+' :: r => (false, r)
  | _ => (false, s)

/-- The numeral of the given base at the front of the text, if there is one:
the sign handed in, the magnitude and the unread rest. -/
def digits_of (negative : Bool) (base : Nat) (t : List Char) : Option (Bool × Nat × List Char) :=
  if starts_with_digit base t then
    some (negative, (scan_digits base t 0).1, (scan_digits base t 0).2)
  else none

/-- The numeral after the sign, for base 0: hexadecimal after `0x` or `0X`,
octal after `0`, decimal otherwise. -/
def radix_subject (negative : Bool) (t : List Char) : Option (Bool × Nat × List Char) :=
  match t with
  | '0' :: x :: r =>
    if (x = 'x' || x = 'X') && starts_with_digit 16 r then digits_of negative 16 r
    else digits_of negative 8 ('0' :: x :: r)
  | '0' :: r => digits_of negative 8 ('0' :: r)
  | t => digits_of negative 10 t

/-- The subject sequence the libc functions `strtol` and `strtoul` recognise
with base 0: optional white space, an optional sign, then a hexadecimal numeral
after `0x`, an octal numeral after `0`, or a decimal numeral.  The result is the
sign, the magnitude and the unread rest; `none` when there is no numeral. -/
def integer_subject (text : List Char) : Option (Bool × Nat × List Char) :=
  radix_subject (split_sign (text.dropWhile isspace)).1 (split_sign (text.dropWhile isspace)).2

/-- The libc function `strtol (text, &endptr, 0)` for a `long` of 32 bits
(the VM keeps pointers in `int` cells, so `int`, `long` and pointers are all
32 bits wide): the
value, the text from `endptr` on, and whether `errno` is `ERANGE`. -/
def strtol (text : List Char) : Int × List Char × Bool :=
  match integer_subject text with
  | none => (0, text, false)
  | some (negative, magnitude, rest) =>
    let v : Int := if negative then -(magnitude : Int) else magnitude
    if 2147483647 < v then (2147483647, rest, true)
    else if v < -2147483648 then (-2147483648, rest, true)
    else (v, rest, false)

/-- The libc function `strtoul (text, &endptr, 0)` for a `long` of 32 bits. -/
def strtoul (text : List Char) : Nat × List Char × Bool :=
  match integer_subject text with
  | none => (0, text, false)
  | some (negative, magnitude, rest) =>
    if 4294967295 < magnitude then (4294967295, rest, true)
    else if negative then ((4294967296 - magnitude) % 4294967296, rest, false)
    else (magnitude, rest, false)

/-- The function `parse_number`: the text as a signed number, else as an
unsigned number, else as a float; `none` where it returns `no`. -/
def parse_number (K : Config) (text : List Char) : Option Int :=
  if text = [] then none
  else if (strtol text).2.1 ≠ [] ∨ (strtol text).2.2 = true then
    if (strtoul text).2.1 ≠ [] ∨ (strtoul text).2.2 = true then K.float_literal text
    else some (wrap32 (strtoul text).1)
  else some (strtol text).1

/-! ## Dispatch and the loading loop -/

/-- The value of a `char` as an `int`, `char` being signed. -/
def char_code (c : Char) : Int :=
  if c.toNat % 256 < 128 then (c.toNat % 256 : Nat) else ((c.toNat % 256 : Nat) : Int) - 256

/-- The call `('(' == vm->mode ? ts_push : compile_push) (vm, value)`. -/
def push_or_compile (K : Config) (vm : VM) (value : Int) : Result :=
  if vm.mode = '(' then .ok (ts_push vm value) else compile_push K vm value

/-- The function `dispatch`: act on one token as the current mode directs. -/
def dispatch (K : Config) (fuel : Nat) (vm : VM) (token : List Char) : Result :=
  let c0 := token.headD '\x00'
  if c0 = '\\' then .ok (skip_line vm)
  else if c0 = '\'' ∨ c0 = ':' ∨ c0 = '(' ∨ c0 = ')' then .ok { vm with mode := c0 }
  else if c0 = '$' then push_or_compile K vm (char_code (token.getD 1 '\x00'))
  else if c0 = '"' ∨ c0 = '`' then
    match compile_string vm (token.tail.map (fun c => c.toNat % 256)) with
    | .error (message, vm1) => .raised message vm1
    | .ok (string_index, vm1) => push_or_compile K vm1 string_index
  else if vm.mode = '\'' then
    if ts_lookup vm (String.mk token) = ts_not_found then ts_error vm "%s ?\n"
    else .ok (ts_push vm (ts_lookup vm (String.mk token)))
  else if vm.mode = ':' then
    (ts_install K vm (String.mk token) (some .do_sequence) vm.here).bind
      (fun vm1 => .ok { vm1 with mode := ')' })
  else if ts_lookup vm (String.mk token) ≠ ts_not_found then
    if vm.mode = '(' then ts_run K fuel vm (ts_lookup vm (String.mk token))
    else compile K vm (ts_lookup vm (String.mk token))
  else
    match parse_number K token with
    | some value => push_or_compile K vm value
    | none => ts_error vm "%s ?\n"

/-- The loop of `ts_loading_loop`, with a token buffer of 1024 bytes. -/
def loading_loop (K : Config) : Nat → VM → Result
  | 0, _ => .out_of_fuel
  | n + 1, vm =>
    match get_token 1024 vm with
    | .eof vm1 => .ok vm1
    | .raised message vm1 => .raised message vm1
    | .out_of_fuel => .out_of_fuel
    | .token text vm1 =>
      if text.headD '\x00' = '\n' then loading_loop K n vm1
      else (dispatch K n vm1 text).bind (loading_loop K n)

/-- The function `ts_loading_loop`: read and execute source code from the
current input stream till EOF, starting in interpret mode. -/
def ts_loading_loop (K : Config) (fuel : Nat) (vm : VM) : Result :=
  loading_loop K fuel { vm with mode := '(' }

/-- The function `ts_load_string`: read and execute the contents of a string. -/
def ts_load_string (K : Config) (fuel : Nat) (vm : VM) (string : List Char) : Result :=
  ts_loading_loop K fuel (ts_set_input_string vm string)

/-- The body of `ts_load`, `loop` being the loading loop: read and execute
source code from the file named `filename`, starting and ending in interpret
mode.  The frame is as in `do_sequence_frame`; `fclose` has no part in the
state. -/
def ts_load_with (K : Config) (loop : VM → Result) (vm : VM) (filename : String) : Result :=
  let saved := vm.input
  match K.fopen filename with
  | none => ts_error vm "%s: %s\n"
  | some fp =>
    let next := vm.handler_stack
    match loop (ts_set_input_file_stream (ts_TRY vm) fp (some filename)) with
    | .ok vm1 => .ok (ts_POP_TRY { vm1 with mode := '(', input := saved } next)
    | .raised m vm1 => .raised m { ts_POP_TRY vm1 next with mode := '(', input := saved }
    | .undefined => .undefined
    | .out_of_fuel => .out_of_fuel

/-- The function `ts_load`. -/
def ts_load (K : Config) (fuel : Nat) (vm : VM) (filename : String) : Result :=
  ts_load_with K (ts_loading_loop K fuel) vm filename

/-- The place after the characters of a text have been read, one `advance` each. -/
def advance_all (place : Place) (text : List Char) : Place := text.foldl advance place

/-- A sequence of calls of `put_string`, one for each text of the list. -/
def put_strings (K : Config) (vm : VM) : List (List Char) → VM
  | [] => vm
  | s :: rest => put_strings K (put_string K vm s) rest

/-- The text the VM has put out: what the sink has received and what is still
held in the buffer. -/
def output_text (vm : VM) : List Char := vm.output.written ++ vm.output.held

/-- The token falls to the `default` case of the switch in `dispatch`: its
first character is none of the backslash, `'`, `:`, `(`, `)`, `$`, `"` and
the backquote. -/
def plain_token (token : List Char) : Bool :=
  let c0 := token.headD '\x00'
  !(c0 = '\\' || c0 = '\'' || c0 = ':' || c0 = '(' || c0 = ')' || c0 = '$' || c0 = '"'
    || c0 = '`')

/-! ## The depth of the handler stack during a run -/

/-- The greatest depth of the handler stack in the states that the turn
`turn K again locals p word vm` passes through: `peak` gives it for what is
nested in the turn and for the rest of the loop, as `again` gives their
outcomes.  It follows `turn` case by case. -/
def peak_turn (K : Config) (again : Task → VM → Result) (peak : Task → VM → Nat)
    (locals : Locals) (p : Int) (word : Nat) (vm : VM) : Nat :=
  if tracer_reads_outside vm word then vm.handler_stack
  else if tracer_stops vm word then vm.handler_stack
  else if word = EXIT then vm.handler_stack
  else if unsigned_sub word LOCAL0 < max_locals then
    match locals (word - LOCAL0) with
    | none => vm.handler_stack
    | some v => max vm.handler_stack (peak (.loop locals) (ts_push vm v))
  else if unsigned_sub word GRAB1 < max_locals then
    max vm.handler_stack
      (peak (.loop (grab (1 + (word - GRAB1)) 0 locals vm).1)
        (grab (1 + (word - GRAB1)) 0 locals vm).2)
  else if word = WILL then vm.handler_stack
  else if word < vm.where_ then
    if (vm.words word).action = some .do_sequence ∧ read_cell vm.data (p + 4) = EXIT then
      match data_cell K (vm.words word).datum with
      | none => vm.handler_stack
      | some a => max vm.handler_stack (peak (.loop locals) { vm with pc := some a })
    else
      max (peak (.call (vm.words word).action (vm.words word)) vm)
        (match again (.call (vm.words word).action (vm.words word)) vm with
          | .ok vm1 => peak (.loop locals) vm1
          | _ => 0)
  else vm.handler_stack

/-- The greatest depth of the handler stack during `step K again task vm`; it
follows `step` case by case.  A primitive does not touch the handler stack. -/
def peak_step (K : Config) (again : Task → VM → Result) (peak : Task → VM → Nat) :
    Task → VM → Nat
  | .call action pw, vm =>
    match action with
    | some .do_sequence =>
      match data_cell K pw.datum with
      | none => vm.handler_stack
      | some a =>
        max vm.handler_stack (peak (.loop fresh_locals) (ts_TRY { vm with pc := some a }))
    | some .ts_do_will =>
      match data_cell K pw.datum with
      | none => vm.handler_stack
      | some a =>
        max vm.handler_stack
          (peak (.call (some .do_sequence) ⟨none, read_cell vm.data a, none⟩)
            (ts_push vm (pw.datum + 4)))
    | some .ts_execute =>
      if tracer_reads_outside (ts_OUTPUT_0 1 vm) (to_unsigned (ts_INPUT vm 0)) then
        vm.handler_stack
      else if tracer_stops (ts_OUTPUT_0 1 vm) (to_unsigned (ts_INPUT vm 0)) then
        vm.handler_stack
      else if to_unsigned (ts_INPUT vm 0) ≤ LAST_SPECIAL_PRIM then vm.handler_stack
      else if to_unsigned (ts_INPUT vm 0) < vm.where_ then
        max vm.handler_stack
          (peak (.call (vm.words (to_unsigned (ts_INPUT vm 0))).action
            (vm.words (to_unsigned (ts_INPUT vm 0)))) (ts_OUTPUT_0 1 vm))
      else vm.handler_stack
    | _ => vm.handler_stack
  | .loop locals, vm =>
    match vm.pc with
    | none => vm.handler_stack
    | some p =>
      peak_turn K again peak locals p (to_unsigned (read_cell vm.data p))
        { vm with pc := some (p + 4) }

/-- The greatest depth of the handler stack during the run `exec K fuel task vm`. -/
def peak_exec (K : Config) : Nat → Task → VM → Nat
  | 0 => fun _ vm => vm.handler_stack
  | fuel + 1 => peak_step K (exec K fuel) (peak_exec K fuel)

/-- A write to the output: a call of `put_string`, `put_char` or `put_decimal`. -/
inductive Write where
  | str (s : List Char)
  | chr (c : Int)
  | dec (n : Int)

/-- The bytes a write hands to `put_string`. -/
def Write.text : Write → List Char
  | .str s => s
  | .chr c => [Char.ofNat (to_unsigned c % 256)]
  | .dec n => decimal n

/-- The call a write stands for. -/
def Write.run (K : Config) (vm : VM) : Write → VM
  | .str s => put_string K vm s
  | .chr c => put_char K vm c
  | .dec n => put_decimal K vm n

/-- A sequence of writes, one after another. -/
def write_all (K : Config) (vm : VM) : List Write → VM
  | [] => vm
  | w :: rest => write_all K (Write.run K vm w) rest

/-- The bytes of a sequence of writes, in order. -/
def all_text : List Write → List Char
  | [] => []
  | w :: rest => w.text ++ all_text rest

/-! ## Small concrete machines, for the examples -/

/-- A configuration with a data space of 64 bytes. -/
def small_config : Config :=
  { ts_data_size := 64, ts_dictionary_size := 128, ts_stack_size := 16, buffer_size := 8,
    host_function := fun _ _ => 0, float_literal := fun _ => none, fopen := fun _ => none }

/-- A configuration in which the file `f` can be opened and is empty, and no
other file can be opened. -/
def file_config : Config :=
  { small_config with fopen := fun name => if name = "f" then some [] else none }

/-- A block of memory filled with zeros. -/
def zero_block : VM :=
  { stack := fun _ => 0, sp := 0, pc := none, data := fun _ => 0, here := 0, there := 0,
    words := fun _ => ⟨none, 0, none⟩, where_ := 0, mode := ' ',
    input := ⟨[], [], ⟨0, 0, none⟩⟩, output := ⟨[], 0, [], ⟨0, 0, none⟩⟩,
    token_place := ⟨0, 0, none⟩, tracer := none, handler_stack := 0, calls := [] }

/-- The state an operation ends in, whether it returns or raises; the given
state where it has none. -/
def Result.state (r : Result) (fallback : VM) : VM :=
  match r with
  | .ok vm => vm
  | .raised _ vm => vm
  | _ => fallback

/-- The outcome is undefined in C. -/
def Result.is_undefined (r : Result) : Bool :=
  match r with
  | .undefined => true
  | _ => false

/-- A fresh VM over `small_config` with the standard words installed. -/
def small_vm : VM :=
  ((ts_vm_make small_config zero_block [] []).bind
    (ts_install_standard_words small_config)).state zero_block

/-- The state after `compile_string`, the given state where it raises. -/
def after_compile_string (vm : VM) (text : List Nat) : VM :=
  match compile_string vm text with
  | .ok (_, vm1) => vm1
  | .error _ => vm

/-- The state after `n` cells `c` are compiled one after another. -/
def compile_many (K : Config) (c : Int) : Nat → VM → VM
  | 0, vm => vm
  | n + 1, vm => compile_many K c n ((compile K vm c).state vm)

/-- A fresh small VM with the string "a" in its string area and fifteen cells
compiled: the code area ends at 60, the string area starts at 62. -/
def crowded_vm : VM := compile_many small_config 0 15 (after_compile_string small_vm [97])

/-- A word record for calling a primitive that does not look at it. -/
def no_word : Word := ⟨none, 0, none⟩

/-- A fresh VM over `small_config`, as `ts_vm_make` returns it. -/
def fresh_vm : VM := (ts_vm_make small_config zero_block [] []).state zero_block

/-- The state after the cell `c` is pushed `n` times. -/
def push_many (c : Int) : Nat → VM → VM
  | 0, vm => vm
  | n + 1, vm => push_many c n (ts_push vm c)

/-! ## Colon definitions: compiled and immediate execution -/

/-- What `dispatch` does in compile mode with the tokens of words `ws` and then
`;`: the indices are compiled in order, then EXIT. -/
def compile_words (K : Config) : List Nat → VM → Result
  | [], vm => compile K vm EXIT
  | w :: ws, vm => (compile K vm w).bind (compile_words K ws)

/-- What `dispatch` does in Run mode with the tokens of words `ws`: each is
executed with `ts_run`, as long as none raises. -/
def run_words (K : Config) (fuel : Nat) : List Nat → VM → Result
  | [], vm => .ok vm
  | w :: ws, vm => (ts_run K fuel vm w).bind (run_words K fuel ws)

/-- The cells from address `d` on hold the words `ws` and then EXIT. -/
def body_at (m : Memory) : Int → List Nat → Prop
  | d, [] => read_cell m d = 0
  | d, w :: ws => to_unsigned (read_cell m d) = w ∧ body_at m (d + 4) ws

instance (m : Memory) (d : Int) (ws : List Nat) : Decidable (body_at m d ws) := by
  induction ws generalizing d with
  | nil => unfold body_at; infer_instance
  | cons w ws ih => unfold body_at; exact instDecidableAnd

/-- The words `ws` run in immediate mode from `vm` never disturb the compiled
`body` at `d`: it is in place before each of them runs and after the last. -/
def undisturbed (K : Config) (fuel : Nat) (d : Int) (body : List Nat) : List Nat → VM → Prop
  | [], vm => body_at vm.data d body
  | w :: ws, vm =>
    body_at vm.data d body ∧
      match ts_run K fuel vm w with
      | .ok vm1 => undisturbed K fuel d body ws vm1
      | _ => True

instance (K : Config) (fuel : Nat) (d : Int) (body ws : List Nat) (vm : VM) :
    Decidable (undisturbed K fuel d body ws vm) := by
  induction ws generalizing vm with
  | nil => unfold undisturbed; infer_instance
  | cons w ws ih =>
    unfold undisturbed
    cases ts_run K fuel vm w with
    | ok vm1 => exact instDecidableAnd
    | raised m vm1 => exact instDecidableAnd
    | undefined => exact instDecidableAnd
    | out_of_fuel => exact instDecidableAnd

/-- The outcome is not that the fuel ran out. -/
def Result.finished : Result → Prop
  | .out_of_fuel => False
  | _ => True

instance (r : Result) : Decidable r.finished := by
  cases r <;> unfold Result.finished <;> infer_instance

/-- The tracer never asks to stop: no tracer, the tracer of tusl.c, or a host
tracer whose verdict is always to go on. -/
def never_stops : Option Tracer → Prop
  | some (.host verdict) => ∀ cells word, verdict cells word = false
  | _ => True

/-- No word of the dictionary after the reserved ones has the behaviour of
LITERAL or BRANCH. -/
def dict_ok (vm : VM) : Prop :=
  ∀ i, i < vm.where_ → LAST_SPECIAL_PRIM < i →
    (vm.words i).action ≠ some .ts_do_literal ∧ (vm.words i).action ≠ some .ts_do_branch

/-- A VM as the library builds it: no word after the reserved ones has the
behaviour of LITERAL or BRANCH, the tracer never stops, and EXIT, the first of
the reserved words, is in the dictionary (so that the tracer of tusl.c finds its
name). -/
def well_formed (vm : VM) : Prop := dict_ok vm ∧ never_stops vm.tracer ∧ EXIT < vm.where_

/-- The VM with another instruction pointer, another handler stack, or both. -/
def recontext (p : Option (Option Int)) (h : Option Nat) (vm : VM) : VM :=
  { vm with pc := p.getD vm.pc, handler_stack := h.getD vm.handler_stack }

/-- The calls whose outcome does not depend on the instruction pointer of the
caller: those of an action other than LITERAL and BRANCH. -/
def call_ok : Task → Prop
  | .call a _ => a ≠ some .ts_do_literal ∧ a ≠ some .ts_do_branch
  | .loop _ => False

/-- An executor that does not look at the handler stack, nor, in a call, at the
instruction pointer it is entered with: changing them changes the outcome in
the same way. -/
def commutes (again : Task → VM → Result) : Prop :=
  ∀ p h t vm, (p = none ∨ (call_ok t ∧ dict_ok vm)) →
    again t (recontext p h vm) = (again t vm).map (recontext p h)

/-- The second executor gives every outcome the first gives with its fuel. -/
def extends_to (a1 a2 : Task → VM → Result) : Prop :=
  ∀ t vm, a1 t vm ≠ .out_of_fuel → a2 t vm = a1 t vm

/-- An executor that returns well-formed VMs from well-formed VMs. -/
def preserves (again : Task → VM → Result) : Prop :=
  ∀ t vm vm1, well_formed vm → again t vm = .ok vm1 → well_formed vm1

/-- A small VM with the colon definition `: foo ! 1+ ;` compiled at address 0
(word 62, body `!`, `1+`, EXIT) and the cells 7, 56 (the index of `1-`) and 4 (the
address of the second cell of the body) on the stack. -/
def self_modifying_vm : VM :=
  ts_push (ts_push (ts_push
    (((ts_install small_config small_vm "foo" (some .do_sequence) small_vm.here).bind
      (compile_words small_config [37, 55])).state zero_block) 7) 56) 4

/-- A small VM with the colon definition `: bar 1+ 2* ;` compiled at address 0
(word 62, body `1+`, `2*`, EXIT) and the cell 5 on the stack. -/
def colon_vm : VM :=
  ts_push
    (((ts_install small_config small_vm "bar" (some .do_sequence) small_vm.here).bind
      (compile_words small_config [55, 58])).state zero_block) 5

/-- The outcome is an error raised with the given message. -/
def Result.raises (r : Result) (message : String) : Bool :=
  match r with
  | .raised m _ => m = message
  | _ => false

/-- A small VM after loading `: b / ; : a b ; ( 1 0`: the word `a` (index 63)
calls `b` (index 62) in tail position, `b` divides, and 1 and 0 are on the
stack; the instruction pointer is at 40 and two handlers are in place. -/
def failing_vm : VM :=
  { (ts_load_string small_config 20 small_vm ": b / ; : a b ; ( 1 0".toList).state small_vm with
    pc := some 40, handler_stack := 2 }

/-- The outcome is a normal return. -/
def Result.returns (r : Result) : Bool :=
  match r with
  | .ok _ => true
  | _ => false

/-- A fresh small VM after `compile_push` of -8388608, the bit pattern ff800000
of the float minus infinity. -/
def literal_vm : VM := (compile_push small_config small_vm (-8388608)).state small_vm

/-- The dictionary entry `ts_install` makes of a name, an action and a datum. -/
def entry_word (e : String × Option Action × Int) : Word := ⟨e.2.1, e.2.2, some e.1⟩

/-- The dictionary after the entries of a list are installed from index `n` on. -/
def install_words : List (String × Option Action × Int) → Nat → (Nat → Word) → Nat → Word
  | [], _, words => words
  | e :: rest, n, words => install_words rest (n + 1) (Function.update words n (entry_word e))

/-- The dictionary of a VM fresh from `ts_vm_make` and
`ts_install_standard_words`: 13 reserved words and 49 standard words. -/
def standard_dictionary : Nat → Word :=
  install_words standard_words 13 (install_words reserved_words 0 (fun _ => ⟨none, 0, none⟩))

/-- The VM has the dictionary of a fresh VM with the standard words, and no more. -/
def has_standard_words (vm : VM) : Prop :=
  vm.where_ = 62 ∧ ∀ i, i < 62 → vm.words i = standard_dictionary i
/-- The VM is ready to load the given text: it has the standard dictionary and
no tracer, it is in Run mode, and the text is what is left of its input. -/
def ready (vm : VM) (text : List Char) : Prop :=
  has_standard_words vm ∧ vm.tracer = none ∧ vm.mode = '(' ∧
    vm.input.unread = text ∧ vm.input.refills = []

/-- The outcome is a normal return with the given text on the output. -/
def Result.prints (r : Result) (text : List Char) : Bool :=
  match r with
  | .ok vm => output_text vm = text
  | _ => false

/-- The outcome is a normal return in the given mode. -/
def Result.ends_in_mode (r : Result) (mode : Char) : Bool :=
  match r with
  | .ok vm => vm.mode = mode
  | _ => false

/-- A small VM with the standard words and the word `dup` (index 62), defined
by loading `: dup z- z z ;`. -/
def dup_vm : VM :=
  (ts_load_string small_config 10 small_vm ": dup z- z z ;".toList).state small_vm

/-- The cells of the data space from address `a` on, `n` of them. -/
def cells_from (m : Memory) (a : Int) : Nat → List Int
  | 0 => []
  | n + 1 => read_cell m a :: cells_from m (a + 4) n

/-- The outcome is a normal return with the given cells in the data space from
address `a` on. -/
def Result.compiled (r : Result) (a : Int) (cells : List Int) : Bool :=
  match r with
  | .ok vm => cells_from vm.data a cells.length = cells
  | _ => false

/-- The tracer is absent or is `ts_default_tracer`, the only tracer of tusl.c. -/
def no_host_tracer : Option Tracer → Bool
  | some (.host _) => false
  | _ => true

/-- A small VM after loading
`: var ;will @ ; ( : a ( 0 , 10 , var : b ( 0 , 20 , var`: the script of `var`
after `;will` is at address 4, and `var` has made closures of the words `a`
(index 63, datum 12, slot 16 holding 10) and `b` (index 64, datum 20, slot 24
holding 20). -/
def closure_vm : VM :=
  (ts_load_string small_config 30 small_vm
    ": var ;will @ ; ( : a ( 0 , 10 , var : b ( 0 , 20 , var".toList).state small_vm

/-- A small VM after loading `: drain <<branch>> ( 12 , ) drain ; ( 0 5 6 7`:
the word `drain` (index 62, at address 0) pops a cell, ends when the cell is 0
and otherwise calls itself in tail position; the stack holds 0 and above it
three cells that are not 0.  Two handlers are in place. -/
def drain_vm : VM :=
  { (ts_load_string small_config 20 small_vm
      ": drain <<branch>> ( 12 , ) drain ; ( 0 5 6 7".toList).state small_vm with
    handler_stack := 2 }

/-- The outcome, if it is a return or an error, is in a state with the given mode. -/
def Result.mode_is (r : Result) (mode : Char) : Prop :=
  match r with
  | .ok vm => vm.mode = mode
  | .raised _ vm => vm.mode = mode
  | _ => True

/-- The outcome, if it is a return or an error, is in a state whose dictionary
has the given number of words. -/
def Result.where_is (r : Result) (wh : Nat) : Prop :=
  match r with
  | .ok vm => vm.where_ = wh
  | .raised _ vm => vm.where_ = wh
  | _ => True

/-- The text a list of refills delivers before the streamer first returns
zero: the chunks in order, up to the first empty one. -/
def delivered : List (List Char) → List Char
  | [] => []
  | [] :: _ => []
  | (c :: cs) :: rest => c :: cs ++ delivered rest

/-- The text the input has to deliver before the streamer first returns zero:
what is buffered, then what the refills deliver. -/
def pending (vm : VM) : List Char := vm.input.unread ++ delivered vm.input.refills

/-- Successive calls of `get_char`, `n` of them: what they return, in order,
and the state after the last. -/
def get_chars : Nat → VM → List (Option Char) × VM
  | 0, vm => ([], vm)
  | n + 1, vm => ((get_char vm).1 :: (get_chars n (get_char vm).2).1, (get_chars n (get_char vm).2).2)

/-- A small VM with the cells BRANCH and 1000 at the start of the data space,
the instruction pointer at BRANCH, and the cell 0 pushed on the empty stack:
the offset 1000 lies outside the 64 bytes of the data space. -/
def branch_vm : VM :=
  ts_push { small_vm with data := write_cell (write_cell small_vm.data 0 BRANCH) 4 1000,
                          pc := some 0 } 0
/-- The dictionary of a VM fresh from `ts_vm_make`: the 13 reserved words. -/
def reserved_dictionary : Nat → Word :=
  install_words reserved_words 0 (fun _ => ⟨none, 0, none⟩)

/-- The names of the reserved words, in the order of the opcodes EXIT, LITERAL,
BRANCH, LOCAL0 to LOCAL3, GRAB1 to GRAB4, WILL and DO_WILL. -/
def reserved_names : List String :=
  [";", "<<literal>>", "<<branch>>", "z", "y", "x", "w", "z-", "yz-", "xyz-", "wxyz-", ";will",
   "<<will>>"]

/-- The lookups of the reserved names, in order. -/
def reserved_lookups (vm : VM) : List Int := reserved_names.map (ts_lookup vm)

/-- A turn of the loop of `do_sequence` as it is without the shortcut for tail
calls: the action of any word of the dictionary is called as an ordinary
nested call, `action (vm, &(vm->words[word]))`, and the loop goes on after it.
The rest is `turn`. -/
def turn_nested (K : Config) (again : Task → VM → Result) (locals : Locals) (p : Int)
    (word : Nat) (vm : VM) : Result :=
  if tracer_reads_outside vm word then .undefined
  else if tracer_stops vm word then .ok vm
  else if word = EXIT then .ok vm
  else if unsigned_sub word LOCAL0 < max_locals then
    match locals (word - LOCAL0) with
    | none => .undefined
    | some v => again (.loop locals) (ts_push vm v)
  else if unsigned_sub word GRAB1 < max_locals then
    again (.loop (grab (1 + (word - GRAB1)) 0 locals vm).1)
      (grab (1 + (word - GRAB1)) 0 locals vm).2
  else if word = WILL then
    if vm.where_ = 0 then .undefined
    else
      let w := vm.words (vm.where_ - 1)
      let vm1 := { vm with words := Function.update vm.words (vm.where_ - 1)
                              { w with action := some .ts_do_will } }
      match data_cell K w.datum with
      | none => ts_error vm1 range_message
      | some a => .ok { vm1 with data := write_cell vm1.data a (p + 4) }
  else if word < vm.where_ then
    (again (.call (vm.words word).action (vm.words word)) vm).bind (again (.loop locals))
  else ts_error vm "Invoked an undefined word, #%d"

/-- The outcome is a return or an error: the run has ended within its fuel and
has done nothing that C leaves undefined. -/
def Result.ended (r : Result) : Bool :=
  match r with
  | .ok _ => true
  | .raised _ _ => true
  | _ => false

/-- When the outcome is a return, the cell at `p` holds EXIT in the state
returned and no tracer of the host is installed in it. -/
def Result.keeps_exit (r : Result) (p : Int) : Bool :=
  match r with
  | .ok vm => decide (read_cell vm.data p = EXIT) && no_host_tracer vm.tracer
  | _ => true

/-- The second locals hold every value the first hold. -/
def locals_le (l0 l1 : Locals) : Prop := ∀ i v, l0 i = some v → l1 i = some v

/-- An executor whose loop, when its outcome is defined, has the same outcome
with locals that hold more. -/
def local_mono (again : Task → VM → Result) : Prop :=
  ∀ l0 l1 vm, locals_le l0 l1 → again (.loop l0) vm ≠ .undefined →
    again (.loop l1) vm = again (.loop l0) vm

/-- A small VM after loading `: b 51 28 ! ; : a b ;`: the body of `b` (word
62) is at offset 0 and stores 51, the index of the word `1`, at offset 28; the
body of `a` (word 63) is the cell 62 at offset 24 and EXIT at offset 28.  The
instruction pointer is at 28, as it is in the loop of `a` when the cell 62 has
been fetched. -/
def rewriting_vm : VM :=
  { (ts_load_string small_config 30 small_vm ": b 51 28 ! ; : a b ;".toList).state zero_block
    with pc := some 28 }

/-- A small VM after loading `: b z- z z * ; : a b ; ( 7`: the body of `b`
(word 62) is at offset 0, it grabs the top of the stack and pushes its square;
the body of `a` (word 63) is the cell 62 at offset 20 and EXIT at offset 24; 7
is on the stack.  The instruction pointer is at 24, as it is in the loop of `a`
when the cell 62 has been fetched. -/
def squaring_vm : VM :=
  { (ts_load_string small_config 30 small_vm ": b z- z z * ; : a b ; ( 7".toList).state
      zero_block with pc := some 24 }

/-! ## Integer numerals, as C writes them -/

/-- The character is a digit of the base. -/
def is_digit (base : Nat) (c : Char) : Bool :=
  match digit_value c with
  | some d => decide (d < base)
  | none => false

/-- The value of a run of digits of the base, the first digit the most
significant. -/
def digits_value (base : Nat) (ds : List Char) : Nat :=
  ds.foldl (fun acc c => acc * base + (digit_value c).getD 0) 0

/-- The integer numerals of C without a sign, and their values: `0x` or `0X`
and one hexadecimal digit or more, `0` alone or with octal digits after it, or
decimal digits of which the first is not `0`.  Written after the grammar of C,
not after the source. -/
def unsigned_numeral (t : List Char) : Option Nat :=
  match t with
  | [] => none
  | c :: r =>
    if c = '0' then
      match r with
      | [] => some 0
      | x :: ds =>
        if x = 'x' ∨ x = 'X' then
          if ds ≠ [] ∧ ds.all (is_digit 16) = true then some (digits_value 16 ds) else none
        else if (x :: ds).all (is_digit 8) = true then some (digits_value 8 (x :: ds))
        else none
    else if (c :: r).all (is_digit 10) = true then some (digits_value 10 (c :: r))
    else none

/-- The integer numerals, and their values: an unsigned numeral, or one after
the sign `+` or `-`. -/
def integer_numeral (token : List Char) : Option Int :=
  match token with
  | '-' :: t => (unsigned_numeral t).map (fun m => -(m : Int))
  | '+' :: t => (unsigned_numeral t).map (fun m => (m : Int))
  | t => (unsigned_numeral t).map (fun m => (m : Int))

/-! ## The tracer -/

theorem tracer_reads_inside (vm : VM) (word : Nat) (h : word < vm.where_) :
    tracer_reads_outside vm word = false := by
  unfold tracer_reads_outside
  cases ht : vm.tracer with
  | none => rfl
  | some t =>
    cases t with
    | ts_default_tracer => exact decide_eq_false (Nat.not_le.mpr h)
    | host verdict => rfl

theorem tracer_reads_outside_other (vm : VM) (word : Nat)
    (h : vm.tracer ≠ some .ts_default_tracer) : tracer_reads_outside vm word = false := by
  unfold tracer_reads_outside
  cases ht : vm.tracer with
  | none => rfl
  | some t =>
    cases t with
    | ts_default_tracer => exact absurd ht h
    | host verdict => rfl

theorem tracer_reads_outside_default (vm : VM) (word : Nat)
    (h : vm.tracer = some .ts_default_tracer) (hw : vm.where_ ≤ word) :
    tracer_reads_outside vm word = true := by
  unfold tracer_reads_outside
  rw [h]
  exact decide_eq_true hw

/-! ## The dictionary: lookup and install -/

theorem lookup_from_not_found (words : Nat → Word) (name : String) (n : Nat) :
    lookup_from words name n = ts_not_found ↔ ∀ j, j < n → (words j).name ≠ some name := by
  induction n with
  | zero => simp [lookup_from]
  | succ n ih =>
    unfold lookup_from
    by_cases h : (words n).name = some name
    · simp only [h, if_true]
      constructor
      · intro h0
        simp only [ts_not_found] at h0
        omega
      · intro h0
        exact absurd h (h0 n (Nat.lt_succ_self n))
    · simp only [h, if_false, ih]
      constructor
      · intro h0 j hj
        rcases Nat.lt_succ_iff_lt_or_eq.mp hj with h1 | h1
        · exact h0 j h1
        · subst h1; exact h
      · intro h0 j hj
        exact h0 j (Nat.lt_succ_of_lt hj)

theorem lookup_from_found (words : Nat → Word) (name : String) (n i : Nat) :
    lookup_from words name n = (i : Int) ↔
      i < n ∧ (words i).name = some name ∧
        ∀ j, i < j → j < n → (words j).name ≠ some name := by
  induction n with
  | zero => simp [lookup_from, ts_not_found]
  | succ n ih =>
    unfold lookup_from
    by_cases h : (words n).name = some name
    · simp only [h, if_true]
      constructor
      · intro h0
        have h1 : n = i := by exact_mod_cast h0
        subst h1
        refine ⟨Nat.lt_succ_self _, h, ?_⟩
        intro j h2 h3
        omega
      · rintro ⟨h1, _, h3⟩
        by_cases h4 : i = n
        · subst h4; rfl
        · exact absurd h (h3 n (by omega) (Nat.lt_succ_self n))
    · simp only [h, if_false, ih]
      constructor
      · rintro ⟨h1, h2, h3⟩
        refine ⟨Nat.lt_succ_of_lt h1, h2, ?_⟩
        intro j h4 h5
        rcases Nat.lt_succ_iff_lt_or_eq.mp h5 with h6 | h6
        · exact h3 j h4 h6
        · subst h6; exact h
      · rintro ⟨h1, h2, h3⟩
        have h4 : i ≠ n := by
          intro h5; subst h5; exact h h2
        refine ⟨by omega, h2, ?_⟩
        intro j h5 h6
        exact h3 j h5 (Nat.lt_succ_of_lt h6)

theorem lookup_from_congr (w1 w2 : Nat → Word) (name : String) (n : Nat)
    (h : ∀ j, j < n → (w1 j).name = (w2 j).name) :
    lookup_from w1 name n = lookup_from w2 name n := by
  induction n with
  | zero => rfl
  | succ n ih =>
    unfold lookup_from
    rw [h n (Nat.lt_succ_self n), ih (fun j hj => h j (Nat.lt_succ_of_lt hj))]

/-- C2: `ts_lookup` returns index `i` exactly when `i` is the largest index below
`where` whose entry has a non-null name equal to the given name, and it returns
`ts_not_found` exactly when no entry below `where` has that name. -/
theorem ts_lookup_newest (vm : VM) (name : String) :
    (∀ i : Nat, ts_lookup vm name = (i : Int) ↔
      i < vm.where_ ∧ (vm.words i).name = some name ∧
        ∀ j, i < j → j < vm.where_ → (vm.words j).name ≠ some name) ∧
    (ts_lookup vm name = ts_not_found ↔
      ∀ j, j < vm.where_ → (vm.words j).name ≠ some name) :=
  ⟨fun i => lookup_from_found vm.words name vm.where_ i,
   lookup_from_not_found vm.words name vm.where_⟩

/-- C3: on a dictionary that is not full `ts_install` succeeds, whatever the name,
and afterwards `ts_lookup` of that name gives the index of the new entry, the old
value of `where`, so no older entry, though still in place, is found by it. -/
theorem ts_install_shadows (K : Config) (vm : VM) (name : String)
    (action : Option Action) (datum : Int) (h : vm.where_ < K.ts_dictionary_size) :
    ∃ vm1, ts_install K vm name action datum = .ok vm1 ∧
      ts_lookup vm1 name = (vm.where_ : Int) ∧
      (∀ i : Nat, i < vm.where_ → ts_lookup vm1 name ≠ (i : Int)) ∧
      (∀ i : Nat, i < vm.where_ → vm1.words i = vm.words i) := by
  have hi : ts_install K vm name action datum
      = .ok { vm with words := Function.update vm.words vm.where_ ⟨action, datum, some name⟩,
                      where_ := vm.where_ + 1 } := by
    unfold ts_install ts_error
    rw [if_neg (by omega)]
  refine ⟨_, hi, ?_, ?_, ?_⟩
  · simp [ts_lookup, lookup_from]
  · intro i hi
    simp only [ts_lookup, lookup_from, Function.update_same, if_true]
    intro h0
    have : vm.where_ = i := by exact_mod_cast h0
    omega
  · intro i hi
    simp [Function.update_noteq (Nat.ne_of_lt hi)]

theorem ts_install_shadows_witness :
    ∃ vm1, ts_install small_config small_vm "+" (some .ts_sub) 0 = .ok vm1 ∧
      ts_lookup vm1 "+" = (small_vm.where_ : Int) ∧
      (∀ i : Nat, i < small_vm.where_ → ts_lookup vm1 "+" ≠ (i : Int)) ∧
      (∀ i : Nat, i < small_vm.where_ → vm1.words i = small_vm.words i) :=
  ts_install_shadows small_config small_vm "+" (some .ts_sub) 0 (by decide)

/-- C4: `ts_install` raises "Too many words" exactly when `where` has reached
`ts_dictionary_size`, and then the whole VM is as before; otherwise it returns
with `where` one larger, the new entry at the old index `where`, every earlier
entry unchanged, and so the same result of `ts_lookup` for any other name. -/
theorem ts_install_append_only (K : Config) (vm : VM) (name : String)
    (action : Option Action) (datum : Int) :
    (K.ts_dictionary_size ≤ vm.where_ →
      ts_install K vm name action datum = .raised "Too many words" vm) ∧
    (vm.where_ < K.ts_dictionary_size →
      ∃ vm1, ts_install K vm name action datum = .ok vm1 ∧
        vm1.where_ = vm.where_ + 1 ∧
        vm1.words vm.where_ = ⟨action, datum, some name⟩ ∧
        (∀ i : Nat, i < vm.where_ → vm1.words i = vm.words i) ∧
        (∀ other : String, other ≠ name → ts_lookup vm1 other = ts_lookup vm other)) ∧
    ((∃ m vm1, ts_install K vm name action datum = .raised m vm1) ↔
      K.ts_dictionary_size ≤ vm.where_) := by
  refine ⟨?_, ?_, ?_⟩
  · intro h
    simp [ts_install, ts_error, h]
  · intro h
    have hi : ts_install K vm name action datum
        = .ok { vm with words := Function.update vm.words vm.where_ ⟨action, datum, some name⟩,
                        where_ := vm.where_ + 1 } := by
      unfold ts_install ts_error
      rw [if_neg (by omega)]
    refine ⟨_, hi, rfl, ?_, ?_, ?_⟩
    · simp
    · intro i hi
      simp [Function.update_noteq (Nat.ne_of_lt hi)]
    · intro other hne
      have hne2 : ¬ (some name = some other) := by
        intro h0; exact hne (Option.some.inj h0).symm
      simp only [ts_lookup, lookup_from, Function.update_same, hne2, if_false]
      apply lookup_from_congr
      intro j hj
      simp [Function.update_noteq (Nat.ne_of_lt hj)]
  · unfold ts_install ts_error
    by_cases h : K.ts_dictionary_size ≤ vm.where_
    · simp [h]
    · simp [h]

theorem ts_install_append_only_witness :
    ts_install small_config { small_vm with where_ := 128 } "x" none 0
        = .raised "Too many words" { small_vm with where_ := 128 } ∧
      ∃ vm1, ts_install small_config small_vm "x" none 0 = .ok vm1 ∧
        vm1.where_ = small_vm.where_ + 1 :=
  ⟨(ts_install_append_only small_config { small_vm with where_ := 128 } "x" none 0).1
      (by decide),
   let ⟨vm1, h1, h2, _⟩ :=
     (ts_install_append_only small_config small_vm "x" none 0).2.1 (by decide)
   ⟨vm1, h1, h2⟩⟩

/-! ## The data space -/

set_option maxRecDepth 100000 in
/-- C6: `compile` does not raise when the cell it writes crosses `there`.  In
the crowded VM (`here` = 60, `there` = 62, the string "a" at 62) it returns
normally, overwrites the character at 62 and the NUL at 63, and leaves
`here` = 64 above `there`. -/
theorem compile_overruns_strings :
    crowded_vm.here = 60 ∧ crowded_vm.there = 62 ∧
    crowded_vm.data 62 = 97 ∧ crowded_vm.data 63 = 0 ∧
    ∃ vm1, compile small_config crowded_vm (-1) = .ok vm1 ∧
      vm1.data 62 = 255 ∧ vm1.data 63 = 255 ∧ vm1.here = 64 ∧ vm1.there = 62 :=
  ⟨by decide, by decide, by decide, by decide, _, rfl, by decide, by decide, by decide,
    by decide⟩

set_option maxRecDepth 100000 in
/-- C5: `here <= there` is not kept.  From states where it holds: `compile`
returns with `here` = 64 above `there` = 62; `compile` raises "Out of data space"
with `here` already moved to 64 above `there` = 62; `allot` of 100 moves `here`
to 100 above `there` = 64; `align!` moves `here` from 61 to 64 above `there` = 62. -/
theorem here_there_not_invariant :
    (crowded_vm.here ≤ crowded_vm.there ∧
      ∃ vm1, compile small_config crowded_vm 7 = .ok vm1 ∧ vm1.there < vm1.here) ∧
    (∃ vm1, compile small_config { crowded_vm with here := 61 } 7
        = .raised "Out of data space" vm1 ∧ vm1.here = 64 ∧ vm1.there = 62) ∧
    (small_vm.here ≤ small_vm.there ∧
      ∃ vm1, prim small_config .ts_allot no_word (ts_push small_vm 100) = .ok vm1 ∧
        vm1.here = 100 ∧ vm1.there = 64) ∧
    (∃ vm1, prim small_config .ts_align_bang no_word { crowded_vm with here := 61 } = .ok vm1 ∧
        vm1.here = 64 ∧ vm1.there = 62) :=
  ⟨⟨by decide, _, rfl, by decide⟩, ⟨_, rfl, by decide, by decide⟩,
   ⟨by decide, _, rfl, by decide, by decide⟩, ⟨_, rfl, by decide, by decide⟩⟩

theorem wrap32_of_cell (n : Int) (h : is_cell n) : wrap32 n = n := by
  unfold is_cell at h
  unfold wrap32
  omega

theorem wrap32_is_cell (n : Int) : is_cell (wrap32 n) := by
  unfold is_cell wrap32
  omega

theorem write_bytes_outside (bs : List Nat) (m : Memory) (a x : Int)
    (h : x < a ∨ a + bs.length ≤ x) : write_bytes m a bs x = m x := by
  induction bs generalizing m a with
  | nil => rfl
  | cons b bs ih =>
    simp only [write_bytes]
    rw [ih]
    · have : x ≠ a := by
        simp only [List.length_cons, Nat.cast_add, Nat.cast_one] at h
        omega
      simp [this]
    · simp only [List.length_cons, Nat.cast_add, Nat.cast_one] at h
      omega

theorem write_bytes_inside (bs : List Nat) (m : Memory) (a : Int) (i : Nat)
    (h : i < bs.length) : write_bytes m a bs (a + i) = bs[i] % 256 := by
  induction bs generalizing m a i with
  | nil => simp at h
  | cons b bs ih =>
    simp only [write_bytes]
    cases i with
    | zero =>
      rw [write_bytes_outside]
      · simp
      · left; simp
    | succ i =>
      have h1 : i < bs.length := by simpa using h
      have h2 : a + ((i + 1 : Nat) : Int) = (a + 1) + (i : Int) := by push_cast; ring
      rw [h2, ih _ _ _ h1]
      simp

/-- C7: for a string of bytes (shorter than 2^31 - 1, so that its size is an
`int`), `compile_string` raises "Out of string space" exactly when
`there - (len + 1) < here`, and then the VM is unchanged; otherwise it returns
the new `there`, which is the old one less `len + 1`, with the bytes of the text
and then a NUL stored from there on, and nothing else changed: not `here`, and
no byte below the new `there` or at or above the old. -/
theorem compile_string_stores (vm : VM) (text : List Nat)
    (hlen : text.length + 1 < 2147483648) (hbytes : ∀ b ∈ text, b < 256) :
    (vm.there - (text.length + 1) < vm.here →
      compile_string vm text = .error ("Out of string space", vm)) ∧
    (¬ vm.there - (text.length + 1) < vm.here →
      ∃ d, compile_string vm text
          = .ok (vm.there - (text.length + 1),
                 { vm with there := vm.there - (text.length + 1), data := d }) ∧
        (∀ i (h : i < text.length), d (vm.there - (text.length + 1) + i) = text[i]) ∧
        d (vm.there - (text.length + 1) + text.length) = 0 ∧
        (∀ x, x < vm.there - (text.length + 1) ∨ vm.there ≤ x → d x = vm.data x)) := by
  have hsize : wrap32 ((text.length : Int) + 1) = (text.length : Int) + 1 := by
    apply wrap32_of_cell
    unfold is_cell
    omega
  constructor
  · intro h
    simp only [compile_string]
    rw [if_pos (by rw [hsize]; exact h)]
  · intro h
    refine ⟨write_bytes vm.data (vm.there - (text.length + 1)) (text ++ [0]), ?_, ?_, ?_, ?_⟩
    · simp only [compile_string]
      rw [if_neg (by rw [hsize]; exact h), hsize]
    · intro i hi
      rw [write_bytes_inside _ _ _ _ (by simp; omega)]
      rw [List.getElem_append_left hi]
      exact Nat.mod_eq_of_lt (hbytes _ (List.getElem_mem hi))
    · rw [write_bytes_inside _ _ _ _ (by simp)]
      simp
    · intro x hx
      apply write_bytes_outside
      simp only [List.length_append, List.length_singleton, Nat.cast_add, Nat.cast_one]
      omega

theorem compile_string_stores_witness :
    (small_vm.there - (([104, 105] : List Nat).length + 1) < small_vm.here →
      compile_string small_vm [104, 105] = .error ("Out of string space", small_vm)) ∧
    (¬ small_vm.there - (([104, 105] : List Nat).length + 1) < small_vm.here →
      ∃ d, compile_string small_vm [104, 105]
          = .ok (small_vm.there - (([104, 105] : List Nat).length + 1),
                 { small_vm with there := small_vm.there - (([104, 105] : List Nat).length + 1),
                                 data := d }) ∧
        (∀ i (h : i < ([104, 105] : List Nat).length),
          d (small_vm.there - (([104, 105] : List Nat).length + 1) + i)
            = ([104, 105] : List Nat)[i]) ∧
        d (small_vm.there - (([104, 105] : List Nat).length + 1)
            + ([104, 105] : List Nat).length) = 0 ∧
        (∀ x, x < small_vm.there - (([104, 105] : List Nat).length + 1) ∨ small_vm.there ≤ x →
          d x = small_vm.data x)) :=
  compile_string_stores small_vm [104, 105] (by decide) (by decide)

set_option maxRecDepth 100000 in
/-- C8: the checked cell primitives reach outside the data space.  With
`ts_data_size` = 64 and the address 63 on top of the stack, `@` and `+!` and `!`
raise nothing, although bytes 64..66 are outside; `!` of -1 changes the bytes at
64, 65 and 66. -/
theorem checked_store_overruns_data :
    small_config.ts_data_size = 64 ∧
    (∃ vm1, prim small_config .ts_fetch no_word (ts_push small_vm 63) = .ok vm1) ∧
    (∃ vm1, prim small_config .ts_plus_store no_word (ts_push (ts_push small_vm 1) 63)
        = .ok vm1) ∧
    (∃ vm1, prim small_config .ts_store no_word (ts_push (ts_push small_vm (-1)) 63)
        = .ok vm1 ∧
      small_vm.data 64 = 0 ∧ vm1.data 64 = 255 ∧ vm1.data 65 = 255 ∧ vm1.data 66 = 255) :=
  ⟨rfl, ⟨_, rfl⟩, ⟨_, rfl⟩, ⟨_, rfl, by decide, by decide, by decide, by decide⟩⟩

/-! ## Division -/

theorem tdiv_is_cell (a b : Int) (ha : is_cell a) (hb0 : b ≠ 0)
    (hmin : ¬ (a = -2147483648 ∧ b = -1)) : is_cell (Int.tdiv a b) := by
  unfold is_cell at *
  have h1 : (Int.tdiv a b).natAbs = a.natAbs / b.natAbs := Int.natAbs_tdiv a b
  by_cases hb1 : b = 1
  · subst hb1
    rw [Int.tdiv_one]
    exact ha
  by_cases hb2 : b = -1
  · subst hb2
    have h2 : Int.tdiv a (-1) = -a := by
      rw [Int.tdiv_neg, Int.tdiv_one]
    rw [h2]
    omega
  · have h3 : 2 ≤ b.natAbs := by omega
    have h4 : a.natAbs / b.natAbs ≤ a.natAbs / 2 := Nat.div_le_div_left h3 (by decide)
    have h5 : a.natAbs / 2 ≤ 1073741824 := by omega
    omega

theorem tmod_is_cell (a b : Int) (ha : is_cell a) : is_cell (Int.tmod a b) := by
  unfold is_cell at *
  have h1 : 0 ≤ a → 0 ≤ Int.tmod a b := Int.tmod_nonneg b
  have h2 : 0 ≤ -a → 0 ≤ Int.tmod (-a) b := Int.tmod_nonneg b
  have h3 : Int.tmod (-a) b = -Int.tmod a b := by
    rw [Int.tmod_def, Int.tmod_def, Int.neg_tdiv]
    ring
  have h4 : Int.tmod a b + b * Int.tdiv a b = a := Int.tmod_add_tdiv a b
  have h5 : (Int.tdiv a b).natAbs = a.natAbs / b.natAbs := Int.natAbs_tdiv a b
  rcases Int.le_total 0 a with h | h
  · have h6 := h1 h
    have h7 : 0 ≤ b * Int.tdiv a b := by
      rcases Int.le_total 0 b with hb | hb
      · exact Int.mul_nonneg hb (Int.tdiv_nonneg h hb)
      · exact Int.mul_nonneg_of_nonpos_of_nonpos hb (Int.tdiv_nonpos h hb)
    omega
  · have h6 := h2 (by omega)
    have h7 : b * Int.tdiv a b ≤ 0 := by
      have h8 : Int.tdiv a b = -Int.tdiv (-a) b := by rw [Int.neg_tdiv]; ring
      rcases Int.le_total 0 b with hb | hb
      · have := Int.tdiv_nonneg (show 0 ≤ -a by omega) hb
        rw [h8]
        have := Int.mul_nonneg hb this
        linarith
      · have := Int.tdiv_nonpos (show 0 ≤ -a by omega) hb
        rw [h8]
        have := Int.mul_nonneg_of_nonpos_of_nonpos hb this
        linarith
    omega

/-- C9, as amended: with `a` the deeper and `b` the top cell, each of `/`, `mod`,
`u/` and `umod` raises "Division by 0" when `b` = 0 and leaves the whole VM, stack
and output included, as it was.  When `b` is not 0, and not `a` = -2^31 with
`b` = -1, `/` leaves the quotient of `a` by `b` truncated toward zero in the place
of `a` and `mod` the remainder `a - b * (a / b)`, whose sign follows `a`; the
stack is one cell shorter, and no other cell of it and nothing else in the VM
changes. -/
theorem division_truncates (K : Config) (vm : VM) (pw : Word) :
    (ts_INPUT vm 0 = 0 →
      prim K .ts_idiv pw vm = .raised "Division by 0" vm ∧
      prim K .ts_imod pw vm = .raised "Division by 0" vm ∧
      prim K .ts_udiv pw vm = .raised "Division by 0" vm ∧
      prim K .ts_umod pw vm = .raised "Division by 0" vm) ∧
    (is_cell (ts_INPUT vm 1) → is_cell (ts_INPUT vm 0) → ts_INPUT vm 0 ≠ 0 →
      ¬ (ts_INPUT vm 1 = -2147483648 ∧ ts_INPUT vm 0 = -1) →
      prim K .ts_idiv pw vm
        = .ok { vm with stack := Function.update vm.stack (vm.sp - 4)
                          (Int.tdiv (ts_INPUT vm 1) (ts_INPUT vm 0)),
                        sp := vm.sp - 4 } ∧
      prim K .ts_imod pw vm
        = .ok { vm with stack := Function.update vm.stack (vm.sp - 4)
                          (ts_INPUT vm 1 - ts_INPUT vm 0
                            * Int.tdiv (ts_INPUT vm 1) (ts_INPUT vm 0)),
                        sp := vm.sp - 4 } ∧
      (0 ≤ ts_INPUT vm 1 →
        0 ≤ ts_INPUT vm 1 - ts_INPUT vm 0 * Int.tdiv (ts_INPUT vm 1) (ts_INPUT vm 0)) ∧
      (ts_INPUT vm 1 ≤ 0 →
        ts_INPUT vm 1 - ts_INPUT vm 0 * Int.tdiv (ts_INPUT vm 1) (ts_INPUT vm 0) ≤ 0)) := by
  constructor
  · intro h
    simp [prim, division, ts_error, h]
  · intro ha _ h0 hmin
    have hsp : vm.sp - 4 * ((2 : Nat) : Int) + 4 = vm.sp - 4 := by push_cast; ring
    have hq := wrap32_of_cell _ (tdiv_is_cell _ _ ha h0 hmin)
    have hr := wrap32_of_cell _ (tmod_is_cell _ (ts_INPUT vm 0) ha)
    have hdef := Int.tmod_def (ts_INPUT vm 1) (ts_INPUT vm 0)
    refine ⟨?_, ?_, ?_, ?_⟩
    · simp only [prim, division, if_neg h0, binary, ts_OUTPUT_1, hsp, hq]
    · rw [← hdef]
      simp only [prim, division, if_neg h0, binary, ts_OUTPUT_1, hsp, hr]
    · intro h
      rw [← hdef]
      exact Int.tmod_nonneg _ h
    · intro h
      rw [← hdef]
      have h1 : Int.tmod (-ts_INPUT vm 1) (ts_INPUT vm 0)
          = -Int.tmod (ts_INPUT vm 1) (ts_INPUT vm 0) := by
        rw [Int.tmod_def, Int.tmod_def, Int.neg_tdiv]
        ring
      have h2 : 0 ≤ Int.tmod (-ts_INPUT vm 1) (ts_INPUT vm 0) :=
        Int.tmod_nonneg _ (by omega)
      omega

set_option maxRecDepth 100000 in
theorem division_truncates_witness :
    prim small_config .ts_idiv no_word (ts_push (ts_push small_vm 1) 0)
        = .raised "Division by 0" (ts_push (ts_push small_vm 1) 0) ∧
    prim small_config .ts_idiv no_word (ts_push (ts_push small_vm (-7)) 2)
        = .ok { ts_push (ts_push small_vm (-7)) 2 with
                  stack := Function.update (ts_push (ts_push small_vm (-7)) 2).stack
                    ((ts_push (ts_push small_vm (-7)) 2).sp - 4)
                    (Int.tdiv (ts_INPUT (ts_push (ts_push small_vm (-7)) 2) 1)
                      (ts_INPUT (ts_push (ts_push small_vm (-7)) 2) 0)),
                  sp := (ts_push (ts_push small_vm (-7)) 2).sp - 4 } ∧
    Int.tdiv (ts_INPUT (ts_push (ts_push small_vm (-7)) 2) 1)
      (ts_INPUT (ts_push (ts_push small_vm (-7)) 2) 0) = -3 :=
  ⟨((division_truncates small_config (ts_push (ts_push small_vm 1) 0) no_word).1
      (by decide)).1,
   ((division_truncates small_config (ts_push (ts_push small_vm (-7)) 2) no_word).2
      (by decide) (by decide) (by decide) (by decide)).1,
   by decide⟩

set_option maxRecDepth 100000 in
/-- C9, the claim as stated fails: with `a` = -2^31 and `b` = -1 (not 0) the
quotient truncated toward zero is 2^31, which no cell holds; `/` leaves -2^31. -/
theorem division_overflows :
    ∃ vm1, prim small_config .ts_idiv no_word
        (ts_push (ts_push small_vm (-2147483648)) (-1)) = .ok vm1 ∧
      ts_INPUT vm1 0 = -2147483648 ∧
      Int.tdiv (-2147483648) (-1) = 2147483648 ∧
      ts_INPUT vm1 0 ≠ Int.tdiv (-2147483648) (-1) :=
  ⟨_, rfl, by decide, by decide, by decide⟩

/-! ## The stack index -/

theorem install_all_sp (K : Config) (l : List (String × Option Action × Int)) (vm vm1 : VM)
    (h : install_all K l vm = .ok vm1) : vm1.sp = vm.sp := by
  induction l generalizing vm with
  | nil =>
    simp only [install_all, Result.ok.injEq] at h
    rw [← h]
  | cons e l ih =>
    obtain ⟨name, action, datum⟩ := e
    simp only [install_all, ts_install, ts_error] at h
    split_ifs at h with h1
    · simp [Result.bind] at h
    · simp only [Result.bind] at h
      rw [ih _ h]

theorem stack_pointer_of_mul (k : Int) (vm : VM) (h : vm.sp = 4 * k) : stack_pointer vm = k := by
  unfold stack_pointer
  rw [h]
  exact Int.mul_tdiv_cancel_left k (by decide)

/-- C10, as amended: a fresh VM has stack index -1.  `ts_push` and `ts_pop` check
nothing: `ts_push` raises the index by one and `ts_pop` lowers it by one from
any index, so an index within [-1, capacity) stays there after `ts_pop` when the
stack is not empty and after `ts_push` when the index is below capacity - 1. -/
theorem stack_index_unchecked (K : Config) :
    (∀ raw input output vm, ts_vm_make K raw input output = .ok vm →
      stack_pointer vm = -1 ∧ (4 : Int) ∣ vm.sp) ∧
    (∀ vm c, (4 : Int) ∣ vm.sp →
      stack_pointer (ts_push vm c) = stack_pointer vm + 1 ∧
      stack_pointer (ts_pop vm).2 = stack_pointer vm - 1 ∧
      (4 : Int) ∣ (ts_push vm c).sp ∧ (4 : Int) ∣ (ts_pop vm).2.sp ∧
      (-1 ≤ stack_pointer vm → stack_pointer vm < K.ts_stack_size →
        (0 ≤ stack_pointer vm →
          -1 ≤ stack_pointer (ts_pop vm).2 ∧ stack_pointer (ts_pop vm).2 < K.ts_stack_size) ∧
        (stack_pointer vm + 1 < K.ts_stack_size →
          -1 ≤ stack_pointer (ts_push vm c) ∧
            stack_pointer (ts_push vm c) < K.ts_stack_size))) := by
  constructor
  · intro raw input output vm h
    have h1 := install_all_sp K _ _ _ h
    simp only [ts_set_input_file_stream, ts_set_output_file_stream] at h1
    constructor
    · exact stack_pointer_of_mul (-1) vm (by rw [h1]; rfl)
    · rw [h1]; decide
  · intro vm c h
    obtain ⟨k, hk⟩ := h
    have h0 := stack_pointer_of_mul k vm hk
    have h1 : stack_pointer (ts_push vm c) = k + 1 :=
      stack_pointer_of_mul (k + 1) _ (by simp [ts_push, ts_OUTPUT_1, hk]; ring)
    have h2 : stack_pointer (ts_pop vm).2 = k - 1 :=
      stack_pointer_of_mul (k - 1) _ (by simp [ts_pop, ts_OUTPUT_0, hk]; ring)
    rw [h0, h1, h2]
    refine ⟨rfl, rfl, ?_, ?_, ?_⟩
    · exact ⟨k + 1, by simp [ts_push, ts_OUTPUT_1, hk]; ring⟩
    · exact ⟨k - 1, by simp [ts_pop, ts_OUTPUT_0, hk]; ring⟩
    · intro h3 h4
      constructor
      · intro h5
        constructor <;> omega
      · intro h5
        constructor <;> omega

set_option maxRecDepth 100000 in
/-- C10, the claim as stated fails: `ts_pop` on the empty stack of a fresh VM
raises nothing and leaves the index at -2, below -1; sixteen cells pushed on a
fresh VM whose capacity is sixteen fill the stack, and one more `ts_push` raises
nothing and leaves the index at 16, the capacity. -/
theorem stack_index_escapes :
    stack_pointer fresh_vm = -1 ∧
    stack_pointer (ts_pop fresh_vm).2 = -2 ∧
    small_config.ts_stack_size = 16 ∧
    stack_pointer (push_many 5 16 fresh_vm) = 15 ∧
    stack_pointer (ts_push (push_many 5 16 fresh_vm) 5) = 16 :=
  ⟨by decide, by decide, rfl, by decide, by decide⟩

/-! ## Compiled and immediate execution of a colon definition -/
theorem compile_recontext (K : Config) (p : Option (Option Int)) (h : Option Nat) (vm : VM)
    (c : Int) : compile K (recontext p h vm) c = (compile K vm c).map (recontext p h) := by
  simp only [compile, recontext, ts_error]
  split_ifs
  · rfl
  · cases data_cell K (cell_align vm.here) <;> rfl

theorem bind_map_recontext (r : Result) (c : VM → VM) (f : VM → Result)
    (hf : ∀ vm, f (c vm) = (f vm).map c) : (r.map c).bind f = (r.bind f).map c := by
  cases r <;> simp [Result.map, Result.bind, hf]

theorem compile_push_recontext (K : Config) (p : Option (Option Int)) (h : Option Nat) (vm : VM)
    (c : Int) :
    compile_push K (recontext p h vm) c = (compile_push K vm c).map (recontext p h) := by
  unfold compile_push
  rw [compile_recontext]
  exact bind_map_recontext _ _ _ (fun vm => compile_recontext K p h vm c)

theorem put_string_recontext (K : Config) (p : Option (Option Int)) (h : Option Nat) (vm : VM)
    (s : List Char) : put_string K (recontext p h vm) s = recontext p h (put_string K vm s) := rfl

theorem print_cells_recontext (K : Config) (p : Option (Option Int)) (h : Option Nat) (n k : Nat)
    (vm : VM) : print_cells K n k (recontext p h vm) = recontext p h (print_cells K n k vm) := by
  induction k generalizing vm with
  | zero => rfl
  | succ k ih =>
    simp only [print_cells]
    split_ifs
    · exact ih (put_decimal K (put_char K vm 32) ((put_char K vm 32).stack (4 * ((n - (k + 1) : Nat) : Int))))
    · exact ih (put_decimal K vm (vm.stack (4 * ((n - (k + 1) : Nat) : Int))))

set_option maxHeartbeats 4000000 in
theorem prim_recontext (K : Config) (a : Action) (pw : Word) (p : Option (Option Int))
    (h : Option Nat) (vm : VM)
    (ha : p = none ∨ (a ≠ .ts_do_literal ∧ a ≠ .ts_do_branch)) :
    prim K a pw (recontext p h vm) = (prim K a pw vm).map (recontext p h) := by
  cases a
  case ts_make_literal => exact compile_push_recontext K p h (ts_OUTPUT_0 1 vm) (ts_INPUT vm 0)
  case ts_comma => exact compile_recontext K p h (ts_OUTPUT_0 1 vm) (ts_INPUT vm 0)
  case ts_print_stack =>
    simp only [prim]
    have h1 : stack_pointer (recontext p h vm) = stack_pointer vm := rfl
    rw [h1, print_cells_recontext]
    rfl
  case ts_do_literal =>
    rcases ha with ha | ha
    · subst ha
      simp only [prim, recontext, Option.getD]
      cases vm.pc <;> rfl
    · exact absurd rfl ha.1
  case ts_do_branch =>
    rcases ha with ha | ha
    · subst ha
      simp only [prim, recontext, Option.getD, ts_error, ts_INPUT, ts_OUTPUT_0]
      cases vm.pc
      · rfl
      · simp only []
        split_ifs
        · cases data_cell K _ <;> rfl
        · rfl
    · exact absurd rfl ha.2
  all_goals
    simp only [prim, recontext, ts_error, binary, unary, division, ts_INPUT, ts_OUTPUT_0,
      ts_OUTPUT_1, run_void, run_int, arguments, put_char, put_decimal, put_string,
      Result.bind, Result.map, stack_pointer, data_cell]
  all_goals try rfl
  all_goals (repeat' first | rfl | split)

theorem step_call_prim (K : Config) (again : Task → VM → Result) (a : Action) (pw : Word)
    (vm : VM) (h1 : a ≠ .do_sequence) (h2 : a ≠ .ts_do_will) (h3 : a ≠ .ts_execute) :
    step K again (.call (some a) pw) vm = prim K a pw vm := by
  cases a <;> first | rfl | contradiction

theorem grab_recontext (p : Option (Option Int)) (h : Option Nat) (k i : Nat) (locals : Locals)
    (vm : VM) :
    grab k i locals (recontext p h vm)
      = ((grab k i locals vm).1, recontext p h (grab k i locals vm).2) := by
  induction k generalizing i locals vm with
  | zero => rfl
  | succ k ih =>
    simp only [grab]
    exact ih (i + 1) (Function.update locals i (some (ts_pop vm).1)) (ts_pop vm).2

theorem turn_commutes (K : Config) (again : Task → VM → Result) (ha : commutes again)
    (locals : Locals) (q : Int) (word : Nat) (h : Option Nat) (vm : VM) :
    turn K again locals q word (recontext none h vm)
      = (turn K again locals q word vm).map (recontext none h) := by
  unfold turn
  have hR : tracer_reads_outside (recontext none h vm) word
      = tracer_reads_outside vm word := rfl
  have hT : tracer_stops (recontext none h vm) word = tracer_stops vm word := rfl
  have hW : (recontext none h vm).where_ = vm.where_ := rfl
  have hD : (recontext none h vm).words = vm.words := rfl
  have hM : (recontext none h vm).data = vm.data := rfl
  rw [hR, hT, hW, hD, hM]
  by_cases c0 : tracer_reads_outside vm word = true
  · rw [if_pos c0, if_pos c0]
    rfl
  rw [if_neg c0, if_neg c0]
  split_ifs with c1 c2 c3 c4 c5 c6 c7 c8
  · rfl
  · rfl
  · cases locals (word - LOCAL0) with
    | none => rfl
    | some v => exact ha none h _ (ts_push vm v) (Or.inl rfl)
  · rw [grab_recontext]
    exact ha none h _ _ (Or.inl rfl)
  · rfl
  · simp only []
    cases data_cell K (vm.words (vm.where_ - 1)).datum <;> rfl
  · cases data_cell K (vm.words word).datum with
    | none => rfl
    | some a => exact ha none h _ { vm with pc := some a } (Or.inl rfl)
  · rw [ha none h _ vm (Or.inl rfl)]
    exact bind_map_recontext _ _ _ (fun v => ha none h _ v (Or.inl rfl))
  · rfl

theorem step_commutes (K : Config) (again : Task → VM → Result) (ha : commutes again) :
    commutes (step K again) := by
  intro p h t vm hc
  cases t with
  | call a pw =>
    cases a with
    | none => rfl
    | some a =>
      by_cases h1 : a = .do_sequence
      · subst h1
        simp only [step, do_sequence_frame]
        cases hd : data_cell K pw.datum with
        | none => rfl
        | some d =>
          simp only []
          have hX : ts_TRY { recontext p h vm with pc := some d }
              = recontext none (some (h.getD vm.handler_stack + 1))
                  (ts_TRY { vm with pc := some d }) := rfl
          rw [hX, ha none _ _ _ (Or.inl rfl)]
          cases again (.loop fresh_locals) (ts_TRY { vm with pc := some d }) <;> rfl
      by_cases h2 : a = .ts_do_will
      · subst h2
        simp only [step]
        cases hd : data_cell K pw.datum with
        | none => rfl
        | some d =>
          simp only []
          have hX : ts_push (recontext p h vm) (pw.datum + 4)
              = recontext p h (ts_push vm (pw.datum + 4)) := rfl
          have hY : (recontext p h vm).data = vm.data := rfl
          rw [hX, hY]
          apply ha
          rcases hc with hc | hc
          · exact Or.inl hc
          · exact Or.inr ⟨⟨by simp, by simp⟩, hc.2⟩
      by_cases h3 : a = .ts_execute
      · subst h3
        simp only [step, ts_run_with]
        have hR : tracer_reads_outside (ts_OUTPUT_0 1 (recontext p h vm))
              (to_unsigned (ts_INPUT (recontext p h vm) 0))
            = tracer_reads_outside (ts_OUTPUT_0 1 vm) (to_unsigned (ts_INPUT vm 0)) := rfl
        have hT : tracer_stops (ts_OUTPUT_0 1 (recontext p h vm))
              (to_unsigned (ts_INPUT (recontext p h vm) 0))
            = tracer_stops (ts_OUTPUT_0 1 vm) (to_unsigned (ts_INPUT vm 0)) := rfl
        have hI : ts_INPUT (recontext p h vm) 0 = ts_INPUT vm 0 := rfl
        have hW : (ts_OUTPUT_0 1 (recontext p h vm)).where_ = (ts_OUTPUT_0 1 vm).where_ := rfl
        have hD : (ts_OUTPUT_0 1 (recontext p h vm)).words = (ts_OUTPUT_0 1 vm).words := rfl
        have hO : ts_OUTPUT_0 1 (recontext p h vm) = recontext p h (ts_OUTPUT_0 1 vm) := rfl
        rw [hR, hT, hI, hW, hD]
        split_ifs with c0 c1 c2 c3
        · rfl
        · rfl
        · rfl
        · rw [hO]
          apply ha
          rcases hc with hc | hc
          · exact Or.inl hc
          · exact Or.inr ⟨hc.2 _ c3 (by omega), hc.2⟩
        · rfl
      · rw [step_call_prim K again a pw _ h1 h2 h3, step_call_prim K again a pw _ h1 h2 h3]
        apply prim_recontext
        rcases hc with hc | hc
        · exact Or.inl hc
        · right
          refine ⟨fun h0 => hc.1.1 (by rw [h0]), fun h0 => hc.1.2 (by rw [h0])⟩
  | loop locals =>
    have hp : p = none := by
      rcases hc with hc | hc
      · exact hc
      · exact absurd hc.1 (by simp [call_ok])
    subst hp
    simp only [step]
    have hpc : (recontext none h vm).pc = vm.pc := rfl
    rw [hpc]
    cases hq : vm.pc with
    | none => rfl
    | some q => exact turn_commutes K again ha locals q _ h { vm with pc := some (q + 4) }

theorem exec_commutes (K : Config) (n : Nat) : commutes (exec K n) := by
  induction n with
  | zero => intro p h t vm _; rfl
  | succ n ih => exact step_commutes K _ ih

theorem bind_ne_out_of_fuel (r : Result) (f : VM → Result) (h : r.bind f ≠ .out_of_fuel) :
    r ≠ .out_of_fuel := by
  intro h0
  rw [h0] at h
  exact h rfl

theorem turn_extends (K : Config) (a1 a2 : Task → VM → Result) (h12 : extends_to a1 a2)
    (locals : Locals) (q : Int) (word : Nat) (vm : VM)
    (hne : turn K a1 locals q word vm ≠ .out_of_fuel) :
    turn K a2 locals q word vm = turn K a1 locals q word vm := by
  unfold turn at hne ⊢
  by_cases c0 : tracer_reads_outside vm word = true
  · rw [if_pos c0, if_pos c0]
  rw [if_neg c0] at hne ⊢
  split_ifs at hne ⊢ with c1 c2 c3 c4 c5 c6 c7 c8
  · rfl
  · rfl
  · cases hl : locals (word - LOCAL0) with
    | none => rfl
    | some v =>
      rw [hl] at hne
      exact h12 _ _ hne
  · exact h12 _ _ hne
  · rfl
  · rfl
  · cases hd : data_cell K (vm.words word).datum with
    | none => rfl
    | some a =>
      rw [hd] at hne
      exact h12 _ _ hne
  · have h1 := bind_ne_out_of_fuel _ _ hne
    rw [h12 _ _ h1]
    cases hr : a1 (.call (vm.words word).action (vm.words word)) vm with
    | ok v =>
      rw [hr] at hne
      exact h12 _ _ hne
    | raised m v => rfl
    | undefined => rfl
    | out_of_fuel => rfl
  · rfl

theorem step_extends (K : Config) (a1 a2 : Task → VM → Result) (h12 : extends_to a1 a2) :
    extends_to (step K a1) (step K a2) := by
  intro t vm hne
  cases t with
  | call a pw =>
    cases a with
    | none => rfl
    | some a =>
      by_cases h1 : a = .do_sequence
      · subst h1
        simp only [step, do_sequence_frame] at hne ⊢
        cases hd : data_cell K pw.datum with
        | none => rfl
        | some d =>
          rw [hd] at hne
          simp only [] at hne ⊢
          have hx : a1 (.loop fresh_locals) (ts_TRY { vm with pc := some d }) ≠ .out_of_fuel := by
            intro h0
            rw [h0] at hne
            exact hne rfl
          rw [h12 _ _ hx]
      by_cases h2 : a = .ts_do_will
      · subst h2
        simp only [step] at hne ⊢
        cases hd : data_cell K pw.datum with
        | none => rfl
        | some d =>
          rw [hd] at hne
          exact h12 _ _ hne
      by_cases h3 : a = .ts_execute
      · subst h3
        simp only [step, ts_run_with] at hne ⊢
        split_ifs at hne ⊢ with c0 c1 c2 c3
        · rfl
        · rfl
        · rfl
        · exact h12 _ _ hne
        · rfl
      · rw [step_call_prim K a2 a pw _ h1 h2 h3, step_call_prim K a1 a pw _ h1 h2 h3]
  | loop locals =>
    simp only [step] at hne ⊢
    cases hq : vm.pc with
    | none => rfl
    | some q =>
      rw [hq] at hne
      exact turn_extends K a1 a2 h12 locals q _ _ hne

theorem exec_succ (K : Config) (n : Nat) : extends_to (exec K n) (exec K (n + 1)) := by
  induction n with
  | zero =>
    intro t vm hne
    exact absurd rfl hne
  | succ n ih => exact step_extends K _ _ ih

theorem exec_mono (K : Config) (n m : Nat) (hnm : n ≤ m) : extends_to (exec K n) (exec K m) := by
  induction m with
  | zero =>
    have : n = 0 := by omega
    subst this
    intro t vm _
    rfl
  | succ m ih =>
    by_cases h : n = m + 1
    · subst h
      intro t vm _
      rfl
    · intro t vm hne
      have h1 := ih (by omega) t vm hne
      rw [← h1] at hne
      rw [exec_succ K m t vm hne, h1]


theorem compile_well_formed (K : Config) (vm vm1 : VM) (c : Int)
    (h : compile K vm c = .ok vm1) (hwf : well_formed vm) : well_formed vm1 := by
  simp only [compile, ts_error] at h
  split_ifs at h
  cases hd : data_cell K (cell_align vm.here) with
  | none => rw [hd] at h; cases h
  | some a =>
    rw [hd] at h
    cases h
    exact hwf

theorem compile_push_well_formed (K : Config) (vm vm1 : VM) (c : Int)
    (h : compile_push K vm c = .ok vm1) (hwf : well_formed vm) : well_formed vm1 := by
  unfold compile_push at h
  cases h1 : compile K vm LITERAL with
  | ok v =>
    rw [h1] at h
    exact compile_well_formed K v vm1 c h (compile_well_formed K vm v _ h1 hwf)
  | raised m v => rw [h1] at h; cases h
  | undefined => rw [h1] at h; cases h
  | out_of_fuel => rw [h1] at h; cases h

theorem print_cells_well_formed (K : Config) (n k : Nat) (vm : VM) (hwf : well_formed vm) :
    well_formed (print_cells K n k vm) := by
  induction k generalizing vm with
  | zero => exact hwf
  | succ k ih =>
    simp only [print_cells]
    split_ifs
    · exact ih _ hwf
    · exact ih _ hwf

set_option maxHeartbeats 4000000 in
theorem prim_well_formed (K : Config) (a : Action) (pw : Word) (vm vm1 : VM)
    (h : prim K a pw vm = .ok vm1) (hwf : well_formed vm) : well_formed vm1 := by
  cases a
  case ts_make_literal => exact compile_push_well_formed K _ _ _ h hwf
  case ts_comma => exact compile_well_formed K _ _ _ h hwf
  case ts_start_tracing =>
    cases h
    exact ⟨hwf.1, trivial, hwf.2.2⟩
  case ts_stop_tracing =>
    cases h
    exact ⟨hwf.1, trivial, hwf.2.2⟩
  case ts_make_constant =>
    simp only [prim] at h
    split_ifs at h with h0
    cases h
    have key : ∀ (w : Word) i, i < vm.where_ → LAST_SPECIAL_PRIM < i →
        ((Function.update vm.words (vm.where_ - 1)
            { w with action := some .ts_do_push, datum := ts_INPUT vm 0 }) i).action
          ≠ some .ts_do_literal ∧
        ((Function.update vm.words (vm.where_ - 1)
            { w with action := some .ts_do_push, datum := ts_INPUT vm 0 }) i).action
          ≠ some .ts_do_branch := by
      intro w i hlt hi
      by_cases hi2 : i = vm.where_ - 1
      · subst hi2
        simp
      · rw [Function.update_noteq hi2]
        exact hwf.1 i hlt hi
    exact ⟨key _, hwf.2⟩
  case ts_print_stack =>
    cases h
    exact print_cells_well_formed K _ _ vm hwf
  all_goals
    simp only [prim, ts_error, binary, unary, division, run_void, run_int] at h
  all_goals (repeat' (first | (cases h <;> exact hwf) | split at h))

theorem grab_well_formed (k i : Nat) (locals : Locals) (vm : VM) (hwf : well_formed vm) :
    well_formed (grab k i locals vm).2 := by
  induction k generalizing i locals vm with
  | zero => exact hwf
  | succ k ih =>
    simp only [grab]
    exact ih _ _ _ hwf

theorem turn_preserves (K : Config) (again : Task → VM → Result) (ha : preserves again)
    (locals : Locals) (q : Int) (word : Nat) (vm vm1 : VM) (hwf : well_formed vm)
    (h : turn K again locals q word vm = .ok vm1) : well_formed vm1 := by
  unfold turn at h
  by_cases c0 : tracer_reads_outside vm word = true
  · rw [if_pos c0] at h
    cases h
  rw [if_neg c0] at h
  split_ifs at h with c1 c2 c3 c4 c5 c6 c7 c8
  · cases h; exact hwf
  · cases h; exact hwf
  · cases hl : locals (word - LOCAL0) with
    | none => rw [hl] at h; cases h
    | some v =>
      rw [hl] at h
      exact ha (.loop locals) (ts_push vm v) vm1 hwf h
  · exact ha _ _ _ (grab_well_formed _ _ _ _ hwf) h
  · simp only [] at h
    cases hd : data_cell K (vm.words (vm.where_ - 1)).datum with
    | none => rw [hd] at h; cases h
    | some a =>
      rw [hd] at h
      cases h
      have key : ∀ (w : Word) i, i < vm.where_ → LAST_SPECIAL_PRIM < i →
          ((Function.update vm.words (vm.where_ - 1)
              { w with action := some .ts_do_will }) i).action ≠ some .ts_do_literal ∧
          ((Function.update vm.words (vm.where_ - 1)
              { w with action := some .ts_do_will }) i).action ≠ some .ts_do_branch := by
        intro w i hlt hi
        by_cases hi2 : i = vm.where_ - 1
        · subst hi2
          simp
        · rw [Function.update_noteq hi2]
          exact hwf.1 i hlt hi
      exact ⟨key _, hwf.2⟩
  · cases hd : data_cell K (vm.words word).datum with
    | none => rw [hd] at h; cases h
    | some a =>
      rw [hd] at h
      exact ha (.loop locals) { vm with pc := some a } vm1 hwf h
  · cases hr : again (.call (vm.words word).action (vm.words word)) vm with
    | ok v =>
      rw [hr] at h
      exact ha _ _ _ (ha _ _ _ hwf hr) h
    | raised m v => rw [hr] at h; cases h
    | undefined => rw [hr] at h; cases h
    | out_of_fuel => rw [hr] at h; cases h
  · cases h

theorem step_preserves (K : Config) (again : Task → VM → Result) (ha : preserves again) :
    preserves (step K again) := by
  intro t vm vm1 hwf h
  cases t with
  | call a pw =>
    cases a with
    | none => cases h
    | some a =>
      by_cases h1 : a = .do_sequence
      · subst h1
        simp only [step, do_sequence_frame] at h
        cases hd : data_cell K pw.datum with
        | none => rw [hd] at h; cases h
        | some d =>
          rw [hd] at h
          simp only [] at h
          cases hr : again (.loop fresh_locals) (ts_TRY { vm with pc := some d }) with
          | ok v =>
            rw [hr] at h
            cases h
            have h5 : well_formed v :=
              ha _ _ v (show well_formed (ts_TRY { vm with pc := some d }) from hwf) hr
            exact h5
          | raised m v => rw [hr] at h; cases h
          | undefined => rw [hr] at h; cases h
          | out_of_fuel => rw [hr] at h; cases h
      by_cases h2 : a = .ts_do_will
      · subst h2
        simp only [step] at h
        cases hd : data_cell K pw.datum with
        | none => rw [hd] at h; cases h
        | some d =>
          rw [hd] at h
          exact ha _ (ts_push vm (pw.datum + 4)) vm1 hwf h
      by_cases h3 : a = .ts_execute
      · subst h3
        simp only [step, ts_run_with] at h
        split_ifs at h with c0 c1 c2 c3
        · cases h; exact hwf
        · cases h
        · exact ha _ (ts_OUTPUT_0 1 vm) vm1 hwf h
        · cases h
      · rw [step_call_prim K again a pw _ h1 h2 h3] at h
        exact prim_well_formed K a pw vm vm1 h hwf
  | loop locals =>
    simp only [step] at h
    cases hq : vm.pc with
    | none => rw [hq] at h; cases h
    | some q =>
      rw [hq] at h
      exact turn_preserves K again ha locals q _ _ vm1
        (show well_formed { vm with pc := some (q + 4) } from hwf) h

theorem exec_preserves (K : Config) (n : Nat) : preserves (exec K n) := by
  induction n with
  | zero => intro t vm vm1 _ h; cases h
  | succ n ih => exact step_preserves K _ ih


theorem tracer_stops_false (vm : VM) (word : Nat) (h : never_stops vm.tracer) :
    tracer_stops vm word = false := by
  unfold tracer_stops
  cases ht : vm.tracer with
  | none => rfl
  | some t =>
    cases t with
    | ts_default_tracer => rfl
    | host verdict =>
      rw [ht] at h
      exact h _ _

theorem body_at_suffix (m : Memory) (d : Int) (pre ws : List Nat)
    (h : body_at m d (pre ++ ws)) : body_at m (d + 4 * pre.length) ws := by
  induction pre generalizing d with
  | nil => simpa using h
  | cons w pre ih =>
    have h1 := ih (d + 4) h.2
    have h2 : d + 4 + 4 * (pre.length : Int) = d + 4 * ((w :: pre).length : Int) := by
      simp only [List.length_cons, Nat.cast_add, Nat.cast_one]
      ring
    rw [← h2]
    exact h1

theorem do_sequence_frame_eq (K : Config) (loop : VM → Result) (pw : Word) (vm : VM) (d : Int)
    (hd : data_cell K pw.datum = some d) :
    do_sequence_frame K loop pw vm
      = (loop (recontext (some (some d)) (some (vm.handler_stack + 1)) vm)).map
          (recontext (some vm.pc) (some vm.handler_stack)) := by
  unfold do_sequence_frame
  rw [hd]
  simp only []
  have hX : ts_TRY { vm with pc := some d }
      = recontext (some (some d)) (some (vm.handler_stack + 1)) vm := rfl
  rw [hX]
  cases loop (recontext (some (some d)) (some (vm.handler_stack + 1)) vm) <;> rfl

theorem call_keeps_context (K : Config) (n : Nat) (a : Option Action) (pw : Word) (vm : VM)
    (ha : a ≠ some .ts_do_literal ∧ a ≠ some .ts_do_branch) (hd : dict_ok vm) :
    (exec K n (.call a pw) vm).map (recontext (some vm.pc) (some vm.handler_stack))
      = exec K n (.call a pw) vm := by
  have h := exec_commutes K n (some vm.pc) (some vm.handler_stack) (.call a pw) vm
    (Or.inr ⟨ha, hd⟩)
  have h1 : recontext (some vm.pc) (some vm.handler_stack) vm = vm := rfl
  rw [h1] at h
  exact h.symm

theorem bind_ok (r : Result) : r.bind .ok = r := by
  cases r <;> rfl

theorem recontext_recontext (p p1 : Option Int) (h h1 : Nat) (vm : VM) :
    recontext (some p) (some h) (recontext (some p1) (some h1) vm)
      = recontext (some p) (some h) vm := rfl

theorem map_map_recontext (p p1 : Option Int) (h h1 : Nat) (r : Result) :
    (r.map (recontext (some p1) (some h1))).map (recontext (some p) (some h))
      = r.map (recontext (some p) (some h)) := by
  cases r <;> rfl


theorem to_unsigned_lt (n : Int) : to_unsigned n < 4294967296 := by
  unfold to_unsigned
  omega

theorem to_unsigned_cast (w : Nat) (h : w < 4294967296) : to_unsigned (w : Int) = w := by
  unfold to_unsigned
  omega

theorem turn_plain_word (K : Config) (again : Task → VM → Result) (locals : Locals) (q : Int)
    (w : Nat) (vm : VM) (hq : never_stops vm.tracer) (h12 : LAST_SPECIAL_PRIM < w)
    (hw : w < 4294967296) (hr : tracer_reads_outside vm w = false) :
    turn K again locals q w vm =
      if w < vm.where_ then
        if (vm.words w).action = some .do_sequence ∧ read_cell vm.data (q + 4) = EXIT then
          match data_cell K (vm.words w).datum with
          | none => ts_error vm range_message
          | some a => again (.loop locals) { vm with pc := some a }
        else
          (again (.call (vm.words w).action (vm.words w)) vm).bind (again (.loop locals))
      else ts_error vm "Invoked an undefined word, #%d" := by
  unfold turn
  have h1 : tracer_stops vm w = false := tracer_stops_false vm w hq
  have h2 : ¬ w = EXIT := by
    simp only [LAST_SPECIAL_PRIM, DO_WILL, EXIT] at *
    omega
  have h3 : ¬ unsigned_sub w LOCAL0 < max_locals := by
    simp only [LAST_SPECIAL_PRIM, DO_WILL, unsigned_sub, LOCAL0, max_locals] at *
    omega
  have h4 : ¬ unsigned_sub w GRAB1 < max_locals := by
    simp only [LAST_SPECIAL_PRIM, DO_WILL, unsigned_sub, GRAB1, max_locals] at *
    omega
  have h5 : ¬ w = WILL := by
    simp only [LAST_SPECIAL_PRIM, DO_WILL, WILL] at *
    omega
  rw [hr, h1]
  simp only [Bool.false_eq_true, if_false, h2, h3, h4, h5]

theorem ts_run_plain_word (K : Config) (fuel : Nat) (vm : VM) (w : Nat)
    (hq : never_stops vm.tracer) (h12 : LAST_SPECIAL_PRIM < w) (hw : w < 4294967296)
    (hr : tracer_reads_outside vm w = false) :
    ts_run K fuel vm w =
      if w < vm.where_ then exec K fuel (.call (vm.words w).action (vm.words w)) vm
      else ts_error vm "Invoked an undefined word, #%d" := by
  unfold ts_run ts_run_with
  rw [to_unsigned_cast w hw, hr, tracer_stops_false vm w hq]
  have h2 : ¬ w ≤ LAST_SPECIAL_PRIM := by omega
  simp only [Bool.false_eq_true, if_false, h2]

theorem turn_reads_outside (K : Config) (again : Task → VM → Result) (locals : Locals)
    (q : Int) (w : Nat) (vm : VM) (hr : tracer_reads_outside vm w = true) :
    turn K again locals q w vm = .undefined := by
  unfold turn
  rw [if_pos hr]

theorem ts_run_reads_outside (K : Config) (fuel : Nat) (vm : VM) (w : Int)
    (hr : tracer_reads_outside vm (to_unsigned w) = true) :
    ts_run K fuel vm w = .undefined := by
  unfold ts_run ts_run_with
  rw [if_pos hr]


theorem loop_refines (K : Config) (fuel : Nat) (d : Int) (body : List Nat) :
    ∀ (ws pre : List Nat) (S : VM) (F : Nat),
      body = pre ++ ws →
      (∀ w ∈ ws, LAST_SPECIAL_PRIM < w) →
      well_formed S →
      undisturbed K fuel d body ws S →
      fuel + ws.length + 1 ≤ F →
      run_words K fuel ws S ≠ .out_of_fuel →
      (exec K F (.loop fresh_locals)
          (recontext (some (some (d + 4 * pre.length))) (some (S.handler_stack + 1)) S)).map
          (recontext (some S.pc) (some S.handler_stack))
        = run_words K fuel ws S := by
  intro ws
  induction ws with
  | nil =>
    intro pre S F hb _ hwf hk hF _
    obtain ⟨F1, rfl⟩ : ∃ F1, F = F1 + 1 := ⟨F - 1, by omega⟩
    have hbody : body_at S.data d body := hk
    rw [hb] at hbody
    have h0 : read_cell S.data (d + 4 * pre.length) = 0 := body_at_suffix _ _ _ _ hbody
    have hstep : exec K (F1 + 1) (.loop fresh_locals)
          (recontext (some (some (d + 4 * pre.length))) (some (S.handler_stack + 1)) S)
        = turn K (exec K F1) fresh_locals (d + 4 * pre.length)
            (to_unsigned (read_cell S.data (d + 4 * pre.length)))
            (recontext (some (some (d + 4 * pre.length + 4))) (some (S.handler_stack + 1)) S) :=
      rfl
    rw [hstep, h0]
    have hz : to_unsigned 0 = EXIT := rfl
    rw [hz]
    unfold turn
    have c0 : tracer_reads_outside (recontext (some (some (d + 4 * pre.length + 4)))
        (some (S.handler_stack + 1)) S) EXIT = false := tracer_reads_inside _ _ hwf.2.2
    rw [c0, if_neg (by simp)]
    by_cases c1 : tracer_stops (recontext (some (some (d + 4 * pre.length + 4)))
        (some (S.handler_stack + 1)) S) EXIT = true
    · rw [if_pos c1]
      rfl
    · rw [if_neg c1, if_pos rfl]
      rfl
  | cons w ws ih =>
    intro pre S F hb hws hwf hk hF hne
    obtain ⟨F1, rfl⟩ : ∃ F1, F = F1 + 1 := ⟨F - 1, by omega⟩
    have hF1 : fuel + ws.length + 1 ≤ F1 := by
      simp only [List.length_cons] at hF
      omega
    have hbody : body_at S.data d body := hk.1
    rw [hb] at hbody
    have hsuf := body_at_suffix _ _ _ _ hbody
    have hw0 : to_unsigned (read_cell S.data (d + 4 * pre.length)) = w := hsuf.1
    have hw12 : LAST_SPECIAL_PRIM < w := hws w (List.mem_cons_self _ _)
    have hw32 : w < 4294967296 := by rw [← hw0]; exact to_unsigned_lt _
    have hstep : exec K (F1 + 1) (.loop fresh_locals)
          (recontext (some (some (d + 4 * pre.length))) (some (S.handler_stack + 1)) S)
        = turn K (exec K F1) fresh_locals (d + 4 * pre.length)
            (to_unsigned (read_cell S.data (d + 4 * pre.length)))
            (recontext (some (some (d + 4 * pre.length + 4))) (some (S.handler_stack + 1)) S) :=
      rfl
    rw [hstep, hw0]
    by_cases hro : tracer_reads_outside S w = true
    · rw [turn_reads_outside K _ _ _ w _ (show tracer_reads_outside (recontext
        (some (some (d + 4 * pre.length + 4))) (some (S.handler_stack + 1)) S) w = true
        from hro)]
      simp only [run_words]
      rw [ts_run_reads_outside K fuel S w (by rw [to_unsigned_cast w hw32]; exact hro)]
      rfl
    have hro : tracer_reads_outside S w = false := by
      cases hx : tracer_reads_outside S w with
      | false => rfl
      | true => exact absurd hx hro
    rw [turn_plain_word K (exec K F1) fresh_locals (d + 4 * pre.length) w
      (recontext (some (some (d + 4 * pre.length + 4))) (some (S.handler_stack + 1)) S)
      hwf.2.1 hw12 hw32 hro]
    have hrun := ts_run_plain_word K fuel S w hwf.2.1 hw12 hw32 hro
    simp only [run_words] at hne ⊢
    rw [hrun] at hne ⊢
    have hwh : (recontext (some (some (d + 4 * pre.length + 4))) (some (S.handler_stack + 1))
        S).where_ = S.where_ := rfl
    have hwd : (recontext (some (some (d + 4 * pre.length + 4))) (some (S.handler_stack + 1))
        S).words = S.words := rfl
    have hdt : (recontext (some (some (d + 4 * pre.length + 4))) (some (S.handler_stack + 1))
        S).data = S.data := rfl
    rw [hwh, hwd, hdt]
    by_cases hin : w < S.where_
    · simp only [if_pos hin] at hne ⊢
      have hne1 : exec K fuel (.call (S.words w).action (S.words w)) S ≠ .out_of_fuel :=
        bind_ne_out_of_fuel _ _ hne
      have hact : (S.words w).action ≠ some .ts_do_literal ∧
          (S.words w).action ≠ some .ts_do_branch := hwf.1 w hin hw12
      by_cases htail : (S.words w).action = some .do_sequence ∧
          read_cell S.data (d + 4 * pre.length + 4) = EXIT
      · -- the tail call: the body of the last word runs in this invocation
        rw [if_pos htail]
        have hws0 : ws = [] := by
          cases ws with
          | nil => rfl
          | cons w2 ws2 =>
            exfalso
            have h2 : to_unsigned (read_cell S.data (d + 4 * pre.length + 4)) = w2 := hsuf.2.1
            have h3 : LAST_SPECIAL_PRIM < w2 :=
              hws w2 (List.mem_cons_of_mem _ (List.mem_cons_self _ _))
            rw [htail.2] at h2
            have h4 : to_unsigned ((EXIT : Nat) : Int) = 0 := rfl
            rw [h4] at h2
            rw [← h2] at h3
            exact absurd h3 (by decide)
        subst hws0
        simp only [run_words]
        rw [bind_ok]
        rw [htail.1] at hne1 ⊢
        cases fuel with
        | zero => exact absurd rfl hne1
        | succ f =>
          have hcall : exec K (f + 1) (.call (some .do_sequence) (S.words w)) S
              = do_sequence_frame K (exec K f (.loop fresh_locals)) (S.words w) S := rfl
          rw [hcall] at hne1 ⊢
          cases hd : data_cell K (S.words w).datum with
          | none =>
            simp only [do_sequence_frame, hd]
            rfl
          | some b =>
            rw [do_sequence_frame_eq K _ _ _ b hd] at hne1 ⊢
            simp only [hd]
            have hne2 : exec K f (.loop fresh_locals)
                (recontext (some (some b)) (some (S.handler_stack + 1)) S) ≠ .out_of_fuel := by
              intro h0
              rw [h0] at hne1
              exact hne1 rfl
            have hmono := exec_mono K f F1 (by omega) _ _ hne2
            rw [← hmono]
            rfl
      · rw [if_neg htail]
        have hcomm := exec_commutes K F1 (some (some (d + 4 * pre.length + 4)))
          (some (S.handler_stack + 1)) (.call (S.words w).action (S.words w)) S
          (Or.inr ⟨hact, hwf.1⟩)
        have hmono := exec_mono K fuel F1 (by omega) _ _ hne1
        have hkeep := call_keeps_context K fuel (S.words w).action (S.words w) S hact hwf.1
        rw [hcomm, hmono]
        cases hr : exec K fuel (.call (S.words w).action (S.words w)) S with
        | ok T =>
          rw [hr] at hne hkeep
          simp only [Result.map, Result.bind] at hne hkeep ⊢
          have hT : recontext (some S.pc) (some S.handler_stack) T = T := by
            injection hkeep
          have hTpc : T.pc = S.pc := by
            have := congrArg VM.pc hT
            exact this.symm
          have hTh : T.handler_stack = S.handler_stack := by
            have := congrArg VM.handler_stack hT
            exact this.symm
          have hrunT : ts_run K fuel S w = .ok T := by
            rw [hrun, if_pos hin, hr]
          have hkT : undisturbed K fuel d body ws T := by
            have h5 := hk.2
            rw [hrunT] at h5
            exact h5
          have hih := ih (pre ++ [w]) T F1 (by rw [hb]; simp)
            (fun w2 h2 => hws w2 (List.mem_cons_of_mem _ h2))
            (exec_preserves K fuel _ S T hwf hr) hkT hF1 hne
          have hlen : d + 4 * ((pre ++ [w]).length : Int) = d + 4 * (pre.length : Int) + 4 := by
            simp only [List.length_append, List.length_singleton, Nat.cast_add, Nat.cast_one]
            ring
          rw [hlen, hTpc, hTh] at hih
          exact hih
        | raised m T =>
          rw [hr] at hkeep
          simp only [Result.map, Result.bind] at hkeep ⊢
          have hT : recontext (some S.pc) (some S.handler_stack) T = T := by
            injection hkeep
          rw [recontext_recontext, hT]
        | undefined => rfl
        | out_of_fuel => exact absurd hr hne1
    · simp only [if_neg hin]
      rfl

theorem read_write_cell_same (m : Memory) (a c : Int) :
    read_cell (write_cell m a c) a = wrap32 c := by
  have h1 : ¬ (a + 1 = a) := by omega
  have h2 : ¬ (a + 2 = a) := by omega
  have h3 : ¬ (a + 3 = a) := by omega
  have h4 : ¬ (a + 2 = a + 1) := by omega
  have h5 : ¬ (a + 3 = a + 1) := by omega
  have h6 : ¬ (a + 3 = a + 2) := by omega
  simp only [read_cell, write_cell, if_true, h1, h2, h3, h4, h5, h6, if_false]
  have hu := to_unsigned_lt c
  have hc : ((to_unsigned c : Nat) : Int) = c % 4294967296 := by
    unfold to_unsigned
    omega
  generalize to_unsigned c = u at hu hc
  unfold wrap32
  omega

theorem read_write_cell_other (m : Memory) (a b c : Int) (h : b + 4 ≤ a ∨ a + 4 ≤ b) :
    read_cell (write_cell m a c) b = read_cell m b := by
  have e : ∀ x, (x = b ∨ x = b + 1 ∨ x = b + 2 ∨ x = b + 3) → write_cell m a c x = m x := by
    intro x hx
    unfold write_cell
    rw [if_neg (by omega), if_neg (by omega), if_neg (by omega), if_neg (by omega)]
  unfold read_cell
  rw [e b (by simp), e (b + 1) (by simp), e (b + 2) (by simp), e (b + 3) (by simp)]

theorem compile_aligned (K : Config) (vm vm1 : VM) (c : Int)
    (hK : K.ts_data_size ≤ 2147483644) (hpos : 0 ≤ vm.here) (hcell : vm.here < 2147483648)
    (hal : vm.here % 4 = 0) (h : compile K vm c = .ok vm1) :
    vm.here + 4 ≤ K.ts_data_size + 3 ∧ vm1.here = vm.here + 4 ∧
      vm1.data = write_cell vm.data vm.here c := by
  have ha : cell_align vm.here = vm.here := by
    unfold cell_align wrap32
    omega
  simp only [compile, ts_error, ha, data_cell, data_byte] at h
  split_ifs at h with c1 c2
  have hu : (to_unsigned vm.here : Int) = vm.here := by
    unfold to_unsigned
    omega
  have hw : wrap32 (vm.here + 4) = vm.here + 4 := by
    unfold wrap32
    omega
  cases h
  refine ⟨by omega, hw, rfl⟩

/-- Compiling the words `ws` in order and then EXIT, from a cell boundary `here`,
leaves them in the cells from `here` on, inside the data space, and changes no
cell below. -/
theorem compile_words_body (K : Config) (hK : K.ts_data_size ≤ 2147483644) (ws : List Nat) :
    ∀ (vm vm1 : VM), 0 ≤ vm.here → vm.here < 2147483648 → vm.here % 4 = 0 →
      (∀ w ∈ ws, w < 4294967296) → compile_words K ws vm = .ok vm1 →
      body_at vm1.data vm.here ws ∧ to_unsigned vm.here < K.ts_data_size ∧
        ∀ b, b + 4 ≤ vm.here → read_cell vm1.data b = read_cell vm.data b := by
  induction ws with
  | nil =>
    intro vm vm1 hpos hcell hal _ h
    simp only [compile_words] at h
    have h0 : compile K vm 0 = .ok vm1 := h
    obtain ⟨h1, _, h3⟩ := compile_aligned K vm vm1 _ hK hpos hcell hal h0
    have hr : to_unsigned vm.here < K.ts_data_size := by
      simp only [compile, ts_error, data_cell, data_byte] at h0
      have ha : cell_align vm.here = vm.here := by
        unfold cell_align wrap32
        omega
      rw [ha] at h0
      split_ifs at h0 with c1 c2
      omega
    refine ⟨?_, hr, ?_⟩
    · show read_cell vm1.data vm.here = 0
      rw [h3, read_write_cell_same]
      rfl
    · intro b hb
      rw [h3, read_write_cell_other _ _ _ _ (Or.inl hb)]
  | cons w ws ih =>
    intro vm vm1 hpos hcell hal hws h
    simp only [compile_words] at h
    cases hc : compile K vm w with
    | ok v =>
      rw [hc] at h
      simp only [Result.bind] at h
      obtain ⟨h1, h2, h3⟩ := compile_aligned K vm v _ hK hpos hcell hal hc
      have hr : to_unsigned vm.here < K.ts_data_size := by
        simp only [compile, ts_error, data_cell, data_byte] at hc
        have ha : cell_align vm.here = vm.here := by
          unfold cell_align wrap32
          omega
        rw [ha] at hc
        split_ifs at hc with c1 c2
        omega
      obtain ⟨i1, _, i3⟩ := ih v vm1 (by omega) (by omega) (by omega)
        (fun w2 hw2 => hws w2 (List.mem_cons_of_mem _ hw2)) h
      rw [h2] at i1 i3
      refine ⟨⟨?_, i1⟩, hr, ?_⟩
      · rw [i3 vm.here (by omega), h3, read_write_cell_same]
        have hw := hws w (List.mem_cons_self _ _)
        unfold to_unsigned wrap32
        omega
      · intro b hb
        rw [i3 b (by omega), h3, read_write_cell_other _ _ _ _ (Or.inl hb)]
    | raised m v => rw [hc] at h; cases h
    | undefined => rw [hc] at h; cases h
    | out_of_fuel => rw [hc] at h; cases h

theorem install_all_fields (K : Config) (l : List (String × Option Action × Int)) :
    ∀ (vm vm1 : VM), install_all K l vm = .ok vm1 →
      vm1.where_ = vm.where_ + l.length ∧ vm1.tracer = vm.tracer := by
  induction l with
  | nil =>
    intro vm vm1 h
    simp only [install_all, Result.ok.injEq] at h
    subst h
    exact ⟨rfl, rfl⟩
  | cons e l ih =>
    intro vm vm1 h
    obtain ⟨name, action, datum⟩ := e
    simp only [install_all, ts_install, ts_error] at h
    split_ifs at h with h1
    · simp [Result.bind] at h
    · simp only [Result.bind] at h
      obtain ⟨i1, i2⟩ := ih _ vm1 h
      refine ⟨?_, i2⟩
      rw [i1]
      simp only [List.length_cons]
      omega

theorem install_all_dict_ok (K : Config) (l : List (String × Option Action × Int)) :
    ∀ (vm vm1 : VM), install_all K l vm = .ok vm1 →
      (∀ e ∈ l, e.2.1 ≠ some .ts_do_literal ∧ e.2.1 ≠ some .ts_do_branch) →
      dict_ok vm → dict_ok vm1 := by
  induction l with
  | nil =>
    intro vm vm1 h _ hd
    simp only [install_all, Result.ok.injEq] at h
    subst h
    exact hd
  | cons e l ih =>
    intro vm vm1 h hl hd
    obtain ⟨name, action, datum⟩ := e
    simp only [install_all, ts_install, ts_error] at h
    split_ifs at h with h1
    · simp [Result.bind] at h
    · simp only [Result.bind] at h
      have he := hl (name, action, datum) (List.mem_cons_self _ _)
      refine ih _ vm1 h (fun e he => hl e (List.mem_cons_of_mem _ he)) ?_
      intro i hi h12
      show ((Function.update vm.words vm.where_ (Word.mk action datum (some name))) i).action
            ≠ some .ts_do_literal ∧
          ((Function.update vm.words vm.where_ (Word.mk action datum (some name))) i).action
            ≠ some .ts_do_branch
      by_cases hi2 : i = vm.where_
      · subst hi2
        simpa using he
      · rw [Function.update_noteq hi2]
        have hi3 : i < vm.where_ := by
          have : i < vm.where_ + 1 := hi
          omega
        exact hd i hi3 h12

/-- A VM made by `ts_vm_make`, with or without the standard words installed, is
well formed. -/
theorem made_well_formed (K : Config) (raw : VM) (input : List (List Char))
    (output : List Char) (vm : VM) (h : ts_vm_make K raw input output = .ok vm) :
    well_formed vm ∧
      ∀ vm1, ts_install_standard_words K vm = .ok vm1 → well_formed vm1 := by
  obtain ⟨hw, ht0⟩ := install_all_fields K _ _ _ h
  have hd : dict_ok vm := by
    intro i hi h12
    rw [hw] at hi
    have h13 : i < 13 := hi
    have : 12 < i := h12
    omega
  have ht : never_stops vm.tracer := by
    rw [ht0]
    trivial
  have hx : EXIT < vm.where_ := by
    rw [hw]
    exact (by decide : EXIT < 13)
  refine ⟨⟨hd, ht, hx⟩, ?_⟩
  intro vm1 h1
  refine ⟨install_all_dict_ok K standard_words vm vm1 h1 (by decide) hd, ?_, ?_⟩
  · rw [(install_all_fields K _ _ _ h1).2]
    exact ht
  · rw [(install_all_fields K _ _ _ h1).1]
    exact Nat.lt_of_lt_of_le hx (Nat.le_add_right _ _)

theorem finished_ne (r : Result) (h : r.finished) : r ≠ .out_of_fuel := by
  intro h0
  rw [h0] at h
  exact h

/-- C1, as amended: take a well-formed VM whose data space holds, from the datum
of the Sequence word `pw` on, the cells of non-reserved words `ws` and then EXIT,
as compiling them in order leaves them.  If the words, run one after another in
immediate mode, never overwrite those cells, then invoking the Sequence ends
exactly as running the words in immediate mode does: the same outcome (return
or the same error) in the same state of the whole VM, stack included; enough
fuel for the immediate run, and a little more, is enough for the invocation. -/
theorem colon_definition_refines (K : Config) (vm : VM) (pw : Word) (ws : List Nat)
    (fuel : Nat)
    (hrange : to_unsigned pw.datum < K.ts_data_size)
    (hwords : ∀ w ∈ ws, LAST_SPECIAL_PRIM < w)
    (hwf : well_formed vm)
    (hkeep : undisturbed K fuel pw.datum ws ws vm)
    (hfuel : (run_words K fuel ws vm).finished) :
    do_sequence K (fuel + ws.length + 2) pw vm = run_words K fuel ws vm := by
  have hd : data_cell K pw.datum = some pw.datum := by
    unfold data_cell data_byte
    rw [if_neg (by omega)]
  have h1 : do_sequence K (fuel + ws.length + 2) pw vm
      = do_sequence_frame K (exec K (fuel + ws.length + 1) (.loop fresh_locals)) pw vm := rfl
  rw [h1, do_sequence_frame_eq K _ pw vm pw.datum hd]
  have h2 := loop_refines K fuel pw.datum ws ws [] vm (fuel + ws.length + 1) rfl hwords hwf
    hkeep (Nat.le_refl _) (finished_ne _ hfuel)
  simp only [List.length_nil, Nat.cast_zero, mul_zero, add_zero] at h2
  exact h2

set_option maxRecDepth 100000 in
theorem colon_definition_refines_witness :
    colon_vm.words 62 = ⟨some .do_sequence, 0, some "bar"⟩ ∧
    do_sequence small_config (1 + ([55, 58] : List Nat).length + 2) (colon_vm.words 62) colon_vm
      = run_words small_config 1 [55, 58] colon_vm ∧
    stack_list ((run_words small_config 1 [55, 58] colon_vm).state zero_block) = [12] :=
  ⟨by decide,
   colon_definition_refines small_config colon_vm (colon_vm.words 62) [55, 58] 1
     (by decide) (by decide) ⟨by unfold dict_ok; decide, trivial, by decide⟩ (by decide)
     (by decide),
   by decide⟩

set_option maxRecDepth 100000 in
/-- C1, the claim as stated fails: in a VM with the standard words, `: foo ! 1+ ;`
is compiled at address 0 (word 62; `!` is word 37, `1+` word 55, `1-` word 56), and
the stack holds 7, 56, 4.  Invoked as a Sequence, `!` stores 56 over the second
cell of the body, which then runs `1-` and leaves 6; run in immediate mode, `!`
and then `1+` leave 8. -/
theorem colon_definition_self_modifying :
    self_modifying_vm.words 62 = ⟨some .do_sequence, 0, some "foo"⟩ ∧
    (∀ w ∈ ([37, 55] : List Nat), LAST_SPECIAL_PRIM < w ∧ w < self_modifying_vm.where_) ∧
    body_at self_modifying_vm.data 0 [37, 55] ∧
    stack_list self_modifying_vm = [7, 56, 4] ∧
    ∃ vm1 vm2,
      do_sequence small_config 10 (self_modifying_vm.words 62) self_modifying_vm = .ok vm1 ∧
      run_words small_config 10 [37, 55] self_modifying_vm = .ok vm2 ∧
      stack_list vm1 = [6] ∧ stack_list vm2 = [8] :=
  ⟨by decide, by decide, by decide, by decide, _, _, rfl, rfl, by decide, by decide⟩

/-! ## Comparisons -/

theorem wrap32_flag (b : Bool) : wrap32 (flag b) = flag b := by
  cases b <;> rfl

/-- C11: the comparison primitives `=`, `<`, `u<`, `0<` and `0=` return normally
and replace their operands (two for `=`, `<`, `u<`, with y the deeper cell and z
the top; one, z, for `0<` and `0=`) by the one cell -1 when the relation holds
and 0 when it does not: `=` tests y = z, `<` tests y < z on the signed values,
`u<` tests y < z on the values taken modulo 2^32, `0<` tests z < 0 and `0=`
tests z = 0.  Every cell of the stack below the operands and every other part
of the state stay as they were. -/
theorem comparisons_push_flags (K : Config) (pw : Word) (vm : VM) :
    prim K .ts_eq pw vm
        = .ok { vm with stack := Function.update vm.stack (vm.sp - 4)
                                   (if vm.stack (vm.sp - 4) = vm.stack vm.sp then -1 else 0),
                        sp := vm.sp - 4 } ∧
      prim K .ts_lt pw vm
        = .ok { vm with stack := Function.update vm.stack (vm.sp - 4)
                                   (if vm.stack (vm.sp - 4) < vm.stack vm.sp then -1 else 0),
                        sp := vm.sp - 4 } ∧
      prim K .ts_ult pw vm
        = .ok { vm with stack := Function.update vm.stack (vm.sp - 4)
                                   (if vm.stack (vm.sp - 4) % 4294967296
                                        < vm.stack vm.sp % 4294967296 then -1 else 0),
                        sp := vm.sp - 4 } ∧
      prim K .ts_is_negative pw vm
        = .ok { vm with stack := Function.update vm.stack vm.sp
                                   (if vm.stack vm.sp < 0 then -1 else 0) } ∧
      prim K .ts_is_zero pw vm
        = .ok { vm with stack := Function.update vm.stack vm.sp
                                   (if vm.stack vm.sp = 0 then -1 else 0) } := by
  have e2 : vm.sp - 4 * ((2 : Nat) : Int) + 4 = vm.sp - 4 := by omega
  have e1 : vm.sp - 4 * ((1 : Nat) : Int) + 4 = vm.sp := by omega
  have e0 : vm.sp - 4 * ((0 : Nat) : Int) = vm.sp := by omega
  have e1k : vm.sp - 4 * ((1 : Nat) : Int) = vm.sp - 4 := by omega
  have hu : (to_unsigned (vm.stack (vm.sp - 4)) < to_unsigned (vm.stack vm.sp))
      ↔ vm.stack (vm.sp - 4) % 4294967296 < vm.stack vm.sp % 4294967296 := by
    unfold to_unsigned
    omega
  have w1 : wrap32 (-1) = -1 := by unfold wrap32; omega
  have w0 : wrap32 0 = 0 := by unfold wrap32; omega
  refine ⟨?_, ?_, ?_, ?_, ?_⟩
  · simp only [prim, binary, ts_OUTPUT_1, ts_INPUT, wrap32_flag, e2, e0, e1k, flag]
    by_cases h : vm.stack (vm.sp - 4) = vm.stack vm.sp <;> simp [h, w1, w0]
  · simp only [prim, binary, ts_OUTPUT_1, ts_INPUT, wrap32_flag, e2, e0, e1k, flag]
    by_cases h : vm.stack (vm.sp - 4) < vm.stack vm.sp <;> simp [h, w1, w0]
  · simp only [prim, binary, ts_OUTPUT_1, ts_INPUT, wrap32_flag, e2, e0, e1k, flag]
    by_cases h : vm.stack (vm.sp - 4) % 4294967296 < vm.stack vm.sp % 4294967296
    · simp [h, hu.2 h, w1, w0]
    · have h2 : ¬ (to_unsigned (vm.stack (vm.sp - 4)) < to_unsigned (vm.stack vm.sp)) :=
        fun x => h (hu.1 x)
      simp [h, h2, w1, w0]
  · simp only [prim, unary, ts_OUTPUT_1, ts_INPUT, wrap32_flag, e1, e0, flag]
    by_cases h : vm.stack vm.sp < 0 <;> simp [h, w1, w0]
  · simp only [prim, unary, ts_OUTPUT_1, ts_INPUT, wrap32_flag, e1, e0, flag]
    by_cases h : vm.stack vm.sp = 0
    · simp [h, w1, w0]
    · have h2 : ¬ (0 = vm.stack vm.sp) := fun x => h x.symm
      simp [h, h2, w1, w0]

/-! ## The frame of `do_sequence` -/

theorem do_sequence_frame_outcome (K : Config) (loop : VM → Result) (pw : Word) (vm : VM) :
    (∀ vm1, do_sequence_frame K loop pw vm = .ok vm1 →
        vm1.pc = vm.pc ∧ vm1.handler_stack = vm.handler_stack) ∧
      (∀ m vm1, do_sequence_frame K loop pw vm = .raised m vm1 →
        vm1.pc = vm.pc ∧ vm1.handler_stack = vm.handler_stack) := by
  unfold do_sequence_frame
  cases data_cell K pw.datum with
  | none =>
    simp only [ts_error]
    refine ⟨fun vm1 h => (by cases h), fun m vm1 h => ?_⟩
    cases h
    exact ⟨rfl, rfl⟩
  | some a =>
    simp only
    cases loop (ts_TRY { vm with pc := some a }) with
    | ok vm2 =>
      refine ⟨fun vm1 h => ?_, fun m vm1 h => by cases h⟩
      cases h
      exact ⟨rfl, rfl⟩
    | raised m2 vm2 =>
      refine ⟨fun vm1 h => (by cases h), fun m vm1 h => ?_⟩
      cases h
      exact ⟨rfl, rfl⟩
    | undefined => exact ⟨fun vm1 h => (by cases h), fun m vm1 h => by cases h⟩
    | out_of_fuel => exact ⟨fun vm1 h => (by cases h), fun m vm1 h => by cases h⟩

/-- C14: an invocation of `do_sequence` that returns (after EXIT, WILL or a stop
by the tracer) leaves `vm->pc` and the handler stack as they were on entry; one
that raises leaves `vm->pc` as it was on entry, with its own frame popped, so
that the handler on top is the enclosing one; and an error raised anywhere in
its loop, whatever the loop did before (tail calls included), is raised again
by the invocation with the same message, in the state the error left, but for
`vm->pc` and the popped frame. -/
theorem do_sequence_restores_pc (K : Config) (fuel : Nat) (pw : Word) (vm : VM) :
    (∀ vm1, do_sequence K fuel pw vm = .ok vm1 →
        vm1.pc = vm.pc ∧ vm1.handler_stack = vm.handler_stack) ∧
      (∀ m vm1, do_sequence K fuel pw vm = .raised m vm1 →
        vm1.pc = vm.pc ∧ vm1.handler_stack = vm.handler_stack) ∧
      (∀ a m vm2, data_cell K pw.datum = some a →
        exec K fuel (.loop fresh_locals) (ts_TRY { vm with pc := some a }) = .raised m vm2 →
        do_sequence K (fuel + 1) pw vm
          = .raised m { vm2 with pc := vm.pc, handler_stack := vm.handler_stack }) := by
  refine ⟨?_, ?_, ?_⟩
  · cases fuel with
    | zero => intro vm1 h; cases h
    | succ n => exact (do_sequence_frame_outcome K _ pw vm).1
  · cases fuel with
    | zero => intro m vm1 h; cases h
    | succ n => exact (do_sequence_frame_outcome K _ pw vm).2
  · intro a m vm2 ha h
    show do_sequence_frame K (exec K fuel (.loop fresh_locals)) pw vm = _
    unfold do_sequence_frame
    simp only [ha, h]
    rfl
set_option maxRecDepth 100000 in
theorem do_sequence_restores_pc_witness :
    ∃ vm1, do_sequence small_config 5 (failing_vm.words 63) failing_vm
        = .raised "Division by 0" vm1 ∧ vm1.pc = some 40 ∧ vm1.handler_stack = 2 := by
  have hr : (do_sequence small_config 5 (failing_vm.words 63) failing_vm).raises
      "Division by 0" = true := by decide!
  cases h : do_sequence small_config 5 (failing_vm.words 63) failing_vm with
  | raised m vm1 =>
    rw [h] at hr
    simp only [Result.raises, decide_eq_true_eq] at hr
    subst hr
    exact ⟨vm1, rfl,
      (do_sequence_restores_pc small_config 5 (failing_vm.words 63) failing_vm).2.1 _ _ h⟩
  | ok vm1 => rw [h] at hr; cases hr
  | undefined => rw [h] at hr; cases hr
  | out_of_fuel => rw [h] at hr; cases hr

/-! ## Literals -/

theorem compile_cell (K : Config) (vm vm1 : VM) (c : Int) (hK : K.ts_data_size ≤ 2147483644)
    (h : compile K vm c = .ok vm1) :
    0 ≤ cell_align vm.here ∧ cell_align vm.here < K.ts_data_size ∧
      cell_align vm.here % 4 = 0 ∧ vm1.here = cell_align vm.here + 4 ∧
      vm1 = { vm with data := write_cell vm.data (cell_align vm.here) c,
                      here := cell_align vm.here + 4 } := by
  have hal : cell_align vm.here % 4 = 0 := by
    unfold cell_align wrap32
    omega
  have hc : is_cell (cell_align vm.here) := wrap32_is_cell _
  unfold is_cell at hc
  simp only [compile, ts_error, data_cell, data_byte] at h
  split_ifs at h with h1 h2
  simp only [Result.ok.injEq] at h
  have hr : to_unsigned (cell_align vm.here) < K.ts_data_size := by omega
  have hpos : 0 ≤ cell_align vm.here := by
    unfold to_unsigned at hr
    omega
  have hlt : cell_align vm.here < K.ts_data_size := by
    unfold to_unsigned at hr
    omega
  have hw : wrap32 (cell_align vm.here + 4) = cell_align vm.here + 4 := by
    unfold wrap32
    omega
  rw [hw] at h
  subst h
  exact ⟨hpos, hlt, hal, rfl, rfl⟩

theorem cell_align_of_aligned (a : Int) (h0 : 0 ≤ a) (h1 : a < 2147483648) (h4 : a % 4 = 0) :
    cell_align a = a := by
  unfold cell_align wrap32
  omega

/-- C12: for every 32-bit cell n, `compile_push (n)`, when it returns, has
stored the cells LITERAL and n at the first cell boundary a at or after `here`
and left `here` at a + 8; the word `#` is `compile_push` of the cell it pops; and
in any state where these two cells are at a and a + 4, a turn of the loop of
`do_sequence` with the instruction pointer at a pushes exactly n, changes no
other cell of the stack, and goes on with the instruction pointer at a + 8, past
both cells.  (The data space is taken to be addressable by an `int`; word 1 is
LITERAL as `ts_vm_make` installs it, and the tracer does not stop the run.) -/
theorem literal_round_trip (K : Config) (vm vm1 : VM) (n : Int)
    (hn : is_cell n) (hK : K.ts_data_size ≤ 2147483644)
    (hc : compile_push K vm n = .ok vm1) :
    read_cell vm1.data (cell_align vm.here) = LITERAL ∧
      read_cell vm1.data (cell_align vm.here + 4) = n ∧
      vm1.here = cell_align vm.here + 8 ∧
      (∀ pw vm0, prim K .ts_make_literal pw vm0
          = compile_push K { vm0 with sp := vm0.sp - 4 } (vm0.stack vm0.sp)) ∧
      ∀ (S : VM) (a : Int) (locals : Locals) (fuel : Nat),
        read_cell S.data a = LITERAL → read_cell S.data (a + 4) = n →
        (S.words LITERAL).action = some .ts_do_literal → LITERAL < S.where_ →
        never_stops S.tracer → S.pc = some a →
        exec K (fuel + 2) (.loop locals) S
          = exec K (fuel + 1) (.loop locals)
              { S with stack := Function.update S.stack (S.sp + 4) n, sp := S.sp + 4,
                       pc := some (a + 8) } := by
  have e1 : ∃ v, compile K vm LITERAL = .ok v ∧ compile K v n = .ok vm1 := by
    unfold compile_push at hc
    cases h : compile K vm LITERAL with
    | ok v => rw [h] at hc; exact ⟨v, rfl, hc⟩
    | raised m v => rw [h] at hc; cases hc
    | undefined => rw [h] at hc; cases hc
    | out_of_fuel => rw [h] at hc; cases hc
  obtain ⟨v, h1, h2⟩ := e1
  obtain ⟨p0, p1, p2, p3, p4⟩ := compile_cell K vm v _ hK h1
  obtain ⟨q0, q1, q2, q3, q4⟩ := compile_cell K v vm1 _ hK h2
  have ha : cell_align v.here = cell_align vm.here + 4 := by
    rw [p3]
    exact cell_align_of_aligned _ (by omega) (by omega) (by omega)
  rw [ha] at q1 q3 q4
  have hv : v.data = write_cell vm.data (cell_align vm.here) LITERAL := by rw [p4]
  refine ⟨?_, ?_, ?_, ?_, ?_⟩
  · rw [q4]
    show read_cell (write_cell v.data _ n) _ = _
    rw [read_write_cell_other _ _ _ _ (Or.inl (le_refl _)), hv, read_write_cell_same]
    rfl
  · rw [q4]
    show read_cell (write_cell v.data _ n) _ = _
    rw [read_write_cell_same, wrap32_of_cell n hn]
  · rw [q3]
    omega
  · intro pw vm0
    have e : vm0.sp - 4 * ((1 : Nat) : Int) = vm0.sp - 4 := by omega
    have e0 : vm0.sp - 4 * ((0 : Nat) : Int) = vm0.sp := by omega
    simp only [prim, ts_OUTPUT_0, ts_INPUT, e, e0]
  · intro S a locals fuel c1 c2 hw hlt ht hpc
    have hts : ∀ w, tracer_stops { S with pc := some (a + 4) } w = false :=
      fun w => tracer_stops_false _ w ht
    have hu : to_unsigned (read_cell S.data a) = LITERAL := by
      rw [c1]
      rfl
    show step K (exec K (fuel + 1)) (.loop locals) S = _
    simp only [step, hpc, hu]
    unfold turn
    rw [tracer_reads_inside { S with pc := some (a + 4) } LITERAL hlt, hts]
    have x1 : ¬ (LITERAL = EXIT) := by decide
    have x2 : ¬ (unsigned_sub LITERAL LOCAL0 < max_locals) := by decide
    have x3 : ¬ (unsigned_sub LITERAL GRAB1 < max_locals) := by decide
    have x4 : ¬ (LITERAL = WILL) := by decide
    simp only [Bool.false_eq_true, if_false, x1, x2, x3, x4, hlt, if_true, hw]
    rw [if_neg (by rintro ⟨h, _⟩; cases h)]
    show (step K (exec K fuel) (.call (some .ts_do_literal) _) _).bind _ = _
    rw [step_call_prim K _ _ _ _ (by decide) (by decide) (by decide)]
    have e8 : a + 4 + 4 = a + 8 := by omega
    have e0 : S.sp - 4 * ((0 : Nat) : Int) + 4 = S.sp + 4 := by omega
    have c2x : read_cell ({ S with pc := some (a + 4) } : VM).data (a + 4) = n := c2
    simp only [prim, Result.bind, ts_OUTPUT_1, c2x, wrap32_of_cell n hn, e8, e0]

theorem state_of_returns (r : Result) (fallback : VM) (h : r.returns = true) :
    r = .ok (r.state fallback) := by
  cases r with
  | ok vm => rfl
  | raised m vm => cases h
  | undefined => cases h
  | out_of_fuel => cases h

set_option maxRecDepth 100000 in
theorem literal_round_trip_witness :
    is_cell (-8388608) ∧ small_config.ts_data_size ≤ 2147483644 ∧
      read_cell literal_vm.data (cell_align small_vm.here) = LITERAL ∧
      read_cell literal_vm.data (cell_align small_vm.here + 4) = -8388608 ∧
      literal_vm.here = cell_align small_vm.here + 8 :=
  have t := literal_round_trip small_config small_vm literal_vm (-8388608)
    ⟨by decide, by decide⟩ (by decide) (state_of_returns _ small_vm (by decide!))
  ⟨⟨by decide, by decide⟩, by decide, t.1, t.2.1, t.2.2.1⟩

/-! ## Dispatch -/

theorem dispatch_plain (K : Config) (fuel : Nat) (vm : VM) (token : List Char)
    (hp : plain_token token = true) :
    dispatch K fuel vm token =
      if vm.mode = '\'' then
        if ts_lookup vm (String.mk token) = ts_not_found then ts_error vm "%s ?\n"
        else .ok (ts_push vm (ts_lookup vm (String.mk token)))
      else if vm.mode = ':' then
        (ts_install K vm (String.mk token) (some .do_sequence) vm.here).bind
          (fun vm1 => .ok { vm1 with mode := ')' })
      else if ts_lookup vm (String.mk token) ≠ ts_not_found then
        if vm.mode = '(' then ts_run K fuel vm (ts_lookup vm (String.mk token))
        else compile K vm (ts_lookup vm (String.mk token))
      else
        match parse_number K token with
        | some value => push_or_compile K vm value
        | none => ts_error vm "%s ?\n" := by
  simp only [plain_token, Bool.not_eq_true', Bool.or_eq_false_iff, decide_eq_false_iff_not] at hp
  obtain ⟨⟨⟨⟨⟨⟨⟨h1, h2⟩, h3⟩, h4⟩, h5⟩, h6⟩, h7⟩, h8⟩ := hp
  unfold dispatch
  simp only [h1, h2, h3, h4, h5, h6, h7, h8, if_false, or_self]

theorem not_found_ne (i : Nat) : (i : Int) ≠ ts_not_found := by
  unfold ts_not_found
  omega

/-- C18: `dispatch` of a plain token that names dictionary word i.  In Run mode
`(` it does what `ts_run` of i does and nothing else.  In compile mode `)` it
does what `compile` of i does: when that returns, the cell i is stored at the
first cell boundary at or after `here`, `here` is just past it, and the stack
and everything else are unchanged, so the word was not executed.  In Quote
mode it returns with the index i pushed and nothing else changed.  (The data
space is taken to be addressable by an `int`.) -/
theorem dispatch_word_by_mode (K : Config) (fuel : Nat) (vm : VM) (token : List Char) (i : Nat)
    (hp : plain_token token = true) (hi : ts_lookup vm (String.mk token) = i)
    (hK : K.ts_data_size ≤ 2147483644) :
    (vm.mode = '(' → dispatch K fuel vm token = ts_run K fuel vm i) ∧
      (vm.mode = ')' →
        dispatch K fuel vm token = compile K vm i ∧
          ∀ vm1, compile K vm i = .ok vm1 →
            vm1 = { vm with data := write_cell vm.data (cell_align vm.here) i,
                            here := cell_align vm.here + 4 } ∧
              read_cell vm1.data (cell_align vm.here) = wrap32 i) ∧
      (vm.mode = '\'' → dispatch K fuel vm token = .ok (ts_push vm i)) := by
  have hne := not_found_ne i
  rw [dispatch_plain K fuel vm token hp, hi]
  refine ⟨fun hm => ?_, fun hm => ⟨?_, fun vm1 h => ?_⟩, fun hm => ?_⟩
  · simp [hm, hne]
  · simp [hm, hne]
  · obtain ⟨_, _, _, _, e⟩ := compile_cell K vm vm1 _ hK h
    refine ⟨e, ?_⟩
    rw [e]
    exact read_write_cell_same _ _ _
  · simp [hm, hne]

set_option maxRecDepth 100000 in
theorem dispatch_word_by_mode_witness :
    plain_token ['+'] = true ∧ ts_lookup { small_vm with mode := '\'' } (String.mk ['+']) = 19 ∧
      dispatch small_config 1 { small_vm with mode := '\'' } ['+']
        = .ok (ts_push { small_vm with mode := '\'' } 19) :=
  ⟨by decide, by decide!,
    (dispatch_word_by_mode small_config 1 { small_vm with mode := '\'' } ['+'] 19 (by decide)
      (by decide!) (by decide)).2.2 rfl⟩

/-- C20: `dispatch` of `:` only sets the mode to `:`; `dispatch` of a plain
token t in that mode, whether or not t names a word or is a numeral, returns
(the dictionary having room) with one new entry at the end of the dictionary,
named t, with `do_sequence` as its action and the current `here` as its datum,
and with the mode set to `)`; the data space, `here` and the stack are as they
were, and t now names the new entry. -/
theorem colon_installs_sequence (K : Config) (fuel : Nat) (vm : VM) (token : List Char)
    (hp : plain_token token = true) (hroom : vm.where_ < K.ts_dictionary_size) :
    dispatch K fuel vm [':'] = .ok { vm with mode := ':' } ∧
      dispatch K fuel { vm with mode := ':' } token
        = .ok { vm with words := Function.update vm.words vm.where_
                                   (Word.mk (some .do_sequence) vm.here (some (String.mk token))),
                        where_ := vm.where_ + 1, mode := ')' } ∧
      ts_lookup { vm with words := Function.update vm.words vm.where_
                                     (Word.mk (some .do_sequence) vm.here (some (String.mk token))),
                          where_ := vm.where_ + 1, mode := ')' } (String.mk token)
        = vm.where_ := by
  refine ⟨?_, ?_, ?_⟩
  · unfold dispatch
    simp
  · rw [dispatch_plain K fuel _ token hp]
    have h : ¬ (K.ts_dictionary_size ≤ vm.where_) := by omega
    simp [ts_install, h, Result.bind]
  · unfold ts_lookup
    rw [lookup_from_found]
    refine ⟨by simp, by simp, fun j h1 h2 => ?_⟩
    simp only at h2
    omega

set_option maxRecDepth 100000 in
theorem colon_installs_sequence_witness :
    plain_token ['1'] = true ∧ small_vm.where_ < small_config.ts_dictionary_size ∧
      ts_lookup small_vm (String.mk ['1']) = 51 ∧
      dispatch small_config 1 { small_vm with mode := ':' } ['1']
        = .ok { small_vm with
                  words := Function.update small_vm.words small_vm.where_
                             (Word.mk (some .do_sequence) small_vm.here (some (String.mk ['1']))),
                  where_ := small_vm.where_ + 1, mode := ')' } :=
  ⟨by decide, by decide!, by decide!,
    (colon_installs_sequence small_config 1 small_vm ['1'] (by decide) (by decide!)).2.1⟩

/-! ## Numerals -/

theorem digit_value_digitChar (k : Nat) (h : k < 10) : digit_value (Nat.digitChar k) = some k := by
  interval_cases k <;> rfl

theorem scan_digits_cons (k : Nat) (h : k < 10) (ds : List Char) (acc : Nat) :
    scan_digits 10 (Nat.digitChar k :: ds) acc = scan_digits 10 ds (acc * 10 + k) := by
  simp only [scan_digits, digit_value_digitChar k h, h, if_true]

theorem scan_digits_toDigitsCore (fuel : Nat) :
    ∀ (n : Nat) (ds : List Char), n < fuel →
      scan_digits 10 (Nat.toDigitsCore 10 fuel n ds) 0 = scan_digits 10 ds n := by
  induction fuel with
  | zero => intro n ds h; omega
  | succ fuel ih =>
    intro n ds h
    unfold Nat.toDigitsCore
    by_cases h0 : n / 10 = 0
    · simp only [h0, if_true]
      rw [scan_digits_cons _ (Nat.mod_lt _ (by decide))]
      congr 1
      omega
    · simp only [h0, if_false]
      rw [ih (n / 10) _ (by omega), scan_digits_cons _ (Nat.mod_lt _ (by decide))]
      congr 1
      omega

theorem toDigitsCore_head (fuel : Nat) :
    ∀ (n : Nat) (ds : List Char), 0 < n → n < fuel →
      ∃ k r, 0 < k ∧ k < 10 ∧ Nat.toDigitsCore 10 fuel n ds = Nat.digitChar k :: r := by
  induction fuel with
  | zero => intro n ds _ h; omega
  | succ fuel ih =>
    intro n ds hpos h
    unfold Nat.toDigitsCore
    by_cases h0 : n / 10 = 0
    · simp only [h0, if_true]
      exact ⟨n % 10, ds, by omega, by omega, rfl⟩
    · simp only [h0, if_false]
      exact ih (n / 10) _ (by omega) (by omega)

theorem repr_toList (m : Nat) : (Nat.repr m).toList = Nat.toDigits 10 m := rfl

theorem integer_subject_decimal (m : Nat) :
    integer_subject (Nat.repr m).toList = some (false, m, []) ∧
      integer_subject ('-' :: (Nat.repr m).toList) = some (true, m, []) := by
  rw [repr_toList]
  by_cases hm : m = 0
  · subst hm
    exact ⟨by decide, by decide⟩
  · obtain ⟨k, r, hk0, hk, he⟩ := toDigitsCore_head (m + 1) m [] (by omega) (by omega)
    have hs : scan_digits 10 (Nat.digitChar k :: r) 0 = (m, []) := by
      rw [← he, scan_digits_toDigitsCore (m + 1) m [] (by omega)]
      rfl
    unfold Nat.toDigits
    rw [he]
    interval_cases k <;>
      (simp [integer_subject, split_sign, radix_subject, digits_of, starts_with_digit, digit_value, isspace, Nat.digitChar,
        List.dropWhile] at hs ⊢
       exact hs)

theorem decimal_ne_nil (n : Int) : decimal n ≠ [] := by
  unfold decimal
  split_ifs with h
  · simp
  · rw [repr_toList]
    by_cases h0 : n.toNat = 0
    · rw [h0]
      decide
    · obtain ⟨k, r, _, _, he⟩ := toDigitsCore_head (n.toNat + 1) n.toNat [] (by omega) (by omega)
      unfold Nat.toDigits
      rw [he]
      simp

theorem parse_number_decimal (K : Config) (n : Int) (hn : is_cell n) :
    parse_number K (decimal n) = some n := by
  unfold is_cell at hn
  have hne := decimal_ne_nil n
  have hs : strtol (decimal n) = (n, [], false) := by
    unfold strtol decimal
    split_ifs with h
    · rw [(integer_subject_decimal n.natAbs).2]
      have e : -((n.natAbs : Nat) : Int) = n := by omega
      simp only [if_true, e]
      rw [if_neg (by omega), if_neg (by omega)]
    · rw [(integer_subject_decimal n.toNat).1]
      have e : ((n.toNat : Nat) : Int) = n := by omega
      simp only [Bool.false_eq_true, if_false, e]
      rw [if_neg (by omega), if_neg (by omega)]
  unfold parse_number
  rw [if_neg hne, hs]
  simp

theorem parse_number_unsigned (K : Config) (u : Nat) (h1 : 2147483648 ≤ u)
    (h2 : u < 4294967296) :
    parse_number K (Nat.repr u).toList = some ((u : Int) - 4294967296) := by
  have hne : (Nat.repr u).toList ≠ [] := by
    have h := decimal_ne_nil (u : Int)
    unfold decimal at h
    rw [if_neg (by omega)] at h
    exact h
  have hs : strtol (Nat.repr u).toList = (2147483647, [], true) := by
    unfold strtol
    rw [(integer_subject_decimal u).1]
    simp only [Bool.false_eq_true, if_false]
    rw [if_pos (by omega)]
  have hu : strtoul (Nat.repr u).toList = (u, [], false) := by
    unfold strtoul
    rw [(integer_subject_decimal u).1]
    simp only [Bool.false_eq_true, if_false]
    rw [if_neg (by omega)]
  have hw : wrap32 (u : Int) = (u : Int) - 4294967296 := by
    unfold wrap32
    omega
  unfold parse_number
  rw [if_neg hne, hs, hu]
  simp [hw]

theorem starts_with_digit_false (base : Nat) (hb : base ≤ 10) (t : List Char)
    (h : ∀ c ∈ t, ¬ ('0' ≤ c ∧ c ≤ '9')) : starts_with_digit base t = false := by
  cases t with
  | nil => rfl
  | cons c r =>
    have hc := h c (List.mem_cons_self _ _)
    unfold starts_with_digit
    simp only [digit_value, hc, if_false]
    split_ifs with h1 h2
    · simp only [decide_eq_false_iff_not, not_lt]
      have : 97 ≤ c.toNat := h1.1
      omega
    · simp only [decide_eq_false_iff_not, not_lt]
      have : 65 ≤ c.toNat := h2.1
      omega
    · rfl

theorem integer_subject_no_digit (token : List Char)
    (h : ∀ c ∈ token, ¬ ('0' ≤ c ∧ c ≤ '9')) : integer_subject token = none := by
  have hs : ∀ c ∈ token.dropWhile isspace, ¬ ('0' ≤ c ∧ c ≤ '9') :=
    fun c hc => h c ((List.dropWhile_sublist _).subset hc)
  have hsg : ∀ s : List Char, (∀ c ∈ s, ¬ ('0' ≤ c ∧ c ≤ '9')) →
      ∀ c ∈ (split_sign s).2, ¬ ('0' ≤ c ∧ c ≤ '9') := by
    intro s h1
    unfold split_sign
    split
    · exact fun c hc => h1 c (List.mem_cons_of_mem _ hc)
    · exact fun c hc => h1 c (List.mem_cons_of_mem _ hc)
    · exact h1
  have key : ∀ (sign : Bool) (t : List Char), (∀ c ∈ t, ¬ ('0' ≤ c ∧ c ≤ '9')) →
      radix_subject sign t = none := by
    intro sign t ht
    unfold radix_subject
    split
    · exact absurd (by decide) (ht '0' (List.mem_cons_self _ _))
    · exact absurd (by decide) (ht '0' (List.mem_cons_self _ _))
    · unfold digits_of
      rw [starts_with_digit_false 10 (le_refl _) _ ht]
      rfl
  exact key _ _ (hsg _ hs)

theorem parse_number_no_digit (K : Config) (token : List Char)
    (h : ∀ c ∈ token, ¬ ('0' ≤ c ∧ c ≤ '9')) (hf : K.float_literal token = none) :
    parse_number K token = none := by
  unfold parse_number strtol strtoul
  rw [integer_subject_no_digit token h]
  split_ifs with h0 h1
  · rfl
  · exact hf
  · exact absurd (Or.inl h0) h1

theorem plain_token_decimal (n : Int) : plain_token (decimal n) = true := by
  unfold decimal
  split_ifs with h
  · rfl
  · rw [repr_toList]
    by_cases h0 : n.toNat = 0
    · rw [h0]
      decide
    · obtain ⟨k, r, hk0, hk, he⟩ :=
        toDigitsCore_head (n.toNat + 1) n.toNat [] (by omega) (by omega)
      unfold Nat.toDigits
      rw [he]
      interval_cases k <;> rfl

theorem scan_digits_all (base : Nat) (t : List Char) :
    ∀ acc : Nat, t.all (is_digit base) = true →
      scan_digits base t acc
        = (t.foldl (fun a c => a * base + (digit_value c).getD 0) acc, []) := by
  induction t with
  | nil => intro acc _; rfl
  | cons c r ih =>
    intro acc h
    simp only [List.all_cons, Bool.and_eq_true] at h
    obtain ⟨h1, h2⟩ := h
    unfold is_digit at h1
    cases hd : digit_value c with
    | none => rw [hd] at h1; cases h1
    | some d =>
      rw [hd] at h1
      have hlt : d < base := of_decide_eq_true h1
      simp only [scan_digits, hd, hlt, if_true, List.foldl_cons, Option.getD_some]
      exact ih _ h2

theorem scan_digits_not_all (base : Nat) (t : List Char) :
    ∀ acc : Nat, t.all (is_digit base) = false → (scan_digits base t acc).2 ≠ [] := by
  induction t with
  | nil => intro acc h; cases h
  | cons c r ih =>
    intro acc h
    simp only [List.all_cons, Bool.and_eq_false_iff] at h
    cases hd : digit_value c with
    | none => simp [scan_digits, hd]
    | some d =>
      by_cases hlt : d < base
      · simp only [scan_digits, hd, hlt, if_true]
        rcases h with h | h
        · unfold is_digit at h
          rw [hd] at h
          have h1 : decide (d < base) = false := h
          rw [decide_eq_true hlt] at h1
          cases h1
        · exact ih _ h
      · simp [scan_digits, hd, hlt]

theorem starts_with_digit_cons (base : Nat) (c : Char) (r : List Char) :
    starts_with_digit base (c :: r) = is_digit base c := by
  simp only [starts_with_digit, is_digit]

/-- What `digits_of` finds, when the whole text is to be a numeral. -/
theorem digits_of_whole (neg : Bool) (base : Nat) (c : Char) (r : List Char) :
    ((c :: r).all (is_digit base) = true ∧
        digits_of neg base (c :: r) = some (neg, digits_value base (c :: r), [])) ∨
      ((c :: r).all (is_digit base) = false ∧
        ∀ n m, digits_of neg base (c :: r) ≠ some (n, m, [])) := by
  cases h : (c :: r).all (is_digit base) with
  | true =>
    left
    refine ⟨rfl, ?_⟩
    have h1 : is_digit base c = true := by
      simp only [List.all_cons, Bool.and_eq_true] at h
      exact h.1
    unfold digits_of
    rw [starts_with_digit_cons, h1, if_pos rfl, scan_digits_all base _ 0 h]
    rfl
  | false =>
    right
    refine ⟨rfl, ?_⟩
    intro n m
    unfold digits_of
    split_ifs
    · intro e
      simp only [Option.some.injEq, Prod.mk.injEq] at e
      exact scan_digits_not_all base _ 0 h e.2.2
    · intro e
      cases e

theorem radix_subject_zero (neg : Bool) :
    radix_subject neg ['0'] = some (neg, 0, []) := rfl

theorem radix_subject_zero_cons (neg : Bool) (x : Char) (r : List Char) :
    radix_subject neg ('0' :: x :: r)
      = if (x = 'x' || x = 'X') && starts_with_digit 16 r then digits_of neg 16 r
        else digits_of neg 8 ('0' :: x :: r) := rfl

theorem radix_subject_other (neg : Bool) (c : Char) (r : List Char) (h : c ≠ '0') :
    radix_subject neg (c :: r) = digits_of neg 10 (c :: r) := by
  unfold radix_subject
  split
  · rename_i e
    simp only [List.cons.injEq] at e
    exact absurd e.1 h
  · rename_i e
    simp only [List.cons.injEq] at e
    exact absurd e.1 h
  · rfl

theorem digits_of_nil (neg : Bool) (base : Nat) : digits_of neg base [] = none := rfl

/-- The text is a numeral for `radix_subject`, all of it, just when it is an
unsigned numeral of C, and the magnitudes agree. -/
theorem radix_subject_whole (neg : Bool) (t : List Char) :
    (∃ m, unsigned_numeral t = some m ∧ radix_subject neg t = some (neg, m, [])) ∨
      (unsigned_numeral t = none ∧ ∀ n m, radix_subject neg t ≠ some (n, m, [])) := by
  cases t with
  | nil =>
    right
    refine ⟨rfl, ?_⟩
    intro n m e
    cases e
  | cons c r =>
    by_cases hc : c = '0'
    · subst hc
      cases r with
      | nil => exact Or.inl ⟨0, rfl, rfl⟩
      | cons x ds =>
        rw [radix_subject_zero_cons]
        by_cases hx : x = 'x' ∨ x = 'X'
        · have hx1 : (x = 'x' || x = 'X') = true := by
            rcases hx with h | h <;> (rw [h]; rfl)
          have hx8 : is_digit 8 x = false := by
            rcases hx with h | h <;> (rw [h]; rfl)
          have h8 : ∀ n m, digits_of neg 8 ('0' :: x :: ds) ≠ some (n, m, []) := by
            rcases digits_of_whole neg 8 '0' (x :: ds) with ⟨h1, _⟩ | ⟨_, h2⟩
            · simp only [List.all_cons, Bool.and_eq_true] at h1
              rw [hx8] at h1
              exact absurd h1.2.1 (by decide)
            · exact h2
          cases ds with
          | nil =>
            right
            refine ⟨?_, ?_⟩
            · simp only [unsigned_numeral, if_true, hx]
              simp
            · simp only [starts_with_digit, Bool.and_false, Bool.false_eq_true, if_false]
              exact h8
          | cons d ds1 =>
            rw [hx1, Bool.true_and, starts_with_digit_cons]
            rcases digits_of_whole neg 16 d ds1 with ⟨h1, h2⟩ | ⟨h1, h2⟩
            · left
              have hd : is_digit 16 d = true := by
                simp only [List.all_cons, Bool.and_eq_true] at h1
                exact h1.1
              refine ⟨digits_value 16 (d :: ds1), ?_, ?_⟩
              · simp only [unsigned_numeral, if_true, hx]
                rw [if_pos ⟨by simp, h1⟩]
              · rw [hd, if_pos rfl, h2]
            · right
              refine ⟨?_, ?_⟩
              · simp only [unsigned_numeral, if_true, hx]
                rw [if_neg (by rw [h1]; simp)]
              · by_cases hd : is_digit 16 d = true
                · rw [if_pos hd]
                  exact h2
                · rw [if_neg hd]
                  exact h8
        · have hx1 : (x = 'x' || x = 'X') = false := by
            simp only [not_or] at hx
            simp [hx.1, hx.2]
          rw [hx1, Bool.false_and]
          simp only [Bool.false_eq_true, if_false]
          have e0 : ('0' :: x :: ds).all (is_digit 8) = (x :: ds).all (is_digit 8) := by
            rw [List.all_cons]
            rfl
          have ev : digits_value 8 ('0' :: x :: ds) = digits_value 8 (x :: ds) := rfl
          rcases digits_of_whole neg 8 '0' (x :: ds) with ⟨h1, h2⟩ | ⟨h1, h2⟩
          · left
            rw [e0] at h1
            refine ⟨digits_value 8 (x :: ds), ?_, ?_⟩
            · simp only [unsigned_numeral, if_true, hx, if_false]
              rw [if_pos h1]
            · rw [h2, ev]
          · right
            rw [e0] at h1
            refine ⟨?_, h2⟩
            simp only [unsigned_numeral, if_true, hx, if_false]
            rw [if_neg (by rw [h1]; simp)]
    · rw [radix_subject_other neg c r hc]
      rcases digits_of_whole neg 10 c r with ⟨h1, h2⟩ | ⟨h1, h2⟩
      · left
        refine ⟨digits_value 10 (c :: r), ?_, h2⟩
        simp only [unsigned_numeral, hc, if_false]
        rw [if_pos h1]
      · right
        refine ⟨?_, h2⟩
        simp only [unsigned_numeral, hc, if_false]
        rw [if_neg (by rw [h1]; simp)]

theorem integer_subject_split (token : List Char)
    (hs : ∀ c r, token = c :: r → isspace c = false) :
    integer_subject token = radix_subject (split_sign token).1 (split_sign token).2 := by
  have h : token.dropWhile isspace = token := by
    cases token with
    | nil => rfl
    | cons c r =>
      rw [List.dropWhile_cons, hs c r rfl]
      rfl
  unfold integer_subject
  rw [h]

theorem integer_numeral_split (token : List Char) :
    integer_numeral token
      = (unsigned_numeral (split_sign token).2).map
          (fun m => if (split_sign token).1 = true then -(m : Int) else (m : Int)) := by
  unfold integer_numeral split_sign
  split <;> simp

/-- The token, which does not begin with white space, is a numeral for `strtol`
and `strtoul`, all of it, just when it is an integer numeral of C, and the
values agree. -/
theorem integer_subject_whole (token : List Char)
    (hs : ∀ c r, token = c :: r → isspace c = false) :
    (∃ (neg : Bool) (m : Nat),
        integer_numeral token = some (if neg = true then -(m : Int) else (m : Int)) ∧
        integer_subject token = some (neg, m, [])) ∨
      (integer_numeral token = none ∧ ∀ n m, integer_subject token ≠ some (n, m, [])) := by
  rw [integer_subject_split token hs, integer_numeral_split]
  rcases radix_subject_whole (split_sign token).1 (split_sign token).2 with
    ⟨m, h1, h2⟩ | ⟨h1, h2⟩
  · left
    refine ⟨(split_sign token).1, m, ?_, h2⟩
    rw [h1]
    rfl
  · right
    refine ⟨?_, h2⟩
    rw [h1]
    rfl

theorem integer_subject_nil : integer_subject [] = none := rfl

theorem strtol_whole (token : List Char) (neg : Bool) (m : Nat)
    (h : integer_subject token = some (neg, m, [])) (v : Int)
    (e : v = if neg = true then -(m : Int) else (m : Int)) :
    strtol token
      = if 2147483647 < v then (2147483647, [], true)
        else if v < -2147483648 then (-2147483648, [], true)
        else (v, [], false) := by
  unfold strtol
  rw [h]
  subst e
  rfl

theorem strtoul_whole (token : List Char) (neg : Bool) (m : Nat)
    (h : integer_subject token = some (neg, m, [])) :
    strtoul token
      = if 4294967295 < m then (4294967295, [], true)
        else if neg = true then ((4294967296 - m) % 4294967296, [], false)
        else (m, [], false) := by
  unfold strtoul
  rw [h]

theorem strtol_rest (token : List Char) (neg : Bool) (m : Nat) (rest : List Char)
    (h : integer_subject token = some (neg, m, rest)) : (strtol token).2.1 = rest := by
  unfold strtol
  rw [h]
  simp only []
  split_ifs <;> rfl

theorem strtoul_rest (token : List Char) (neg : Bool) (m : Nat) (rest : List Char)
    (h : integer_subject token = some (neg, m, rest)) : (strtoul token).2.1 = rest := by
  unfold strtoul
  rw [h]
  simp only []
  split_ifs <;> rfl

/-- The function `parse_number` on a token that does not begin with white
space: an integer numeral of C within the range of a cell gives its value, one
from 2^31 up to 2^32 - 1 its value less 2^32, one from -(2^32 - 1) up to
-2^31 - 1 its value and 2^32; any other token goes to `strtod`. -/
theorem parse_number_numeral (K : Config) (token : List Char)
    (hs : ∀ c r, token = c :: r → isspace c = false) :
    (∀ v : Int, integer_numeral token = some v → -2147483648 ≤ v → v ≤ 2147483647 →
        parse_number K token = some v) ∧
      (∀ v : Int, integer_numeral token = some v → 2147483648 ≤ v → v ≤ 4294967295 →
        parse_number K token = some (v - 4294967296)) ∧
      (∀ v : Int, integer_numeral token = some v → -4294967295 ≤ v → v < -2147483648 →
        parse_number K token = some (v + 4294967296)) ∧
      (∀ v : Int, integer_numeral token = some v → (v < -4294967295 ∨ 4294967295 < v) →
        parse_number K token = K.float_literal token) ∧
      (integer_numeral token = none → K.float_literal token = none →
        parse_number K token = none) := by
  rcases integer_subject_whole token hs with ⟨neg, m, h1, h2⟩ | ⟨h1, h2⟩
  · have hne : token ≠ [] := by
      intro h
      rw [h, integer_subject_nil] at h2
      cases h2
    have key : ∀ v : Int, integer_numeral token = some v →
        v = (if neg = true then -(m : Int) else (m : Int)) := by
      intro v hv
      rw [h1] at hv
      injection hv with hv
      exact hv.symm
    have hu := strtoul_whole token neg m h2
    refine ⟨?_, ?_, ?_, ?_, ?_⟩
    · intro v hv l1 l2
      have hl := strtol_whole token neg m h2 v (key v hv)
      rw [if_neg (by omega), if_neg (by omega)] at hl
      unfold parse_number
      rw [if_neg hne, hl]
      simp
    · intro v hv l1 l2
      have e := key v hv
      have hl := strtol_whole token neg m h2 v e
      rw [if_pos (by omega)] at hl
      have hneg : neg = false := by
        cases neg with
        | false => rfl
        | true =>
          simp only [if_true] at e
          omega
      subst hneg
      simp only [Bool.false_eq_true, if_false] at e hu
      rw [if_neg (by omega)] at hu
      have hw : wrap32 (m : Int) = v - 4294967296 := by
        unfold wrap32
        omega
      unfold parse_number
      rw [if_neg hne, hl, hu]
      simp [hw]
    · intro v hv l1 l2
      have e := key v hv
      have hl := strtol_whole token neg m h2 v e
      rw [if_neg (by omega), if_pos l2] at hl
      have hneg : neg = true := by
        cases neg with
        | true => rfl
        | false =>
          simp only [Bool.false_eq_true, if_false] at e
          omega
      subst hneg
      simp only [if_true] at e hu
      rw [if_neg (by omega)] at hu
      unfold parse_number
      rw [if_neg hne, hl, hu]
      simp
      unfold wrap32
      omega
    · intro v hv l1
      have e := key v hv
      have hl := strtol_whole token neg m h2 v e
      have l3 : 4294967295 < m := by
        cases neg with
        | true =>
          simp only [if_true] at e
          omega
        | false =>
          simp only [Bool.false_eq_true, if_false] at e
          omega
      rw [if_pos l3] at hu
      have hl2 : (strtol token).2.2 = true := by
        rw [hl]
        rcases l1 with l1 | l1
        · rw [if_neg (by omega), if_pos (by omega)]
        · rw [if_pos (by omega)]
      unfold parse_number
      rw [if_neg hne, if_pos (Or.inr hl2), hu]
      simp
    · intro hv
      rw [h1] at hv
      cases hv
  · have hp : parse_number K token = if token = [] then none else K.float_literal token := by
      by_cases hne : token = []
      · unfold parse_number
        rw [if_pos hne, if_pos hne]
      · rw [if_neg hne]
        cases hi : integer_subject token with
        | none =>
          unfold parse_number strtol strtoul
          rw [if_neg hne, hi]
          simp [hne]
        | some x =>
          obtain ⟨n, m, rest⟩ := x
          have hr : rest ≠ [] := by
            intro h0
            rw [h0] at hi
            exact h2 n m hi
          have a : (strtol token).2.1 ≠ [] := by
            rw [strtol_rest token n m rest hi]
            exact hr
          have b : (strtoul token).2.1 ≠ [] := by
            rw [strtoul_rest token n m rest hi]
            exact hr
          unfold parse_number
          rw [if_neg hne, if_pos (Or.inl a), if_pos (Or.inl b)]
    refine ⟨?_, ?_, ?_, ?_, ?_⟩
    · intro v hv
      rw [h1] at hv
      cases hv
    · intro v hv
      rw [h1] at hv
      cases hv
    · intro v hv
      rw [h1] at hv
      cases hv
    · intro v hv
      rw [h1] at hv
      cases hv
    · intro _ hf
      rw [hp, hf]
      simp

/-- C19: `dispatch` in Run or compile mode of a plain token, which as
`get_token` delivers it does not begin with white space.  A token that names no
word and is an integer numeral of C (decimal, octal after `0`, hexadecimal
after `0x` or `0X`, with or without a sign) of a value v from -2^31 up to
2^31 - 1 pushes v in Run mode and is compiled as the literal v in compile mode;
with v from 2^31 up to 2^32 - 1 it does the same with the cell v - 2^32, which
is v modulo 2^32.  A token that names no word, is no integer numeral and is no
float for `strtod` raises the error `%s ?` with the whole state, stack and data
space included, unchanged.  A plain token that names word i is run (Run mode)
or compiled as the cell i (compile mode) whatever it looks like: it is never
parsed as a number.  In particular the decimal numeral of a cell n, as `%d`
prints it, gives n; the decimal numeral of u with 2^31 <= u < 2^32 gives
u - 2^32; and a token without a decimal digit that is no float raises the
error.  Beyond the claim: a numeral of a value v from -(2^32 - 1) up to
-2^31 - 1 gives the cell v + 2^32, and a numeral outside -(2^32 - 1) to
2^32 - 1 is left to `strtod`. -/
theorem dispatch_numeral (K : Config) (fuel : Nat) (vm : VM)
    (hm : vm.mode = '(' ∨ vm.mode = ')') :
    (∀ (token : List Char) (v : Int), plain_token token = true →
        (∀ c r, token = c :: r → isspace c = false) →
        ts_lookup vm (String.mk token) = ts_not_found →
        integer_numeral token = some v → -2147483648 ≤ v → v ≤ 2147483647 →
        dispatch K fuel vm token
          = if vm.mode = '(' then .ok (ts_push vm v) else compile_push K vm v) ∧
      (∀ (token : List Char) (v : Int), plain_token token = true →
        (∀ c r, token = c :: r → isspace c = false) →
        ts_lookup vm (String.mk token) = ts_not_found →
        integer_numeral token = some v → 2147483648 ≤ v → v ≤ 4294967295 →
        dispatch K fuel vm token
          = if vm.mode = '(' then .ok (ts_push vm (v - 4294967296))
            else compile_push K vm (v - 4294967296)) ∧
      (∀ token : List Char, plain_token token = true →
        (∀ c r, token = c :: r → isspace c = false) →
        ts_lookup vm (String.mk token) = ts_not_found →
        integer_numeral token = none → K.float_literal token = none →
        dispatch K fuel vm token = .raised "%s ?\n" vm) ∧
      (∀ (token : List Char) (i : Nat), plain_token token = true →
        ts_lookup vm (String.mk token) = i →
        dispatch K fuel vm token
          = if vm.mode = '(' then ts_run K fuel vm i else compile K vm i) ∧
      (∀ n : Int, is_cell n → ts_lookup vm (String.mk (decimal n)) = ts_not_found →
        dispatch K fuel vm (decimal n)
          = if vm.mode = '(' then .ok (ts_push vm n) else compile_push K vm n) ∧
      (∀ u : Nat, 2147483648 ≤ u → u < 4294967296 →
        ts_lookup vm (String.mk (Nat.repr u).toList) = ts_not_found →
        dispatch K fuel vm (Nat.repr u).toList
          = if vm.mode = '(' then .ok (ts_push vm ((u : Int) - 4294967296))
            else compile_push K vm ((u : Int) - 4294967296)) ∧
      (∀ token : List Char, plain_token token = true →
        ts_lookup vm (String.mk token) = ts_not_found →
        (∀ c ∈ token, ¬ ('0' ≤ c ∧ c ≤ '9')) → K.float_literal token = none →
        dispatch K fuel vm token = .raised "%s ?\n" vm) ∧
      (∀ (token : List Char) (v : Int), plain_token token = true →
        (∀ c r, token = c :: r → isspace c = false) →
        ts_lookup vm (String.mk token) = ts_not_found →
        integer_numeral token = some v → -4294967295 ≤ v → v < -2147483648 →
        dispatch K fuel vm token
          = if vm.mode = '(' then .ok (ts_push vm (v + 4294967296))
            else compile_push K vm (v + 4294967296)) ∧
      (∀ (token : List Char) (v : Int), plain_token token = true →
        (∀ c r, token = c :: r → isspace c = false) →
        ts_lookup vm (String.mk token) = ts_not_found →
        integer_numeral token = some v → (v < -4294967295 ∨ 4294967295 < v) →
        dispatch K fuel vm token
          = match K.float_literal token with
            | some value => if vm.mode = '(' then .ok (ts_push vm value)
                            else compile_push K vm value
            | none => .raised "%s ?\n" vm) := by
  have m1 : vm.mode ≠ '\'' := by
    rcases hm with h | h <;> rw [h] <;> decide
  have m2 : vm.mode ≠ ':' := by
    rcases hm with h | h <;> rw [h] <;> decide
  refine ⟨?_, ?_, ?_, ?_, ?_, ?_, ?_, ?_, ?_⟩
  · intro token v hp hs hl hv l1 l2
    rw [dispatch_plain K fuel vm _ hp, (parse_number_numeral K token hs).1 v hv l1 l2]
    simp only [m1, m2, hl, if_false, ne_eq, not_true_eq_false, push_or_compile]
  · intro token v hp hs hl hv l1 l2
    rw [dispatch_plain K fuel vm _ hp, (parse_number_numeral K token hs).2.1 v hv l1 l2]
    simp only [m1, m2, hl, if_false, ne_eq, not_true_eq_false, push_or_compile]
  · intro token hp hs hl hv hf
    rw [dispatch_plain K fuel vm _ hp, (parse_number_numeral K token hs).2.2.2.2 hv hf]
    simp only [m1, m2, hl, if_false, ne_eq, not_true_eq_false, ts_error]
  · intro token i hp hl
    rw [dispatch_plain K fuel vm _ hp, hl]
    simp only [m1, m2, if_false, ne_eq, not_found_ne i, not_false_eq_true, if_true]
  · intro n hn hl
    rw [dispatch_plain K fuel vm _ (plain_token_decimal n), parse_number_decimal K n hn]
    simp only [m1, m2, hl, if_false, ne_eq, not_true_eq_false, push_or_compile]
  · intro u h1 h2 hl
    have hp : plain_token (Nat.repr u).toList = true := by
      have h := plain_token_decimal (u : Int)
      unfold decimal at h
      rw [if_neg (by omega)] at h
      exact h
    rw [dispatch_plain K fuel vm _ hp, parse_number_unsigned K u h1 h2]
    simp only [m1, m2, hl, if_false, ne_eq, not_true_eq_false, push_or_compile]
  · intro token hp hl hd hf
    rw [dispatch_plain K fuel vm _ hp, parse_number_no_digit K token hd hf]
    simp only [m1, m2, hl, if_false, ne_eq, not_true_eq_false, ts_error]
  · intro token v hp hs hl hv l1 l2
    rw [dispatch_plain K fuel vm _ hp, (parse_number_numeral K token hs).2.2.1 v hv l1 l2]
    simp only [m1, m2, hl, if_false, ne_eq, not_true_eq_false, push_or_compile]
  · intro token v hp hs hl hv l1
    rw [dispatch_plain K fuel vm _ hp, (parse_number_numeral K token hs).2.2.2.1 v hv l1]
    simp only [m1, m2, hl, if_false, ne_eq, not_true_eq_false, push_or_compile, ts_error]

set_option maxRecDepth 100000 in
theorem dispatch_numeral_witness :
    (small_vm.mode = '(' ∨ small_vm.mode = ')') ∧
      ts_lookup small_vm (String.mk (decimal (-7))) = ts_not_found ∧
      dispatch small_config 1 small_vm (decimal (-7)) = .ok (ts_push small_vm (-7)) ∧
      ts_lookup small_vm (String.mk ['-', '1']) = 49 ∧
      dispatch small_config 1 small_vm ['-', '1'] = ts_run small_config 1 small_vm 49 ∧
      integer_numeral "0x1F".toList = some 31 ∧
      dispatch small_config 1 small_vm "0x1F".toList = .ok (ts_push small_vm 31) ∧
      integer_numeral "-010".toList = some (-8) ∧
      dispatch small_config 1 small_vm "-010".toList = .ok (ts_push small_vm (-8)) ∧
      integer_numeral "+5".toList = some 5 ∧
      dispatch small_config 1 small_vm "+5".toList = .ok (ts_push small_vm 5) ∧
      integer_numeral "0xFFFFFFFF".toList = some 4294967295 ∧
      dispatch small_config 1 small_vm "0xFFFFFFFF".toList
        = .ok (ts_push small_vm (4294967295 - 4294967296)) ∧
      integer_numeral "12abc".toList = none ∧
      dispatch small_config 1 small_vm "12abc".toList = .raised "%s ?\n" small_vm ∧
      integer_numeral "08".toList = none ∧
      dispatch small_config 1 small_vm "08".toList = .raised "%s ?\n" small_vm :=
  have hmode : small_vm.mode = '(' := by decide!
  have t := dispatch_numeral small_config 1 small_vm (Or.inl hmode)
  have ns : ∀ (c0 : Char) (rest : List Char), isspace c0 = false →
      ∀ c r, c0 :: rest = c :: r → isspace c = false := by
    intro c0 rest h c r e
    injection e with e1 _
    rw [← e1]
    exact h
  ⟨Or.inl hmode, by decide!,
    (t.2.2.2.2.1 (-7) ⟨by decide, by decide⟩ (by decide!)).trans (if_pos hmode),
    by decide!,
    (t.2.2.2.1 ['-', '1'] 49 (by decide) (by decide!)).trans (if_pos hmode),
    by decide,
    (t.1 "0x1F".toList 31 (by decide) (ns _ _ (by decide)) (by decide!) (by decide)
      (by decide) (by decide)).trans (if_pos hmode),
    by decide,
    (t.1 "-010".toList (-8) (by decide) (ns _ _ (by decide)) (by decide!) (by decide)
      (by decide) (by decide)).trans (if_pos hmode),
    by decide,
    (t.1 "+5".toList 5 (by decide) (ns _ _ (by decide)) (by decide!) (by decide)
      (by decide) (by decide)).trans (if_pos hmode),
    by decide,
    (t.2.1 "0xFFFFFFFF".toList 4294967295 (by decide) (ns _ _ (by decide)) (by decide!)
      (by decide) (by decide) (by decide)).trans (if_pos hmode),
    by decide,
    t.2.2.1 "12abc".toList (by decide) (ns _ _ (by decide)) (by decide!) (by decide) rfl,
    by decide,
    t.2.2.1 "08".toList (by decide) (ns _ _ (by decide)) (by decide!) (by decide) rfl⟩

/-! ## Loading source text -/

theorem install_all_eq (K : Config) (l : List (String × Option Action × Int)) :
    ∀ (vm vm1 : VM), install_all K l vm = .ok vm1 →
      vm1 = { vm with words := install_words l vm.where_ vm.words,
                      where_ := vm.where_ + l.length } := by
  induction l with
  | nil =>
    intro vm vm1 h
    simp only [install_all, Result.ok.injEq] at h
    subst h
    rfl
  | cons e l ih =>
    intro vm vm1 h
    obtain ⟨name, action, datum⟩ := e
    simp only [install_all, ts_install, ts_error] at h
    split_ifs at h with h1
    · simp [Result.bind] at h
    · simp only [Result.bind] at h
      rw [ih _ vm1 h]
      simp only [install_words, entry_word, List.length_cons, VM.mk.injEq, true_and, and_true]
      omega

theorem install_words_below (l : List (String × Option Action × Int)) :
    ∀ (n : Nat) (w : Nat → Word) (i : Nat), i < n → install_words l n w i = w i := by
  induction l with
  | nil => intro n w i _; rfl
  | cons e l ih =>
    intro n w i h
    simp only [install_words]
    rw [ih (n + 1) _ i (by omega), Function.update_noteq (by omega)]

theorem install_words_congr (l : List (String × Option Action × Int)) :
    ∀ (n : Nat) (w1 w2 : Nat → Word) (i : Nat), (i < n → w1 i = w2 i) → i < n + l.length →
      install_words l n w1 i = install_words l n w2 i := by
  induction l with
  | nil =>
    intro n w1 w2 i h hi
    exact h (by simpa using hi)
  | cons e l ih =>
    intro n w1 w2 i h hi
    simp only [install_words]
    refine ih (n + 1) _ _ i (fun hlt => ?_) (by simp only [List.length_cons] at hi; omega)
    by_cases hn : i = n
    · subst hn
      simp only [Function.update_same]
    · rw [Function.update_noteq hn, Function.update_noteq hn]
      exact h (by omega)

theorem fresh_has_standard_words (K : Config) (raw : VM) (stdin : List (List Char))
    (stdout : List Char) (vm0 vm : VM) (h0 : ts_vm_make K raw stdin stdout = .ok vm0)
    (h1 : ts_install_standard_words K vm0 = .ok vm) :
    has_standard_words vm ∧ vm.tracer = none ∧ vm.sp = -4 ∧
      vm.output = ⟨[], 0, stdout, make_origin_place none⟩ := by
  unfold ts_vm_make at h0
  have e0 := install_all_eq K _ _ _ h0
  have e1 := install_all_eq K _ _ _ h1
  rw [e0] at e1
  subst e1
  refine ⟨⟨rfl, fun i hi => ?_⟩, rfl, rfl, rfl⟩
  unfold standard_dictionary
  refine install_words_congr standard_words 13 _ _ i (fun h13 => ?_) hi
  exact install_words_congr reserved_words 0 _ _ i (fun h => absurd h (Nat.not_lt_zero _)) h13

theorem lookup_standard (vm : VM) (h : has_standard_words vm) (name : String) :
    ts_lookup vm name = lookup_from standard_dictionary name 62 := by
  unfold ts_lookup
  rw [h.1]
  exact lookup_from_congr _ _ _ _ (fun j hj => by rw [h.2 j hj])

theorem put_loop_text (K : Config) (s : List Char) :
    ∀ o : OutStream, (put_loop K s o).written ++ (put_loop K s o).held
      = o.written ++ o.held ++ s := by
  induction s with
  | nil => intro o; simp [put_loop]
  | cons c cs ih =>
    intro o
    simp only [put_loop]
    rw [ih]
    split_ifs <;> simp [flush_output]

theorem output_text_put_string (K : Config) (vm : VM) (s : List Char) :
    output_text (put_string K vm s) = output_text vm ++ s := by
  unfold output_text put_string
  simp only
  split_ifs
  · simp only [flush_output, List.append_nil]
    exact put_loop_text K s vm.output
  · exact put_loop_text K s vm.output

/-- The token at the front of the input, a single character `c` that is
neither white space nor punctuation, followed by a blank or the end of the
input, and possibly after one blank. -/
theorem get_token_single (S : VM) (c : Char) (pre post : List Char)
    (h1 : S.input.unread = pre ++ c :: post) (h2 : S.input.refills = [])
    (hpre : pre = [] ∨ pre = [' ']) (hpost : post = [] ∨ ∃ r, post = ' ' :: r)
    (hc : isspace c = false ∧ is_punctuation c = false ∧ c ≠ '"' ∧ c ≠ '`' ∧
      as_int c = some c) :
    ∃ p tp, get_token 1024 S
      = .token [c] { S with input := ⟨post, [], p⟩, token_place := tp } := by
  obtain ⟨c1, c2, c3, c4, c5⟩ := hc
  have c6 : c ≠ '$' := by
    intro h
    subst h
    simp [is_punctuation] at c2
  have c7 : c ≠ '\n' := by
    intro h
    subst h
    simp [isspace] at c1
  have c8 : (as_int ' ') = some ' ' := by decide
  have c9 : isspace ' ' = true := by decide
  have c10 : ends_token ' ' = true := by decide
  rcases hpre with rfl | rfl <;> rcases hpost with rfl | ⟨r, rfl⟩ <;>
    simp [get_token, skip_spaces, get_char, peek_char, refill, scan_plain, input_left,
      h1, h2, c1, c2, c3, c4, c5, c6, c7, c8, c9, c10]

theorem get_token_eof (S : VM) (h1 : S.input.unread = []) (h2 : S.input.refills = []) :
    ∃ tp, get_token 1024 S = .eof { S with token_place := tp } := by
  simp [get_token, skip_spaces, get_char, refill, input_left, h1, h2]

theorem dispatch_standard_word (K : Config) (fuel : Nat) (S : VM) (c : Char) (i : Nat)
    (a : Action) (hS : has_standard_words S) (ht : S.tracer = none) (hm : S.mode = '(')
    (hp : plain_token [c] = true)
    (hl : lookup_from standard_dictionary (String.mk [c]) 62 = i)
    (hi : LAST_SPECIAL_PRIM < i ∧ i < 62) (hw : (standard_dictionary i).action = some a)
    (ha : a ≠ .do_sequence ∧ a ≠ .ts_do_will ∧ a ≠ .ts_execute) :
    dispatch K (fuel + 1) S [c] = prim K a (standard_dictionary i) S := by
  have hq : never_stops S.tracer := by
    rw [ht]
    trivial
  have hlt : i < S.where_ := by
    rw [hS.1]
    exact hi.2
  rw [dispatch_plain K _ S _ hp, lookup_standard S hS, hl]
  simp only [hm, if_true, ne_eq, not_found_ne i, not_false_eq_true, Char.reduceEq, if_false]
  rw [ts_run_plain_word K _ S i hq hi.1 (by omega) (tracer_reads_inside S i hlt), if_pos hlt,
    hS.2 i hi.2, hw]
  exact step_call_prim K _ a _ S ha.1 ha.2.1 ha.2.2

theorem loading_step (K : Config) (n : Nat) (S S1 : VM) (text : List Char)
    (e : get_token 1024 S = .token text S1) (hnl : text.headD '\x00' ≠ '\n') :
    loading_loop K (n + 1) S = (dispatch K n S1 text).bind (loading_loop K n) := by
  rw [loading_loop, e]
  simp only [hnl, if_false]

theorem single_token_chars (c : Char) (h : c = '1' ∨ c = '2' ∨ c = '+' ∨ c = '.') :
    isspace c = false ∧ is_punctuation c = false ∧ c ≠ '"' ∧ c ≠ '`' ∧ as_int c = some c := by
  rcases h with rfl | rfl | rfl | rfl <;> decide

theorem ready_of_frame (S S1 : VM) (text text1 : List Char) (h : ready S text)
    (hw : S1.words = S.words) (hn : S1.where_ = S.where_) (ht : S1.tracer = S.tracer)
    (hm : S1.mode = S.mode) (hu : S1.input.unread = text1) (hr : S1.input.refills = []) :
    ready S1 text1 := by
  obtain ⟨⟨a1, a2⟩, b, c, _, _⟩ := h
  refine ⟨⟨hn.trans a1, fun i hi => ?_⟩, ht.trans b, hm.trans c, hu, hr⟩
  rw [hw]
  exact a2 i hi

/-- One turn of the loading loop at a one-character token that names a
primitive of the standard dictionary. -/
theorem loading_primitive (K : Config) (n : Nat) (S : VM) (c : Char) (pre post : List Char)
    (i : Nat) (a : Action) (hS : ready S (pre ++ c :: post))
    (hpre : pre = [] ∨ pre = [' ']) (hpost : post = [] ∨ ∃ r, post = ' ' :: r)
    (hc : c = '1' ∨ c = '2' ∨ c = '+' ∨ c = '.')
    (hl : lookup_from standard_dictionary (String.mk [c]) 62 = i)
    (hi : LAST_SPECIAL_PRIM < i ∧ i < 62) (hw : (standard_dictionary i).action = some a)
    (ha : a ≠ .do_sequence ∧ a ≠ .ts_do_will ∧ a ≠ .ts_execute) :
    ∃ S1, ready S1 post ∧ S1.stack = S.stack ∧ S1.sp = S.sp ∧ S1.output = S.output ∧
      loading_loop K (n + 2) S
        = (prim K a (standard_dictionary i) S1).bind (loading_loop K (n + 1)) := by
  obtain ⟨p, tp, e⟩ := get_token_single S c pre post hS.2.2.2.1 hS.2.2.2.2 hpre hpost
    (single_token_chars c hc)
  have hp : plain_token [c] = true := by
    rcases hc with rfl | rfl | rfl | rfl <;> decide
  have hnl : [c].headD '\x00' ≠ '\n' := by
    rcases hc with rfl | rfl | rfl | rfl <;> decide
  have hr := ready_of_frame S { S with input := ⟨post, [], p⟩, token_place := tp } _ post hS
    rfl rfl rfl rfl rfl rfl
  refine ⟨_, hr, rfl, rfl, rfl, ?_⟩
  rw [loading_step K _ _ _ _ e hnl,
    dispatch_standard_word K n _ c i a hr.1 hr.2.1 hr.2.2.1 hp hl hi hw ha]

/-- One turn of the loading loop at a one-character token that names no word. -/
theorem loading_digit (K : Config) (n : Nat) (S : VM) (c : Char) (pre post : List Char)
    (v : Int) (hS : ready S (pre ++ c :: post))
    (hpre : pre = [] ∨ pre = [' ']) (hpost : post = [] ∨ ∃ r, post = ' ' :: r)
    (hc : c = '1' ∨ c = '2' ∨ c = '+' ∨ c = '.')
    (hl : lookup_from standard_dictionary (String.mk [c]) 62 = ts_not_found)
    (hv : parse_number K [c] = some v) :
    ∃ S1, ready S1 post ∧ S1.stack = S.stack ∧ S1.sp = S.sp ∧ S1.output = S.output ∧
      loading_loop K (n + 1) S = loading_loop K n (ts_push S1 v) := by
  obtain ⟨p, tp, e⟩ := get_token_single S c pre post hS.2.2.2.1 hS.2.2.2.2 hpre hpost
    (single_token_chars c hc)
  have hp : plain_token [c] = true := by
    rcases hc with rfl | rfl | rfl | rfl <;> decide
  have hnl : [c].headD '\x00' ≠ '\n' := by
    rcases hc with rfl | rfl | rfl | rfl <;> decide
  have hr := ready_of_frame S { S with input := ⟨post, [], p⟩, token_place := tp } _ post hS
    rfl rfl rfl rfl rfl rfl
  refine ⟨_, hr, rfl, rfl, rfl, ?_⟩
  rw [loading_step K _ _ _ _ e hnl, dispatch_plain K _ _ _ hp, lookup_standard _ hr.1, hl, hv]
  have hm : S.mode = '(' := hS.2.2.1
  simp [push_or_compile, hm, Result.bind]

set_option maxRecDepth 100000 in
theorem loading_sum (K : Config) (fuel : Nat) (S : VM)
    (hS : ready S ['1', ' ', '2', ' ', '+', ' ', '.']) :
    ∃ vm1, loading_loop K (fuel + 5) S = .ok vm1 ∧
      output_text vm1 = output_text S ++ ['3', ' '] ∧ vm1.sp = S.sp := by
  -- the token 1 names word 51, which pushes 1
  obtain ⟨S1, r1, k1, s1, o1, e1⟩ := loading_primitive K (fuel + 3) S '1' []
    [' ', '2', ' ', '+', ' ', '.'] 51 .ts_do_push hS (Or.inl rfl) (Or.inr ⟨_, rfl⟩) (by simp)
    (by decide!) (by decide) (by decide!) (by decide)
  rw [e1]
  simp only [prim, Result.bind]
  -- the token 2 names no word and is a number
  obtain ⟨S2, r2, k2, s2, o2, e2⟩ := loading_digit K (fuel + 3)
    (ts_OUTPUT_1 0 S1 (standard_dictionary 51).datum) '2' [' '] [' ', '+', ' ', '.'] 2
    (ready_of_frame S1 _ _ _ r1 rfl rfl rfl rfl r1.2.2.2.1 r1.2.2.2.2)
    (Or.inr rfl) (Or.inr ⟨_, rfl⟩) (by simp) (by decide!)
    (parse_number_decimal K 2 ⟨by decide, by decide⟩)
  rw [e2]
  -- the token + names word 19
  obtain ⟨S3, r3, k3, s3, o3, e3⟩ := loading_primitive K (fuel + 1) (ts_push S2 2) '+' [' ']
    [' ', '.'] 19 .ts_add
    (ready_of_frame S2 _ _ _ r2 rfl rfl rfl rfl r2.2.2.2.1 r2.2.2.2.2)
    (Or.inr rfl) (Or.inr ⟨_, rfl⟩) (by simp) (by decide!) (by decide) (by decide!) (by decide)
  rw [e3]
  simp only [prim, binary, Result.bind]
  -- the token . names word 42
  obtain ⟨S4, r4, k4, s4, o4, e4⟩ := loading_primitive K fuel
    (ts_OUTPUT_1 2 S3 (ts_INPUT S3 1 + ts_INPUT S3 0)) '.' [' '] [] 42 .ts_print
    (ready_of_frame S3 _ _ _ r3 rfl rfl rfl rfl r3.2.2.2.1 r3.2.2.2.2)
    (Or.inr rfl) (Or.inl rfl) (by simp) (by decide!) (by decide) (by decide!) (by decide)
  rw [e4]
  simp only [prim, Result.bind]
  -- the end of the text
  obtain ⟨tp, e5⟩ := get_token_eof
    (put_char K (put_decimal K (ts_OUTPUT_0 1 S4) (ts_INPUT S4 0)) 32) r4.2.2.2.1 r4.2.2.2.2
  have d51 : (standard_dictionary 51).datum = 1 := by decide!
  have w1 : wrap32 1 = 1 := by decide
  have w2 : wrap32 2 = 2 := by decide
  have w3 : wrap32 (1 + 2) = 3 := by decide
  have a2 : S2.sp = S.sp + 4 ∧ S2.stack = Function.update S.stack (S.sp + 4) 1 := by
    rw [s2, k2]
    simp only [ts_OUTPUT_1, s1, k1, d51, w1]
    rw [show S.sp - 4 * ((0 : Nat) : Int) + 4 = S.sp + 4 by omega]
    exact ⟨rfl, rfl⟩
  have a3 : S3.sp = S.sp + 8 ∧
      S3.stack = Function.update (Function.update S.stack (S.sp + 4) 1) (S.sp + 8) 2 := by
    rw [s3, k3]
    simp only [ts_push, ts_OUTPUT_1, a2.1, a2.2, w2]
    rw [show S.sp + 4 - 4 * ((0 : Nat) : Int) + 4 = S.sp + 8 by omega]
    exact ⟨rfl, rfl⟩
  have i0 : ts_INPUT S3 0 = 2 := by
    simp only [ts_INPUT, a3.1, a3.2]
    rw [show S.sp + 8 - 4 * ((0 : Nat) : Int) = S.sp + 8 by omega, Function.update_same]
  have i1 : ts_INPUT S3 1 = 1 := by
    simp only [ts_INPUT, a3.1, a3.2]
    rw [show S.sp + 8 - 4 * ((1 : Nat) : Int) = S.sp + 4 by omega,
      Function.update_noteq (by omega), Function.update_same]
  have a4 : S4.sp = S.sp + 4 ∧ ts_INPUT S4 0 = 3 := by
    have e : S4.sp = S.sp + 4 := by
      rw [s4]
      simp only [ts_OUTPUT_1, a3.1]
      omega
    refine ⟨e, ?_⟩
    simp only [ts_INPUT, e, k4, ts_OUTPUT_1, a3.1]
    rw [show S.sp + 4 - 4 * ((0 : Nat) : Int) = S.sp + 8 - 4 * ((2 : Nat) : Int) + 4 by omega,
      Function.update_same]
    have i0x : S3.stack (S.sp + 8 - 4 * ((0 : Nat) : Int)) = 2 := by
      have h := i0
      simp only [ts_INPUT, a3.1] at h
      exact h
    have i1x : S3.stack (S.sp + 8 - 4 * ((1 : Nat) : Int)) = 1 := by
      have h := i1
      simp only [ts_INPUT, a3.1] at h
      exact h
    rw [i0x, i1x, w3]
  have o : S4.output = S.output := by
    rw [o4]
    simp only [ts_OUTPUT_1, o3, ts_push, o2, o1]
  refine ⟨_, by rw [loading_loop, e5], ?_, ?_⟩
  · show output_text (put_char K (put_decimal K (ts_OUTPUT_0 1 S4) (ts_INPUT S4 0)) 32) = _
    unfold put_char put_decimal
    rw [output_text_put_string, output_text_put_string, a4.2]
    have e : output_text (ts_OUTPUT_0 1 S4) = output_text S := by
      unfold output_text
      simp only [ts_OUTPUT_0, o]
    rw [e, List.append_assoc]
    rfl
  · show S4.sp - 4 * ((1 : Nat) : Int) = S.sp
    rw [a4.1]
    omega

/-- C17: in a VM fresh from `ts_vm_make` with the standard words installed,
whatever its sizes (they leave room for these words), `ts_load_string` of the
text `1 2 + .` returns, five units of fuel being enough; the text `3` and a
blank have then been written to the VM's output stream after what it held
before, so that a flush of the stream, as `ts_vm_unmake` does it, leaves them in
the sink; and the stack is empty again. -/
theorem load_string_prints_sum (K : Config) (raw : VM) (stdin : List (List Char))
    (stdout : List Char) (vm0 vm : VM) (fuel : Nat)
    (h0 : ts_vm_make K raw stdin stdout = .ok vm0)
    (h1 : ts_install_standard_words K vm0 = .ok vm) :
    ∃ vm1, ts_load_string K (fuel + 5) vm "1 2 + .".toList = .ok vm1 ∧
      output_text vm1 = stdout ++ "3 ".toList ∧
      (flush_output K vm1.output).written = stdout ++ "3 ".toList ∧
      stack_pointer vm1 = -1 := by
  obtain ⟨hS, ht, hsp, hout⟩ := fresh_has_standard_words K raw stdin stdout vm0 vm h0 h1
  have hr : ready { ts_set_input_string vm "1 2 + .".toList with mode := '(' }
      ['1', ' ', '2', ' ', '+', ' ', '.'] := ⟨hS, ht, rfl, rfl, rfl⟩
  obtain ⟨vm1, e, o, s⟩ := loading_sum K fuel _ hr
  have o1 : output_text vm1 = stdout ++ "3 ".toList := by
    rw [o]
    show (vm.output.written ++ vm.output.held) ++ _ = _
    rw [hout]
    simp
  refine ⟨vm1, e, o1, o1, ?_⟩
  unfold stack_pointer
  rw [s]
  show Int.tdiv vm.sp 4 = -1
  rw [hsp]
  rfl

set_option maxRecDepth 100000 in
theorem load_string_prints_sum_witness :
    ∃ vm1, ts_load_string small_config 5
        ((ts_install_standard_words small_config fresh_vm).state zero_block) "1 2 + .".toList
          = .ok vm1 ∧
      output_text vm1 = [] ++ "3 ".toList ∧
      (flush_output small_config vm1.output).written = [] ++ "3 ".toList ∧
      stack_pointer vm1 = -1 :=
  load_string_prints_sum small_config zero_block [] [] fresh_vm
    ((ts_install_standard_words small_config fresh_vm).state zero_block) 0
    (state_of_returns _ zero_block (by decide!)) (state_of_returns _ zero_block (by decide!))

theorem ts_run_mono (K : Config) (n m : Nat) (h : n ≤ m) (vm : VM) (word : Int)
    (hne : ts_run K n vm word ≠ .out_of_fuel) : ts_run K m vm word = ts_run K n vm word := by
  unfold ts_run ts_run_with at hne ⊢
  split_ifs at hne ⊢ with h0 h1 h2 h3
  · rfl
  · rfl
  · rfl
  · exact exec_mono K n m h _ _ hne
  · rfl

theorem dispatch_special (K : Config) (n m : Nat) (vm : VM) (token : List Char)
    (hp : plain_token token = false) : dispatch K m vm token = dispatch K n vm token := by
  simp only [plain_token, Bool.not_eq_false', Bool.or_eq_true, decide_eq_true_eq] at hp
  unfold dispatch
  simp only
  rcases hp with ((((((h | h) | h) | h) | h) | h) | h) | h <;> (simp only [h]; simp)

theorem dispatch_mono (K : Config) (n m : Nat) (h : n ≤ m) (vm : VM) (token : List Char)
    (hne : dispatch K n vm token ≠ .out_of_fuel) :
    dispatch K m vm token = dispatch K n vm token := by
  by_cases hp : plain_token token = true
  · rw [dispatch_plain K n vm token hp] at hne
    rw [dispatch_plain K n vm token hp, dispatch_plain K m vm token hp]
    split_ifs at hne ⊢ <;> first
      | rfl
      | exact ts_run_mono K n m h _ _ hne
  · exact dispatch_special K n m vm token (by simpa using hp)

theorem loading_loop_succ (K : Config) (n : Nat) :
    ∀ vm, loading_loop K n vm ≠ .out_of_fuel → loading_loop K (n + 1) vm = loading_loop K n vm := by
  induction n with
  | zero => intro vm h; exact absurd rfl h
  | succ n ih =>
    intro vm h
    rw [loading_loop] at h
    conv_lhs => rw [loading_loop]
    conv_rhs => rw [loading_loop]
    cases hg : get_token 1024 vm with
    | eof vm1 => rfl
    | raised m vm1 => rfl
    | out_of_fuel => rfl
    | token text vm1 =>
      rw [hg] at h
      simp only at h ⊢
      split_ifs at h ⊢ with hnl
      · exact ih vm1 h
      · have hd := bind_ne_out_of_fuel _ _ h
        rw [dispatch_mono K n (n + 1) (by omega) vm1 text hd]
        cases hr : dispatch K n vm1 text with
        | ok v =>
          rw [hr] at h
          exact ih v h
        | raised m v => rfl
        | undefined => rfl
        | out_of_fuel => exact absurd hr hd

theorem loading_loop_mono (K : Config) (n k : Nat) (vm : VM)
    (h : loading_loop K n vm ≠ .out_of_fuel) :
    loading_loop K (n + k) vm = loading_loop K n vm := by
  induction k with
  | zero => rfl
  | succ k ih =>
    have h2 : loading_loop K (n + k) vm ≠ .out_of_fuel := by
      rw [ih]
      exact h
    rw [← ih]
    exact loading_loop_succ K (n + k) vm h2

theorem ts_load_string_mono (K : Config) (n k : Nat) (vm : VM) (text : List Char)
    (h : ts_load_string K n vm text ≠ .out_of_fuel) :
    ts_load_string K (n + k) vm text = ts_load_string K n vm text :=
  loading_loop_mono K n k _ h

theorem ne_out_of_fuel_of_prints (r : Result) (text : List Char) (h : r.prints text = true) :
    r ≠ .out_of_fuel := by
  intro e
  rw [e] at h
  cases h

set_option maxRecDepth 100000 in
/-- C16, the amended claim: in a small VM with the standard words and the word
`dup` (defined by loading `: dup z- z z ;`), loading the text
`: square dup * ; ( 5 square .`, which has the mode switch `(` after the
definition, returns with `25` and a blank written to the output, for any fuel
from 16 on. -/
theorem square_prints_25 (fuel : Nat) :
    (ts_load_string small_config (16 + fuel) dup_vm
      ": square dup * ; ( 5 square .".toList).prints "25 ".toList = true := by
  have h : (ts_load_string small_config 16 dup_vm
      ": square dup * ; ( 5 square .".toList).prints "25 ".toList = true := by decide!
  rw [ts_load_string_mono small_config 16 fuel _ _ (ne_out_of_fuel_of_prints _ _ h)]
  exact h

set_option maxRecDepth 100000 in
/-- C16, the claim as stated fails: in a small VM with the standard words and
the word `dup` (word 62, defined by loading `: dup z- z z ;`), loading the text
`: square dup * ; 5 square .` returns with nothing written to the output, for
any fuel from 9 on.  The token `;` compiles EXIT and leaves the mode at `)`, so
the rest of the text is compiled after the definition of `square` (word 63, at
address 16): the data space holds the cells dup, `*`, EXIT, LITERAL, 5, square
and `.` from there on. -/
theorem square_text_prints_nothing :
    ts_lookup dup_vm "dup" = 62 ∧
      ∀ fuel : Nat,
        (ts_load_string small_config (9 + fuel) dup_vm
          ": square dup * ; 5 square .".toList).prints [] = true ∧
        (ts_load_string small_config (9 + fuel) dup_vm
          ": square dup * ; 5 square .".toList).ends_in_mode ')' = true ∧
        (ts_load_string small_config (9 + fuel) dup_vm
          ": square dup * ; 5 square .".toList).compiled 16 [62, 21, 0, 1, 5, 63, 42] = true := by
  have h : (ts_load_string small_config 9 dup_vm
      ": square dup * ; 5 square .".toList).prints [] = true := by decide!
  refine ⟨by decide!, fun fuel => ?_⟩
  rw [ts_load_string_mono small_config 9 fuel _ _ (ne_out_of_fuel_of_prints _ _ h)]
  exact ⟨h, by decide!, by decide!⟩

/-! ## Closures -/

theorem data_cell_in_range (K : Config) (a : Int) (h0 : 0 ≤ a) (h1 : a < K.ts_data_size)
    (hK : K.ts_data_size ≤ 2147483644) : data_cell K a = some a := by
  unfold data_cell data_byte to_unsigned
  rw [if_neg]
  omega

/-- A closure whose script fetches the slot: the word's datum is `p`, the cell
at `p` holds the address `s` of the script, and the script is the word `@`
(index `f`) and EXIT. -/
theorem closure_fetch (K : Config) (vm : VM) (p s : Int) (f : Nat) (pw : Word) (fuel : Nat)
    (hK : K.ts_data_size ≤ 2147483644) (hd : pw.datum = p)
    (hf : LAST_SPECIAL_PRIM < f ∧ f < vm.where_ ∧ f < 2147483648)
    (hw : (vm.words f).action = some .ts_fetch) (ht : never_stops vm.tracer)
    (hs : read_cell vm.data s = f ∧ read_cell vm.data (s + 4) = 0)
    (hp : read_cell vm.data p = s)
    (rp : 0 ≤ p ∧ p + 8 ≤ K.ts_data_size) (rs : 0 ≤ s ∧ s + 8 ≤ K.ts_data_size) :
    ts_do_will K (fuel + 4) pw vm = .ok (ts_push vm (read_cell vm.data (p + 4))) := by
  have dp : data_cell K pw.datum = some p := by
    rw [hd]
    exact data_cell_in_range K p rp.1 (by omega) hK
  have ds : data_cell K s = some s := data_cell_in_range K s rs.1 (by omega) hK
  have dq : data_cell K (p + 4) = some (p + 4) :=
    data_cell_in_range K (p + 4) (by omega) (by omega) hK
  have wq : wrap32 (p + 4) = p + 4 := by
    unfold wrap32
    omega
  have uf : to_unsigned (f : Int) = f := to_unsigned_cast f (by omega)
  show step K (exec K (fuel + 3)) (.call (some .ts_do_will) pw) vm = _
  simp only [step, dp, hp]
  show do_sequence_frame K (exec K (fuel + 2) (.loop fresh_locals)) ⟨none, s, none⟩ _ = _
  rw [do_sequence_frame_eq K _ _ _ s ds]
  -- the first turn of the loop runs `@`
  have l1 : exec K (fuel + 2) (.loop fresh_locals)
      (recontext (some (some s)) (some ((ts_push vm (pw.datum + 4)).handler_stack + 1))
        (ts_push vm (pw.datum + 4)))
      = .ok { ts_push vm (read_cell vm.data (p + 4)) with
              pc := some (s + 4 + 4),
              handler_stack := vm.handler_stack + 1 } := by
    show step K (exec K (fuel + 1)) (.loop fresh_locals) _ = _
    simp only [step, recontext, Option.getD, ts_push, ts_OUTPUT_1, hs.1, uf, Nat.cast_zero,
      mul_zero, sub_zero]
    refine (turn_plain_word K _ _ _ f _ ?_ hf.1 (by omega) ?_).trans ?_
    · exact ht
    · exact tracer_reads_inside _ _ hf.2.1
    simp only [hf.2.1, if_true, hw]
    rw [if_neg (by rintro ⟨h, _⟩; cases h)]
    show (step K (exec K fuel) (.call (some .ts_fetch) _) _).bind _ = _
    rw [step_call_prim K _ _ _ _ (by decide) (by decide) (by decide)]
    have e1 : vm.sp + 4 - 4 * ((1 : Nat) : Int) + 4 = vm.sp + 4 := by omega
    have e2 : vm.sp + 4 - 4 * ((0 : Nat) : Int) = vm.sp + 4 := by omega
    simp only [prim, ts_INPUT, ts_OUTPUT_1, Function.update_apply, e1, e2, if_true, hd, wq, dq,
      Result.bind, Function.update_idem]
    -- the second turn finds EXIT
    show step K (exec K fuel) (.loop fresh_locals) _ = _
    simp only [step, hs.2]
    have u0 : to_unsigned 0 = 0 := rfl
    rw [u0]
    unfold turn
    have hro : ∀ V : VM, 0 < V.where_ → tracer_reads_outside V 0 = false :=
      fun V h => tracer_reads_inside V 0 h
    have hts : ∀ V : VM, never_stops V.tracer → ∀ w, tracer_stops V w = false :=
      fun V h w => tracer_stops_false V w h
    rw [hro, hts]
    · simp only [Bool.false_eq_true, if_false, EXIT, if_true]
    · exact ht
    · exact Nat.lt_of_le_of_lt (Nat.zero_le _) hf.2.1
  rw [l1]
  rfl

theorem never_stops_of_no_host (t : Option Tracer) (h : no_host_tracer t = true) :
    never_stops t := by
  cases t with
  | none => trivial
  | some x =>
    cases x with
    | ts_default_tracer => trivial
    | host verdict => cases h

/-- C15: the behaviour `ts_do_will` of a closure word with datum p is to push
p + 4 and to run `do_sequence` on the script whose address is in the cell at p.
So for two closure words A and B with data slots p and q, eight bytes each,
apart from each other and from the script, both made by one script that is the
word `@` and EXIT: executing A returns with the cell of A's slot (at p + 4)
pushed, executing B with the cell of B's slot (at q + 4); and in a state that
differs by a store of any v into A's slot, B still yields the cell its slot
held before.  (The data space is taken to be addressable by an `int`, and the
tracer is absent or the one of tusl.c, which never stops a run; four units of
fuel are enough.) -/
theorem closure_state_per_installation (K : Config) (vm : VM) (p q s : Int) (f : Nat)
    (wordA wordB : Word) (fuel : Nat)
    (hK : K.ts_data_size ≤ 2147483644)
    (hA : wordA.datum = p) (hB : wordB.datum = q)
    (hf : LAST_SPECIAL_PRIM < f ∧ f < vm.where_ ∧ f < 2147483648)
    (hw : (vm.words f).action = some .ts_fetch) (hq : no_host_tracer vm.tracer = true)
    (hs : read_cell vm.data s = f ∧ read_cell vm.data (s + 4) = 0)
    (hp : read_cell vm.data p = s) (hcq : read_cell vm.data q = s)
    (rp : 0 ≤ p ∧ p + 8 ≤ K.ts_data_size) (rq : 0 ≤ q ∧ q + 8 ≤ K.ts_data_size)
    (rs : 0 ≤ s ∧ s + 8 ≤ K.ts_data_size)
    (hpq : p + 8 ≤ q ∨ q + 8 ≤ p) (hps : p + 8 ≤ s ∨ s + 8 ≤ p) :
    (∀ (pw : Word) (S : VM) (n : Nat) (a : Int), data_cell K pw.datum = some a →
        ts_do_will K (n + 1) pw S
          = do_sequence K n ⟨none, read_cell S.data a, none⟩ (ts_push S (pw.datum + 4))) ∧
      ts_do_will K (fuel + 4) wordA vm = .ok (ts_push vm (read_cell vm.data (p + 4))) ∧
      ts_do_will K (fuel + 4) wordB vm = .ok (ts_push vm (read_cell vm.data (q + 4))) ∧
      ∀ (v : Int) (S : VM), S.data = write_cell vm.data (p + 4) v → S.words = vm.words →
        S.where_ = vm.where_ → S.tracer = vm.tracer →
        ts_do_will K (fuel + 4) wordB S = .ok (ts_push S (read_cell vm.data (q + 4))) ∧
          ts_do_will K (fuel + 4) wordA S = .ok (ts_push S (wrap32 v)) := by
  have ht : never_stops vm.tracer := never_stops_of_no_host _ hq
  have x1 : s + 4 ≤ p + 4 ∨ p + 4 + 4 ≤ s := by
    clear hA hB hf hs hp hcq hw ht
    omega
  have x2 : s + 4 + 4 ≤ p + 4 ∨ p + 4 + 4 ≤ s + 4 := by
    clear hA hB hf hs hp hcq hw ht
    omega
  have x3 : q + 4 ≤ p + 4 ∨ p + 4 + 4 ≤ q := by
    clear hA hB hf hs hp hcq hw ht
    omega
  have x4 : q + 4 + 4 ≤ p + 4 ∨ p + 4 + 4 ≤ q + 4 := by
    clear hA hB hf hs hp hcq hw ht
    omega
  have x5 : p + 4 ≤ p + 4 ∨ p + 4 + 4 ≤ p := Or.inl (le_refl _)
  refine ⟨?_, ?_, ?_, ?_⟩
  · intro pw S n a ha
    show step K (exec K n) (.call (some .ts_do_will) pw) S = _
    simp only [step, ha]
    rfl
  · exact closure_fetch K vm p s f wordA fuel hK hA hf hw ht hs hp rp rs
  · exact closure_fetch K vm q s f wordB fuel hK hB hf hw ht hs hcq rq rs
  · intro v S hd hwd hn htr
    have o1 : ∀ b, (b + 4 ≤ p + 4 ∨ p + 4 + 4 ≤ b) → read_cell S.data b = read_cell vm.data b := by
      intro b hb
      rw [hd]
      exact read_write_cell_other _ _ _ _ hb
    have hf2 : LAST_SPECIAL_PRIM < f ∧ f < S.where_ ∧ f < 2147483648 := by
      rw [hn]
      exact hf
    have hw2 : (S.words f).action = some .ts_fetch := by
      rw [hwd]
      exact hw
    have ht2 : never_stops S.tracer := by
      rw [htr]
      exact ht
    have hs2 : read_cell S.data s = f ∧ read_cell S.data (s + 4) = 0 := by
      rw [o1 s x1, o1 (s + 4) x2]
      exact hs
    constructor
    · have h := closure_fetch K S q s f wordB fuel hK hB hf2 hw2 ht2 hs2
        (by rw [o1 q x3]; exact hcq) rq rs
      rw [o1 (q + 4) x4] at h
      exact h
    · have h := closure_fetch K S p s f wordA fuel hK hA hf2 hw2 ht2 hs2
        (by rw [o1 p x5]; exact hp) rp rs
      rw [hd, read_write_cell_same] at h
      exact h

set_option maxRecDepth 100000 in
theorem closure_state_per_installation_witness :
    (closure_vm.words 63).datum = 12 ∧ (closure_vm.words 64).datum = 20 ∧
      (closure_vm.words 63).action = some .ts_do_will ∧
      (closure_vm.words 64).action = some .ts_do_will ∧
      read_cell closure_vm.data (12 + 4) = 10 ∧ read_cell closure_vm.data (20 + 4) = 20 ∧
      ts_do_will small_config (0 + 4) (closure_vm.words 63) closure_vm
        = .ok (ts_push closure_vm (read_cell closure_vm.data (12 + 4))) ∧
      ts_do_will small_config (0 + 4) (closure_vm.words 64) closure_vm
        = .ok (ts_push closure_vm (read_cell closure_vm.data (20 + 4))) :=
  have t := closure_state_per_installation small_config closure_vm 12 20 4 36
    (closure_vm.words 63) (closure_vm.words 64) 0 (by decide) (by decide!) (by decide!)
    ⟨by decide, by decide!, by decide⟩ (by decide!) (by decide!)
    ⟨by decide!, by decide!⟩ (by decide!) (by decide!) ⟨by decide, by decide⟩
    ⟨by decide, by decide⟩ ⟨by decide, by decide⟩ (Or.inl (by decide)) (Or.inr (by decide))
  ⟨by decide!, by decide!, by decide!, by decide!, by decide!, by decide!, t.2.1, t.2.2.1⟩

/-! ## Tail calls -/

theorem turn_branch (K : Config) (again : Task → VM → Result) (locals : Locals) (p : Int)
    (vm : VM) (hq : never_stops vm.tracer) (hlt : BRANCH < vm.where_)
    (hb : (vm.words BRANCH).action = some .ts_do_branch) :
    turn K again locals p BRANCH vm
      = (again (.call (some .ts_do_branch) (vm.words BRANCH)) vm).bind (again (.loop locals)) := by
  unfold turn
  rw [tracer_reads_inside vm BRANCH hlt, tracer_stops_false vm BRANCH hq]
  have x1 : ¬ (BRANCH = EXIT) := by decide
  have x2 : ¬ (unsigned_sub BRANCH LOCAL0 < max_locals) := by decide
  have x3 : ¬ (unsigned_sub BRANCH GRAB1 < max_locals) := by decide
  have x4 : ¬ (BRANCH = WILL) := by decide
  simp only [Bool.false_eq_true, if_false, x1, x2, x3, x4, hlt, if_true, hb]
  rw [if_neg (by rintro ⟨h, _⟩; cases h)]

theorem peak_turn_branch (K : Config) (again : Task → VM → Result) (peak : Task → VM → Nat)
    (locals : Locals) (p : Int) (vm : VM) (hq : never_stops vm.tracer) (hlt : BRANCH < vm.where_)
    (hb : (vm.words BRANCH).action = some .ts_do_branch) :
    peak_turn K again peak locals p BRANCH vm
      = max (peak (.call (some .ts_do_branch) (vm.words BRANCH)) vm)
          (match again (.call (some .ts_do_branch) (vm.words BRANCH)) vm with
            | .ok vm1 => peak (.loop locals) vm1
            | _ => 0) := by
  unfold peak_turn
  rw [tracer_reads_inside vm BRANCH hlt, tracer_stops_false vm BRANCH hq]
  have x1 : ¬ (BRANCH = EXIT) := by decide
  have x2 : ¬ (unsigned_sub BRANCH LOCAL0 < max_locals) := by decide
  have x3 : ¬ (unsigned_sub BRANCH GRAB1 < max_locals) := by decide
  have x4 : ¬ (BRANCH = WILL) := by decide
  simp only [Bool.false_eq_true, if_false, x1, x2, x3, x4, hlt, if_true, hb]
  rw [if_neg (by rintro ⟨h, _⟩; cases h)]

/-- The tail call: a word after the reserved ones whose action is `do_sequence`,
followed by EXIT, makes the loop go on in place at the body of the word. -/
theorem turn_tail_call (K : Config) (again : Task → VM → Result) (locals : Locals) (p a : Int)
    (w : Nat) (vm : VM) (hq : never_stops vm.tracer)
    (hw : LAST_SPECIAL_PRIM < w ∧ w < vm.where_ ∧ w < 4294967296)
    (ha : (vm.words w).action = some .do_sequence) (hx : read_cell vm.data (p + 4) = EXIT)
    (hd : data_cell K (vm.words w).datum = some a) :
    turn K again locals p w vm = again (.loop locals) { vm with pc := some a } := by
  rw [turn_plain_word K again locals p w vm hq hw.1 hw.2.2 (tracer_reads_inside vm w hw.2.1),
    if_pos hw.2.1, if_pos ⟨ha, hx⟩, hd]

theorem peak_turn_tail_call (K : Config) (again : Task → VM → Result)
    (peak : Task → VM → Nat) (locals : Locals) (p a : Int)
    (w : Nat) (vm : VM) (hq : never_stops vm.tracer)
    (hw : LAST_SPECIAL_PRIM < w ∧ w < vm.where_ ∧ w < 4294967296)
    (ha : (vm.words w).action = some .do_sequence) (hx : read_cell vm.data (p + 4) = EXIT)
    (hd : data_cell K (vm.words w).datum = some a) :
    peak_turn K again peak locals p w vm
      = max vm.handler_stack (peak (.loop locals) { vm with pc := some a }) := by
  unfold peak_turn
  rw [tracer_reads_inside vm w hw.2.1, tracer_stops_false vm w hq]
  have h12 := hw.1
  have x1 : ¬ (w = EXIT) := by
    simp only [LAST_SPECIAL_PRIM, DO_WILL, EXIT] at *
    omega
  have x2 : ¬ (unsigned_sub w LOCAL0 < max_locals) := by
    simp only [LAST_SPECIAL_PRIM, DO_WILL, unsigned_sub, LOCAL0, max_locals] at *
    omega
  have x3 : ¬ (unsigned_sub w GRAB1 < max_locals) := by
    simp only [LAST_SPECIAL_PRIM, DO_WILL, unsigned_sub, GRAB1, max_locals] at *
    omega
  have x4 : ¬ (w = WILL) := by
    simp only [LAST_SPECIAL_PRIM, DO_WILL, WILL] at *
    omega
  simp only [Bool.false_eq_true, if_false, x1, x2, x3, x4, hw.2.1, if_true]
  rw [if_pos ⟨ha, hx⟩, hd]

/-- The loop of `do_sequence` in the body `BRANCH, d + 12, w, EXIT` at `d` of
the word `w` itself: with `n` cells that are not 0 on the stack above a cell
that is 0, it makes `n` tail calls and then ends, and the handler stack has the
depth it had at the start all the way. -/
theorem drain_loop (K : Config) (V : VM) (d : Int) (w : Nat) (locals : Locals) (e : Nat)
    (hK : K.ts_data_size ≤ 2147483644)
    (hw : LAST_SPECIAL_PRIM < w ∧ w < V.where_ ∧ w < 2147483648)
    (hwa : (V.words w).action = some .do_sequence) (hwd : (V.words w).datum = d)
    (hb : (V.words BRANCH).action = some .ts_do_branch)
    (rd : 0 ≤ d ∧ d + 16 ≤ K.ts_data_size)
    (c0 : read_cell V.data d = BRANCH) (c1 : read_cell V.data (d + 4) = d + 12)
    (c2 : read_cell V.data (d + 8) = w) (c3 : read_cell V.data (d + 12) = EXIT)
    (ht : never_stops V.tracer) :
    ∀ (n : Nat) (x : Int) (h : Nat), (∀ k : Nat, k < n → V.stack (x - 4 * k) ≠ 0) →
      V.stack (x - 4 * n) = 0 →
      exec K (2 * n + 2 + e) (.loop locals) { V with sp := x, pc := some d, handler_stack := h }
          = .ok { V with sp := x - 4 * (n + 1), pc := some (d + 16), handler_stack := h } ∧
        peak_exec K (2 * n + 2 + e) (.loop locals)
          { V with sp := x, pc := some d, handler_stack := h } = h := by
  have hlt : BRANCH < V.where_ := by
    have := hw.1
    simp only [LAST_SPECIAL_PRIM, DO_WILL, BRANCH] at *
    omega
  have hw4 : LAST_SPECIAL_PRIM < w ∧ w < V.where_ ∧ w < 4294967296 :=
    ⟨hw.1, hw.2.1, by omega⟩
  have ub : to_unsigned (BRANCH : Int) = BRANCH := rfl
  have uw : to_unsigned (w : Int) = w := to_unsigned_cast w (by omega)
  have ue : to_unsigned (EXIT : Int) = EXIT := rfl
  have dd : data_cell K d = some d := data_cell_in_range K d rd.1 (by omega) hK
  have dt : data_cell K (d + 12) = some (d + 12) :=
    data_cell_in_range K (d + 12) (by omega) (by omega) hK
  have e8 : d + 4 + 4 = d + 8 := by omega
  have e12 : d + 8 + 4 = d + 12 := by omega
  have e16 : d + 12 + 4 = d + 16 := by omega
  -- the turn at `d`: BRANCH pops a cell
  have branch_turn : ∀ (m : Nat) (x : Int) (h : Nat),
      exec K (m + 2) (.loop locals) { V with sp := x, pc := some d, handler_stack := h }
        = exec K (m + 1) (.loop locals)
            { V with sp := x - 4,
                     pc := some (if V.stack x = 0 then d + 12 else d + 8),
                     handler_stack := h } ∧
      peak_exec K (m + 2) (.loop locals) { V with sp := x, pc := some d, handler_stack := h }
        = max h (peak_exec K (m + 1) (.loop locals)
            { V with sp := x - 4,
                     pc := some (if V.stack x = 0 then d + 12 else d + 8),
                     handler_stack := h }) := by
    intro m x h
    have p1 : prim K .ts_do_branch (V.words BRANCH)
        { V with sp := x, pc := some (d + 4), handler_stack := h }
        = .ok { V with sp := x - 4,
                       pc := some (if V.stack x = 0 then d + 12 else d + 8),
                       handler_stack := h } := by
      have i0 : x - 4 * ((0 : Nat) : Int) = x := by omega
      have i1 : x - 4 * ((1 : Nat) : Int) = x - 4 := by omega
      simp only [prim, ts_INPUT, ts_OUTPUT_0, c1, i0, i1, e8, dt]
      split_ifs <;> rfl
    constructor
    · show step K (exec K (m + 1)) (.loop locals) _ = _
      simp only [step, c0, ub]
      refine (turn_branch K _ locals d _ ?_ ?_ ?_).trans ?_
      · exact ht
      · exact hlt
      · exact hb
      show (step K (exec K m) (.call (some .ts_do_branch) _) _).bind _ = _
      rw [step_call_prim K _ _ _ _ (by decide) (by decide) (by decide)]
      show (prim K .ts_do_branch (V.words BRANCH)
        { V with sp := x, pc := some (d + 4), handler_stack := h }).bind _ = _
      rw [p1]
      rfl
    · show peak_step K (exec K (m + 1)) (peak_exec K (m + 1)) (.loop locals) _ = _
      simp only [peak_step, c0, ub]
      refine (peak_turn_branch K _ _ locals d _ ?_ ?_ ?_).trans ?_
      · exact ht
      · exact hlt
      · exact hb
      have q1 : peak_exec K (m + 1) (.call (some .ts_do_branch) (V.words BRANCH))
          { V with sp := x, pc := some (d + 4), handler_stack := h } = h := rfl
      have q2 : exec K (m + 1) (.call (some .ts_do_branch) (V.words BRANCH))
          { V with sp := x, pc := some (d + 4), handler_stack := h }
          = .ok { V with sp := x - 4,
                         pc := some (if V.stack x = 0 then d + 12 else d + 8),
                         handler_stack := h } := by
        show step K (exec K m) (.call (some .ts_do_branch) _) _ = _
        rw [step_call_prim K _ _ _ _ (by decide) (by decide) (by decide)]
        exact p1
      show max (peak_exec K (m + 1) (.call (some .ts_do_branch) (V.words BRANCH))
          { V with sp := x, pc := some (d + 4), handler_stack := h })
        (match exec K (m + 1) (.call (some .ts_do_branch) (V.words BRANCH))
          { V with sp := x, pc := some (d + 4), handler_stack := h } with
          | .ok vm1 => peak_exec K (m + 1) (.loop locals) vm1
          | _ => 0) = _
      rw [q1, q2]
  -- the turn at `d + 8`: the tail call of `w`
  have tail_turn : ∀ (m : Nat) (x : Int) (h : Nat),
      exec K (m + 1) (.loop locals) { V with sp := x, pc := some (d + 8), handler_stack := h }
        = exec K m (.loop locals) { V with sp := x, pc := some d, handler_stack := h } ∧
      peak_exec K (m + 1) (.loop locals)
          { V with sp := x, pc := some (d + 8), handler_stack := h }
        = max h (peak_exec K m (.loop locals)
            { V with sp := x, pc := some d, handler_stack := h }) := by
    intro m x h
    constructor
    · show step K (exec K m) (.loop locals) _ = _
      simp only [step, c2, uw]
      refine (turn_tail_call K _ locals (d + 8) d w _ ?_ ?_ ?_ ?_ ?_).trans ?_
      · exact ht
      · exact hw4
      · exact hwa
      · show read_cell V.data (d + 8 + 4) = EXIT
        rw [e12]
        exact c3
      · show data_cell K (V.words w).datum = some d
        rw [hwd]
        exact dd
      · rfl
    · show peak_step K (exec K m) (peak_exec K m) (.loop locals) _ = _
      simp only [peak_step, c2, uw]
      refine (peak_turn_tail_call K _ _ locals (d + 8) d w _ ?_ ?_ ?_ ?_ ?_).trans ?_
      · exact ht
      · exact hw4
      · exact hwa
      · show read_cell V.data (d + 8 + 4) = EXIT
        rw [e12]
        exact c3
      · show data_cell K (V.words w).datum = some d
        rw [hwd]
        exact dd
      · rfl
  -- the turn at `d + 12`: EXIT
  have exit_turn : ∀ (m : Nat) (x : Int) (h : Nat),
      exec K (m + 1) (.loop locals) { V with sp := x, pc := some (d + 12), handler_stack := h }
        = .ok { V with sp := x, pc := some (d + 16), handler_stack := h } ∧
      peak_exec K (m + 1) (.loop locals)
          { V with sp := x, pc := some (d + 12), handler_stack := h } = h := by
    intro m x h
    have hts : ∀ S : VM, never_stops S.tracer → ∀ k, tracer_stops S k = false :=
      fun S hS k => tracer_stops_false S k hS
    have hro : ∀ S : VM, EXIT < S.where_ → tracer_reads_outside S EXIT = false :=
      fun S hS => tracer_reads_inside S EXIT hS
    have hx : EXIT < V.where_ := Nat.lt_of_le_of_lt (Nat.zero_le _) hlt
    constructor
    · show step K (exec K m) (.loop locals) _ = _
      simp only [step, c3, ue, e16]
      unfold turn
      rw [hro, hts]
      · simp only [Bool.false_eq_true, if_false, if_true]
      · exact ht
      · exact hx
    · show peak_step K (exec K m) (peak_exec K m) (.loop locals) _ = _
      simp only [peak_step, c3, ue, e16]
      unfold peak_turn
      rw [hro, hts]
      · simp only [Bool.false_eq_true, if_false, if_true]
      · exact ht
      · exact hx
  intro n
  induction n with
  | zero =>
    intro x h _ h0
    have f0 : 2 * 0 + 2 + e = e + 2 := by omega
    have z : V.stack x = 0 := by
      have h1 := h0
      simp only [Nat.cast_zero, mul_zero, sub_zero] at h1
      exact h1
    rw [f0, (branch_turn e x h).1, (branch_turn e x h).2, if_pos z, (exit_turn e (x - 4) h).1,
      (exit_turn e (x - 4) h).2]
    refine ⟨?_, max_self h⟩
    simp only [Nat.cast_zero, zero_add, mul_one]
  | succ n ih =>
    intro x h hk h0
    have f1 : 2 * (n + 1) + 2 + e = (2 * n + 2 + e) + 2 := by omega
    have f2 : (2 * n + 2 + e) + 1 = (2 * n + 2 + e) + 1 := rfl
    have nz : V.stack x ≠ 0 := by
      have h1 := hk 0 (by omega)
      simp only [Nat.cast_zero, mul_zero, sub_zero] at h1
      exact h1
    have hk2 : ∀ k : Nat, k < n → V.stack (x - 4 - 4 * k) ≠ 0 := by
      intro k hkn
      have h1 := hk (k + 1) (by omega)
      have e1 : x - 4 * ((k + 1 : Nat) : Int) = x - 4 - 4 * (k : Int) := by
        push_cast
        ring
      rw [e1] at h1
      exact h1
    have h02 : V.stack (x - 4 - 4 * n) = 0 := by
      have e1 : x - 4 * ((n + 1 : Nat) : Int) = x - 4 - 4 * (n : Int) := by
        push_cast
        ring
      rw [e1] at h0
      exact h0
    obtain ⟨i1, i2⟩ := ih (x - 4) h hk2 h02
    rw [f1, (branch_turn (2 * n + 2 + e) x h).1, (branch_turn (2 * n + 2 + e) x h).2, if_neg nz,
      (tail_turn (2 * n + 2 + e) (x - 4) h).1, (tail_turn (2 * n + 2 + e) (x - 4) h).2, i1, i2]
    refine ⟨?_, by simp⟩
    have e2 : x - 4 - 4 * ((n : Int) + 1) = x - 4 * (((n + 1 : Nat) : Int) + 1) := by
      push_cast
      ring
    rw [e2]

/-- C13: when the loop of `do_sequence` meets a word (after the reserved ones)
whose action is `do_sequence` and the next cell is EXIT, the turn is nothing but
the same loop, with the same locals, going on at the body of the word: no call
is made, so no `do_sequence` is entered and no handler frame pushed.  And a
word `w` whose body is `BRANCH, d + 12, w, EXIT`, which pops a cell, ends when
it is 0 and calls itself in tail position otherwise, run with n cells that are
not 0 above a cell that is 0, returns after n tail calls with the n + 1 cells
popped (2 n + 3 units of fuel are enough), and the deepest handler stack of the
whole run is one frame above the depth at entry, whatever n is.  (The data
space is taken to be addressable by an `int`; the tracer is absent or the one
of tusl.c.) -/
theorem tail_calls_add_no_nesting (K : Config) (vm : VM) (d : Int) (w n e : Nat)
    (hK : K.ts_data_size ≤ 2147483644)
    (hw : LAST_SPECIAL_PRIM < w ∧ w < vm.where_ ∧ w < 2147483648)
    (hwa : (vm.words w).action = some .do_sequence) (hwd : (vm.words w).datum = d)
    (hb : (vm.words BRANCH).action = some .ts_do_branch)
    (rd : 0 ≤ d ∧ d + 16 ≤ K.ts_data_size)
    (c0 : read_cell vm.data d = BRANCH) (c1 : read_cell vm.data (d + 4) = d + 12)
    (c2 : read_cell vm.data (d + 8) = w) (c3 : read_cell vm.data (d + 12) = EXIT)
    (hq : no_host_tracer vm.tracer = true)
    (hk : ∀ k : Nat, k < n → vm.stack (vm.sp - 4 * k) ≠ 0)
    (h0 : vm.stack (vm.sp - 4 * n) = 0) :
    (∀ (again : Task → VM → Result) (locals : Locals) (p a : Int) (word : Nat) (S : VM),
        never_stops S.tracer → LAST_SPECIAL_PRIM < word → word < S.where_ →
        word < 4294967296 → (S.words word).action = some .do_sequence →
        read_cell S.data (p + 4) = EXIT → data_cell K (S.words word).datum = some a →
        turn K again locals p word S = again (.loop locals) { S with pc := some a }) ∧
      do_sequence K (2 * n + 3 + e) (vm.words w) vm
        = .ok { vm with sp := vm.sp - 4 * (n + 1) } ∧
      peak_exec K (2 * n + 3 + e) (.call (some .do_sequence) (vm.words w)) vm
        = vm.handler_stack + 1 := by
  have ht : never_stops vm.tracer := never_stops_of_no_host _ hq
  have dd : data_cell K (vm.words w).datum = some d := by
    rw [hwd]
    exact data_cell_in_range K d rd.1 (by omega) hK
  have f : 2 * n + 3 + e = (2 * n + 2 + e) + 1 := by omega
  obtain ⟨l1, l2⟩ := drain_loop K vm d w fresh_locals e hK hw hwa hwd hb rd c0 c1 c2 c3 ht n
    vm.sp (vm.handler_stack + 1) hk h0
  refine ⟨?_, ?_, ?_⟩
  · intro again locals p a word S h1 h2 h3 h4 h5 h6 h7
    exact turn_tail_call K again locals p a word S h1 ⟨h2, h3, h4⟩ h5 h6 h7
  · rw [f]
    show do_sequence_frame K (exec K (2 * n + 2 + e) (.loop fresh_locals)) (vm.words w) vm = _
    rw [do_sequence_frame_eq K _ _ _ d dd]
    show (exec K (2 * n + 2 + e) (.loop fresh_locals)
      { vm with sp := vm.sp, pc := some d, handler_stack := vm.handler_stack + 1 }).map _ = _
    rw [l1]
    rfl
  · rw [f]
    show peak_step K (exec K (2 * n + 2 + e)) (peak_exec K (2 * n + 2 + e))
      (.call (some .do_sequence) (vm.words w)) vm = _
    simp only [peak_step, dd]
    show max vm.handler_stack (peak_exec K (2 * n + 2 + e) (.loop fresh_locals)
      { vm with sp := vm.sp, pc := some d, handler_stack := vm.handler_stack + 1 }) = _
    rw [l2]
    omega

set_option maxRecDepth 100000 in
theorem tail_calls_add_no_nesting_witness :
    stack_list drain_vm = [0, 5, 6, 7] ∧ drain_vm.handler_stack = 2 ∧
      do_sequence small_config (2 * 3 + 3 + 0) (drain_vm.words 62) drain_vm
        = .ok { drain_vm with sp := drain_vm.sp - 4 * ((3 : Nat) + 1) } ∧
      peak_exec small_config (2 * 3 + 3 + 0) (.call (some .do_sequence) (drain_vm.words 62))
        drain_vm = drain_vm.handler_stack + 1 :=
  have t := tail_calls_add_no_nesting small_config drain_vm 0 62 3 0 (by decide)
    ⟨by decide, by decide!, by decide⟩ (by decide!) (by decide!) (by decide!)
    ⟨by decide, by decide⟩ (by decide!) (by decide!) (by decide!) (by decide!) (by decide!)
    (by decide!) (by decide!)
  ⟨by decide!, by decide!, t.2.1, t.2.2⟩

/-! ## The place of the input -/

set_option maxRecDepth 100000 in
/-- C28: `ts_set_input_file_stream` sets the place of the input to the origin,
line 1 and column 1, but `ts_set_input_string` leaves the place as it is.  So
in a fresh small VM, after `ts_load_string` of `1 2 + .` the place is line 1,
column 8, and a second `ts_load_string`, of `q`, raises its error for the
unknown word at line 1, column 9, where the same text loaded first is at line
1, column 2. -/
theorem set_input_string_keeps_place :
    (∀ (vm : VM) (fp : List (List Char)) (name : Option String),
        (ts_set_input_file_stream vm fp name).input.place = ⟨1, 1, name⟩) ∧
      (∀ (vm : VM) (text : List Char),
        (ts_set_input_string vm text).input.place = vm.input.place) ∧
      small_vm.input.place = ⟨1, 1, none⟩ ∧
      ((ts_load_string small_config 10 small_vm "1 2 + .".toList).state zero_block).input.place
        = ⟨1, 8, none⟩ ∧
      ((ts_load_string small_config 10 small_vm "1 2 + .".toList).bind
          (fun vm => ts_load_string small_config 10 vm "q".toList)).raises "%s ?\n" = true ∧
      (((ts_load_string small_config 10 small_vm "1 2 + .".toList).bind
          (fun vm => ts_load_string small_config 10 vm "q".toList)).state zero_block).token_place
        = ⟨1, 9, none⟩ ∧
      ((ts_load_string small_config 10 small_vm "q".toList).state zero_block).token_place
        = ⟨1, 2, none⟩ :=
  ⟨fun _ _ _ => rfl, fun _ _ => rfl, by decide!, by decide!, by decide!, by decide!, by decide!⟩

/-! ## The mode -/

theorem mode_is_bind (r : Result) (f : VM → Result) (mode : Char) (hr : r.mode_is mode)
    (hf : ∀ vm, vm.mode = mode → (f vm).mode_is mode) : (r.bind f).mode_is mode := by
  cases r with
  | ok vm => exact hf vm hr
  | raised m vm => exact hr
  | undefined => trivial
  | out_of_fuel => trivial

theorem compile_mode (K : Config) (vm : VM) (c : Int) : (compile K vm c).mode_is vm.mode := by
  simp only [compile, ts_error]
  split_ifs
  · exact rfl
  · cases data_cell K (cell_align vm.here) <;> exact rfl

theorem compile_push_mode (K : Config) (vm : VM) (c : Int) :
    (compile_push K vm c).mode_is vm.mode :=
  mode_is_bind _ _ _ (compile_mode K vm _) (fun v hv => by
    have h := compile_mode K v c
    rw [hv] at h
    exact h)

theorem put_string_mode (K : Config) (vm : VM) (s : List Char) :
    (put_string K vm s).mode = vm.mode := rfl

theorem print_cells_mode (K : Config) (n k : Nat) (vm : VM) :
    (print_cells K n k vm).mode = vm.mode := by
  induction k generalizing vm with
  | zero => rfl
  | succ k ih =>
    simp only [print_cells]
    split_ifs
    · rw [ih]
      rfl
    · rw [ih]
      rfl

set_option maxHeartbeats 4000000 in
theorem prim_mode (K : Config) (a : Action) (pw : Word) (vm : VM) :
    (prim K a pw vm).mode_is vm.mode := by
  cases a
  case ts_make_literal => exact compile_push_mode K (ts_OUTPUT_0 1 vm) _
  case ts_comma => exact compile_mode K (ts_OUTPUT_0 1 vm) _
  case ts_print_stack => exact print_cells_mode K _ _ vm
  all_goals
    simp only [prim, ts_error, binary, unary, division, run_void, run_int]
  all_goals (repeat' (first | rfl | trivial | split))

theorem mode_is_ok (vm : VM) (mode : Char) (h : vm.mode = mode) : (Result.ok vm).mode_is mode := h

theorem mode_is_raised (m : String) (vm : VM) (mode : Char) (h : vm.mode = mode) :
    (Result.raised m vm).mode_is mode := h

theorem grab_mode (k i : Nat) (locals : Locals) (vm : VM) :
    (grab k i locals vm).2.mode = vm.mode := by
  induction k generalizing i locals vm with
  | zero => rfl
  | succ k ih =>
    simp only [grab]
    rw [ih]
    rfl

theorem mode_is_ite (c : Prop) {d : Decidable c} (a b : Result) (mode : Char)
    (ha : c → a.mode_is mode) (hb : ¬ c → b.mode_is mode) :
    (@ite Result c d a b).mode_is mode := by
  split_ifs with h
  · exact ha h
  · exact hb h

theorem turn_mode (K : Config) (again : Task → VM → Result)
    (ha : ∀ t vm, (again t vm).mode_is vm.mode) (locals : Locals) (q : Int) (word : Nat)
    (vm : VM) : (turn K again locals q word vm).mode_is vm.mode := by
  unfold turn
  generalize unsigned_sub word LOCAL0 = u3
  generalize unsigned_sub word GRAB1 = u4
  refine mode_is_ite _ _ _ _ (fun _ => trivial) (fun _ => ?_)
  refine mode_is_ite _ _ _ _ (fun _ => mode_is_ok _ _ rfl) (fun _ => ?_)
  refine mode_is_ite _ _ _ _ (fun _ => mode_is_ok _ _ rfl) (fun _ => ?_)
  refine mode_is_ite _ _ _ _ (fun _ => ?_) (fun _ => ?_)
  · cases locals (word - LOCAL0) with
    | none => trivial
    | some v => exact ha (.loop locals) (ts_push vm v)
  refine mode_is_ite _ _ _ _ (fun _ => ?_) (fun _ => ?_)
  · have h := ha (.loop (grab (1 + (word - GRAB1)) 0 locals vm).1)
      (grab (1 + (word - GRAB1)) 0 locals vm).2
    rw [grab_mode] at h
    exact h
  refine mode_is_ite _ _ _ _ (fun _ => ?_) (fun _ => ?_)
  · refine mode_is_ite _ _ _ _ (fun _ => trivial) (fun _ => ?_)
    simp only []
    cases data_cell K (vm.words (vm.where_ - 1)).datum with
    | none => exact mode_is_raised _ _ _ rfl
    | some a => exact mode_is_ok _ _ rfl
  refine mode_is_ite _ _ _ _ (fun _ => ?_) (fun _ => mode_is_raised _ _ _ rfl)
  refine mode_is_ite _ _ _ _ (fun _ => ?_) (fun _ => ?_)
  · cases data_cell K (vm.words word).datum with
    | none => exact mode_is_raised _ _ _ rfl
    | some a => exact ha (.loop locals) { vm with pc := some a }
  · exact mode_is_bind _ _ _ (ha _ vm) (fun v hv => by
      have h := ha (.loop locals) v
      rw [hv] at h
      exact h)

theorem step_mode (K : Config) (again : Task → VM → Result)
    (ha : ∀ t vm, (again t vm).mode_is vm.mode) :
    ∀ t vm, (step K again t vm).mode_is vm.mode := by
  intro t vm
  cases t with
  | call a pw =>
    cases a with
    | none => trivial
    | some a =>
      by_cases h1 : a = .do_sequence
      · subst h1
        simp only [step, do_sequence_frame]
        cases data_cell K pw.datum with
        | none => exact rfl
        | some d =>
          simp only []
          have h := ha (.loop fresh_locals) (ts_TRY { vm with pc := some d })
          cases hr : again (.loop fresh_locals) (ts_TRY { vm with pc := some d }) with
          | ok v => rw [hr] at h; exact h
          | raised m v => rw [hr] at h; exact h
          | undefined => trivial
          | out_of_fuel => trivial
      by_cases h2 : a = .ts_do_will
      · subst h2
        simp only [step]
        cases data_cell K pw.datum with
        | none => exact rfl
        | some d => exact ha _ (ts_push vm (pw.datum + 4))
      by_cases h3 : a = .ts_execute
      · subst h3
        simp only [step, ts_run_with]
        split_ifs
        · trivial
        · exact rfl
        · exact rfl
        · exact ha _ (ts_OUTPUT_0 1 vm)
        · exact rfl
      · rw [step_call_prim K again a pw _ h1 h2 h3]
        exact prim_mode K a pw vm
  | loop locals =>
    simp only [step]
    cases vm.pc with
    | none => trivial
    | some q => exact turn_mode K again ha locals q _ { vm with pc := some (q + 4) }

theorem exec_mode (K : Config) (n : Nat) : ∀ t vm, (exec K n t vm).mode_is vm.mode := by
  induction n with
  | zero => intro t vm; trivial
  | succ n ih => exact step_mode K _ ih

theorem ts_run_mode (K : Config) (fuel : Nat) (vm : VM) (word : Int) :
    (ts_run K fuel vm word).mode_is vm.mode := by
  unfold ts_run ts_run_with
  split_ifs
  · trivial
  · exact rfl
  · exact rfl
  · exact exec_mode K fuel _ vm
  · exact rfl

theorem get_char_frame (vm : VM) :
    ∃ i, (get_char vm).2 = { vm with input := i } := by
  unfold get_char
  cases hu : vm.input.unread with
  | nil =>
    simp only [refill]
    cases hr : vm.input.refills with
    | nil => exact ⟨vm.input, rfl⟩
    | cons chunk rest =>
      cases chunk with
      | nil => exact ⟨_, rfl⟩
      | cons c cs => exact ⟨_, rfl⟩
  | cons c cs => exact ⟨_, rfl⟩

theorem skip_loop_frame (n : Nat) : ∀ vm : VM, ∃ i, skip_loop n vm = { vm with input := i } := by
  induction n with
  | zero => intro vm; exact ⟨vm.input, rfl⟩
  | succ n ih =>
    intro vm
    obtain ⟨i, hi⟩ := get_char_frame vm
    simp only [skip_loop]
    cases hg : get_char vm with
    | mk r vm1 =>
      have e : vm1 = { vm with input := i } := by
        rw [hg] at hi
        exact hi
      cases r with
      | none => exact ⟨i, e⟩
      | some c =>
        simp only []
        split_ifs
        · exact ⟨i, e⟩
        · obtain ⟨j, hj⟩ := ih vm1
          rw [hj, e]
          exact ⟨j, rfl⟩

/-- C21: `dispatch` of a token that begins with one of the mode characters
`'`, `:`, `(` and `)` returns with the mode set to that character and nothing
else changed, whatever the mode was.  `dispatch` of a plain token in mode `:`
ends in mode `)` when it returns, and in mode `:` still when it raises.
`dispatch` of any other token ends, whether it returns or raises, with the
mode it began with; so after a plain token in Quote mode the mode is Quote
mode still. -/
theorem mode_switching (K : Config) (fuel : Nat) (vm : VM) :
    (∀ (c : Char) (rest : List Char), c = '\'' ∨ c = ':' ∨ c = '(' ∨ c = ')' →
        dispatch K fuel vm (c :: rest) = .ok { vm with mode := c }) ∧
      (∀ token : List Char, plain_token token = true → vm.mode = ':' →
        match dispatch K fuel vm token with
        | .ok vm1 => vm1.mode = ')'
        | .raised _ vm1 => vm1.mode = ':'
        | _ => True) ∧
      (∀ token : List Char,
        ¬ (token.headD '\x00' = '\'' ∨ token.headD '\x00' = ':' ∨ token.headD '\x00' = '('
            ∨ token.headD '\x00' = ')') →
        ¬ (plain_token token = true ∧ vm.mode = ':') →
        (dispatch K fuel vm token).mode_is vm.mode) ∧
      (∀ (token : List Char) (vm1 : VM), plain_token token = true → vm.mode = '\'' →
        dispatch K fuel vm token = .ok vm1 → vm1.mode = '\'') := by
  have part3 : ∀ token : List Char,
      ¬ (token.headD '\x00' = '\'' ∨ token.headD '\x00' = ':' ∨ token.headD '\x00' = '('
          ∨ token.headD '\x00' = ')') →
      ¬ (plain_token token = true ∧ vm.mode = ':') →
      (dispatch K fuel vm token).mode_is vm.mode := by
    intro token hs hc
    by_cases hp : plain_token token = true
    · have hm : ¬ vm.mode = ':' := fun h => hc ⟨hp, h⟩
      rw [dispatch_plain K fuel vm token hp]
      simp only [hm, if_false]
      split_ifs
      · exact mode_is_raised _ _ _ rfl
      · exact mode_is_ok _ _ rfl
      · exact ts_run_mode K fuel vm _
      · exact compile_mode K vm _
      · cases parse_number K token with
        | none => exact mode_is_raised _ _ _ rfl
        | some v =>
          simp only [push_or_compile]
          split_ifs
          · exact mode_is_ok _ _ rfl
          · exact compile_push_mode K vm v
    · have hh : token.headD '\x00' = '\\' ∨ token.headD '\x00' = '$' ∨
          token.headD '\x00' = '"' ∨ token.headD '\x00' = '`' := by
        by_contra hn
        push_neg at hn hs
        apply hp
        simp only [plain_token, Bool.not_eq_true', Bool.or_eq_false_iff,
          decide_eq_false_iff_not]
        exact ⟨⟨⟨⟨⟨⟨⟨hn.1, hs.1⟩, hs.2.1⟩, hs.2.2.1⟩, hs.2.2.2⟩, hn.2.1⟩, hn.2.2.1⟩, hn.2.2.2⟩
      unfold dispatch
      rcases hh with h | h | h | h
      · simp only [h, if_true]
        obtain ⟨i, hi⟩ := skip_loop_frame (input_left vm + 1) vm
        show (skip_line vm).mode = vm.mode
        unfold skip_line
        rw [hi]
      · simp only [h, Char.reduceEq, if_false, if_true, or_self, push_or_compile]
        split_ifs
        · exact mode_is_ok _ _ rfl
        · exact compile_push_mode K vm _
      · simp only [h, Char.reduceEq, if_false, if_true, or_self, true_or, compile_string]
        split_ifs
        · exact mode_is_raised _ _ _ rfl
        · simp only [push_or_compile]
          split_ifs
          · exact mode_is_ok _ _ rfl
          · exact compile_push_mode K _ _
      · simp only [h, Char.reduceEq, if_false, if_true, or_self, or_true, compile_string]
        split_ifs
        · exact mode_is_raised _ _ _ rfl
        · simp only [push_or_compile]
          split_ifs
          · exact mode_is_ok _ _ rfl
          · exact compile_push_mode K _ _
  refine ⟨?_, ?_, part3, ?_⟩
  · intro c rest hc
    unfold dispatch
    rcases hc with rfl | rfl | rfl | rfl <;> simp
  · intro token hp hm
    rw [dispatch_plain K fuel vm token hp]
    have h1 : ¬ vm.mode = '\'' := by
      rw [hm]
      decide
    rw [if_neg h1, if_pos hm]
    unfold ts_install ts_error
    split_ifs
    · exact hm
    · rfl
  · intro token vm1 hp hm h
    have hs : ¬ (token.headD '\x00' = '\'' ∨ token.headD '\x00' = ':'
        ∨ token.headD '\x00' = '(' ∨ token.headD '\x00' = ')') := by
      simp only [plain_token, Bool.not_eq_true', Bool.or_eq_false_iff,
        decide_eq_false_iff_not] at hp
      intro h4
      rcases h4 with h4 | h4 | h4 | h4
      · exact hp.1.1.1.1.1.1.2 h4
      · exact hp.1.1.1.1.1.2 h4
      · exact hp.1.1.1.1.2 h4
      · exact hp.1.1.1.2 h4
    have hc : ¬ (plain_token token = true ∧ vm.mode = ':') := by
      rintro ⟨_, h5⟩
      rw [hm] at h5
      exact absurd h5 (by decide)
    have h6 := part3 token hs hc
    rw [h] at h6
    exact h6.trans hm

/-! ## The number of words -/

theorem where_is_bind (r : Result) (f : VM → Result) (wh : Nat) (hr : r.where_is wh)
    (hf : ∀ vm, vm.where_ = wh → (f vm).where_is wh) : (r.bind f).where_is wh := by
  cases r with
  | ok vm => exact hf vm hr
  | raised m vm => exact hr
  | undefined => trivial
  | out_of_fuel => trivial

theorem compile_where (K : Config) (vm : VM) (c : Int) : (compile K vm c).where_is vm.where_ := by
  simp only [compile, ts_error]
  split_ifs
  · exact rfl
  · cases data_cell K (cell_align vm.here) <;> exact rfl

theorem compile_push_where (K : Config) (vm : VM) (c : Int) :
    (compile_push K vm c).where_is vm.where_ :=
  where_is_bind _ _ _ (compile_where K vm _) (fun v hv => by
    have h := compile_where K v c
    rw [hv] at h
    exact h)

theorem put_string_where (K : Config) (vm : VM) (s : List Char) :
    (put_string K vm s).where_ = vm.where_ := rfl

theorem print_cells_where (K : Config) (n k : Nat) (vm : VM) :
    (print_cells K n k vm).where_ = vm.where_ := by
  induction k generalizing vm with
  | zero => rfl
  | succ k ih =>
    simp only [print_cells]
    split_ifs
    · rw [ih]
      rfl
    · rw [ih]
      rfl

set_option maxHeartbeats 4000000 in
theorem prim_where (K : Config) (a : Action) (pw : Word) (vm : VM) :
    (prim K a pw vm).where_is vm.where_ := by
  cases a
  case ts_make_literal => exact compile_push_where K (ts_OUTPUT_0 1 vm) _
  case ts_comma => exact compile_where K (ts_OUTPUT_0 1 vm) _
  case ts_print_stack => exact print_cells_where K _ _ vm
  all_goals
    simp only [prim, ts_error, binary, unary, division, run_void, run_int]
  all_goals (repeat' (first | rfl | trivial | split))

theorem where_is_ok (vm : VM) (wh : Nat) (h : vm.where_ = wh) : (Result.ok vm).where_is wh := h

theorem where_is_raised (m : String) (vm : VM) (wh : Nat) (h : vm.where_ = wh) :
    (Result.raised m vm).where_is wh := h

theorem grab_where (k i : Nat) (locals : Locals) (vm : VM) :
    (grab k i locals vm).2.where_ = vm.where_ := by
  induction k generalizing i locals vm with
  | zero => rfl
  | succ k ih =>
    simp only [grab]
    rw [ih]
    rfl

theorem where_is_ite (c : Prop) {d : Decidable c} (a b : Result) (wh : Nat)
    (ha : c → a.where_is wh) (hb : ¬ c → b.where_is wh) :
    (@ite Result c d a b).where_is wh := by
  split_ifs with h
  · exact ha h
  · exact hb h

theorem turn_where (K : Config) (again : Task → VM → Result)
    (ha : ∀ t vm, (again t vm).where_is vm.where_) (locals : Locals) (q : Int) (word : Nat)
    (vm : VM) : (turn K again locals q word vm).where_is vm.where_ := by
  unfold turn
  generalize unsigned_sub word LOCAL0 = u3
  generalize unsigned_sub word GRAB1 = u4
  refine where_is_ite _ _ _ _ (fun _ => trivial) (fun _ => ?_)
  refine where_is_ite _ _ _ _ (fun _ => where_is_ok _ _ rfl) (fun _ => ?_)
  refine where_is_ite _ _ _ _ (fun _ => where_is_ok _ _ rfl) (fun _ => ?_)
  refine where_is_ite _ _ _ _ (fun _ => ?_) (fun _ => ?_)
  · cases locals (word - LOCAL0) with
    | none => trivial
    | some v => exact ha (.loop locals) (ts_push vm v)
  refine where_is_ite _ _ _ _ (fun _ => ?_) (fun _ => ?_)
  · have h := ha (.loop (grab (1 + (word - GRAB1)) 0 locals vm).1)
      (grab (1 + (word - GRAB1)) 0 locals vm).2
    rw [grab_where] at h
    exact h
  refine where_is_ite _ _ _ _ (fun _ => ?_) (fun _ => ?_)
  · refine where_is_ite _ _ _ _ (fun _ => trivial) (fun _ => ?_)
    simp only []
    cases data_cell K (vm.words (vm.where_ - 1)).datum with
    | none => exact where_is_raised _ _ _ rfl
    | some a => exact where_is_ok _ _ rfl
  refine where_is_ite _ _ _ _ (fun _ => ?_) (fun _ => where_is_raised _ _ _ rfl)
  refine where_is_ite _ _ _ _ (fun _ => ?_) (fun _ => ?_)
  · cases data_cell K (vm.words word).datum with
    | none => exact where_is_raised _ _ _ rfl
    | some a => exact ha (.loop locals) { vm with pc := some a }
  · exact where_is_bind _ _ _ (ha _ vm) (fun v hv => by
      have h := ha (.loop locals) v
      rw [hv] at h
      exact h)

theorem step_where (K : Config) (again : Task → VM → Result)
    (ha : ∀ t vm, (again t vm).where_is vm.where_) :
    ∀ t vm, (step K again t vm).where_is vm.where_ := by
  intro t vm
  cases t with
  | call a pw =>
    cases a with
    | none => trivial
    | some a =>
      by_cases h1 : a = .do_sequence
      · subst h1
        simp only [step, do_sequence_frame]
        cases data_cell K pw.datum with
        | none => exact rfl
        | some d =>
          simp only []
          have h := ha (.loop fresh_locals) (ts_TRY { vm with pc := some d })
          cases hr : again (.loop fresh_locals) (ts_TRY { vm with pc := some d }) with
          | ok v => rw [hr] at h; exact h
          | raised m v => rw [hr] at h; exact h
          | undefined => trivial
          | out_of_fuel => trivial
      by_cases h2 : a = .ts_do_will
      · subst h2
        simp only [step]
        cases data_cell K pw.datum with
        | none => exact rfl
        | some d => exact ha _ (ts_push vm (pw.datum + 4))
      by_cases h3 : a = .ts_execute
      · subst h3
        simp only [step, ts_run_with]
        split_ifs
        · trivial
        · exact rfl
        · exact rfl
        · exact ha _ (ts_OUTPUT_0 1 vm)
        · exact rfl
      · rw [step_call_prim K again a pw _ h1 h2 h3]
        exact prim_where K a pw vm
  | loop locals =>
    simp only [step]
    cases vm.pc with
    | none => trivial
    | some q => exact turn_where K again ha locals q _ { vm with pc := some (q + 4) }

theorem exec_where (K : Config) (n : Nat) : ∀ t vm, (exec K n t vm).where_is vm.where_ := by
  induction n with
  | zero => intro t vm; trivial
  | succ n ih => exact step_where K _ ih

/-! ## Dispatch of character and string literals -/

theorem compile_push_ok (K : Config) (vm : VM) (n : Int) (hK : K.ts_data_size ≤ 2147483644)
    (h0 : 0 ≤ cell_align vm.here) (h1 : cell_align vm.here + 4 < vm.there)
    (h2 : cell_align vm.here + 4 < K.ts_data_size) :
    compile_push K vm n
      = .ok { vm with data := write_cell (write_cell vm.data (cell_align vm.here) LITERAL)
                                (cell_align vm.here + 4) n,
                      here := cell_align vm.here + 8 } := by
  have hal : cell_align vm.here % 4 = 0 := by
    unfold cell_align wrap32
    omega
  have hw : wrap32 (cell_align vm.here + 4) = cell_align vm.here + 4 := by
    unfold wrap32
    omega
  have hw8 : wrap32 (cell_align vm.here + 4 + 4) = cell_align vm.here + 8 := by
    unfold wrap32
    omega
  have ha : cell_align (cell_align vm.here + 4) = cell_align vm.here + 4 :=
    cell_align_of_aligned _ (by omega) (by omega) (by omega)
  have u1 : ¬ (K.ts_data_size ≤ to_unsigned (cell_align vm.here)) := by
    unfold to_unsigned
    omega
  have u2 : ¬ (K.ts_data_size ≤ to_unsigned (cell_align vm.here + 4)) := by
    unfold to_unsigned
    omega
  have g1 : ¬ (vm.there ≤ cell_align vm.here) := by omega
  have g2 : ¬ (vm.there ≤ cell_align vm.here + 4) := by omega
  simp only [compile_push, compile, data_cell, data_byte, g1, u1, if_false, Result.bind, hw, ha,
    g2, u2, hw8]

theorem char_code_is_cell (c : Char) : is_cell (char_code c) := by
  unfold is_cell char_code
  split_ifs <;> omega

/-- C22: `dispatch` of the token `$c` in Run mode pushes the character code of
`c` (the value of the byte as a signed `char`, which is the code itself below
128) and changes nothing else; in any other mode, where the data space has room
for two cells at the first cell boundary a at or after `here`, it stores the
cells LITERAL and the code at a and a + 4, leaves `here` at a + 8 and changes
nothing else, the stack included.  `dispatch` of a string token, the delimiter
and then the text, where the string region has room for the text and a NUL,
lowers `there` by the length of the text plus one, stores the bytes of the text
and a NUL from the new `there` on, and then does with the new `there` as value
what it does with a character code: pushes it in Run mode and compiles the
literal in any other mode; where the region has no room it raises "Out of
string space".  (The data space is taken to be addressable by an `int`.) -/
theorem dispatch_literals (K : Config) (fuel : Nat) (vm : VM) (c d : Char) (text : List Char)
    (hK : K.ts_data_size ≤ 2147483644) (hd : d = '"' ∨ d = '`')
    (hlen : text.length + 1 < 2147483648) :
    (vm.mode = '(' → dispatch K fuel vm ['$', c] = .ok (ts_push vm (char_code c))) ∧
      (vm.mode ≠ '(' → 0 ≤ cell_align vm.here → cell_align vm.here + 4 < vm.there →
        cell_align vm.here + 4 < K.ts_data_size →
        ∃ vm1, dispatch K fuel vm ['$', c] = .ok vm1 ∧
          vm1 = { vm with data := vm1.data, here := cell_align vm.here + 8 } ∧
          read_cell vm1.data (cell_align vm.here) = LITERAL ∧
          read_cell vm1.data (cell_align vm.here + 4) = char_code c ∧
          ∀ x, x < cell_align vm.here ∨ cell_align vm.here + 8 ≤ x → vm1.data x = vm.data x) ∧
      (c.toNat < 128 → char_code c = c.toNat) ∧
      (vm.there - (text.length + 1) < vm.here →
        dispatch K fuel vm (d :: text) = .raised "Out of string space" vm) ∧
      (¬ vm.there - (text.length + 1) < vm.here →
        ∃ vm2, vm2 = { vm with there := vm.there - (text.length + 1), data := vm2.data } ∧
          (∀ i (h : i < text.length),
            vm2.data (vm2.there + i) = (text.get ⟨i, h⟩).toNat % 256) ∧
          vm2.data (vm2.there + text.length) = 0 ∧
          (∀ x, x < vm2.there ∨ vm.there ≤ x → vm2.data x = vm.data x) ∧
          (vm.mode = '(' → dispatch K fuel vm (d :: text) = .ok (ts_push vm2 vm2.there)) ∧
          (vm.mode ≠ '(' → dispatch K fuel vm (d :: text) = compile_push K vm2 vm2.there)) := by
  have hsize : wrap32 ((text.length : Int) + 1) = (text.length : Int) + 1 := by
    apply wrap32_of_cell
    unfold is_cell
    omega
  have hq : ¬ (d = '\\') ∧ ¬ (d = '\'' ∨ d = ':' ∨ d = '(' ∨ d = ')') ∧ ¬ (d = '$') := by
    rcases hd with rfl | rfl <;> decide
  have hstr : dispatch K fuel vm (d :: text) =
      match compile_string vm (text.map (fun c => c.toNat % 256)) with
      | .error (message, vm1) => .raised message vm1
      | .ok (string_index, vm1) => push_or_compile K vm1 string_index := by
    unfold dispatch
    simp only [List.headD_cons, hq.1, hq.2.1, hq.2.2, hd, if_false, if_true, List.tail_cons]
  refine ⟨?_, ?_, ?_, ?_, ?_⟩
  · intro hm
    unfold dispatch
    simp [push_or_compile, hm]
  · intro hm h0 h1 h2
    refine ⟨{ vm with data := write_cell (write_cell vm.data (cell_align vm.here) LITERAL)
                                (cell_align vm.here + 4) (char_code c),
                      here := cell_align vm.here + 8 }, ?_, rfl, ?_, ?_, ?_⟩
    · unfold dispatch
      simp only [List.headD_cons, Char.reduceEq, if_false, if_true, or_self, push_or_compile, hm,
        List.getD_cons_succ, List.getD_cons_zero]
      exact compile_push_ok K vm _ hK h0 h1 h2
    · show read_cell (write_cell (write_cell vm.data _ _) _ _) _ = _
      rw [read_write_cell_other _ _ _ _ (Or.inl (le_refl _)), read_write_cell_same]
      rfl
    · show read_cell (write_cell (write_cell vm.data _ _) _ _) _ = _
      rw [read_write_cell_same, wrap32_of_cell _ (char_code_is_cell c)]
    · intro x hx
      show write_cell (write_cell vm.data _ _) _ _ x = _
      unfold write_cell
      have e1 : ¬ x = cell_align vm.here := by omega
      have e2 : ¬ x = cell_align vm.here + 1 := by omega
      have e3 : ¬ x = cell_align vm.here + 2 := by omega
      have e4 : ¬ x = cell_align vm.here + 3 := by omega
      have e5 : ¬ x = cell_align vm.here + 4 := by omega
      have e6 : ¬ x = cell_align vm.here + 4 + 1 := by omega
      have e7 : ¬ x = cell_align vm.here + 4 + 2 := by omega
      have e8 : ¬ x = cell_align vm.here + 4 + 3 := by omega
      simp only [e1, e2, e3, e4, e5, e6, e7, e8, if_false]
  · intro hc
    unfold char_code
    have : c.toNat % 256 = c.toNat := by omega
    rw [this, if_pos hc]
  · intro hfull
    rw [hstr]
    simp only [compile_string, List.length_map, hsize, hfull, if_true]
  · intro hroom
    refine ⟨{ vm with there := vm.there - (text.length + 1),
                      data := write_bytes vm.data (vm.there - (text.length + 1))
                        (text.map (fun c => c.toNat % 256) ++ [0]) }, rfl, ?_, ?_, ?_, ?_, ?_⟩
    · intro i h
      show write_bytes _ _ _ _ = _
      rw [write_bytes_inside _ _ _ i (by simp; omega)]
      simp [List.getElem_append_left, h]
    · show write_bytes _ _ _ _ = _
      have h := write_bytes_inside (text.map (fun c => c.toNat % 256) ++ [0]) vm.data
        (vm.there - (text.length + 1)) text.length (by simp)
      rw [h]
      simp
    · intro x hx
      show write_bytes _ _ _ _ = _
      apply write_bytes_outside
      simp only [List.length_append, List.length_map, List.length_singleton, Nat.cast_add,
        Nat.cast_one]
      rcases hx with hx | hx
      · left
        exact hx
      · right
        omega
    · intro hm
      rw [hstr]
      simp only [compile_string, List.length_map, hsize, hroom, if_false, push_or_compile]
      rw [if_pos hm]
    · intro hm
      rw [hstr]
      simp only [compile_string, List.length_map, hsize, hroom, if_false, push_or_compile]
      rw [if_neg hm]
theorem dispatch_literals_witness :
    small_config.ts_data_size ≤ 2147483644 ∧ ('"' = '"' ∨ '"' = '`') ∧
      ['h', 'i'].length + 1 < 2147483648 ∧
      dispatch small_config 0 small_vm ['$', 'a'] = .ok (ts_push small_vm (char_code 'a')) ∧
      char_code 'a' = 97 ∧
      (∃ vm1, dispatch small_config 0 { small_vm with mode := ')' } ['$', 'a'] = .ok vm1 ∧
        read_cell vm1.data 0 = LITERAL ∧ read_cell vm1.data 4 = 97) ∧
      ∃ vm2, vm2.there = 61 ∧ vm2.data 61 = 104 ∧ vm2.data 62 = 105 ∧ vm2.data 63 = 0 ∧
        dispatch small_config 0 small_vm ['"', 'h', 'i'] = .ok (ts_push vm2 61) :=
  have t := dispatch_literals small_config 0 small_vm 'a' '"' ['h', 'i'] (by decide)
    (Or.inl rfl) (by decide)
  have u := dispatch_literals small_config 0 { small_vm with mode := ')' } 'a' '"' ['h', 'i']
    (by decide) (Or.inl rfl) (by decide)
  have hm : small_vm.mode = '(' := by decide!
  have hh : cell_align small_vm.here = 0 := by decide!
  have ht : small_vm.there = 64 := by decide!
  ⟨by decide, Or.inl rfl, by decide, t.1 hm, by decide, by
    obtain ⟨vm1, h1, _, h3, h4, _⟩ := u.2.1 (by decide)
      (by show 0 ≤ cell_align small_vm.here; rw [hh])
      (by show cell_align small_vm.here + 4 < small_vm.there; rw [hh, ht]; decide)
      (by show cell_align small_vm.here + 4 < (64 : Nat); rw [hh]; decide)
    refine ⟨vm1, h1, ?_, ?_⟩
    · have e : cell_align ({ small_vm with mode := ')' } : VM).here = 0 := hh
      rw [e] at h3
      exact h3
    · have e : cell_align ({ small_vm with mode := ')' } : VM).here = 0 := hh
      rw [e] at h4
      exact h4, by
    obtain ⟨vm2, h1, h2, h3, _, h5, _⟩ := t.2.2.2.2 (by rw [ht]; decide!)
    have e : vm2.there = 61 := by
      rw [h1]
      show small_vm.there - _ = 61
      rw [ht]
      rfl
    refine ⟨vm2, e, ?_, ?_, ?_, ?_⟩
    · have := h2 0 (by decide)
      rw [e] at this
      exact this
    · have := h2 1 (by decide)
      rw [e] at this
      exact this
    · rw [e] at h3
      exact h3
    · have := h5 hm
      rw [e] at this
      exact this⟩

/-! ## Reading characters -/

theorem delivered_length (r : List (List Char)) :
    (delivered r).length ≤ (r.map (fun chunk => chunk.length + 1)).sum := by
  induction r with
  | nil => simp [delivered]
  | cons chunk rest ih =>
    cases chunk with
    | nil => simp [delivered]
    | cons c cs =>
      simp only [delivered, List.length_cons, List.length_append, List.map_cons, List.sum_cons]
      omega

theorem pending_length (vm : VM) : (pending vm).length ≤ input_left vm := by
  have h := delivered_length vm.input.refills
  simp only [pending, input_left, List.length_append]
  omega

theorem get_char_cons (vm : VM) (c : Char) (rest : List Char) (h : pending vm = c :: rest) :
    ∃ i : InStream, get_char vm = (as_int c, { vm with input := i }) ∧
      i.unread ++ delivered i.refills = rest ∧ i.place = advance vm.input.place c ∧
      input_left { vm with input := i } < input_left vm := by
  unfold pending at h
  unfold get_char
  cases hu : vm.input.unread with
  | cons x xs =>
    rw [hu] at h
    simp only [List.cons_append, List.cons.injEq] at h
    obtain ⟨rfl, h⟩ := h
    refine ⟨_, rfl, h, rfl, ?_⟩
    simp [input_left, hu]
  | nil =>
    rw [hu] at h
    simp only [List.nil_append] at h
    unfold refill
    cases hr : vm.input.refills with
    | nil =>
      rw [hr] at h
      cases h
    | cons chunk more =>
      rw [hr] at h
      cases chunk with
      | nil => cases h
      | cons x xs =>
        simp only [delivered, List.cons.injEq] at h
        obtain ⟨rfl, rfl⟩ := h
        refine ⟨_, rfl, rfl, rfl, ?_⟩
        simp [input_left, hu, hr]
        omega

theorem get_char_nil (vm : VM) (h : pending vm = []) :
    ∃ i : InStream, get_char vm = (none, { vm with input := i }) ∧
      i.place = vm.input.place ∧ i.unread = [] ∧
      (vm.input.refills = [] → i = vm.input) ∧
      input_left { vm with input := i } ≤ input_left vm := by
  unfold pending at h
  have hu : vm.input.unread = [] := (List.append_eq_nil.mp h).1
  have hd : delivered vm.input.refills = [] := (List.append_eq_nil.mp h).2
  unfold get_char refill
  rw [hu]
  cases hr : vm.input.refills with
  | nil =>
    refine ⟨vm.input, rfl, rfl, hu, fun _ => rfl, le_refl _⟩
  | cons chunk more =>
    rw [hr] at hd
    cases chunk with
    | cons x xs => cases hd
    | nil =>
      refine ⟨{ vm.input with refills := more }, rfl, rfl, hu, ?_, ?_⟩
      · intro hh
        cases hh
      · simp [input_left, hu, hr]

theorem peek_char_cons (vm : VM) (c : Char) (rest : List Char) (h : pending vm = c :: rest) :
    ∃ i : InStream, peek_char vm = (as_int c, { vm with input := i }) ∧
      i.unread ++ delivered i.refills = c :: rest ∧ i.place = vm.input.place ∧
      input_left { vm with input := i } ≤ input_left vm := by
  unfold pending at h
  unfold peek_char
  cases hu : vm.input.unread with
  | cons x xs =>
    rw [hu] at h
    have hx : x = c := by
      simp only [List.cons_append, List.cons.injEq] at h
      exact h.1
    subst hx
    refine ⟨vm.input, rfl, ?_, rfl, le_refl _⟩
    rw [hu]
    exact h
  | nil =>
    rw [hu] at h
    simp only [List.nil_append] at h
    unfold refill
    cases hr : vm.input.refills with
    | nil =>
      rw [hr] at h
      cases h
    | cons chunk more =>
      rw [hr] at h
      cases chunk with
      | nil => cases h
      | cons x xs =>
        simp only [delivered, List.cons.injEq] at h
        obtain ⟨rfl, rfl⟩ := h
        refine ⟨_, rfl, rfl, rfl, ?_⟩
        · simp [input_left, hu, hr]

theorem peek_char_nil (vm : VM) (h : pending vm = []) :
    ∃ i : InStream, peek_char vm = (none, { vm with input := i }) ∧
      i.place = vm.input.place ∧ i.unread = [] ∧
      (vm.input.refills = [] → i = vm.input) ∧
      input_left { vm with input := i } ≤ input_left vm := by
  unfold pending at h
  have hu : vm.input.unread = [] := (List.append_eq_nil.mp h).1
  have hd : delivered vm.input.refills = [] := (List.append_eq_nil.mp h).2
  unfold peek_char refill
  rw [hu]
  cases hr : vm.input.refills with
  | nil =>
    refine ⟨vm.input, rfl, rfl, hu, fun _ => rfl, le_refl _⟩
  | cons chunk more =>
    rw [hr] at hd
    cases chunk with
    | cons x xs => cases hd
    | nil =>
      refine ⟨{ vm.input with refills := more }, rfl, rfl, hu, ?_, ?_⟩
      · intro hh
        cases hh
      · simp [input_left, hu, hr]
/-! ## Scanning tokens -/

theorem as_int_of_lt (c : Char) (h : c.toNat < 255) : as_int c = some c := by
  unfold as_int
  rw [if_neg]
  omega

theorem as_int_space (c : Char) (h : isspace c = true) : as_int c = some c := by
  apply as_int_of_lt
  simp only [isspace, Bool.or_eq_true, decide_eq_true_eq] at h
  rcases h with ((((rfl | rfl) | rfl) | rfl) | rfl) | rfl <;> decide

theorem as_int_ends_token (c : Char) (h : ends_token c = true) : as_int c = some c := by
  apply as_int_of_lt
  simp only [ends_token, is_punctuation, Bool.or_eq_true, decide_eq_true_eq] at h
  rcases h with (((((rfl | rfl) | rfl) | rfl) | rfl) | rfl) |
    ((((((rfl | rfl) | rfl) | rfl) | rfl) | rfl) | rfl) <;> decide

theorem advance_all_append (place : Place) (a b : List Char) :
    advance_all place (a ++ b) = advance_all (advance_all place a) b := by
  simp [advance_all, List.foldl_append]

theorem skip_spaces_run (pre : List Char) (vm : VM) (n : Nat) (rest : List Char)
    (hpre : ∀ c ∈ pre, (isspace c && c != '\n') = true)
    (hp : pending vm = pre ++ rest) (hn : pre.length < n) :
    (rest = [] → ∃ i : InStream, skip_spaces n vm = some (none, { vm with input := i }) ∧
        i.place = advance_all vm.input.place pre ∧
        (vm.input.refills = [] → i.unread = [] ∧ i.refills = [])) ∧
      (∀ c rest1, rest = c :: rest1 → (isspace c && c != '\n') = false →
        ∃ i : InStream, skip_spaces n vm = some (as_int c, { vm with input := i }) ∧
          i.unread ++ delivered i.refills = rest1 ∧
          i.place = advance_all vm.input.place (pre ++ [c]) ∧
          input_left { vm with input := i } < input_left vm) := by
  induction pre generalizing vm n with
  | nil =>
    obtain ⟨m, rfl⟩ : ∃ m, n = m + 1 := ⟨n - 1, by simp at hn; omega⟩
    simp only [List.nil_append] at hp
    refine ⟨?_, ?_⟩
    · intro hr
      rw [hr] at hp
      obtain ⟨i, hg, hpl, hu, hi, _⟩ := get_char_nil vm hp
      refine ⟨i, ?_, hpl, ?_⟩
      · simp only [skip_spaces, hg]
      · intro hh
        rw [hi hh]
        unfold pending at hp
        exact ⟨(List.append_eq_nil.mp hp).1, hh⟩
    · intro c rest1 hr hc
      rw [hr] at hp
      obtain ⟨i, hg, hpd, hpl, hlt⟩ := get_char_cons vm c rest1 hp
      refine ⟨i, ?_, hpd, hpl, hlt⟩
      simp only [skip_spaces, hg]
      cases ha : as_int c with
      | none => rfl
      | some x =>
        have hx : x = c := by
          unfold as_int at ha
          split_ifs at ha
          cases ha
          rfl
        subst hx
        simp only [hc, Bool.false_eq_true, if_false]
  | cons x pre ih =>
    obtain ⟨m, rfl⟩ : ∃ m, n = m + 1 := ⟨n - 1, by simp at hn; omega⟩
    have hx : (isspace x && x != '\n') = true := hpre x (List.mem_cons_self _ _)
    have hxs : isspace x = true := by
      simp only [Bool.and_eq_true] at hx
      exact hx.1
    simp only [List.cons_append] at hp
    obtain ⟨i, hg, hpd, hpl, hlt⟩ := get_char_cons vm x (pre ++ rest) hp
    have hs : skip_spaces (m + 1) vm = skip_spaces m { vm with input := i } := by
      simp only [skip_spaces, hg, as_int_space x hxs, hx, if_true]
    have ih1 := ih { vm with input := i } m (fun c hc => hpre c (List.mem_cons_of_mem _ hc)) hpd
      (by simp at hn; omega)
    refine ⟨?_, ?_⟩
    · intro hr
      obtain ⟨j, h1, h2, h3⟩ := ih1.1 hr
      refine ⟨j, ?_, ?_, ?_⟩
      · rw [hs, h1]
      · rw [h2]
        show advance_all i.place pre = _
        rw [hpl]
        rfl
      · intro hh
        have hu : vm.input.unread = x :: pre := by
          unfold pending at hp
          rw [hh, hr] at hp
          simpa [delivered] using hp
        have hi : i.refills = [] := by
          have := hg
          unfold get_char at this
          rw [hu] at this
          simp only [Prod.mk.injEq, true_and] at this
          have e := congrArg (fun v : VM => v.input.refills) this
          simp only at e
          rw [← e]
          exact hh
        exact h3 hi
    · intro c rest1 hr hc
      obtain ⟨j, h1, h2, h3, h4⟩ := ih1.2 c rest1 hr hc
      refine ⟨j, ?_, h2, ?_, ?_⟩
      · rw [hs, h1]
      · rw [h3]
        show advance_all i.place (pre ++ [c]) = _
        rw [hpl]
        rfl
      · exact lt_trans h4 hlt

theorem scan_plain_run (size : Nat) (run : List Char) (buf : List Char) (c : Char) (vm : VM)
    (n : Nat) (rest : List Char)
    (hrun : ∀ x ∈ run, ends_token x = false ∧ as_int x = some x)
    (hp : pending vm = run ++ rest) (hn : run.length < n)
    (hsz : buf.length + run.length + 2 ≤ size) :
    (rest = [] → ∃ vm1, scan_plain size n buf c vm = .token (buf ++ c :: run) vm1) ∧
      (∀ t rest1, rest = t :: rest1 → ends_token t = true →
        ∃ i : InStream, scan_plain size n buf c vm = .token (buf ++ c :: run) { vm with input := i } ∧
          i.unread ++ delivered i.refills = rest ∧
          i.place = advance_all vm.input.place run) := by
  induction run generalizing vm n buf c with
  | nil =>
    obtain ⟨m, rfl⟩ : ∃ m, n = m + 1 := ⟨n - 1, by simp at hn; omega⟩
    simp only [List.nil_append] at hp
    have hne : ¬ size = buf.length + 1 := by
      simp only [List.length_nil] at hsz
      omega
    refine ⟨?_, ?_⟩
    · intro hr
      rw [hr] at hp
      obtain ⟨i, hg, _⟩ := peek_char_nil vm hp
      have e : scan_plain size (m + 1) buf c vm
          = .token (buf ++ [c]) (get_char { vm with input := i }).2 := by
        simp only [scan_plain, hne, if_false, hg]
      exact ⟨_, e⟩
    · intro t rest1 hr ht
      rw [hr] at hp
      obtain ⟨i, hg, hpd, hpl, _⟩ := peek_char_cons vm t rest1 hp
      refine ⟨i, ?_, ?_, hpl⟩
      · simp only [scan_plain, hne, if_false, hg, as_int_ends_token t ht, ht, if_true]
      · rw [hpd, hr]
  | cons x run ih =>
    obtain ⟨m, rfl⟩ : ∃ m, n = m + 1 := ⟨n - 1, by simp at hn; omega⟩
    have hx := hrun x (List.mem_cons_self _ _)
    have hne : ¬ size = buf.length + 1 := by
      simp only [List.length_cons] at hsz
      omega
    simp only [List.cons_append] at hp
    obtain ⟨i, hg, hpd, hpl, _⟩ := peek_char_cons vm x (run ++ rest) hp
    obtain ⟨j, hg2, hpd2, hpl2, _⟩ := get_char_cons { vm with input := i } x (run ++ rest) hpd
    have hs : scan_plain size (m + 1) buf c vm
        = scan_plain size m (buf ++ [c]) x { vm with input := j } := by
      simp only [scan_plain, hne, if_false, hg, hx.2, hx.1, Bool.false_eq_true, hg2]
    have ih1 := ih (buf ++ [c]) x { vm with input := j } m
      (fun y hy => hrun y (List.mem_cons_of_mem _ hy)) hpd2 (by simp at hn; omega)
      (by simp only [List.length_append, List.length_cons, List.length_nil] at hsz ⊢; omega)
    have e : buf ++ [c] ++ x :: run = buf ++ c :: x :: run := by simp
    refine ⟨?_, ?_⟩
    · intro hr
      obtain ⟨vm1, h1⟩ := ih1.1 hr
      exact ⟨vm1, by rw [hs, h1, e]⟩
    · intro t rest1 hr ht
      obtain ⟨k, h1, h2, h3⟩ := ih1.2 t rest1 hr ht
      refine ⟨k, by rw [hs, h1, e], h2, ?_⟩
      rw [h3]
      show advance_all j.place run = _
      rw [hpl2]
      show advance_all (advance i.place x) run = _
      rw [hpl]
      rfl

theorem scan_string_run (size : Nat) (d : Char) (content : List Char) (buf : List Char)
    (c : Char) (vm : VM) (n : Nat) (rest : List Char)
    (hcontent : ∀ x ∈ content, x ≠ d ∧ as_int x = some x)
    (hp : pending vm = content ++ rest) (hn : content.length < n)
    (hsz : buf.length + content.length + 2 ≤ size) :
    (rest = [] → ∃ vm1, scan_string size d n buf c vm
        = .raised "Unterminated string constant: %s" vm1) ∧
      (∀ rest1, rest = d :: rest1 → as_int d = some d →
        ∃ i : InStream, scan_string size d n buf c vm
            = .token (buf ++ c :: content) { vm with input := i } ∧
          i.unread ++ delivered i.refills = rest1 ∧
          i.place = advance_all vm.input.place (content ++ [d])) := by
  induction content generalizing vm n buf c with
  | nil =>
    obtain ⟨m, rfl⟩ : ∃ m, n = m + 1 := ⟨n - 1, by simp at hn; omega⟩
    simp only [List.nil_append] at hp
    have hne : ¬ size = buf.length + 1 := by
      simp only [List.length_nil] at hsz
      omega
    refine ⟨?_, ?_⟩
    · intro hr
      rw [hr] at hp
      obtain ⟨i, hg, _⟩ := get_char_nil vm hp
      have e : scan_string size d (m + 1) buf c vm
          = .raised "Unterminated string constant: %s" { vm with input := i } := by
        simp only [scan_string, hne, if_false, hg]
      exact ⟨_, e⟩
    · intro rest1 hr hd
      rw [hr] at hp
      obtain ⟨i, hg, hpd, hpl, _⟩ := get_char_cons vm d rest1 hp
      refine ⟨i, ?_, hpd, hpl⟩
      simp only [scan_string, hne, if_false, hg, hd, if_true]
  | cons x content ih =>
    obtain ⟨m, rfl⟩ : ∃ m, n = m + 1 := ⟨n - 1, by simp at hn; omega⟩
    have hx := hcontent x (List.mem_cons_self _ _)
    have hne : ¬ size = buf.length + 1 := by
      simp only [List.length_cons] at hsz
      omega
    simp only [List.cons_append] at hp
    obtain ⟨i, hg, hpd, hpl, _⟩ := get_char_cons vm x (content ++ rest) hp
    have hs : scan_string size d (m + 1) buf c vm
        = scan_string size d m (buf ++ [c]) x { vm with input := i } := by
      simp only [scan_string, hne, if_false, hg, hx.2, hx.1]
    have ih1 := ih (buf ++ [c]) x { vm with input := i } m
      (fun y hy => hcontent y (List.mem_cons_of_mem _ hy)) hpd (by simp at hn; omega)
      (by simp only [List.length_append, List.length_cons, List.length_nil] at hsz ⊢; omega)
    have e : buf ++ [c] ++ x :: content = buf ++ c :: x :: content := by simp
    refine ⟨?_, ?_⟩
    · intro hr
      obtain ⟨vm1, h1⟩ := ih1.1 hr
      exact ⟨vm1, by rw [hs, h1]⟩
    · intro rest1 hr hd
      obtain ⟨k, h1, h2, h3⟩ := ih1.2 rest1 hr hd
      refine ⟨k, by rw [hs, h1, e], h2, ?_⟩
      rw [h3]
      show advance_all i.place (content ++ [d]) = _
      rw [hpl]
      rfl
theorem skippable_of (pre : List Char) (hpre : ∀ c ∈ pre, isspace c = true ∧ c ≠ '\n') :
    ∀ c ∈ pre, (isspace c && c != '\n') = true := by
  intro c hc
  obtain ⟨h1, h2⟩ := hpre c hc
  simp [h1, h2]

theorem length_lt_input_left (vm : VM) (pre rest : List Char) (hp : pending vm = pre ++ rest) :
    pre.length < input_left vm + 1 := by
  have h := pending_length vm
  rw [hp, List.length_append] at h
  omega

/-- C25: where the input has, before the streamer first returns zero, a run
of whitespace characters other than newline and then nothing more, `get_token`
consumes the run and reports the end of the input, with no token; where a
newline follows the run, it consumes the run and the newline and returns the
token that is the newline alone, with the rest of the input unread.  The place
of the input moves past what was consumed and the place of the token is set to
it; nothing else in the VM changes. -/
theorem get_token_skips_spaces (size : Nat) (vm : VM) (pre rest : List Char)
    (hpre : ∀ c ∈ pre, isspace c = true ∧ c ≠ '\n')
    (hp : pending vm = pre ++ rest) :
    (rest = [] →
        ∃ i : InStream, get_token size vm = .eof { vm with input := i, token_place := i.place } ∧
          i.place = advance_all vm.input.place pre) ∧
      (∀ rest1, rest = '\n' :: rest1 →
        ∃ i : InStream,
          get_token size vm = .token ['\n'] { vm with input := i, token_place := i.place } ∧
          i.unread ++ delivered i.refills = rest1 ∧
          i.place = advance_all vm.input.place (pre ++ ['\n'])) := by
  have hs := skip_spaces_run pre vm (input_left vm + 1) rest (skippable_of pre hpre) hp
    (length_lt_input_left vm pre rest hp)
  refine ⟨?_, ?_⟩
  · intro hr
    obtain ⟨i, h1, h2, _⟩ := hs.1 hr
    refine ⟨i, ?_, h2⟩
    simp only [get_token, h1]
  · intro rest1 hr
    obtain ⟨i, h1, h2, h3, _⟩ := hs.2 '\n' rest1 hr (by decide)
    refine ⟨i, ?_, h2, h3⟩
    have e : as_int '\n' = some '\n' := by decide
    rw [e] at h1
    simp only [get_token, h1]
    rfl

theorem get_token_skips_spaces_witness :
    (∀ c ∈ [' ', '\t', '\x0c'], isspace c = true ∧ c ≠ '\n') ∧
      pending (ts_set_input_string zero_block [' ', '\t', '\x0c', '\n', '(']) =
        [' ', '\t', '\x0c'] ++ ['\n', '('] ∧
      ∃ i : InStream,
        get_token 1024 (ts_set_input_string zero_block [' ', '\t', '\x0c', '\n', '('])
          = .token ['\n'] { ts_set_input_string zero_block [' ', '\t', '\x0c', '\n', '('] with
                            input := i, token_place := i.place } ∧
        i.unread ++ delivered i.refills = ['('] ∧
        i.place = advance_all
          (ts_set_input_string zero_block [' ', '\t', '\x0c', '\n', '(']).input.place
          ([' ', '\t', '\x0c'] ++ ['\n']) :=
  ⟨by decide, rfl,
    (get_token_skips_spaces 1024 (ts_set_input_string zero_block [' ', '\t', '\x0c', '\n', '('])
      [' ', '\t', '\x0c'] ['\n', '('] (by decide) rfl).2 ['('] rfl⟩

/-- A plain token: where the input has, after a run of whitespace characters other than
newline, a character that is no whitespace, quote or punctuation character, and
the longest run after it of characters none of which ends a token follows,
`get_token` returns the token made of that character and the run.  The
characters that end a token are blank, tab, carriage return, newline, the quotes
and the punctuation characters; form feed and vertical tab, white space though
they are, do not end a token.  When a character that ends a token follows the
run it is left unread, the place of the input is just past the run, and nothing
else in the VM changes but the place of the token; when the input ends after
the run the token is returned as well.  (The token fits the buffer, and none of
its characters is the byte 255, which reads as the end of the input.) -/
theorem get_token_plain_run (size : Nat) (vm : VM) (pre : List Char) (c : Char)
    (run rest : List Char)
    (hpre : ∀ x ∈ pre, isspace x = true ∧ x ≠ '\n')
    (hc : isspace c = false ∧ ends_token c = false ∧ as_int c = some c)
    (hrun : ∀ x ∈ run, ends_token x = false ∧ as_int x = some x)
    (hsz : run.length + 2 ≤ size)
    (hp : pending vm = pre ++ c :: run ++ rest) :
    (rest = [] → ∃ vm1, get_token size vm = .token (c :: run) vm1) ∧
      (∀ t rest1, rest = t :: rest1 → ends_token t = true →
        ∃ i : InStream,
          get_token size vm
            = .token (c :: run)
                { vm with input := i, token_place := advance_all vm.input.place (pre ++ [c]) } ∧
          i.unread ++ delivered i.refills = t :: rest1 ∧
          i.place = advance_all vm.input.place (pre ++ c :: run)) := by
  obtain ⟨c1, c2, c3⟩ := hc
  have hp1 : pending vm = pre ++ (c :: (run ++ rest)) := by
    rw [hp]
    simp
  have hs := skip_spaces_run pre vm (input_left vm + 1) (c :: (run ++ rest))
    (skippable_of pre hpre) hp1 (length_lt_input_left vm pre _ hp1)
  obtain ⟨i, h1, h2, h3, _⟩ := hs.2 c (run ++ rest) rfl (by simp [c1])
  rw [c3] at h1
  simp only [ends_token, is_punctuation, Bool.or_eq_false_iff, decide_eq_false_iff_not] at c2
  obtain ⟨⟨⟨⟨⟨⟨_, _⟩, _⟩, e4⟩, e5⟩, e6⟩, ⟨⟨⟨⟨⟨⟨p1, p2⟩, p3⟩, p4⟩, p5⟩, p6⟩, p7⟩⟩ := c2
  have hg : get_token size vm
      = scan_plain size (input_left { vm with input := i, token_place := i.place } + 1) [] c
          { vm with input := i, token_place := i.place } := by
    simp only [get_token, h1, p6, e4, e5, e6, p1, p2, p3, p4, p5, p7, is_punctuation, if_false,
      decide_False, Bool.or_self, Bool.false_eq_true, or_self]
  have hq : pending { vm with input := i, token_place := i.place } = run ++ rest := h2
  have hr := scan_plain_run size run [] c { vm with input := i, token_place := i.place }
    (input_left { vm with input := i, token_place := i.place } + 1) rest hrun hq
    (length_lt_input_left _ run rest hq) (by simp only [List.length_nil]; omega)
  refine ⟨?_, ?_⟩
  · intro hrest
    obtain ⟨vm1, hv⟩ := hr.1 hrest
    exact ⟨vm1, by rw [hg, hv]; rfl⟩
  · intro t rest1 hrest ht
    obtain ⟨j, hv, hj1, hj2⟩ := hr.2 t rest1 hrest ht
    refine ⟨j, ?_, ?_, ?_⟩
    · rw [hg, hv, h3]
      rfl
    · rw [hj1, hrest]
    · rw [hj2]
      show advance_all i.place run = _
      rw [h3, ← advance_all_append]
      simp

theorem get_token_plain_run_witness :
    (∀ x ∈ [' '], isspace x = true ∧ x ≠ '\n') ∧
      (isspace 'a' = false ∧ ends_token 'a' = false ∧ as_int 'a' = some 'a') ∧
      (∀ x ∈ ['\x0c', 'b'], ends_token x = false ∧ as_int x = some x) ∧
      ['\x0c', 'b'].length + 2 ≤ 1024 ∧
      pending (ts_set_input_string zero_block [' ', 'a', '\x0c', 'b', ' ', 'c'])
        = [' '] ++ 'a' :: ['\x0c', 'b'] ++ [' ', 'c'] ∧
      ∃ i : InStream,
        get_token 1024 (ts_set_input_string zero_block [' ', 'a', '\x0c', 'b', ' ', 'c'])
          = .token ['a', '\x0c', 'b']
              { ts_set_input_string zero_block [' ', 'a', '\x0c', 'b', ' ', 'c'] with
                input := i,
                token_place := advance_all
                  (ts_set_input_string zero_block [' ', 'a', '\x0c', 'b', ' ', 'c']).input.place
                  ([' '] ++ ['a']) } ∧
        i.unread ++ delivered i.refills = [' ', 'c'] ∧
        i.place = advance_all
          (ts_set_input_string zero_block [' ', 'a', '\x0c', 'b', ' ', 'c']).input.place
          ([' '] ++ 'a' :: ['\x0c', 'b']) :=
  ⟨by decide, by decide, by decide, by decide, rfl,
    (get_token_plain_run 1024 (ts_set_input_string zero_block [' ', 'a', '\x0c', 'b', ' ', 'c'])
      [' '] 'a' ['\x0c', 'b'] [' ', 'c'] (by decide) (by decide) (by decide) (by decide) rfl).2
      ' ' ['c'] rfl (by decide)⟩

/-- C23: `get_token` does not end a plain token at every whitespace character.
Form feed and vertical tab are whitespace for `isspace`, which the loop that
skips the space before a token uses, but the loop that scans a plain token
stops only at blank, tab, carriage return, newline, the quotes and the
punctuation characters.  In the input `a`, form feed, `b`, blank, `c` the token
returned is `a`, form feed, `b`, three characters with a whitespace character
inside, and the blank and `c` are left unread; the maximal run without
whitespace is `a`.  A vertical tab in the place of the form feed does the same.
Before a token the same characters are skipped: in the input form feed, `a`,
blank, `b` the token is `a`. -/
theorem form_feed_inside_token :
    (isspace '\x0c' = true ∧ ends_token '\x0c' = false) ∧
      (isspace '\x0b' = true ∧ ends_token '\x0b' = false) ∧
      (∃ vm1, get_token 1024 (ts_set_input_string zero_block ['a', '\x0c', 'b', ' ', 'c'])
        = .token ['a', '\x0c', 'b'] vm1 ∧ vm1.input.unread = [' ', 'c']) ∧
      (∃ vm1, get_token 1024 (ts_set_input_string zero_block ['a', '\x0b', 'b', ' ', 'c'])
        = .token ['a', '\x0b', 'b'] vm1 ∧ vm1.input.unread = [' ', 'c']) ∧
      ∃ vm1, get_token 1024 (ts_set_input_string zero_block ['\x0c', 'a', ' ', 'b'])
        = .token ['a'] vm1 ∧ vm1.input.unread = [' ', 'b'] :=
  ⟨by decide, by decide, ⟨_, rfl, rfl⟩, ⟨_, rfl, rfl⟩, ⟨_, rfl, rfl⟩⟩

/-- C24: where the input has, after a run of whitespace characters other than
newline, a string delimiter d, `"` or the backquote, then characters none of
which is d, and then d again, `get_token` returns the token made of d and those
characters, the other delimiter among them being a character like any other;
the closing d is consumed and what follows it is left unread, the place of the
input is just past the closing d, and nothing else in the VM changes but the
place of the token.  Where the input ends before d occurs again, it raises the
error of the unterminated string.  (The token fits the buffer, and none of its
characters is the byte 255, which reads as the end of the input.) -/
theorem get_token_string (size : Nat) (vm : VM) (pre : List Char) (d : Char)
    (content rest : List Char)
    (hpre : ∀ x ∈ pre, isspace x = true ∧ x ≠ '\n')
    (hd : d = '"' ∨ d = '`')
    (hcontent : ∀ x ∈ content, x ≠ d ∧ as_int x = some x)
    (hsz : content.length + 2 ≤ size)
    (hp : pending vm = pre ++ d :: content ++ rest) :
    (rest = [] →
        ∃ vm1, get_token size vm = .raised "Unterminated string constant: %s" vm1) ∧
      (∀ rest1, rest = d :: rest1 →
        ∃ i : InStream,
          get_token size vm
            = .token (d :: content)
                { vm with input := i, token_place := advance_all vm.input.place (pre ++ [d]) } ∧
          i.unread ++ delivered i.refills = rest1 ∧
          i.place = advance_all vm.input.place (pre ++ d :: content ++ [d])) := by
  have hp1 : pending vm = pre ++ (d :: (content ++ rest)) := by
    rw [hp]
    simp
  have hd1 : (isspace d && d != '\n') = false := by
    rcases hd with rfl | rfl <;> decide
  have hd2 : as_int d = some d := by
    rcases hd with rfl | rfl <;> decide
  have hs := skip_spaces_run pre vm (input_left vm + 1) (d :: (content ++ rest))
    (skippable_of pre hpre) hp1 (length_lt_input_left vm pre _ hp1)
  obtain ⟨i, h1, h2, h3, _⟩ := hs.2 d (content ++ rest) rfl hd1
  rw [hd2] at h1
  have hg : get_token size vm
      = scan_string size d (input_left { vm with input := i, token_place := i.place } + 1) [] d
          { vm with input := i, token_place := i.place } := by
    simp only [get_token, h1]
    rcases hd with rfl | rfl <;> simp [is_punctuation]
  have hq : pending { vm with input := i, token_place := i.place } = content ++ rest := h2
  have hr := scan_string_run size d content [] d { vm with input := i, token_place := i.place }
    (input_left { vm with input := i, token_place := i.place } + 1) rest hcontent hq
    (length_lt_input_left _ content rest hq) (by simp only [List.length_nil]; omega)
  refine ⟨?_, ?_⟩
  · intro hrest
    obtain ⟨vm1, hv⟩ := hr.1 hrest
    exact ⟨vm1, by rw [hg, hv]⟩
  · intro rest1 hrest
    obtain ⟨j, hv, hj1, hj2⟩ := hr.2 rest1 hrest hd2
    refine ⟨j, ?_, hj1, ?_⟩
    · rw [hg, hv, h3]
      rfl
    · rw [hj2]
      show advance_all i.place (content ++ [d]) = _
      rw [h3, ← advance_all_append]
      simp

theorem get_token_string_witness :
    (∀ x ∈ [' '], isspace x = true ∧ x ≠ '\n') ∧ ('"' = '"' ∨ '"' = '`') ∧
      (∀ x ∈ ['a', '`', ' ', 'b'], x ≠ '"' ∧ as_int x = some x) ∧
      ['a', '`', ' ', 'b'].length + 2 ≤ 1024 ∧
      pending (ts_set_input_string zero_block [' ', '"', 'a', '`', ' ', 'b', '"', 'c'])
        = [' '] ++ '"' :: ['a', '`', ' ', 'b'] ++ ['"', 'c'] ∧
      ∃ i : InStream,
        get_token 1024 (ts_set_input_string zero_block [' ', '"', 'a', '`', ' ', 'b', '"', 'c'])
          = .token ['"', 'a', '`', ' ', 'b']
              { ts_set_input_string zero_block [' ', '"', 'a', '`', ' ', 'b', '"', 'c'] with
                input := i,
                token_place := advance_all
                  (ts_set_input_string zero_block
                    [' ', '"', 'a', '`', ' ', 'b', '"', 'c']).input.place
                  ([' '] ++ ['"']) } ∧
        i.unread ++ delivered i.refills = ['c'] ∧
        i.place = advance_all
          (ts_set_input_string zero_block [' ', '"', 'a', '`', ' ', 'b', '"', 'c']).input.place
          ([' '] ++ '"' :: ['a', '`', ' ', 'b'] ++ ['"']) :=
  ⟨by decide, Or.inl rfl, by decide, by decide, rfl,
    (get_token_string 1024
      (ts_set_input_string zero_block [' ', '"', 'a', '`', ' ', 'b', '"', 'c'])
      [' '] '"' ['a', '`', ' ', 'b'] ['"', 'c'] (by decide) (Or.inl rfl) (by decide) (by decide)
      rfl).2 ['c'] rfl⟩
/-! ## The token buffer -/

theorem get_char_left (vm : VM) :
    input_left (get_char vm).2 ≤ input_left vm ∧
      ∀ c, (get_char vm).1 = some c → input_left (get_char vm).2 < input_left vm := by
  unfold get_char
  cases hu : vm.input.unread with
  | cons x xs =>
    simp only [input_left, hu, List.length_cons]
    exact ⟨by omega, fun _ _ => by omega⟩
  | nil =>
    unfold refill
    cases hr : vm.input.refills with
    | nil =>
      simp only [input_left, hu, hr]
      exact ⟨le_refl _, fun c h => by cases h⟩
    | cons chunk more =>
      cases chunk with
      | nil =>
        simp only [input_left, hu, hr, List.map_cons, List.sum_cons, List.length_nil]
        exact ⟨by omega, fun c h => by cases h⟩
      | cons x xs =>
        simp only [input_left, hu, hr, List.map_cons, List.sum_cons, List.length_cons, if_true]
        exact ⟨by omega, fun _ _ => by omega⟩

theorem peek_char_left (vm : VM) :
    input_left (peek_char vm).2 ≤ input_left vm ∧
      ∀ c, (peek_char vm).1 = some c → input_left (get_char (peek_char vm).2).2 < input_left vm := by
  unfold peek_char
  cases hu : vm.input.unread with
  | cons x xs =>
    refine ⟨le_refl _, fun c _ => ?_⟩
    simp only [get_char, hu, input_left, List.length_cons]
    omega
  | nil =>
    unfold refill
    cases hr : vm.input.refills with
    | nil =>
      simp only [input_left, hu, hr]
      exact ⟨le_refl _, fun c h => by cases h⟩
    | cons chunk more =>
      cases chunk with
      | nil =>
        simp only [input_left, hu, hr, List.map_cons, List.sum_cons, List.length_nil]
        exact ⟨by omega, fun c h => by cases h⟩
      | cons x xs =>
        simp only [input_left, hu, hr, List.map_cons, List.sum_cons, List.length_cons,
          Bool.false_eq_true, if_false, get_char]
        exact ⟨by omega, fun _ _ => by omega⟩

theorem skip_spaces_total (n : Nat) (vm : VM) (h : input_left vm < n) :
    skip_spaces n vm ≠ none := by
  induction n generalizing vm with
  | zero => omega
  | succ m ih =>
    have hl := get_char_left vm
    unfold skip_spaces
    cases hg : get_char vm with
    | mk r vm1 =>
      rw [hg] at hl
      cases r with
      | none => simp
      | some c =>
        simp only
        split_ifs
        · exact ih vm1 (by have := hl.2 c rfl; simp only at this; omega)
        · simp

theorem scan_plain_total (size : Nat) (n : Nat) (buf : List Char) (c : Char) (vm : VM)
    (h : input_left vm < n) : scan_plain size n buf c vm ≠ .out_of_fuel := by
  induction n generalizing vm buf c with
  | zero => omega
  | succ m ih =>
    have hl := peek_char_left vm
    unfold scan_plain
    split_ifs
    · simp
    · cases hg : peek_char vm with
      | mk r vm1 =>
        rw [hg] at hl
        cases r with
        | none => simp
        | some c1 =>
          simp only
          split_ifs
          · simp
          · exact ih _ _ _ (by have := hl.2 c1 rfl; simp only at this; omega)

theorem scan_string_total (size : Nat) (d : Char) (n : Nat) (buf : List Char) (c : Char)
    (vm : VM) (h : input_left vm < n) : scan_string size d n buf c vm ≠ .out_of_fuel := by
  induction n generalizing vm buf c with
  | zero => omega
  | succ m ih =>
    have hl := get_char_left vm
    unfold scan_string
    split_ifs
    · simp
    · cases hg : get_char vm with
      | mk r vm1 =>
        rw [hg] at hl
        cases r with
        | none => simp
        | some c1 =>
          simp only
          split_ifs
          · simp
          · exact ih _ _ _ (by have := hl.2 c1 rfl; simp only at this; omega)

theorem scan_plain_bound (size : Nat) (n : Nat) (buf : List Char) (c : Char) (vm : VM)
    (h : buf.length + 1 ≤ size) (text : List Char) (vm1 : VM)
    (ht : scan_plain size n buf c vm = .token text vm1) : text.length + 1 ≤ size := by
  induction n generalizing vm buf c with
  | zero => cases ht
  | succ m ih =>
    unfold scan_plain at ht
    split_ifs at ht with h1
    cases hg : peek_char vm with
    | mk r vm2 =>
      rw [hg] at ht
      cases r with
      | none =>
        simp only [Scan.token.injEq] at ht
        rw [← ht.1]
        simp only [List.length_append, List.length_singleton]
        omega
      | some c1 =>
        simp only at ht
        split_ifs at ht
        · simp only [Scan.token.injEq] at ht
          rw [← ht.1]
          simp only [List.length_append, List.length_singleton]
          omega
        · exact ih _ _ _ (by simp only [List.length_append, List.length_singleton]; omega) ht

theorem scan_string_bound (size : Nat) (d : Char) (n : Nat) (buf : List Char) (c : Char)
    (vm : VM) (h : buf.length + 1 ≤ size) (text : List Char) (vm1 : VM)
    (ht : scan_string size d n buf c vm = .token text vm1) : text.length + 1 ≤ size := by
  induction n generalizing vm buf c with
  | zero => cases ht
  | succ m ih =>
    unfold scan_string at ht
    split_ifs at ht with h1
    cases hg : get_char vm with
    | mk r vm2 =>
      rw [hg] at ht
      cases r with
      | none => cases ht
      | some c1 =>
        simp only at ht
        split_ifs at ht
        · simp only [Scan.token.injEq] at ht
          rw [← ht.1]
          simp only [List.length_append, List.length_singleton]
          omega
        · exact ih _ _ _ (by simp only [List.length_append, List.length_singleton]; omega) ht

theorem scan_plain_long (size : Nat) (run : List Char) (buf : List Char) (c : Char) (vm : VM)
    (n : Nat) (rest : List Char)
    (hrun : ∀ x ∈ run, ends_token x = false ∧ as_int x = some x)
    (hp : pending vm = run ++ rest) (hn : run.length < n)
    (h1 : buf.length + 1 ≤ size) (h2 : size ≤ buf.length + run.length + 1) :
    ∃ vm1, scan_plain size n buf c vm = .raised "Token too long: %s..." vm1 := by
  induction run generalizing vm n buf c with
  | nil =>
    obtain ⟨m, rfl⟩ : ∃ m, n = m + 1 := ⟨n - 1, by simp at hn; omega⟩
    have he : size = buf.length + 1 := by
      simp only [List.length_nil] at h2
      omega
    exact ⟨vm, by simp only [scan_plain, he, if_true]⟩
  | cons x run ih =>
    obtain ⟨m, rfl⟩ : ∃ m, n = m + 1 := ⟨n - 1, by simp at hn; omega⟩
    by_cases he : size = buf.length + 1
    · exact ⟨vm, by simp only [scan_plain, he, if_true]⟩
    · have hx := hrun x (List.mem_cons_self _ _)
      simp only [List.cons_append] at hp
      obtain ⟨i, hg, hpd, hpl, _⟩ := peek_char_cons vm x (run ++ rest) hp
      obtain ⟨j, hg2, hpd2, hpl2, _⟩ := get_char_cons { vm with input := i } x (run ++ rest) hpd
      have hs : scan_plain size (m + 1) buf c vm
          = scan_plain size m (buf ++ [c]) x { vm with input := j } := by
        simp only [scan_plain, he, if_false, hg, hx.2, hx.1, Bool.false_eq_true, hg2]
      obtain ⟨vm1, hv⟩ := ih (buf ++ [c]) x { vm with input := j } m
        (fun y hy => hrun y (List.mem_cons_of_mem _ hy)) hpd2 (by simp at hn; omega)
        (by simp only [List.length_append, List.length_singleton]; omega)
        (by simp only [List.length_append, List.length_cons, List.length_nil] at h2 ⊢; omega)
      exact ⟨vm1, by rw [hs, hv]⟩

theorem scan_string_long (size : Nat) (d : Char) (content : List Char) (buf : List Char)
    (c : Char) (vm : VM) (n : Nat) (rest : List Char)
    (hcontent : ∀ x ∈ content, x ≠ d ∧ as_int x = some x)
    (hp : pending vm = content ++ rest) (hn : content.length < n)
    (h1 : buf.length + 1 ≤ size) (h2 : size ≤ buf.length + content.length + 1) :
    ∃ vm1, scan_string size d n buf c vm = .raised "Token too long: %s..." vm1 := by
  induction content generalizing vm n buf c with
  | nil =>
    obtain ⟨m, rfl⟩ : ∃ m, n = m + 1 := ⟨n - 1, by simp at hn; omega⟩
    have he : size = buf.length + 1 := by
      simp only [List.length_nil] at h2
      omega
    exact ⟨vm, by simp only [scan_string, he, if_true]⟩
  | cons x content ih =>
    obtain ⟨m, rfl⟩ : ∃ m, n = m + 1 := ⟨n - 1, by simp at hn; omega⟩
    by_cases he : size = buf.length + 1
    · exact ⟨vm, by simp only [scan_string, he, if_true]⟩
    · have hx := hcontent x (List.mem_cons_self _ _)
      simp only [List.cons_append] at hp
      obtain ⟨i, hg, hpd, hpl, _⟩ := get_char_cons vm x (content ++ rest) hp
      have hs : scan_string size d (m + 1) buf c vm
          = scan_string size d m (buf ++ [c]) x { vm with input := i } := by
        simp only [scan_string, he, if_false, hg, hx.2, hx.1]
      obtain ⟨vm1, hv⟩ := ih (buf ++ [c]) x { vm with input := i } m
        (fun y hy => hcontent y (List.mem_cons_of_mem _ hy)) hpd (by simp at hn; omega)
        (by simp only [List.length_append, List.length_singleton]; omega)
        (by simp only [List.length_append, List.length_cons, List.length_nil] at h2 ⊢; omega)
      exact ⟨vm1, by rw [hs, hv]⟩

/-- C26: with a token buffer of `size` bytes, `size` at least 3, `get_token`
ends for every input, and every token it returns, with the NUL that ends it,
fits the buffer: it has at most `size - 1` characters.  Where the input has,
after the white space, a plain token of `size` characters or more, or a string
token whose delimiter and text make `size` characters or more, `get_token`
raises "Token too long".  (None of the characters of the long token is the byte
255, which reads as the end of the input.) -/
theorem get_token_within_buffer (size : Nat) (vm : VM) (hsize : 3 ≤ size) :
    get_token size vm ≠ .out_of_fuel ∧
      (∀ text vm1, get_token size vm = .token text vm1 → text.length + 1 ≤ size) ∧
      (∀ (pre : List Char) (c : Char) (run rest : List Char),
        (∀ x ∈ pre, isspace x = true ∧ x ≠ '\n') →
        (isspace c = false ∧ ends_token c = false ∧ as_int c = some c) →
        (∀ x ∈ run, ends_token x = false ∧ as_int x = some x) →
        size ≤ (c :: run).length →
        pending vm = pre ++ c :: run ++ rest →
        ∃ vm1, get_token size vm = .raised "Token too long: %s..." vm1) ∧
      (∀ (pre : List Char) (d : Char) (content rest : List Char),
        (∀ x ∈ pre, isspace x = true ∧ x ≠ '\n') →
        (d = '"' ∨ d = '`') →
        (∀ x ∈ content, x ≠ d ∧ as_int x = some x) →
        size ≤ (d :: content).length →
        pending vm = pre ++ d :: content ++ rest →
        ∃ vm1, get_token size vm = .raised "Token too long: %s..." vm1) := by
  refine ⟨?_, ?_, ?_, ?_⟩
  · unfold get_token
    cases hs : skip_spaces (input_left vm + 1) vm with
    | none => exact absurd hs (skip_spaces_total _ vm (by omega))
    | some r =>
      obtain ⟨r1, vm1⟩ := r
      cases r1 with
      | none => simp
      | some c =>
        simp only
        split_ifs
        · cases get_char { vm1 with token_place := vm1.input.place } with
          | mk q vm3 =>
            cases q <;> simp
        · simp
        · exact scan_string_total _ _ _ _ _ _ (by omega)
        · exact scan_plain_total _ _ _ _ _ (by omega)
  · intro text vm1 ht
    unfold get_token at ht
    cases hs : skip_spaces (input_left vm + 1) vm with
    | none => rw [hs] at ht; cases ht
    | some r =>
      rw [hs] at ht
      obtain ⟨r1, vm2⟩ := r
      cases r1 with
      | none => cases ht
      | some c =>
        simp only at ht
        split_ifs at ht
        · cases hq : get_char { vm2 with token_place := vm2.input.place } with
          | mk q vm3 =>
            rw [hq] at ht
            cases q with
            | none => cases ht
            | some c1 =>
              simp only [Scan.token.injEq] at ht
              rw [← ht.1]
              simp only [List.length_cons, List.length_nil]
              omega
        · simp only [Scan.token.injEq] at ht
          rw [← ht.1]
          simp only [List.length_cons, List.length_nil]
          omega
        · exact scan_string_bound _ _ _ _ _ _ (by simp only [List.length_nil]; omega) _ _ ht
        · exact scan_plain_bound _ _ _ _ _ (by simp only [List.length_nil]; omega) _ _ ht
  · intro pre c run rest hpre hc hrun hlong hp
    obtain ⟨c1, c2, c3⟩ := hc
    have hp1 : pending vm = pre ++ (c :: (run ++ rest)) := by
      rw [hp]
      simp
    have hs := skip_spaces_run pre vm (input_left vm + 1) (c :: (run ++ rest))
      (skippable_of pre hpre) hp1 (length_lt_input_left vm pre _ hp1)
    obtain ⟨i, h1, h2, h3, _⟩ := hs.2 c (run ++ rest) rfl (by simp [c1])
    rw [c3] at h1
    simp only [ends_token, is_punctuation, Bool.or_eq_false_iff, decide_eq_false_iff_not] at c2
    obtain ⟨⟨⟨⟨⟨⟨_, _⟩, _⟩, e4⟩, e5⟩, e6⟩, ⟨⟨⟨⟨⟨⟨p1, p2⟩, p3⟩, p4⟩, p5⟩, p6⟩, p7⟩⟩ := c2
    have hg : get_token size vm
        = scan_plain size (input_left { vm with input := i, token_place := i.place } + 1) [] c
            { vm with input := i, token_place := i.place } := by
      simp only [get_token, h1, p6, e4, e5, e6, p1, p2, p3, p4, p5, p7, is_punctuation, if_false,
        decide_False, Bool.or_self, Bool.false_eq_true, or_self]
    have hq : pending { vm with input := i, token_place := i.place } = run ++ rest := h2
    obtain ⟨vm1, hv⟩ := scan_plain_long size run [] c
      { vm with input := i, token_place := i.place }
      (input_left { vm with input := i, token_place := i.place } + 1) rest hrun hq
      (length_lt_input_left _ run rest hq) (by simp only [List.length_nil]; omega)
      (by simp only [List.length_cons, List.length_nil] at hlong ⊢; omega)
    exact ⟨vm1, by rw [hg, hv]⟩
  · intro pre d content rest hpre hd hcontent hlong hp
    have hp1 : pending vm = pre ++ (d :: (content ++ rest)) := by
      rw [hp]
      simp
    have hd1 : (isspace d && d != '\n') = false := by
      rcases hd with rfl | rfl <;> decide
    have hd2 : as_int d = some d := by
      rcases hd with rfl | rfl <;> decide
    have hs := skip_spaces_run pre vm (input_left vm + 1) (d :: (content ++ rest))
      (skippable_of pre hpre) hp1 (length_lt_input_left vm pre _ hp1)
    obtain ⟨i, h1, h2, h3, _⟩ := hs.2 d (content ++ rest) rfl hd1
    rw [hd2] at h1
    have hg : get_token size vm
        = scan_string size d (input_left { vm with input := i, token_place := i.place } + 1) []
            d { vm with input := i, token_place := i.place } := by
      simp only [get_token, h1]
      rcases hd with rfl | rfl <;> simp [is_punctuation]
    have hq : pending { vm with input := i, token_place := i.place } = content ++ rest := h2
    obtain ⟨vm1, hv⟩ := scan_string_long size d content [] d
      { vm with input := i, token_place := i.place }
      (input_left { vm with input := i, token_place := i.place } + 1) rest hcontent hq
      (length_lt_input_left _ content rest hq) (by simp only [List.length_nil]; omega)
      (by simp only [List.length_cons, List.length_nil] at hlong ⊢; omega)
    exact ⟨vm1, by rw [hg, hv]⟩

theorem get_token_within_buffer_witness :
    3 ≤ 4 ∧
      get_token 4 (ts_set_input_string zero_block ['a', 'b', 'c', 'd', ' ']) ≠ .out_of_fuel ∧
      (∃ vm1, get_token 4 (ts_set_input_string zero_block ['a', 'b', 'c', 'd', ' '])
        = .raised "Token too long: %s..." vm1) ∧
      ∀ text vm1, get_token 4 (ts_set_input_string zero_block ['a', 'b', 'c', 'd', ' '])
        = .token text vm1 → text.length + 1 ≤ 4 :=
  have t := get_token_within_buffer 4 (ts_set_input_string zero_block ['a', 'b', 'c', 'd', ' '])
    (by decide)
  ⟨by decide, t.1,
    t.2.2.1 [] 'a' ['b', 'c', 'd'] [' '] (by decide) (by decide) (by decide) (by decide) rfl,
    t.2.1⟩

/-! ## Loading a file -/

/-- C27: whatever the loading loop does with the file, a second `ts_load`
from within it included, `ts_load` ends with the input stream the VM had before
the call, the buffered text, the pending refills and the place: when it returns,
when it raises again the error raised during the loading, and when the file
cannot be opened, where it raises with the state unchanged.  The handler stack
is the one from before the call as well.  The mode is not restored but set: it
is Run mode after the return and after an error of the loading, whatever it
was before the call. -/
theorem ts_load_restores_input (K : Config) (loop : VM → Result) (fuel : Nat) (vm : VM)
    (filename : String) :
    ts_load K fuel vm filename = ts_load_with K (ts_loading_loop K fuel) vm filename ∧
      (∀ vm1, ts_load_with K loop vm filename = .ok vm1 →
        vm1.input = vm.input ∧ vm1.handler_stack = vm.handler_stack ∧ vm1.mode = '(') ∧
      (∀ m vm1, ts_load_with K loop vm filename = .raised m vm1 →
        vm1.input = vm.input ∧ vm1.handler_stack = vm.handler_stack ∧
          (K.fopen filename ≠ none → vm1.mode = '(')) ∧
      (K.fopen filename = none → ts_load_with K loop vm filename = .raised "%s: %s\n" vm) ∧
      (∀ fp vm1, K.fopen filename = some fp →
        loop (ts_set_input_file_stream (ts_TRY vm) fp (some filename)) = .ok vm1 →
        ts_load_with K loop vm filename
          = .ok { vm1 with mode := '(', input := vm.input, handler_stack := vm.handler_stack }) ∧
      (∀ fp m vm1, K.fopen filename = some fp →
        loop (ts_set_input_file_stream (ts_TRY vm) fp (some filename)) = .raised m vm1 →
        ts_load_with K loop vm filename
          = .raised m
              { vm1 with mode := '(', input := vm.input, handler_stack := vm.handler_stack }) := by
  refine ⟨rfl, ?_, ?_, ?_, ?_, ?_⟩
  · intro vm1 h
    unfold ts_load_with at h
    cases hf : K.fopen filename with
    | none =>
      rw [hf] at h
      cases h
    | some fp =>
      rw [hf] at h
      simp only at h
      cases hl : loop (ts_set_input_file_stream (ts_TRY vm) fp (some filename)) with
      | ok v =>
        rw [hl] at h
        simp only [Result.ok.injEq] at h
        subst h
        exact ⟨rfl, rfl, rfl⟩
      | raised m v => rw [hl] at h; cases h
      | undefined => rw [hl] at h; cases h
      | out_of_fuel => rw [hl] at h; cases h
  · intro m vm1 h
    unfold ts_load_with at h
    cases hf : K.fopen filename with
    | none =>
      rw [hf] at h
      simp only [ts_error, Result.raised.injEq] at h
      rw [← h.2]
      exact ⟨rfl, rfl, fun hn => absurd rfl hn⟩
    | some fp =>
      rw [hf] at h
      simp only at h
      cases hl : loop (ts_set_input_file_stream (ts_TRY vm) fp (some filename)) with
      | ok v => rw [hl] at h; cases h
      | raised m1 v =>
        rw [hl] at h
        simp only [Result.raised.injEq] at h
        rw [← h.2]
        exact ⟨rfl, rfl, fun _ => rfl⟩
      | undefined => rw [hl] at h; cases h
      | out_of_fuel => rw [hl] at h; cases h
  · intro hf
    unfold ts_load_with
    rw [hf]
    rfl
  · intro fp vm1 hf hl
    unfold ts_load_with
    rw [hf]
    simp only [hl]
    rfl
  · intro fp m vm1 hf hl
    unfold ts_load_with
    rw [hf]
    simp only [hl]
    rfl

theorem ts_load_sets_run_mode :
    ({ zero_block with mode := ')' } : VM).mode = ')' ∧
      ∃ vm1, ts_load file_config 1 { zero_block with mode := ')' } "f" = .ok vm1 ∧
        vm1.mode = '(' ∧ vm1.input = zero_block.input :=
  ⟨rfl, _, rfl, rfl, rfl⟩

/-! ## Buffered output -/

theorem output_text_run (K : Config) (vm : VM) (w : Write) :
    output_text (Write.run K vm w) = output_text vm ++ w.text := by
  cases w <;> exact output_text_put_string K vm _

theorem output_text_write_all (K : Config) (ws : List Write) :
    ∀ vm : VM, output_text (write_all K vm ws) = output_text vm ++ all_text ws := by
  induction ws with
  | nil => intro vm; simp [write_all, all_text]
  | cons w rest ih =>
    intro vm
    simp only [write_all, all_text]
    rw [ih, output_text_run, List.append_assoc]

theorem write_all_append (K : Config) (ws : List Write) (w : Write) :
    ∀ vm : VM, write_all K vm (ws ++ [w]) = Write.run K (write_all K vm ws) w := by
  induction ws with
  | nil => intro vm; rfl
  | cons x rest ih =>
    intro vm
    simp only [List.cons_append, write_all]
    exact ih _

theorem all_text_append (ws : List Write) (w : Write) :
    all_text (ws ++ [w]) = all_text ws ++ w.text := by
  induction ws with
  | nil => simp [all_text]
  | cons x rest ih => simp [all_text, ih]

theorem run_held_nil (K : Config) (vm : VM) (w : Write) (h : '\n' ∈ w.text) :
    (Write.run K vm w).output.held = [] := by
  have e : Write.run K vm w = put_string K vm w.text := by cases w <;> rfl
  rw [e]
  unfold put_string
  simp only [h, if_true]
  rfl

theorem put_loop_bound (K : Config) (hK : 1 ≤ K.buffer_size) (s : List Char) :
    ∀ o : OutStream, o.held.length ≤ o.limit →
      (put_loop K s o).held.length ≤ (put_loop K s o).limit := by
  induction s with
  | nil => intro o h; exact h
  | cons c cs ih =>
    intro o h
    simp only [put_loop]
    apply ih
    split_ifs with hf
    · simp only [flush_output, List.nil_append, List.length_singleton]
      exact hK
    · simp only [List.length_append, List.length_singleton]
      omega

theorem run_bound (K : Config) (hK : 1 ≤ K.buffer_size) (vm : VM) (w : Write)
    (h : vm.output.held.length ≤ vm.output.limit) :
    (Write.run K vm w).output.held.length ≤ (Write.run K vm w).output.limit := by
  have e : Write.run K vm w = put_string K vm w.text := by cases w <;> rfl
  rw [e]
  unfold put_string
  simp only
  split_ifs
  · simp [flush_output]
  · exact put_loop_bound K hK _ _ h

theorem write_all_bound (K : Config) (hK : 1 ≤ K.buffer_size) (ws : List Write) :
    ∀ vm : VM, vm.output.held.length ≤ vm.output.limit →
      (write_all K vm ws).output.held.length ≤ (write_all K vm ws).output.limit := by
  induction ws with
  | nil => intro vm h; exact h
  | cons w rest ih =>
    intro vm h
    simp only [write_all]
    exact ih _ (run_bound K hK vm w h)

theorem write_all_output (K : Config) (ws : List Write) :
    ∀ vm : VM, ∃ o : OutStream, write_all K vm ws = { vm with output := o } := by
  induction ws with
  | nil => intro vm; exact ⟨vm.output, rfl⟩
  | cons w rest ih =>
    intro vm
    have e : ∃ o1 : OutStream, Write.run K vm w = { vm with output := o1 } := by
      cases w <;> exact ⟨_, rfl⟩
    obtain ⟨o1, h1⟩ := e
    obtain ⟨o2, h2⟩ := ih { vm with output := o1 }
    refine ⟨o2, ?_⟩
    simp only [write_all]
    rw [h1, h2]

theorem write_all_frame (K : Config) (ws : List Write) (vm : VM) :
    write_all K vm ws = { vm with output := (write_all K vm ws).output } := by
  obtain ⟨o, h⟩ := write_all_output K ws vm
  rw [h]

/-- C29: after any sequence of writes with `put_string`, `put_char` and
`put_decimal`, the text that has reached the sink followed by the text held in
the buffer is what it was before, followed by the bytes of the writes in order;
right after a write whose bytes include a newline the buffer is empty, so the
sink has received all of it; the writes change nothing in the VM but the output
stream.  In `put_string` a byte that finds the buffer full is stored after the
buffer has been flushed, and is then the only byte held; any other byte is
stored after the bytes held.  With a buffer of one byte or more, the text held
never outgrows the buffer.  (The sink is taken not to fail.) -/
theorem buffered_output_faithful (K : Config) (vm : VM) (ws : List Write) :
    output_text (write_all K vm ws) = output_text vm ++ all_text ws ∧
      (∀ w : Write, '\n' ∈ w.text →
        (write_all K vm (ws ++ [w])).output.held = [] ∧
        (write_all K vm (ws ++ [w])).output.written
          = output_text vm ++ all_text ws ++ w.text) ∧
      write_all K vm ws = { vm with output := (write_all K vm ws).output } ∧
      (∀ (o : OutStream) (c : Char) (cs : List Char), o.held.length = o.limit →
        put_loop K (c :: cs) o
          = put_loop K cs { o with written := o.written ++ o.held, held := [c],
                                   limit := K.buffer_size }) ∧
      (∀ (o : OutStream) (c : Char) (cs : List Char), o.held.length ≠ o.limit →
        put_loop K (c :: cs) o = put_loop K cs { o with held := o.held ++ [c] }) ∧
      (1 ≤ K.buffer_size → vm.output.held.length ≤ vm.output.limit →
        (write_all K vm ws).output.held.length ≤ (write_all K vm ws).output.limit) := by
  refine ⟨output_text_write_all K ws vm, ?_, write_all_frame K ws vm, ?_, ?_, ?_⟩
  · intro w hw
    have hh : (write_all K vm (ws ++ [w])).output.held = [] := by
      rw [write_all_append]
      exact run_held_nil K _ w hw
    refine ⟨hh, ?_⟩
    have ht := output_text_write_all K (ws ++ [w]) vm
    unfold output_text at ht
    rw [hh, List.append_nil, all_text_append] at ht
    rw [ht]
    unfold output_text
    simp
  · intro o c cs h
    simp only [put_loop, h, if_true, flush_output, List.nil_append]
  · intro o c cs h
    simp only [put_loop, h, if_false]
  · intro hK h
    exact write_all_bound K hK ws vm h

/-! ## Peeking and reading -/

theorem get_chars_pending (text : List Char) :
    ∀ vm : VM, pending vm = text → (∀ x ∈ text, as_int x = some x) →
      (get_chars text.length vm).1 = text.map some ∧
      (get_char (get_chars text.length vm).2).1 = none ∧
      (get_chars text.length vm).2.input.place = advance_all vm.input.place text := by
  induction text with
  | nil =>
    intro vm hp _
    obtain ⟨i, hg, hpl, _⟩ := get_char_nil vm hp
    refine ⟨rfl, ?_, rfl⟩
    show (get_char vm).1 = none
    rw [hg]
  | cons c rest ih =>
    intro vm hp hx
    obtain ⟨i, hg, hpd, hpl, _⟩ := get_char_cons vm c rest hp
    have h := ih { vm with input := i } hpd (fun x h => hx x (List.mem_cons_of_mem _ h))
    simp only [List.length_cons, get_chars, hg, List.map_cons]
    refine ⟨?_, h.2.1, ?_⟩
    · rw [h.1, hx c (List.mem_cons_self _ _)]
    · rw [h.2.2]
      show advance_all i.place rest = _
      rw [hpl]
      rfl

/-- C30: `peek_char` leaves the place of the input as it is, changes nothing
in the VM outside the input stream, and leaves the same text to be delivered.
When it returns a character, the call of `get_char` right after it returns the
same character; the two return the same as well whenever the buffer is not
empty or the streamer, asked by `peek_char`, delivered something or has nothing
more to deliver at all.  Where the buffer is empty and the streamer returns
zero to `peek_char`, `peek_char` returns the end of the input and the call of
`get_char` after it asks the streamer again.  Successive calls of `get_char`
return the characters of the buffer and then of the refills, in order, up to
the first time the streamer returns zero, and then the end of the input, and
the place advances by each of them.  (A byte 255 reads as the end of the input,
and is taken not to be among the characters.) -/
theorem peek_then_get (vm : VM) :
    (peek_char vm).2.input.place = vm.input.place ∧
      (peek_char vm).2 = { vm with input := (peek_char vm).2.input } ∧
      (∀ c, (peek_char vm).1 = some c → (get_char (peek_char vm).2).1 = some c) ∧
      (vm.input.unread ≠ [] ∨ (∀ rest, vm.input.refills ≠ [] :: rest) →
        (get_char (peek_char vm).2).1 = (peek_char vm).1) ∧
      (∀ rest, vm.input.unread = [] → vm.input.refills = [] :: rest →
        (peek_char vm).1 = none ∧
        get_char (peek_char vm).2 = get_char { vm with input := { vm.input with refills := rest } }) ∧
      (∀ text, pending vm = text → (∀ x ∈ text, as_int x = some x) →
        (get_chars text.length vm).1 = text.map some ∧
        (get_char (get_chars text.length vm).2).1 = none ∧
        (get_chars text.length vm).2.input.place = advance_all vm.input.place text) := by
  have key : vm.input.unread ≠ [] ∨ (∀ rest, vm.input.refills ≠ [] :: rest) →
      (get_char (peek_char vm).2).1 = (peek_char vm).1 := by
    intro h
    unfold peek_char
    cases hu : vm.input.unread with
    | cons x xs =>
      simp only [get_char, hu]
    | nil =>
      unfold refill
      cases hr : vm.input.refills with
      | nil => simp only [get_char, hu, refill, hr]
      | cons chunk more =>
        cases chunk with
        | nil =>
          rcases h with h | h
          · exact absurd hu h
          · exact absurd hr (h more)
        | cons x xs =>
          simp only [Bool.false_eq_true, if_false, get_char]
  refine ⟨?_, ?_, ?_, key, ?_, fun text => get_chars_pending text vm⟩
  · unfold peek_char
    cases hu : vm.input.unread with
    | cons x xs => rfl
    | nil =>
      unfold refill
      cases hr : vm.input.refills with
      | nil => rfl
      | cons chunk more =>
        cases chunk with
        | nil => rfl
        | cons x xs => rfl
  · unfold peek_char
    cases hu : vm.input.unread with
    | cons x xs => rfl
    | nil =>
      unfold refill
      cases hr : vm.input.refills with
      | nil => rfl
      | cons chunk more =>
        cases chunk with
        | nil => rfl
        | cons x xs => rfl
  · intro c hc
    by_cases h : vm.input.unread ≠ [] ∨ (∀ rest, vm.input.refills ≠ [] :: rest)
    · rw [key h, hc]
    · exfalso
      push_neg at h
      obtain ⟨hu, rest, hr⟩ := h
      unfold peek_char refill at hc
      rw [hu, hr] at hc
      cases hc
  · intro rest hu hr
    unfold peek_char refill
    rw [hu, hr]
    exact ⟨rfl, rfl⟩

theorem peek_end_then_get_char :
    (peek_char { zero_block with input := ⟨[], [[], ['a']], ⟨1, 1, none⟩⟩ }).1 = none ∧
      (get_char (peek_char { zero_block with input := ⟨[], [[], ['a']], ⟨1, 1, none⟩⟩ }).2).1
        = some 'a' :=
  ⟨rfl, rfl⟩

/-! ## The native adapters -/

/-- C31: executing a word whose action is one of the adapters `ts_run_void_n`,
n from 0 to 5, or `ts_run_int_n`, n from 0 to 4, removes the top n cells of the
stack and calls the host function of the word's datum once, with those cells as
arguments, the deepest as the leftmost and the top as the rightmost.  After a
void adapter nothing is pushed; after an int adapter the result of the function
is in the cell where the deepest argument was (the cell above the top, when n
is 0) and is the new top.  No other cell of the stack changes, and nothing else
in the VM but the record of the calls. -/
theorem native_adapters (K : Config) (fuel : Nat) (pw : Word) (vm : VM) :
    exec K (fuel + 1) (.call (some .ts_run_void_0) pw) vm
        = .ok { vm with calls := vm.calls ++ [(pw.datum, [])] } ∧
      exec K (fuel + 1) (.call (some .ts_run_void_1) pw) vm
        = .ok { vm with sp := vm.sp - 4,
                        calls := vm.calls ++ [(pw.datum, [vm.stack vm.sp])] } ∧
      exec K (fuel + 1) (.call (some .ts_run_void_2) pw) vm
        = .ok { vm with sp := vm.sp - 8,
                        calls := vm.calls ++ [(pw.datum, [vm.stack (vm.sp - 4), vm.stack vm.sp])] } ∧
      exec K (fuel + 1) (.call (some .ts_run_void_3) pw) vm
        = .ok { vm with sp := vm.sp - 12,
                        calls := vm.calls ++ [(pw.datum,
                          [vm.stack (vm.sp - 8), vm.stack (vm.sp - 4), vm.stack vm.sp])] } ∧
      exec K (fuel + 1) (.call (some .ts_run_void_4) pw) vm
        = .ok { vm with sp := vm.sp - 16,
                        calls := vm.calls ++ [(pw.datum,
                          [vm.stack (vm.sp - 12), vm.stack (vm.sp - 8), vm.stack (vm.sp - 4),
                           vm.stack vm.sp])] } ∧
      exec K (fuel + 1) (.call (some .ts_run_void_5) pw) vm
        = .ok { vm with sp := vm.sp - 20,
                        calls := vm.calls ++ [(pw.datum,
                          [vm.stack (vm.sp - 16), vm.stack (vm.sp - 12), vm.stack (vm.sp - 8),
                           vm.stack (vm.sp - 4), vm.stack vm.sp])] } ∧
      exec K (fuel + 1) (.call (some .ts_run_int_0) pw) vm
        = .ok { vm with stack := Function.update vm.stack (vm.sp + 4)
                                   (wrap32 (K.host_function pw.datum [])),
                        sp := vm.sp + 4,
                        calls := vm.calls ++ [(pw.datum, [])] } ∧
      exec K (fuel + 1) (.call (some .ts_run_int_1) pw) vm
        = .ok { vm with stack := Function.update vm.stack vm.sp
                                   (wrap32 (K.host_function pw.datum [vm.stack vm.sp])),
                        calls := vm.calls ++ [(pw.datum, [vm.stack vm.sp])] } ∧
      exec K (fuel + 1) (.call (some .ts_run_int_2) pw) vm
        = .ok { vm with stack := Function.update vm.stack (vm.sp - 4)
                                   (wrap32 (K.host_function pw.datum
                                     [vm.stack (vm.sp - 4), vm.stack vm.sp])),
                        sp := vm.sp - 4,
                        calls := vm.calls ++ [(pw.datum, [vm.stack (vm.sp - 4), vm.stack vm.sp])] } ∧
      exec K (fuel + 1) (.call (some .ts_run_int_3) pw) vm
        = .ok { vm with stack := Function.update vm.stack (vm.sp - 8)
                                   (wrap32 (K.host_function pw.datum
                                     [vm.stack (vm.sp - 8), vm.stack (vm.sp - 4), vm.stack vm.sp])),
                        sp := vm.sp - 8,
                        calls := vm.calls ++ [(pw.datum,
                          [vm.stack (vm.sp - 8), vm.stack (vm.sp - 4), vm.stack vm.sp])] } ∧
      exec K (fuel + 1) (.call (some .ts_run_int_4) pw) vm
        = .ok { vm with stack := Function.update vm.stack (vm.sp - 12)
                                   (wrap32 (K.host_function pw.datum
                                     [vm.stack (vm.sp - 12), vm.stack (vm.sp - 8),
                                      vm.stack (vm.sp - 4), vm.stack vm.sp])),
                        sp := vm.sp - 12,
                        calls := vm.calls ++ [(pw.datum,
                          [vm.stack (vm.sp - 12), vm.stack (vm.sp - 8), vm.stack (vm.sp - 4),
                           vm.stack vm.sp])] } := by
  have e0 : vm.sp - 4 * ((0 : Nat) : Int) = vm.sp := by omega
  have e1 : vm.sp - 4 * ((1 : Nat) : Int) = vm.sp - 4 := by omega
  have e2 : vm.sp - 4 * ((2 : Nat) : Int) = vm.sp - 8 := by omega
  have e3 : vm.sp - 4 * ((3 : Nat) : Int) = vm.sp - 12 := by omega
  have e4 : vm.sp - 4 * ((4 : Nat) : Int) = vm.sp - 16 := by omega
  have e5 : vm.sp - 4 * ((5 : Nat) : Int) = vm.sp - 20 := by omega
  have f1 : vm.sp - 4 + 4 = vm.sp := by omega
  have f2 : vm.sp - 8 + 4 = vm.sp - 4 := by omega
  have f3 : vm.sp - 12 + 4 = vm.sp - 8 := by omega
  have f4 : vm.sp - 16 + 4 = vm.sp - 12 := by omega
  have r1 : List.range 1 = [0] := rfl
  have r2 : List.range 2 = [0, 1] := rfl
  have r3 : List.range 3 = [0, 1, 2] := rfl
  have r4 : List.range 4 = [0, 1, 2, 3] := rfl
  have r5 : List.range 5 = [0, 1, 2, 3, 4] := rfl
  have r0 : List.range 0 = [] := rfl
  refine ⟨?_, ?_, ?_, ?_, ?_, ?_, ?_, ?_, ?_, ?_, ?_⟩ <;>
    (show step K (exec K fuel) _ vm = _
     rw [step_call_prim K _ _ _ _ (by decide) (by decide) (by decide)]
     simp only [prim, run_void, run_int, arguments, ts_OUTPUT_0, ts_OUTPUT_1, ts_INPUT, r0, r1, r2,
       r3, r4, r5, List.reverse_cons, List.reverse_nil, List.nil_append, List.cons_append,
       List.map_cons, List.map_nil, e0, e1, e2, e3, e4, e5, f1, f2, f3, f4])
/-! ## Constants -/

theorem top_of_push (vm : VM) (c : Int) :
    (ts_push vm c).stack (ts_push vm c).sp = wrap32 c := by
  simp only [ts_push, ts_OUTPUT_1, Function.update_same]

/-- C32: in a dictionary that has a word, the primitive `constant` pops the top
cell z and changes the action and the datum of the last-defined word, so that
the word, executed in any state afterwards, pushes z and does nothing else.  The
name of that word, every other entry of the dictionary and the number of
entries are as before, and so is everything else in the VM. -/
theorem constant_rewrites_last_word (K : Config) (fuel : Nat) (pw : Word) (vm : VM)
    (hw : 0 < vm.where_) :
    ∃ vm1, exec K (fuel + 1) (.call (some .ts_make_constant) pw) vm = .ok vm1 ∧
      vm1 = { vm with sp := vm.sp - 4, words := vm1.words } ∧
      vm1.words (vm.where_ - 1)
        = { vm.words (vm.where_ - 1) with action := some .ts_do_push, datum := vm.stack vm.sp } ∧
      (vm1.words (vm.where_ - 1)).name = (vm.words (vm.where_ - 1)).name ∧
      (∀ i, i ≠ vm.where_ - 1 → vm1.words i = vm.words i) ∧
      ∀ (n : Nat) (S : VM),
        exec K (n + 1) (.call (vm1.words (vm.where_ - 1)).action (vm1.words (vm.where_ - 1))) S
          = .ok (ts_push S (vm.stack vm.sp)) := by
  have e1 : vm.sp - 4 * ((1 : Nat) : Int) = vm.sp - 4 := by omega
  have e0 : vm.sp - 4 * ((0 : Nat) : Int) = vm.sp := by omega
  have hne : ¬ vm.where_ = 0 := by omega
  refine ⟨{ vm with sp := vm.sp - 4,
                    words := Function.update vm.words (vm.where_ - 1)
                      { vm.words (vm.where_ - 1) with action := some .ts_do_push,
                                                      datum := vm.stack vm.sp } },
    ?_, rfl, ?_, ?_, ?_, ?_⟩
  · show step K (exec K fuel) _ vm = _
    rw [step_call_prim K _ _ _ _ (by decide) (by decide) (by decide)]
    simp only [prim, hne, if_false, ts_OUTPUT_0, ts_INPUT, e1, e0]
  · simp only [Function.update_same]
  · simp only [Function.update_same]
  · intro i hi
    simp only [Function.update_noteq hi]
  · intro n S
    simp only [Function.update_same]
    show step K (exec K n) _ S = _
    rw [step_call_prim K _ _ _ _ (by decide) (by decide) (by decide)]
    rfl

theorem constant_rewrites_last_word_witness :
    0 < small_vm.where_ ∧
      ∃ vm1, exec small_config 1 (.call (some .ts_make_constant) ⟨none, 0, none⟩)
          (ts_push small_vm 7) = .ok vm1 ∧
        vm1.words 61 = ⟨some .ts_do_push, 7, some "4/"⟩ ∧
        exec small_config 1 (.call (vm1.words 61).action (vm1.words 61)) small_vm
          = .ok (ts_push small_vm 7) :=
  have hw : small_vm.where_ = 62 := by decide!
  have h61 : small_vm.words 61 = ⟨some .ts_div4, 0, some "4/"⟩ := by decide!
  have hs : (ts_push small_vm 7).stack (ts_push small_vm 7).sp = 7 := by
    rw [top_of_push]
    decide
  ⟨by rw [hw]; decide, by
    obtain ⟨vm1, h1, _, h3, _, _, h6⟩ :=
      constant_rewrites_last_word small_config 0 ⟨none, 0, none⟩ (ts_push small_vm 7)
        (by show 0 < small_vm.where_; rw [hw]; decide)
    have e : (ts_push small_vm 7).where_ - 1 = 61 := by
      show small_vm.where_ - 1 = 61
      rw [hw]
    rw [e] at h3 h6
    rw [hs] at h3 h6
    have h3b : vm1.words 61 = ⟨some .ts_do_push, 7, some "4/"⟩ := by
      rw [h3]
      show Word.mk _ _ (small_vm.words 61).name = _
      rw [h61]
    exact ⟨vm1, h1, h3b, h6 0 small_vm⟩⟩
/-! ## Indices outside the dictionary -/

/-- Where the tracer is not the one of tusl.c and does not stop the run, an
index outside the dictionary is rejected, in the state as it was and whatever
the executor for the nested calls is.  (`where` is an `int`, and at least 13, as
it is from `ts_vm_make` on.) -/
theorem index_rejected (K : Config) (again : Task → VM → Result)
    (call : Option Action → Word → VM → Result) (locals : Locals) (p : Int) (vm : VM)
    (fuel : Nat)
    (hq : never_stops vm.tracer) (hd : vm.tracer ≠ some .ts_default_tracer)
    (hw : 13 ≤ vm.where_ ∧ vm.where_ ≤ 2147483647) :
    (∀ word : Nat, word < 4294967296 → word ≠ EXIT → (word < LOCAL0 ∨ WILL < word) →
        vm.where_ ≤ word →
        turn K again locals p word vm = .raised "Invoked an undefined word, #%d" vm) ∧
      (∀ c : Int, is_cell c → c < 0 →
        turn K again locals p (to_unsigned c) vm = .raised "Invoked an undefined word, #%d" vm) ∧
      (∀ (S : VM) (a : Int), S.pc = some a → { S with pc := some (a + 4) } = vm →
        to_unsigned (read_cell S.data a) ≠ EXIT →
        (to_unsigned (read_cell S.data a) < LOCAL0 ∨ WILL < to_unsigned (read_cell S.data a)) →
        vm.where_ ≤ to_unsigned (read_cell S.data a) →
        exec K (fuel + 1) (.loop locals) S = .raised "Invoked an undefined word, #%d" vm) ∧
      (∀ index : Int, 0 ≤ index → index ≤ 12 →
        ts_run_with call vm index = .raised "execute of a sequential-only word: %d" vm ∧
        ts_run K fuel vm index = .raised "execute of a sequential-only word: %d" vm) ∧
      (∀ index : Int, is_cell index → (index < 0 ∨ vm.where_ ≤ index) →
        ts_run_with call vm index = .raised "Invoked an undefined word, #%d" vm ∧
        ts_run K fuel vm index = .raised "Invoked an undefined word, #%d" vm) := by
  have ht : ∀ w, tracer_stops vm w = false :=
    fun w => tracer_stops_false vm w hq
  have hro : ∀ w, tracer_reads_outside vm w = false :=
    fun w => tracer_reads_outside_other vm w hd
  obtain ⟨hw1, hw2⟩ := hw
  have part1 : ∀ (g : Task → VM → Result) (q : Int) (word : Nat), word < 4294967296 →
      word ≠ EXIT → (word < LOCAL0 ∨ WILL < word) → vm.where_ ≤ word →
      turn K g locals q word vm = .raised "Invoked an undefined word, #%d" vm := by
    intro g q word h32 h0 hs hge
    have h3 : ¬ unsigned_sub word LOCAL0 < max_locals := by
      simp only [unsigned_sub, LOCAL0, WILL, max_locals] at *
      omega
    have h4 : ¬ unsigned_sub word GRAB1 < max_locals := by
      simp only [unsigned_sub, GRAB1, LOCAL0, WILL, max_locals] at *
      omega
    have h5 : ¬ word = WILL := by
      simp only [LOCAL0, WILL] at *
      omega
    have h6 : ¬ word < vm.where_ := by omega
    unfold turn
    rw [hro, ht]
    simp only [Bool.false_eq_true, if_false, h0, h3, h4, h5, h6, ts_error]
  have tu : ∀ c : Int, is_cell c → c < 0 → 2147483648 ≤ to_unsigned c ∧
      to_unsigned c < 4294967296 := by
    intro c hc hneg
    unfold is_cell at hc
    unfold to_unsigned
    omega
  have run : ∀ (f : Option Action → Word → VM → Result) (index : Int), is_cell index →
      (index < 0 ∨ vm.where_ ≤ index) →
      ts_run_with f vm index = .raised "Invoked an undefined word, #%d" vm := by
    intro f index hc hi
    have h1 : ¬ to_unsigned index ≤ LAST_SPECIAL_PRIM ∧ ¬ to_unsigned index < vm.where_ := by
      unfold is_cell at hc
      simp only [LAST_SPECIAL_PRIM, DO_WILL]
      unfold to_unsigned
      omega
    unfold ts_run_with
    rw [hro, ht]
    simp only [Bool.false_eq_true, if_false, h1.1, h1.2, ts_error]
  have seq : ∀ (f : Option Action → Word → VM → Result) (index : Int), 0 ≤ index →
      index ≤ 12 →
      ts_run_with f vm index = .raised "execute of a sequential-only word: %d" vm := by
    intro f index h0 h12
    have h1 : to_unsigned index ≤ LAST_SPECIAL_PRIM := by
      simp only [LAST_SPECIAL_PRIM, DO_WILL]
      unfold to_unsigned
      omega
    unfold ts_run_with
    rw [hro, ht]
    simp only [Bool.false_eq_true, if_false, h1, if_true, ts_error]
  refine ⟨part1 again p, ?_, ?_, ?_, ?_⟩
  · intro c hc hneg
    obtain ⟨t1, t2⟩ := tu c hc hneg
    exact part1 again p _ t2 (by simp only [EXIT]; omega) (Or.inr (by simp only [WILL]; omega))
      (by omega)
  · intro S a hpc hvm h0 hs hge
    show step K (exec K fuel) (.loop locals) S = _
    simp only [step, hpc]
    rw [hvm]
    exact part1 (exec K fuel) a _ (to_unsigned_lt _) h0 hs hge
  · intro index h0 h12
    exact ⟨seq _ index h0 h12, seq _ index h0 h12⟩
  · intro index hc hi
    exact ⟨run _ index hc hi, run _ index hc hi⟩

set_option maxRecDepth 100000 in
/-- C33: an index outside the dictionary is not always rejected.  In a VM with
the standard words, `1000000 execute` raises "Invoked an undefined word", and so
does the word `f` of `: f ; ( 1000 0 ! f`, whose body holds the cell 1000; but
after `start-tracing`, a standard word, both are undefined: `ts_run` and the
loop of `do_sequence` call the tracer before they check the index, and
`ts_default_tracer` prints `vm->words[word].name`, read from an entry that was
never written or lies outside the array.  So it is for every index that is
`where` or more as unsigned, hence every negative one (`-1 execute`), whenever
that tracer is installed.  With any other tracer that does not stop the run, or
none, the index is rejected as the claim says: the loop raises "Invoked an
undefined word" for every fetched cell that is no special opcode and is `where`
or more, `ts_run` raises it for every negative index and every index that is
`where` or more, and "execute of a sequential-only word" for 0 to 12, each in
the state as it was and whatever the executor of nested calls is. -/
theorem index_outside_dictionary :
    (ts_load_string small_config 20 small_vm "1000000 execute".toList).raises
        "Invoked an undefined word, #%d" = true ∧
      (ts_load_string small_config 20 small_vm
        "start-tracing 1000000 execute".toList).is_undefined = true ∧
      (ts_load_string small_config 20 small_vm
        "start-tracing -1 execute".toList).is_undefined = true ∧
      (ts_load_string small_config 20 small_vm ": f ; ( 1000 0 ! f".toList).raises
        "Invoked an undefined word, #%d" = true ∧
      (ts_load_string small_config 20 small_vm
        "start-tracing : f ; ( 1000 0 ! f".toList).is_undefined = true ∧
      (∀ (K : Config) (again : Task → VM → Result)
          (call : Option Action → Word → VM → Result) (locals : Locals) (p : Int) (vm : VM)
          (fuel : Nat), vm.tracer = some .ts_default_tracer →
        (∀ word : Nat, vm.where_ ≤ word → turn K again locals p word vm = .undefined) ∧
        (∀ (S : VM) (a : Int), S.pc = some a → S.tracer = some .ts_default_tracer →
          S.where_ ≤ to_unsigned (read_cell S.data a) →
          exec K (fuel + 1) (.loop locals) S = .undefined) ∧
        (∀ index : Int, vm.where_ ≤ to_unsigned index →
          ts_run_with call vm index = .undefined ∧ ts_run K fuel vm index = .undefined)) ∧
      (∀ (K : Config) (again : Task → VM → Result)
          (call : Option Action → Word → VM → Result) (locals : Locals) (p : Int) (vm : VM)
          (fuel : Nat), never_stops vm.tracer → vm.tracer ≠ some .ts_default_tracer →
          13 ≤ vm.where_ ∧ vm.where_ ≤ 2147483647 →
        (∀ word : Nat, word < 4294967296 → word ≠ EXIT → (word < LOCAL0 ∨ WILL < word) →
          vm.where_ ≤ word →
          turn K again locals p word vm = .raised "Invoked an undefined word, #%d" vm) ∧
        (∀ c : Int, is_cell c → c < 0 →
          turn K again locals p (to_unsigned c) vm
            = .raised "Invoked an undefined word, #%d" vm) ∧
        (∀ (S : VM) (a : Int), S.pc = some a → { S with pc := some (a + 4) } = vm →
          to_unsigned (read_cell S.data a) ≠ EXIT →
          (to_unsigned (read_cell S.data a) < LOCAL0 ∨
            WILL < to_unsigned (read_cell S.data a)) →
          vm.where_ ≤ to_unsigned (read_cell S.data a) →
          exec K (fuel + 1) (.loop locals) S = .raised "Invoked an undefined word, #%d" vm) ∧
        (∀ index : Int, 0 ≤ index → index ≤ 12 →
          ts_run_with call vm index = .raised "execute of a sequential-only word: %d" vm ∧
          ts_run K fuel vm index = .raised "execute of a sequential-only word: %d" vm) ∧
        (∀ index : Int, is_cell index → (index < 0 ∨ vm.where_ ≤ index) →
          ts_run_with call vm index = .raised "Invoked an undefined word, #%d" vm ∧
          ts_run K fuel vm index = .raised "Invoked an undefined word, #%d" vm)) := by
  refine ⟨by decide!, by decide!, by decide!, by decide!, by decide!, ?_, ?_⟩
  · intro K again call locals p vm fuel ht
    refine ⟨?_, ?_, ?_⟩
    · intro word hw
      exact turn_reads_outside K again locals p word vm
        (tracer_reads_outside_default vm word ht hw)
    · intro S a hpc hS hw
      show step K (exec K fuel) (.loop locals) S = _
      simp only [step, hpc]
      exact turn_reads_outside K _ locals a _ _
        (tracer_reads_outside_default { S with pc := some (a + 4) } _ hS hw)
    · intro index hw
      have h := tracer_reads_outside_default vm _ ht hw
      refine ⟨?_, ts_run_reads_outside K fuel vm index h⟩
      unfold ts_run_with
      rw [if_pos h]
  · intro K again call locals p vm fuel hq hd hw
    exact index_rejected K again call locals p vm fuel hq hd hw

/-! ## BRANCH -/

theorem do_branch_eq (K : Config) (pw : Word) (vm : VM) (p : Int) (hpc : vm.pc = some p) :
    prim K .ts_do_branch pw vm =
      if vm.stack vm.sp = 0 then
        if K.ts_data_size ≤ to_unsigned (read_cell vm.data p) then
          .raised range_message { vm with pc := some (p + 4) }
        else .ok { vm with sp := vm.sp - 4, pc := some (read_cell vm.data p) }
      else .ok { vm with sp := vm.sp - 4, pc := some (p + 4) } := by
  have e0 : vm.sp - 4 * ((0 : Nat) : Int) = vm.sp := by omega
  have e1 : vm.sp - 4 * ((1 : Nat) : Int) = vm.sp - 4 := by omega
  simp only [prim, hpc, ts_INPUT, ts_OUTPUT_0, e0, e1, data_cell, data_byte, ts_error]
  split_ifs <;> rfl

/-- The turn of BRANCH: in a loop of `do_sequence` whose tracer does not stop the run, the
cell BRANCH, word 2 with the action `ts_do_branch`, is executed so.  When the
top cell of the stack is not zero, that cell is popped and the loop goes on
with the cell after the one that follows BRANCH.  When it is zero and the cell
that follows BRANCH holds an offset inside the data space, the top cell is
popped and the loop goes on at that offset.  When it is zero and the offset is
outside the data space, the error of the data range is raised with the
instruction pointer past the two cells and the stack as it was: the condition
cell has not been popped.  Nothing else in the VM changes. -/
theorem branch_pops_and_jumps (K : Config) (fuel : Nat) (locals : Locals) (S : VM) (a : Int)
    (hq : no_host_tracer S.tracer = true) (hlt : BRANCH < S.where_)
    (hb : (S.words BRANCH).action = some .ts_do_branch)
    (hpc : S.pc = some a) (hop : to_unsigned (read_cell S.data a) = BRANCH) :
    (S.stack S.sp ≠ 0 →
        exec K (fuel + 2) (.loop locals) S
          = exec K (fuel + 1) (.loop locals) { S with sp := S.sp - 4, pc := some (a + 8) }) ∧
      (S.stack S.sp = 0 → to_unsigned (read_cell S.data (a + 4)) < K.ts_data_size →
        exec K (fuel + 2) (.loop locals) S
          = exec K (fuel + 1) (.loop locals)
              { S with sp := S.sp - 4, pc := some (read_cell S.data (a + 4)) }) ∧
      (S.stack S.sp = 0 → K.ts_data_size ≤ to_unsigned (read_cell S.data (a + 4)) →
        exec K (fuel + 2) (.loop locals) S
          = .raised range_message { S with pc := some (a + 8) }) := by
  have hn := never_stops_of_no_host _ hq
  have hstep : exec K (fuel + 2) (.loop locals) S
      = (prim K .ts_do_branch (S.words BRANCH) { S with pc := some (a + 4) }).bind
          (exec K (fuel + 1) (.loop locals)) := by
    show step K (exec K (fuel + 1)) (.loop locals) S = _
    simp only [step, hpc, hop]
    refine (turn_branch K _ locals a { S with pc := some (a + 4) } hn hlt hb).trans ?_
    show (step K (exec K fuel) _ _).bind _ = _
    rw [step_call_prim K _ _ _ _ (by decide) (by decide) (by decide)]
  rw [hstep, do_branch_eq K _ _ (a + 4) rfl]
  have e8 : a + 4 + 4 = a + 8 := by omega
  refine ⟨?_, ?_, ?_⟩
  · intro hz
    simp only [hz, if_false, Result.bind, e8]
  · intro hz hr
    have hr1 : ¬ K.ts_data_size ≤ to_unsigned (read_cell S.data (a + 4)) := by omega
    simp only [hz, if_true, hr1, if_false, Result.bind]
  · intro hz hr
    simp only [hz, if_true, hr, Result.bind, e8]

set_option maxRecDepth 100000 in
theorem branch_pops_and_jumps_witness :
    no_host_tracer branch_vm.tracer = true ∧ BRANCH < branch_vm.where_ ∧
      (branch_vm.words BRANCH).action = some .ts_do_branch ∧ branch_vm.pc = some 0 ∧
      to_unsigned (read_cell branch_vm.data 0) = BRANCH ∧
      branch_vm.stack branch_vm.sp = 0 ∧
      small_config.ts_data_size ≤ to_unsigned (read_cell branch_vm.data (0 + 4)) ∧
      exec small_config (0 + 2) (.loop fresh_locals) branch_vm
        = .raised range_message { branch_vm with pc := some (0 + 8) } :=
  have h1 : no_host_tracer branch_vm.tracer = true := by decide!
  have h2 : BRANCH < branch_vm.where_ := by decide!
  have h3 : (branch_vm.words BRANCH).action = some .ts_do_branch := by decide!
  have h4 : branch_vm.pc = some 0 := by decide!
  have h5 : to_unsigned (read_cell branch_vm.data 0) = BRANCH := by decide!
  have h6 : branch_vm.stack branch_vm.sp = 0 := by decide!
  have h7 : small_config.ts_data_size ≤ to_unsigned (read_cell branch_vm.data (0 + 4)) := by
    decide!
  ⟨h1, h2, h3, h4, h5, h6, h7,
    (branch_pops_and_jumps small_config 0 fresh_locals branch_vm 0 h1 h2 h3 h4 h5).2.2 h6 h7⟩

set_option maxRecDepth 100000 in
/-- C34: BRANCH does not always pop the condition cell.  On the small VM (64
bytes of data) with the cells BRANCH and 1000 at offset 0 and the stack holding
the one cell 0, the loop of `do_sequence` raises the error of the data range and
the stack still holds the cell 0: `ts_do_branch` calls `data_cell` for the
target before `ts_OUTPUT_0` adjusts the stack, so the error leaves the
condition cell where it was.  The word `!`, which adjusts the stack first, has
popped both its operands when it raises the same error for the address 1000.
And so it is for every state: with the tracer not stopping the run and BRANCH,
word 2, having the action `ts_do_branch`, a condition cell that is not zero is
popped and the loop goes on after the cell that follows BRANCH; a zero cell with
an offset inside the data space is popped and the loop goes on at that offset;
a zero cell with an offset outside it raises the error with the stack pointer
unchanged. -/
theorem branch_error_keeps_condition :
    stack_list branch_vm = [0] ∧
      (exec small_config 2 (.loop fresh_locals) branch_vm).raises range_message = true ∧
      stack_list ((exec small_config 2 (.loop fresh_locals) branch_vm).state zero_block) = [0] ∧
      stack_list (ts_push (ts_push small_vm 5) 1000) = [5, 1000] ∧
      (prim small_config .ts_store no_word (ts_push (ts_push small_vm 5) 1000)).raises
        range_message = true ∧
      stack_list ((prim small_config .ts_store no_word
        (ts_push (ts_push small_vm 5) 1000)).state zero_block) = [] ∧
      ∀ (K : Config) (fuel : Nat) (locals : Locals) (S : VM) (a : Int),
        no_host_tracer S.tracer = true → BRANCH < S.where_ →
        (S.words BRANCH).action = some .ts_do_branch → S.pc = some a →
        to_unsigned (read_cell S.data a) = BRANCH →
        (S.stack S.sp ≠ 0 →
          exec K (fuel + 2) (.loop locals) S
            = exec K (fuel + 1) (.loop locals) { S with sp := S.sp - 4, pc := some (a + 8) }) ∧
        (S.stack S.sp = 0 → to_unsigned (read_cell S.data (a + 4)) < K.ts_data_size →
          exec K (fuel + 2) (.loop locals) S
            = exec K (fuel + 1) (.loop locals)
                { S with sp := S.sp - 4, pc := some (read_cell S.data (a + 4)) }) ∧
        (S.stack S.sp = 0 → K.ts_data_size ≤ to_unsigned (read_cell S.data (a + 4)) →
          exec K (fuel + 2) (.loop locals) S
            = .raised range_message { S with pc := some (a + 8) }) :=
  ⟨by decide!, by decide!, by decide!, by decide!, by decide!, by decide!,
    fun K fuel locals S a hq hlt hb hpc hop =>
      branch_pops_and_jumps K fuel locals S a hq hlt hb hpc hop⟩

/-! ## GRAB and LOCAL -/

theorem grab_spec (k : Nat) : ∀ (i : Nat) (locals : Locals) (vm : VM),
    (grab k i locals vm).2 = { vm with sp := vm.sp - 4 * k } ∧
      ∀ j, (grab k i locals vm).1 j
        = if i ≤ j ∧ j < i + k then some (vm.stack (vm.sp - 4 * ((j - i : Nat) : Int)))
          else locals j := by
  induction k with
  | zero =>
    intro i locals vm
    refine ⟨?_, ?_⟩
    · simp [grab]
    · intro j
      have h : ¬ (i ≤ j ∧ j < i + 0) := by omega
      simp only [grab, h, if_false]
  | succ k ih =>
    intro i locals vm
    have e0 : vm.sp - 4 * ((0 : Nat) : Int) = vm.sp := by omega
    have e1 : vm.sp - 4 * ((1 : Nat) : Int) = vm.sp - 4 := by omega
    obtain ⟨h1, h2⟩ := ih (i + 1) (Function.update locals i (some (ts_pop vm).1)) (ts_pop vm).2
    refine ⟨?_, ?_⟩
    · simp only [grab]
      rw [h1]
      simp only [ts_pop, ts_OUTPUT_0, e1]
      have e : vm.sp - 4 - 4 * (k : Int) = vm.sp - 4 * ((k + 1 : Nat) : Int) := by
        push_cast
        omega
      rw [e]
    · intro j
      simp only [grab]
      rw [h2]
      by_cases hj : i + 1 ≤ j ∧ j < i + 1 + k
      · have hj2 : i ≤ j ∧ j < i + (k + 1) := by omega
        rw [if_pos hj, if_pos hj2]
        simp only [ts_pop, ts_OUTPUT_0, e1]
        have e : vm.sp - 4 - 4 * ((j - (i + 1) : Nat) : Int) = vm.sp - 4 * ((j - i : Nat) : Int) := by
          omega
        rw [e]
      · rw [if_neg hj]
        by_cases hji : j = i
        · subst hji
          have hj2 : j ≤ j ∧ j < j + (k + 1) := by omega
          rw [if_pos hj2, Function.update_same]
          simp only [ts_pop, ts_INPUT, e0, Nat.sub_self, Nat.cast_zero, mul_zero, sub_zero]
        · have hj2 : ¬ (i ≤ j ∧ j < i + (k + 1)) := by omega
          rw [if_neg hj2, Function.update_noteq hji]

/-- C35: where the tracer does not stop the run (and the tracer of tusl.c, when
it is the one installed, finds the cell it is given in the dictionary, as it
does from `ts_vm_make` on), a turn of the loop of
`do_sequence` on the cell GRAB k, k from 1 to 4 (the words `z-`, `yz-`, `xyz-`
and `wxyz-`), removes the top k cells of the stack and goes on with the loop
with locals in which slot i, for every i below k, holds the cell that was i
places below the top, so slot 0, the word `z`, the former top; the other slots
are as before.  With these locals a turn on the cell LOCAL i, i below k (the
words `z`, `y`, `x`, `w`), pushes that cell, in whatever state, and goes on
with the same locals; and a turn on any cell that is no GRAB hands the same
locals to the rest of the loop: its outcome depends on the executor only
through the calls of actions and the loop with these locals. -/
theorem grab_then_local (K : Config) (again : Task → VM → Result) (locals : Locals) (p : Int)
    (k : Nat) (vm : VM) (hq : no_host_tracer vm.tracer = true)
    (hr : tracer_reads_outside vm (GRAB1 + (k - 1)) = false) (hk : 1 ≤ k ∧ k ≤ 4) :
    ∃ locals1 : Locals,
      turn K again locals p (GRAB1 + (k - 1)) vm
          = again (.loop locals1) { vm with sp := vm.sp - 4 * k } ∧
        (∀ i, i < k → locals1 i = some (vm.stack (vm.sp - 4 * (i : Int)))) ∧
        (∀ i, k ≤ i → locals1 i = locals i) ∧
        (∀ (i : Nat) (q : Int) (S : VM) (g : Task → VM → Result), i < k →
          no_host_tracer S.tracer = true → tracer_reads_outside S (LOCAL0 + i) = false →
          turn K g locals1 q (LOCAL0 + i) S
            = g (.loop locals1) (ts_push S (vm.stack (vm.sp - 4 * (i : Int))))) ∧
        ∀ (word : Nat) (q : Int) (S : VM) (g1 g2 : Task → VM → Result),
          ¬ (GRAB1 ≤ word ∧ word < GRAB1 + 4) → word < 4294967296 →
          (∀ a w, g1 (.call a w) = g2 (.call a w)) → g1 (.loop locals1) = g2 (.loop locals1) →
          turn K g1 locals1 q word S = turn K g2 locals1 q word S := by
  obtain ⟨k1, k4⟩ := hk
  have hg := grab_spec k 0 locals vm
  refine ⟨(grab k 0 locals vm).1, ?_, ?_, ?_, ?_, ?_⟩
  · unfold turn
    rw [hr, tracer_stops_false vm _ (never_stops_of_no_host _ hq)]
    have x1 : ¬ (GRAB1 + (k - 1) = EXIT) := by
      simp only [GRAB1, EXIT]
      omega
    have x2 : ¬ (unsigned_sub (GRAB1 + (k - 1)) LOCAL0 < max_locals) := by
      simp only [unsigned_sub, GRAB1, LOCAL0, max_locals]
      omega
    have x3 : unsigned_sub (GRAB1 + (k - 1)) GRAB1 < max_locals := by
      simp only [unsigned_sub, GRAB1, max_locals]
      omega
    have x4 : 1 + (GRAB1 + (k - 1) - GRAB1) = k := by omega
    simp only [Bool.false_eq_true, if_false, x1, x2, x3, if_true, x4]
    rw [hg.1]
  · intro i hi
    rw [hg.2 i, if_pos (by omega)]
    simp
  · intro i hi
    rw [hg.2 i, if_neg (by omega)]
  · intro i q S g hi hS hSr
    have hl : (grab k 0 locals vm).1 i = some (vm.stack (vm.sp - 4 * (i : Int))) := by
      rw [hg.2 i, if_pos (by omega)]
      simp
    unfold turn
    rw [hSr, tracer_stops_false S _ (never_stops_of_no_host _ hS)]
    have x1 : ¬ (LOCAL0 + i = EXIT) := by
      simp only [LOCAL0, EXIT]
      omega
    have x2 : unsigned_sub (LOCAL0 + i) LOCAL0 < max_locals := by
      simp only [unsigned_sub, LOCAL0, max_locals]
      omega
    have x3 : LOCAL0 + i - LOCAL0 = i := by omega
    simp only [Bool.false_eq_true, if_false, x1, x2, if_true, x3, hl]
  · intro word q S g1 g2 hw h32 hc hl
    have x3 : ¬ (unsigned_sub word GRAB1 < max_locals) := by
      simp only [unsigned_sub, GRAB1, max_locals] at *
      omega
    unfold turn
    simp only [x3, if_false, hc, hl]

theorem grab_then_local_witness :
    no_host_tracer (ts_push (ts_push small_vm 11) 22).tracer = true ∧
      tracer_reads_outside (ts_push (ts_push small_vm 11) 22) (GRAB1 + (2 - 1)) = false ∧
      (1 ≤ 2 ∧ 2 ≤ 4) ∧
      ∃ locals1 : Locals,
        turn small_config (fun _ vm => .ok vm) fresh_locals 0 (GRAB1 + (2 - 1))
            (ts_push (ts_push small_vm 11) 22)
          = .ok { ts_push (ts_push small_vm 11) 22 with
                  sp := (ts_push (ts_push small_vm 11) 22).sp - 4 * (2 : Nat) } ∧
        locals1 0 = some 22 ∧ locals1 1 = some 11 ∧
        turn small_config (fun _ vm => .ok vm) locals1 0 (LOCAL0 + 1) small_vm
          = .ok (ts_push small_vm 11) :=
  have hq : no_host_tracer small_vm.tracer = true := by decide!
  have hr : tracer_reads_outside (ts_push (ts_push small_vm 11) 22) (GRAB1 + (2 - 1))
      = false := by decide!
  have hr1 : tracer_reads_outside small_vm (LOCAL0 + 1) = false := by decide!
  have hsp : small_vm.sp = -4 := by decide!
  have s0 : (ts_push (ts_push small_vm 11) 22).stack
      ((ts_push (ts_push small_vm 11) 22).sp - 4 * ((0 : Nat) : Int)) = 22 := by
    simp [ts_push, ts_OUTPUT_1, wrap32]
  have s1 : (ts_push (ts_push small_vm 11) 22).stack
      ((ts_push (ts_push small_vm 11) 22).sp - 4 * ((1 : Nat) : Int)) = 11 := by
    simp [ts_push, ts_OUTPUT_1, wrap32, Function.update_apply]
  ⟨hq, hr, ⟨by decide, by decide⟩, by
    obtain ⟨locals1, h1, h2, _, h4, _⟩ :=
      grab_then_local small_config (fun _ vm => .ok vm) fresh_locals 0 2
        (ts_push (ts_push small_vm 11) 22) hq hr ⟨by decide, by decide⟩
    have a0 := h2 0 (by decide)
    have a1 := h2 1 (by decide)
    rw [s0] at a0
    rw [s1] at a1
    have a2 := h4 1 0 small_vm (fun _ vm => .ok vm) (by decide) hq hr1
    rw [s1] at a2
    exact ⟨locals1, h1, a0, a1, a2⟩⟩
/-! ## WILL -/

/-- C37: where the tracer does not stop the run (and the tracer of tusl.c, when
it is the one installed, finds WILL in the dictionary, as it does from
`ts_vm_make` on), the dictionary has a word and
the datum of the last-defined word is an offset inside the data space, a turn
of the loop of `do_sequence` on the cell WILL fetched at offset p ends the loop,
whatever the executor for the rest would do and whatever cells follow, in the
state where the action of the last-defined word is `ts_do_will`, its name and
its datum are as before, and the cell at that datum holds p + 4, the offset of
the cell after WILL; every other entry of the dictionary, every byte of the
data space outside the four of that cell, and everything else in the VM are as
before.  So does the loop of `do_sequence` run from p. -/
theorem will_ends_invocation (K : Config) (again : Task → VM → Result) (locals : Locals)
    (p : Int) (vm : VM) (fuel : Nat)
    (hq : no_host_tracer vm.tracer = true) (hro : tracer_reads_outside vm WILL = false)
    (hw : 0 < vm.where_)
    (hd : to_unsigned (vm.words (vm.where_ - 1)).datum < K.ts_data_size) :
    ∃ vm1, turn K again locals p WILL vm = .ok vm1 ∧
      vm1 = { vm with words := vm1.words, data := vm1.data } ∧
      vm1.words (vm.where_ - 1)
        = { vm.words (vm.where_ - 1) with action := some .ts_do_will } ∧
      (∀ i, i ≠ vm.where_ - 1 → vm1.words i = vm.words i) ∧
      read_cell vm1.data (vm.words (vm.where_ - 1)).datum = wrap32 (p + 4) ∧
      (∀ x, x < (vm.words (vm.where_ - 1)).datum ∨ (vm.words (vm.where_ - 1)).datum + 4 ≤ x →
        vm1.data x = vm.data x) ∧
      ∀ S : VM, S.pc = some p → to_unsigned (read_cell S.data p) = WILL →
        { S with pc := some (p + 4) } = vm →
        exec K (fuel + 1) (.loop locals) S = .ok vm1 := by
  have hne : ¬ vm.where_ = 0 := by omega
  have hr : ¬ K.ts_data_size ≤ to_unsigned (vm.words (vm.where_ - 1)).datum := by omega
  have ht : ∀ (g : Task → VM → Result) (q : Int), turn K g locals q WILL vm
      = .ok { vm with words := Function.update vm.words (vm.where_ - 1)
                                 { vm.words (vm.where_ - 1) with action := some .ts_do_will },
                      data := write_cell vm.data (vm.words (vm.where_ - 1)).datum (q + 4) } := by
    intro g q
    unfold turn
    rw [hro, tracer_stops_false vm _ (never_stops_of_no_host _ hq)]
    have x1 : ¬ (WILL = EXIT) := by decide
    have x2 : ¬ (unsigned_sub WILL LOCAL0 < max_locals) := by decide
    have x3 : ¬ (unsigned_sub WILL GRAB1 < max_locals) := by decide
    simp only [Bool.false_eq_true, if_false, x1, x2, x3, if_true, hne, data_cell, data_byte, hr]
  refine ⟨_, ht again p, rfl, ?_, ?_, ?_, ?_, ?_⟩
  · simp only [Function.update_same]
  · intro i hi
    simp only [Function.update_noteq hi]
  · simp only [read_write_cell_same]
  · intro x hx
    show write_cell vm.data _ _ x = _
    unfold write_cell
    have e1 : ¬ x = (vm.words (vm.where_ - 1)).datum := by omega
    have e2 : ¬ x = (vm.words (vm.where_ - 1)).datum + 1 := by omega
    have e3 : ¬ x = (vm.words (vm.where_ - 1)).datum + 2 := by omega
    have e4 : ¬ x = (vm.words (vm.where_ - 1)).datum + 3 := by omega
    simp only [e1, e2, e3, e4, if_false]
  · intro S hpc hop hvm
    show step K (exec K fuel) (.loop locals) S = _
    simp only [step, hpc, hop]
    rw [hvm]
    exact ht (exec K fuel) p

theorem will_ends_invocation_witness :
    no_host_tracer small_vm.tracer = true ∧ tracer_reads_outside small_vm WILL = false ∧
      0 < small_vm.where_ ∧
      to_unsigned (small_vm.words (small_vm.where_ - 1)).datum < small_config.ts_data_size ∧
      ∃ vm1, turn small_config (fun _ _ => .undefined) fresh_locals 8 WILL small_vm = .ok vm1 ∧
        vm1.words (small_vm.where_ - 1)
          = { small_vm.words (small_vm.where_ - 1) with action := some .ts_do_will } ∧
        read_cell vm1.data (small_vm.words (small_vm.where_ - 1)).datum = wrap32 (8 + 4) :=
  have h1 : no_host_tracer small_vm.tracer = true := by decide!
  have h2 : 0 < small_vm.where_ := by decide!
  have h3 : to_unsigned (small_vm.words (small_vm.where_ - 1)).datum
      < small_config.ts_data_size := by decide!
  have h4 : tracer_reads_outside small_vm WILL = false := by decide!
  ⟨h1, h4, h2, h3, by
    obtain ⟨vm1, a1, _, a3, _, a5, _⟩ :=
      will_ends_invocation small_config (fun _ _ => .undefined) fresh_locals 8 small_vm 0 h1 h4
        h2 h3
    exact ⟨vm1, a1, a3, a5⟩⟩
/-! ## The reserved words -/

theorem install_all_returns (K : Config) (l : List (String × Option Action × Int)) :
    ∀ vm : VM, vm.where_ + l.length ≤ K.ts_dictionary_size →
      ∃ vm1, install_all K l vm = .ok vm1 := by
  induction l with
  | nil => intro vm _; exact ⟨vm, rfl⟩
  | cons e rest ih =>
    intro vm h
    obtain ⟨name, action, datum⟩ := e
    simp only [List.length_cons] at h
    have h1 : ¬ K.ts_dictionary_size ≤ vm.where_ := by omega
    simp only [install_all, ts_install, h1, if_false, Result.bind]
    exact ih _ (by show vm.where_ + 1 + rest.length ≤ _; omega)

set_option maxRecDepth 100000 in
/-- C40: a VM that `ts_vm_make` returns has 13 words, the reserved ones, each
at the index that is its opcode in the executor: `ts_lookup` of `;`,
`<<literal>>`, `<<branch>>`, `z`, `y`, `x`, `w`, `z-`, `yz-`, `xyz-`, `wxyz-`,
`;will` and `<<will>>` returns 0 to 12, which are EXIT, LITERAL, BRANCH, LOCAL0
to LOCAL0 + 3, GRAB1 to GRAB1 + 3, WILL and DO_WILL; `here` is 0, `there` is
`ts_data_size`, the stack is empty, the mode is Run mode and there is no handler
frame.  `ts_vm_make` does return when the dictionary has room for 13 words.
After `ts_install_standard_words`, which returns when the dictionary has room
for 62 words, the VM has 62 words and the thirteen lookups return 0 to 12
still. -/
theorem reserved_words_at_opcodes (K : Config) (raw : VM) (stdin : List (List Char))
    (stdout : List Char) :
    (13 ≤ K.ts_dictionary_size → ∃ vm, ts_vm_make K raw stdin stdout = .ok vm) ∧
      ∀ vm, ts_vm_make K raw stdin stdout = .ok vm →
        vm.where_ = 13 ∧ (∀ i, i < 13 → vm.words i = reserved_dictionary i) ∧
        reserved_lookups vm = [0, 1, 2, 3, 4, 5, 6, 7, 8, 9, 10, 11, 12] ∧
        reserved_lookups vm
          = [EXIT, LITERAL, BRANCH, LOCAL0, LOCAL0 + 1, LOCAL0 + 2, LOCAL0 + 3, GRAB1, GRAB1 + 1,
             GRAB1 + 2, GRAB1 + 3, WILL, DO_WILL] ∧
        vm.here = 0 ∧ vm.there = K.ts_data_size ∧ vm.sp = -4 ∧ stack_list vm = [] ∧
        vm.mode = '(' ∧ vm.handler_stack = 0 ∧
        (62 ≤ K.ts_dictionary_size → ∃ vm1, ts_install_standard_words K vm = .ok vm1) ∧
        ∀ vm1, ts_install_standard_words K vm = .ok vm1 →
          vm1.where_ = 62 ∧
          reserved_lookups vm1 = [0, 1, 2, 3, 4, 5, 6, 7, 8, 9, 10, 11, 12] := by
  refine ⟨?_, ?_⟩
  · intro hK
    unfold ts_vm_make
    exact install_all_returns K reserved_words _ (by
      show 0 + 13 ≤ K.ts_dictionary_size
      omega)
  · intro vm h
    have hmake := h
    unfold ts_vm_make at h
    have e0 := install_all_eq K _ _ _ h
    have hf : vm.where_ = 13 ∧ vm.here = 0 ∧ vm.there = K.ts_data_size ∧ vm.sp = -4 ∧
        vm.mode = '(' ∧ vm.handler_stack = 0 := by
      rw [e0]
      exact ⟨rfl, rfl, rfl, rfl, rfl, rfl⟩
    obtain ⟨hw, f1, f2, f3, f4, f5⟩ := hf
    have hwords : ∀ i, i < 13 → vm.words i = reserved_dictionary i := by
      intro i hi
      rw [e0]
      unfold reserved_dictionary
      exact install_words_congr reserved_words 0 _ _ i (fun h => absurd h (Nat.not_lt_zero _)) hi
    have hl : ∀ name, ts_lookup vm name = lookup_from reserved_dictionary name 13 := by
      intro name
      unfold ts_lookup
      rw [hw]
      exact lookup_from_congr _ _ _ _ (fun j hj => by rw [hwords j hj])
    have hlook : reserved_lookups vm = [0, 1, 2, 3, 4, 5, 6, 7, 8, 9, 10, 11, 12] := by
      simp only [reserved_lookups, reserved_names, List.map_cons, List.map_nil, hl]
      decide!
    refine ⟨hw, hwords, hlook, ?_, f1, f2, f3, ?_, f4, f5, ?_, ?_⟩
    · rw [hlook]
      decide
    · unfold stack_list stack_pointer
      rw [f3]
      rfl
    · intro hK
      unfold ts_install_standard_words
      exact install_all_returns K standard_words vm (by
        rw [hw]
        show 13 + 49 ≤ K.ts_dictionary_size
        omega)
    · intro vm1 h1
      obtain ⟨hs, _⟩ := fresh_has_standard_words K raw stdin stdout vm vm1 hmake h1
      refine ⟨hs.1, ?_⟩
      simp only [reserved_lookups, reserved_names, List.map_cons, List.map_nil,
        lookup_standard vm1 hs]
      decide!

/-! ## The datum of a colon definition -/

set_option maxRecDepth 100000 in
/-- C39: `dispatch` of a name in mode `:` installs the word with `here` as its
datum, as `here` is, aligned or not, and leaves `here` as it is; `compile` then
stores the first cell of the body at the first cell boundary at or after
`here`, which is `here` only when `here` is a multiple of 4.  So in a fresh
small VM, after `3 allot : f 1 ;` the datum of `f` is 3 while the first cell of
its body, the index 51 of the word `1`, is at offset 4; the cell read at offset
3 is 13056, and `f` raises the error of the undefined word where, defined after
`4 allot`, it pushes 1. -/
theorem colon_datum_unaligned :
    (∀ (K : Config) (fuel : Nat) (vm : VM) (token : List Char), plain_token token = true →
        vm.where_ < K.ts_dictionary_size →
        ∃ vm1, dispatch K fuel { vm with mode := ':' } token = .ok vm1 ∧
          vm1.words vm.where_ = ⟨some .do_sequence, vm.here, some (String.mk token)⟩ ∧
          vm1.here = vm.here) ∧
      (∀ (K : Config) (vm vm1 : VM) (c : Int), K.ts_data_size ≤ 2147483644 →
        compile K vm c = .ok vm1 →
        vm1.data = write_cell vm.data (cell_align vm.here) c ∧
          (0 ≤ vm.here → vm.here < 2147483644 → (cell_align vm.here = vm.here ↔ vm.here % 4 = 0))) ∧
      ((ts_load_string small_config 20 small_vm "3 allot : f 1 ;".toList).state zero_block).words 62
        = ⟨some .do_sequence, 3, some "f"⟩ ∧
      ts_lookup small_vm "1" = 51 ∧
      read_cell
          ((ts_load_string small_config 20 small_vm "3 allot : f 1 ;".toList).state zero_block).data
          4 = 51 ∧
      read_cell
          ((ts_load_string small_config 20 small_vm "3 allot : f 1 ;".toList).state zero_block).data
          3 = 13056 ∧
      (ts_load_string small_config 20 small_vm "3 allot : f 1 ; ( f".toList).raises
          "Invoked an undefined word, #%d" = true ∧
      (ts_load_string small_config 20 small_vm "4 allot : f 1 ; ( f .".toList).prints
          "1 ".toList = true := by
  refine ⟨?_, ?_, by decide!, by decide!, by decide!, by decide!, by decide!, by decide!⟩
  · intro K fuel vm token hp hroom
    have h1 : ¬ K.ts_dictionary_size ≤ vm.where_ := by omega
    refine ⟨{ vm with words := Function.update vm.words vm.where_
                                 ⟨some .do_sequence, vm.here, some (String.mk token)⟩,
                      where_ := vm.where_ + 1, mode := ')' }, ?_, ?_, rfl⟩
    · rw [dispatch_plain K fuel _ token hp]
      simp only [Char.reduceEq, if_false, if_true, ts_install, h1, Result.bind]
    · simp only [Function.update_same]
  · intro K vm vm1 c hK h
    obtain ⟨_, _, _, _, h5⟩ := compile_cell K vm vm1 c hK h
    refine ⟨by rw [h5], ?_⟩
    intro h0 h2
    unfold cell_align wrap32
    omega
/-! ## The locals of an invocation -/

set_option maxRecDepth 100000 in
/-- C36: the call of a word whose action is `do_sequence` runs the loop of the
word with locals of its own, none of them written, and a turn on a cell LOCAL
with unwritten locals has no defined outcome: it yields no value grabbed
elsewhere.  A turn of the loop on a word that is not called in tail position
(the word is no colon definition, or the cell after it is not EXIT) goes on,
after the call has returned, with the locals it had before the call.  But a
turn on a colon definition called in tail position runs the body of that
definition with the locals of the caller.  So in a fresh small VM
`: b 7 z- ; : a z- b z ; ( 5 a .` prints 5: the GRAB of 7 in `b` has not
changed the slot of `a`.  (The tracer is taken not to stop the run.) -/
theorem locals_of_nested_calls :
    (∀ (K : Config) (again : Task → VM → Result) (pw : Word) (vm : VM),
        step K again (.call (some .do_sequence) pw) vm
          = do_sequence_frame K (again (.loop fresh_locals)) pw vm) ∧
      (∀ (K : Config) (again : Task → VM → Result) (q : Int) (i : Nat) (vm : VM),
        no_host_tracer vm.tracer = true → i < 4 →
        turn K again fresh_locals q (LOCAL0 + i) vm = .undefined) ∧
      (∀ (K : Config) (again : Task → VM → Result) (locals : Locals) (q : Int) (w : Nat)
        (vm : VM), no_host_tracer vm.tracer = true → LAST_SPECIAL_PRIM < w → w < vm.where_ →
        w < 4294967296 →
        ¬ ((vm.words w).action = some .do_sequence ∧ read_cell vm.data (q + 4) = EXIT) →
        turn K again locals q w vm
          = (again (.call (vm.words w).action (vm.words w)) vm).bind (again (.loop locals))) ∧
      (∀ (K : Config) (again : Task → VM → Result) (locals : Locals) (q a : Int) (w : Nat)
        (vm : VM), no_host_tracer vm.tracer = true → LAST_SPECIAL_PRIM < w → w < vm.where_ →
        w < 4294967296 → (vm.words w).action = some .do_sequence →
        read_cell vm.data (q + 4) = EXIT → data_cell K (vm.words w).datum = some a →
        turn K again locals q w vm = again (.loop locals) { vm with pc := some a }) ∧
      (ts_load_string small_config 30 small_vm ": b 7 z- ; : a z- b z ; ( 5 a .".toList).prints
          "5 ".toList = true := by
  refine ⟨fun _ _ _ _ => rfl, ?_, ?_, ?_, by decide!⟩
  · intro K again q i vm hq hi
    unfold turn
    by_cases c0 : tracer_reads_outside vm (LOCAL0 + i) = true
    · rw [if_pos c0]
    rw [if_neg c0, tracer_stops_false vm _ (never_stops_of_no_host _ hq)]
    have x1 : ¬ (LOCAL0 + i = EXIT) := by
      simp only [LOCAL0, EXIT]
      omega
    have x2 : unsigned_sub (LOCAL0 + i) LOCAL0 < max_locals := by
      simp only [unsigned_sub, LOCAL0, max_locals]
      omega
    simp only [Bool.false_eq_true, if_false, x1, x2, if_true, fresh_locals]
  · intro K again locals q w vm hq h12 hlt h32 hn
    rw [turn_plain_word K again locals q w vm (never_stops_of_no_host _ hq) h12 h32
      (tracer_reads_inside vm w hlt)]
    rw [if_pos hlt, if_neg hn]
  · intro K again locals q a w vm hq h12 hlt h32 ha hx hd
    exact turn_tail_call K again locals q a w vm (never_stops_of_no_host _ hq) ⟨h12, hlt, h32⟩
      ha hx hd

set_option maxRecDepth 100000 in
theorem tail_call_shares_locals :
    (ts_load_string small_config 30 small_vm ": b z ; : a z- b ; ( 5 a .".toList).prints
        "5 ".toList = true ∧
      (ts_load_string small_config 30 small_vm ": b z ; ( b".toList).returns = false :=
  ⟨by decide!, by decide!⟩
/-! ## Tail calls and nested calls -/

theorem grab_le (k : Nat) (i : Nat) (l0 l1 : Locals) (vm : VM) (h : locals_le l0 l1) :
    locals_le (grab k i l0 vm).1 (grab k i l1 vm).1 ∧ (grab k i l1 vm).2 = (grab k i l0 vm).2 := by
  obtain ⟨a1, a2⟩ := grab_spec k i l0 vm
  obtain ⟨b1, b2⟩ := grab_spec k i l1 vm
  refine ⟨?_, by rw [a1, b1]⟩
  intro j v hj
  rw [a2 j] at hj
  rw [b2 j]
  split_ifs at hj ⊢ with c
  · exact hj
  · exact h j v hj

theorem turn_local_mono (K : Config) (again : Task → VM → Result) (ha : local_mono again)
    (l0 l1 : Locals) (hle : locals_le l0 l1) (q : Int) (word : Nat) (vm : VM)
    (hne : turn K again l0 q word vm ≠ .undefined) :
    turn K again l1 q word vm = turn K again l0 q word vm := by
  unfold turn at hne ⊢
  by_cases c0 : tracer_reads_outside vm word = true
  · rw [if_pos c0, if_pos c0]
  rw [if_neg c0] at hne
  rw [if_neg c0, if_neg c0]
  clear c0
  split_ifs at hne ⊢ with c1 c2 c3 c4 c5 c6 c7 c8
  · rfl
  · rfl
  · cases hl : l0 (word - LOCAL0) with
    | none =>
      rw [hl] at hne
      exact absurd rfl hne
    | some v =>
      rw [hl] at hne
      rw [hle _ v hl]
      exact ha _ _ _ hle hne
  · obtain ⟨g1, g2⟩ := grab_le (1 + (word - GRAB1)) 0 l0 l1 vm hle
    rw [g2]
    exact ha _ _ _ g1 hne
  · rfl
  · rfl
  · cases hd : data_cell K (vm.words word).datum with
    | none => rfl
    | some a =>
      rw [hd] at hne
      exact ha _ _ _ hle hne
  · cases hr : again (.call (vm.words word).action (vm.words word)) vm with
    | ok v =>
      rw [hr] at hne
      exact ha _ _ _ hle hne
    | raised m v => rfl
    | undefined => rfl
    | out_of_fuel => rfl
  · rfl

theorem step_local_mono (K : Config) (again : Task → VM → Result) (ha : local_mono again) :
    local_mono (step K again) := by
  intro l0 l1 vm hle hne
  simp only [step] at hne ⊢
  cases hq : vm.pc with
  | none => rfl
  | some q =>
    rw [hq] at hne
    exact turn_local_mono K again ha l0 l1 hle q _ _ hne

theorem exec_local_mono (K : Config) (n : Nat) : local_mono (exec K n) := by
  induction n with
  | zero =>
    intro l0 l1 vm _ _
    rfl
  | succ n ih => exact step_local_mono K _ ih

theorem ended_ne (r : Result) (h : r.ended = true) : r ≠ .undefined ∧ r ≠ .out_of_fuel := by
  cases r with
  | ok v => exact ⟨Result.noConfusion, Result.noConfusion⟩
  | raised m v => exact ⟨Result.noConfusion, Result.noConfusion⟩
  | undefined => cases h
  | out_of_fuel => cases h

/-- C38: in a loop of `do_sequence` whose tracer does not stop the run, take a
turn on a word B that is a colon definition, with EXIT in the cell after it.
Suppose the run of the body of B with locals none of which is written ends, by
a return or an error, so that it reads no local that it has not written and
does nothing else that C leaves undefined; and suppose that, when it returns,
the cell after the call still holds EXIT and no tracer of the host has been
installed.  Then the turn as it is, which replaces the instruction pointer by
the body of B and goes on with the locals of the caller, has the outcome of
that run of the body; and the turn without the shortcut, which calls B as an
ordinary nested call and then goes on with the loop, has the same outcome, a
return or an error with the same message, in the same state but for the
instruction pointer: the two states are equal once the instruction pointer is
restored, as `do_sequence` restores it at the end of the caller. -/
theorem tail_call_transparent (K : Config) (n : Nat) (locals : Locals) (p a : Int) (w : Nat)
    (vm : VM) (q : Option Int)
    (hq : no_host_tracer vm.tracer = true)
    (hw : LAST_SPECIAL_PRIM < w ∧ w < vm.where_ ∧ w < 4294967296)
    (ha : (vm.words w).action = some .do_sequence) (hx : read_cell vm.data (p + 4) = EXIT)
    (hd : data_cell K (vm.words w).datum = some a) (hpc : vm.pc = some (p + 4))
    (hB : (exec K n (.loop fresh_locals) { vm with pc := some a }).ended = true)
    (hkeep : (exec K n (.loop fresh_locals) { vm with pc := some a }).keeps_exit (p + 4) = true) :
    turn K (exec K (n + 1)) locals p w vm
        = exec K n (.loop fresh_locals) { vm with pc := some a } ∧
      (turn_nested K (exec K (n + 1)) locals p w vm).map (recontext (some q) none)
        = (turn K (exec K (n + 1)) locals p w vm).map (recontext (some q) none) ∧
      (turn_nested K (exec K (n + 1)) locals p w vm).ended = true := by
  have hn := never_stops_of_no_host _ hq
  obtain ⟨hu, hf⟩ := ended_ne _ hB
  have hfresh : locals_le fresh_locals locals := by
    intro i v h
    cases h
  have hT : turn K (exec K (n + 1)) locals p w vm
      = exec K n (.loop fresh_locals) { vm with pc := some a } := by
    refine (turn_tail_call K _ locals p a w vm hn hw ha hx hd).trans ?_
    have h1 := exec_local_mono K n fresh_locals locals { vm with pc := some a } hfresh hu
    have h2 := exec_succ K n (.loop locals) { vm with pc := some a } (by rw [h1]; exact hf)
    rw [h2, h1]
  have hN : turn_nested K (exec K (n + 1)) locals p w vm
      = ((exec K n (.loop fresh_locals) { vm with pc := some a }).map
          (recontext (some vm.pc) (some vm.handler_stack))).bind (exec K (n + 1) (.loop locals)) := by
    unfold turn_nested
    rw [tracer_reads_inside vm w hw.2.1, tracer_stops_false vm w hn]
    have h2 : ¬ w = EXIT := by
      simp only [LAST_SPECIAL_PRIM, DO_WILL, EXIT] at *
      omega
    have h3 : ¬ unsigned_sub w LOCAL0 < max_locals := by
      simp only [LAST_SPECIAL_PRIM, DO_WILL, unsigned_sub, LOCAL0, max_locals] at *
      omega
    have h4 : ¬ unsigned_sub w GRAB1 < max_locals := by
      simp only [LAST_SPECIAL_PRIM, DO_WILL, unsigned_sub, GRAB1, max_locals] at *
      omega
    have h5 : ¬ w = WILL := by
      simp only [LAST_SPECIAL_PRIM, DO_WILL, WILL] at *
      omega
    simp only [Bool.false_eq_true, if_false, h2, h3, h4, h5, hw.2.1, if_true, ha]
    have hc : exec K (n + 1) (.call (some .do_sequence) (vm.words w)) vm
        = (exec K n (.loop fresh_locals) { vm with pc := some a }).map
            (recontext (some vm.pc) (some vm.handler_stack)) := by
      show do_sequence_frame K (exec K n (.loop fresh_locals)) (vm.words w) vm = _
      rw [do_sequence_frame_eq K _ _ vm a hd]
      have e := exec_commutes K n none (some (vm.handler_stack + 1)) (.loop fresh_locals)
        { vm with pc := some a } (Or.inl rfl)
      have e1 : recontext (some (some a)) (some (vm.handler_stack + 1)) vm
          = recontext none (some (vm.handler_stack + 1)) { vm with pc := some a } := rfl
      rw [e1, e]
      cases exec K n (.loop fresh_locals) { vm with pc := some a } <;> rfl
    rw [hc]
  have hh : exec K n (.loop fresh_locals) { vm with pc := some a }
      = (exec K n (.loop fresh_locals) { vm with pc := some a }).map
          (recontext none (some vm.handler_stack)) :=
    exec_commutes K n none (some vm.handler_stack) (.loop fresh_locals)
      { vm with pc := some a } (Or.inl rfl)
  rw [hT, hN]
  refine ⟨rfl, ?_⟩
  cases ht : exec K n (.loop fresh_locals) { vm with pc := some a } with
  | undefined => exact absurd ht hu
  | out_of_fuel => exact absurd ht hf
  | raised m v =>
    rw [ht] at hh
    simp only [Result.map, Result.raised.injEq, true_and] at hh
    have hv : v.handler_stack = vm.handler_stack := by
      rw [hh]
      rfl
    refine ⟨?_, rfl⟩
    simp only [Result.map, Result.bind, Result.raised.injEq, true_and]
    simp only [recontext, Option.getD_some, Option.getD_none, hv]
  | ok v =>
    rw [ht] at hh hkeep
    simp only [Result.map, Result.ok.injEq] at hh
    have hv : v.handler_stack = vm.handler_stack := by
      rw [hh]
      rfl
    simp only [Result.keeps_exit, Bool.and_eq_true, decide_eq_true_eq] at hkeep
    obtain ⟨k1, k2⟩ := hkeep
    have hwv : v.where_ = vm.where_ := by
      have h := exec_where K n (.loop fresh_locals) { vm with pc := some a }
      rw [ht] at h
      exact h
    have hx0 : EXIT < v.where_ := by
      rw [hwv]
      exact Nat.lt_of_le_of_lt (Nat.zero_le _) hw.2.1
    have hloop : exec K (n + 1) (.loop locals)
        (recontext (some vm.pc) (some vm.handler_stack) v)
        = .ok { v with pc := some (p + 4 + 4) } := by
      show step K (exec K n) (.loop locals) _ = _
      have e1 : (recontext (some vm.pc) (some vm.handler_stack) v).pc = some (p + 4) := hpc
      have e2 : to_unsigned (read_cell (recontext (some vm.pc) (some vm.handler_stack) v).data
          (p + 4)) = EXIT := by
        show to_unsigned (read_cell v.data (p + 4)) = EXIT
        rw [k1]
        rfl
      simp only [step, e1, e2]
      unfold turn
      rw [tracer_reads_inside _ EXIT (by exact hx0),
        tracer_stops_false _ _ (never_stops_of_no_host _ (by exact k2))]
      simp only [Bool.false_eq_true, if_false, if_true, recontext, Option.getD_some, hv]
    simp only [Result.map, Result.bind, hloop]
    exact ⟨rfl, rfl⟩

set_option maxRecDepth 100000 in
theorem tail_call_transparent_witness :
    no_host_tracer squaring_vm.tracer = true ∧
      (LAST_SPECIAL_PRIM < 62 ∧ 62 < squaring_vm.where_ ∧ 62 < 4294967296) ∧
      (squaring_vm.words 62).action = some .do_sequence ∧
      read_cell squaring_vm.data (20 + 4) = EXIT ∧
      data_cell small_config (squaring_vm.words 62).datum = some 0 ∧
      squaring_vm.pc = some (20 + 4) ∧
      (exec small_config 8 (.loop fresh_locals) { squaring_vm with pc := some 0 }).ended = true ∧
      (exec small_config 8 (.loop fresh_locals) { squaring_vm with pc := some 0 }).keeps_exit
          (20 + 4) = true ∧
      (turn_nested small_config (exec small_config (8 + 1)) fresh_locals 20 62 squaring_vm).map
          (recontext (some none) none)
        = (turn small_config (exec small_config (8 + 1)) fresh_locals 20 62 squaring_vm).map
            (recontext (some none) none) ∧
      stack_list
          ((turn small_config (exec small_config (8 + 1)) fresh_locals 20 62 squaring_vm).state
            zero_block) = [49] :=
  have h1 : no_host_tracer squaring_vm.tracer = true := by decide!
  have h2 : LAST_SPECIAL_PRIM < 62 ∧ 62 < squaring_vm.where_ ∧ 62 < 4294967296 := by decide!
  have h3 : (squaring_vm.words 62).action = some .do_sequence := by decide!
  have h4 : read_cell squaring_vm.data (20 + 4) = EXIT := by decide!
  have h5 : data_cell small_config (squaring_vm.words 62).datum = some 0 := by decide!
  have h6 : squaring_vm.pc = some (20 + 4) := by decide!
  have h7 : (exec small_config 8 (.loop fresh_locals) { squaring_vm with pc := some 0 }).ended
      = true := by decide!
  have h8 : (exec small_config 8 (.loop fresh_locals)
      { squaring_vm with pc := some 0 }).keeps_exit (20 + 4) = true := by decide!
  ⟨h1, h2, h3, h4, h5, h6, h7, h8,
    (tail_call_transparent small_config 8 fresh_locals 20 0 62 squaring_vm none h1 h2 h3 h4 h5 h6
      h7 h8).2.1, by decide!⟩

set_option maxRecDepth 100000 in
theorem tail_call_after_rewritten_exit :
    (rewriting_vm.words 62).action = some .do_sequence ∧
      read_cell rewriting_vm.data 28 = EXIT ∧
      cells_from rewriting_vm.data 0 6 = [LITERAL, 51, LITERAL, 28, 37, EXIT] ∧
      (turn small_config (exec small_config 10) fresh_locals 24 62 rewriting_vm).returns = true ∧
      stack_list
          ((turn small_config (exec small_config 10) fresh_locals 24 62 rewriting_vm).state
            zero_block) = [] ∧
      (turn_nested small_config (exec small_config 10) fresh_locals 24 62
          rewriting_vm).returns = true ∧
      stack_list
          ((turn_nested small_config (exec small_config 10) fresh_locals 24 62
            rewriting_vm).state zero_block) = [1] :=
  ⟨by decide!, by decide!, by decide!, by decide!, by decide!, by decide!, by decide!⟩

end Tusl
